import Mathlib

/-!
# KvEngine: a verification development

A shallow embedding of the transactional core of KvEngine
(`src/src/kvengine/*.cpp`): the in-memory store, the write-ahead log,
the lock manager, the transaction manager and the recovery manager,
followed by theorems about them.

Conventions of the embedding:

* `std::string` is a list of bytes, a byte is a `Fin 256`;
  `uint32_t` / `uint64_t` are `Fin (2^32)` / `Fin (2^64)`.
* `std::map<K, V>` is a strictly key-sorted association list (`OrdMap`).
* `std::set<uint64_t>` is a list used through membership only.
* A call that cannot return (re-locking a held `std::mutex`, reading past
  the end of a buffer) yields an explicit `Fault`.
-/

namespace KvEngine

/-! ## Machine types -/

abbrev Byte := Fin 256
abbrev Bytes := List Byte
abbrev U32 := Fin (2 ^ 32)
abbrev U64 := Fin (2 ^ 64)
/-- A key is a `std::string`, ordered as `std::string::compare` orders it. -/
abbrev Key := Bytes
abbrev Value := Bytes

/-! ## `std::map` as a strictly sorted association list -/

section OrdMapDefs

variable {K V : Type} [LinearOrder K]

/-- Search of a key (`std::map::find`). -/
def lookupEntry (k : K) : List (K × V) → Option V
  | [] => none
  | (k', v) :: t => if k = k' then some v else lookupEntry k t

/-- Insertion or overwrite at a key (`m[k] = v`). -/
def insertEntry (k : K) (v : V) : List (K × V) → List (K × V)
  | [] => [(k, v)]
  | (k', v') :: t =>
    if k < k' then (k, v) :: (k', v') :: t
    else if k = k' then (k, v) :: t
    else (k', v') :: insertEntry k v t

/-- Removal of a key (`std::map::erase(key)`). -/
def eraseEntry (k : K) : List (K × V) → List (K × V)
  | [] => []
  | (k', v') :: t => if k = k' then t else (k', v') :: eraseEntry k t

/-- Keys strictly ascending. -/
def KeysSorted (l : List (K × V)) : Prop :=
  l.Pairwise (fun a b => a.1 < b.1)

instance (l : List (K × V)) : Decidable (KeysSorted l) := by
  unfold KeysSorted; infer_instance

theorem lookupEntry_eq_none_of_lt (k : K) (l : List (K × V))
    (h : ∀ e ∈ l, k < e.1) : lookupEntry k l = none := by
  induction l with
  | nil => rfl
  | cons e t ih =>
    obtain ⟨k', v'⟩ := e
    have h1 : k < k' := h (k', v') (List.mem_cons_self _ _)
    have h2 : ∀ e ∈ t, k < e.1 := fun e he => h e (List.mem_cons_of_mem _ he)
    simp [lookupEntry, ne_of_lt h1, ih h2]

theorem mem_insertEntry (k : K) (v : V) (l : List (K × V)) (e : K × V)
    (he : e ∈ insertEntry k v l) : e = (k, v) ∨ e ∈ l := by
  induction l with
  | nil => left; simpa [insertEntry] using he
  | cons e' t ih =>
    obtain ⟨k', v'⟩ := e'
    unfold insertEntry at he
    split_ifs at he with h1 h2
    · rcases List.mem_cons.1 he with h | h
      · exact Or.inl h
      · exact Or.inr h
    · rcases List.mem_cons.1 he with h | h
      · exact Or.inl h
      · exact Or.inr (List.mem_cons_of_mem _ h)
    · rcases List.mem_cons.1 he with h | h
      · exact Or.inr (h ▸ List.mem_cons_self _ _)
      · rcases ih h with h | h
        · exact Or.inl h
        · exact Or.inr (List.mem_cons_of_mem _ h)

theorem mem_eraseEntry (k : K) (l : List (K × V)) (e : K × V)
    (he : e ∈ eraseEntry k l) : e ∈ l := by
  induction l with
  | nil => simp [eraseEntry] at he
  | cons e' t ih =>
    obtain ⟨k', v'⟩ := e'
    unfold eraseEntry at he
    split_ifs at he with h1
    · exact List.mem_cons_of_mem _ he
    · rcases List.mem_cons.1 he with h | h
      · exact h ▸ List.mem_cons_self _ _
      · exact List.mem_cons_of_mem _ (ih h)

theorem keysSorted_insertEntry (k : K) (v : V) (l : List (K × V))
    (hl : KeysSorted l) : KeysSorted (insertEntry k v l) := by
  induction l with
  | nil => simp [insertEntry, KeysSorted]
  | cons e' t ih =>
    obtain ⟨k', v'⟩ := e'
    have hl' := List.pairwise_cons.1 hl
    unfold insertEntry
    split_ifs with h1 h2
    · refine List.pairwise_cons.2 ⟨?_, hl⟩
      intro e he
      rcases List.mem_cons.1 he with h | h
      · subst h; exact h1
      · exact lt_trans h1 (hl'.1 e h)
    · subst h2
      exact List.pairwise_cons.2 ⟨hl'.1, hl'.2⟩
    · refine List.pairwise_cons.2 ⟨?_, ih hl'.2⟩
      intro e he
      rcases mem_insertEntry k v t e he with h | h
      · subst h
        exact lt_of_le_of_ne (not_lt.1 h1) (fun h => h2 h.symm)
      · exact hl'.1 e h

theorem keysSorted_eraseEntry (k : K) (l : List (K × V))
    (hl : KeysSorted l) : KeysSorted (eraseEntry k l) := by
  induction l with
  | nil => simp [eraseEntry, KeysSorted]
  | cons e' t ih =>
    obtain ⟨k', v'⟩ := e'
    have hl' := List.pairwise_cons.1 hl
    unfold eraseEntry
    split_ifs with h1
    · exact hl'.2
    · exact List.pairwise_cons.2
        ⟨fun e he => hl'.1 e (mem_eraseEntry k t e he), ih hl'.2⟩

theorem lookupEntry_insertEntry (k : K) (v : V) (l : List (K × V)) (j : K) :
    lookupEntry j (insertEntry k v l) = if j = k then some v else lookupEntry j l := by
  induction l with
  | nil => simp [insertEntry, lookupEntry]
  | cons e' t ih =>
    obtain ⟨k', v'⟩ := e'
    unfold insertEntry
    split_ifs with h1 h2 h3 h4 h5
    all_goals (subst_vars; simp_all [lookupEntry])

theorem lookupEntry_eraseEntry (k : K) (l : List (K × V)) (hl : KeysSorted l) (j : K) :
    lookupEntry j (eraseEntry k l) = if j = k then none else lookupEntry j l := by
  induction l with
  | nil => simp [eraseEntry, lookupEntry]
  | cons e' t ih =>
    obtain ⟨k', v'⟩ := e'
    have hl' := List.pairwise_cons.1 hl
    unfold eraseEntry
    by_cases h1 : k = k'
    · subst h1
      by_cases h2 : j = k
      · subst h2
        simp [lookupEntry_eq_none_of_lt j t hl'.1]
      · simp [lookupEntry, h2]
    · by_cases h2 : j = k
      · subst h2
        simp [lookupEntry, h1, ih hl'.2]
      · simp [lookupEntry, h1, h2, ih hl'.2]

theorem keysSorted_ext (a b : List (K × V)) (ha : KeysSorted a) (hb : KeysSorted b)
    (h : ∀ k, lookupEntry k a = lookupEntry k b) : a = b := by
  induction a generalizing b with
  | nil =>
    cases b with
    | nil => rfl
    | cons e t =>
      obtain ⟨k, v⟩ := e
      have := h k
      simp [lookupEntry] at this
  | cons e t ih =>
    obtain ⟨k, v⟩ := e
    cases b with
    | nil =>
      have := h k
      simp [lookupEntry] at this
    | cons e' t' =>
      obtain ⟨k', v'⟩ := e'
      have ha' := List.pairwise_cons.1 ha
      have hb' := List.pairwise_cons.1 hb
      have hk : k = k' := by
        rcases lt_trichotomy k k' with hlt | heq | hgt
        · have h1 := h k
          have h2 : lookupEntry k ((k', v') :: t') = none :=
            lookupEntry_eq_none_of_lt k _ (by
              intro e he
              rcases List.mem_cons.1 he with h | h
              · subst h; exact hlt
              · exact lt_trans hlt (hb'.1 e h))
          rw [h2] at h1
          simp [lookupEntry] at h1
        · exact heq
        · have h1 := h k'
          have h2 : lookupEntry k' ((k, v) :: t) = none :=
            lookupEntry_eq_none_of_lt k' _ (by
              intro e he
              rcases List.mem_cons.1 he with h | h
              · subst h; exact hgt
              · exact lt_trans hgt (ha'.1 e h))
          rw [h2] at h1
          simp [lookupEntry] at h1
      subst hk
      have hv : v = v' := by
        have := h k
        simpa [lookupEntry] using this
      subst hv
      have ht : t = t' := by
        apply ih t' ha'.2 hb'.2
        intro j
        by_cases hj : j = k
        · subst hj
          rw [lookupEntry_eq_none_of_lt j t ha'.1, lookupEntry_eq_none_of_lt j t' hb'.1]
        · have := h j
          simpa [lookupEntry, hj] using this
      rw [ht]

end OrdMapDefs

/-- A `std::map<K, V>`: the entries in ascending key order, without duplicate keys. -/
structure OrdMap (K V : Type) [LinearOrder K] where
  entries : List (K × V)
  sorted : KeysSorted entries

namespace OrdMap

variable {K V : Type} [LinearOrder K]

theorem eq_of_entries_eq : ∀ {a b : OrdMap K V}, a.entries = b.entries → a = b
  | ⟨_, _⟩, ⟨_, _⟩, rfl => rfl

instance [DecidableEq V] : DecidableEq (OrdMap K V) := fun a b =>
  if h : a.entries = b.entries then isTrue (eq_of_entries_eq h)
  else isFalse (fun hab => h (hab ▸ rfl))

def empty : OrdMap K V := ⟨[], List.Pairwise.nil⟩

def find? (m : OrdMap K V) (k : K) : Option V := lookupEntry k m.entries

def contains (m : OrdMap K V) (k : K) : Bool := (m.find? k).isSome

def insert (m : OrdMap K V) (k : K) (v : V) : OrdMap K V :=
  ⟨insertEntry k v m.entries, keysSorted_insertEntry k v m.entries m.sorted⟩

def erase (m : OrdMap K V) (k : K) : OrdMap K V :=
  ⟨eraseEntry k m.entries, keysSorted_eraseEntry k m.entries m.sorted⟩

def size (m : OrdMap K V) : Nat := m.entries.length

@[simp] theorem find?_empty (k : K) : (empty : OrdMap K V).find? k = none := rfl

@[simp] theorem find?_insert (m : OrdMap K V) (k : K) (v : V) (j : K) :
    (m.insert k v).find? j = if j = k then some v else m.find? j :=
  lookupEntry_insertEntry k v m.entries j

@[simp] theorem find?_erase (m : OrdMap K V) (k : K) (j : K) :
    (m.erase k).find? j = if j = k then none else m.find? j :=
  lookupEntry_eraseEntry k m.entries m.sorted j

theorem ext_find {a b : OrdMap K V} (h : ∀ k, a.find? k = b.find? k) : a = b :=
  eq_of_entries_eq (keysSorted_ext a.entries b.entries a.sorted b.sorted h)

end OrdMap

/-! ## The in-memory store (`storage_engine.cpp`) -/

/-- The state of `StorageEngine`: its `data_` map. -/
structure StorageEngine where
  data_ : OrdMap Key Value

namespace StorageEngine

theorem eq_of_data_eq : ∀ {a b : StorageEngine}, a.data_ = b.data_ → a = b
  | ⟨_⟩, ⟨_⟩, rfl => rfl

instance : DecidableEq StorageEngine := fun a b =>
  if h : a.data_ = b.data_ then isTrue (eq_of_data_eq h)
  else isFalse (fun hab => h (hab ▸ rfl))

/-- A store holding nothing (a fresh `StorageEngine` whose data file is missing). -/
def fresh : StorageEngine := ⟨OrdMap.empty⟩

/-- `StorageEngine::put`: `data_[key] = value; return true`. -/
def put (s : StorageEngine) (key : Key) (value : Value) : Bool × StorageEngine :=
  (true, ⟨s.data_.insert key value⟩)

/-- `StorageEngine::get`: the value found, `none` for the `false` return. -/
def get (s : StorageEngine) (key : Key) : Option Value :=
  s.data_.find? key

/-- `StorageEngine::remove`: `return data_.erase(key) > 0`. -/
def remove (s : StorageEngine) (key : Key) : Bool × StorageEngine :=
  (s.data_.contains key, ⟨s.data_.erase key⟩)

/-- `StorageEngine::exists`. -/
def exists_ (s : StorageEngine) (key : Key) : Bool :=
  s.data_.contains key

/-- `StorageEngine::size`. -/
def size (s : StorageEngine) : Nat := s.data_.size

@[simp] theorem get_fresh (k : Key) : fresh.get k = none := rfl

@[simp] theorem get_put (s : StorageEngine) (key : Key) (value : Value) (j : Key) :
    (s.put key value).2.get j = if j = key then some value else s.get j := by
  simp [put, get]

@[simp] theorem get_remove (s : StorageEngine) (key : Key) (j : Key) :
    (s.remove key).2.get j = if j = key then none else s.get j := by
  simp [remove, get]

theorem ext_get {a b : StorageEngine} (h : ∀ k, a.get k = b.get k) : a = b :=
  eq_of_data_eq (OrdMap.ext_find h)

end StorageEngine

/-! ## Log records (`wal.h`) -/

/-- `enum class LogRecordType : uint8_t`; any byte can be stored in the field. -/
abbrev LogRecordType := Byte

namespace LogRecordType
def PUT : LogRecordType := 1
def DELETE : LogRecordType := 2
def BEGIN : LogRecordType := 3
def COMMIT : LogRecordType := 4
def ROLLBACK : LogRecordType := 5
def CHECKPOINT : LogRecordType := 6
end LogRecordType

/-- `struct LogRecord`. -/
structure LogRecord where
  type : LogRecordType
  txn_id : U64
  lsn : U64
  key : Bytes
  value : Bytes
  checksum : U32
deriving DecidableEq

/-- The constructor `LogRecord(t, tid, k, v)`: `lsn` and `checksum` start at 0. -/
def LogRecord.new (t : LogRecordType) (tid : U64) (k : Bytes) (v : Bytes) : LogRecord :=
  { type := t, txn_id := tid, lsn := 0, key := k, value := v, checksum := 0 }

/-! ## The recovery manager (`recovery_manager.cpp`) -/

/-- A `std::set<uint64_t>`, used through `insert`, `erase`, `count` and `empty` only. -/
abbrev TxnSet := List U64

namespace TxnSet
def insert (s : TxnSet) (x : U64) : TxnSet := if x ∈ s then s else x :: s
def erase (s : TxnSet) (x : U64) : TxnSet := s.filter (fun y => y ≠ x)
def count (s : TxnSet) (x : U64) : Nat := if x ∈ s then 1 else 0

@[simp] theorem mem_txn_insert (s : TxnSet) (x y : U64) : y ∈ s.insert x ↔ y = x ∨ y ∈ s := by
  unfold insert
  split_ifs with h
  · constructor
    · exact Or.inr
    · rintro (h1 | h1)
      · exact h1 ▸ h
      · exact h1
  · exact List.mem_cons

@[simp] theorem mem_txn_erase (s : TxnSet) (x y : U64) : y ∈ s.erase x ↔ y ∈ s ∧ y ≠ x := by
  simp [erase]
end TxnSet

namespace RecoveryManager

/-- The three sets built by the analysis loop of `recover`. -/
structure Analysis where
  active_txns : TxnSet
  committed_txns : TxnSet
  aborted_txns : TxnSet
deriving DecidableEq

/-- One iteration of the analysis loop (`recovery_manager.cpp` lines 35-45). -/
def analysisStep (a : Analysis) (record : LogRecord) : Analysis :=
  if record.type = LogRecordType.BEGIN then
    { a with active_txns := a.active_txns.insert record.txn_id }
  else if record.type = LogRecordType.COMMIT then
    { a with active_txns := a.active_txns.erase record.txn_id,
             committed_txns := a.committed_txns.insert record.txn_id }
  else if record.type = LogRecordType.ROLLBACK then
    { a with active_txns := a.active_txns.erase record.txn_id,
             aborted_txns := a.aborted_txns.insert record.txn_id }
  else a

/-- The analysis phase of `recover`. -/
def analysis (records : List LogRecord) : Analysis :=
  records.foldl analysisStep ⟨[], [], []⟩

/-- One iteration of the loop of `redo`. -/
def redoStep (s : StorageEngine) (record : LogRecord) : StorageEngine :=
  if record.type = LogRecordType.PUT then (s.put record.key record.value).2
  else if record.type = LogRecordType.DELETE then (s.remove record.key).2
  else s

/-- `RecoveryManager::redo`: replay every PUT and DELETE, in log order. -/
def redo (records : List LogRecord) (s : StorageEngine) : StorageEngine :=
  records.foldl redoStep s

/-- One iteration of the loop of `undo`. -/
def undoStep (loser_txns : TxnSet) (s : StorageEngine) (record : LogRecord) : StorageEngine :=
  if loser_txns.count record.txn_id ≠ 0 then
    if record.type = LogRecordType.PUT then (s.remove record.key).2
    else s
  else s

/-- `RecoveryManager::undo`: scan the log backwards, removing the key of every
PUT of a loser transaction. -/
def undo (records : List LogRecord) (loser_txns : TxnSet) (s : StorageEngine) : StorageEngine :=
  records.reverse.foldl (undoStep loser_txns) s

/-- `RecoveryManager::recover`, on the records that `wal_->read_from(0)` returned
and the store as loaded: the return value and the store afterwards. -/
def recover (records : List LogRecord) (s : StorageEngine) : Bool × StorageEngine :=
  if records.isEmpty then (true, s)
  else
    let a := analysis records
    let s1 := redo records s
    let s2 := if ¬ a.active_txns.isEmpty then undo records a.active_txns s1 else s1
    (true, s2)

end RecoveryManager

end KvEngine

/-! ## Recovery: what a key maps to afterwards -/

namespace KvEngine

open LogRecordType

namespace RecoveryManager

/-- The effect of one record on what key `k` maps to during redo. -/
def redoGetStep (k : Key) (cur : Option Value) (record : LogRecord) : Option Value :=
  if record.type = PUT then (if k = record.key then some record.value else cur)
  else if record.type = DELETE then (if k = record.key then none else cur)
  else cur

/-- The last PUT or DELETE on `k` seen so far: `none` when there is none,
`some (some v)` for a PUT of `v`, `some none` for a DELETE. -/
def lastWriteStep (k : Key) (acc : Option (Option Value)) (record : LogRecord) :
    Option (Option Value) :=
  if record.type = PUT then (if k = record.key then some (some record.value) else acc)
  else if record.type = DELETE then (if k = record.key then some none else acc)
  else acc

/-- The last PUT or DELETE record on `k` in the log. -/
def lastWrite (records : List LogRecord) (k : Key) : Option (Option Value) :=
  records.foldl (lastWriteStep k) none

/-- What `k` maps to, given the last write on it and its value before. -/
def resolve (w : Option (Option Value)) (before : Option Value) : Option Value :=
  match w with
  | none => before
  | some x => x

/-- Some PUT record on `k` belongs to a transaction of `losers`. -/
def UndoneKey (records : List LogRecord) (losers : TxnSet) (k : Key) : Prop :=
  ∃ r ∈ records, r.txn_id ∈ losers ∧ r.type = PUT ∧ r.key = k

instance (records : List LogRecord) (losers : TxnSet) (k : Key) :
    Decidable (UndoneKey records losers k) := by
  unfold UndoneKey; infer_instance

theorem get_redoStep (s : StorageEngine) (record : LogRecord) (k : Key) :
    (redoStep s record).get k = redoGetStep k (s.get k) record := by
  unfold redoStep redoGetStep
  split_ifs <;> simp_all

theorem get_foldl_redoStep (records : List LogRecord) (s : StorageEngine) (k : Key) :
    (records.foldl redoStep s).get k = records.foldl (redoGetStep k) (s.get k) := by
  induction records generalizing s with
  | nil => rfl
  | cons r t ih => simp only [List.foldl_cons, ih, get_redoStep]

theorem redoGetStep_resolve (k : Key) (acc : Option (Option Value)) (x : Option Value)
    (record : LogRecord) :
    redoGetStep k (resolve acc x) record = resolve (lastWriteStep k acc record) x := by
  unfold redoGetStep lastWriteStep
  split_ifs <;> simp [resolve]

theorem foldl_redoGetStep_resolve (records : List LogRecord) (k : Key)
    (acc : Option (Option Value)) (x : Option Value) :
    records.foldl (redoGetStep k) (resolve acc x)
      = resolve (records.foldl (lastWriteStep k) acc) x := by
  induction records generalizing acc with
  | nil => rfl
  | cons r t ih => simp only [List.foldl_cons, redoGetStep_resolve, ih]

/-- After redo, a key maps to what its last PUT/DELETE record says, and to its
former value when the log has no such record. -/
theorem get_redo (records : List LogRecord) (s : StorageEngine) (k : Key) :
    (redo records s).get k = resolve (lastWrite records k) (s.get k) := by
  unfold redo lastWrite
  rw [get_foldl_redoStep]
  exact foldl_redoGetStep_resolve records k none (s.get k)

theorem get_undoStep (losers : TxnSet) (s : StorageEngine) (record : LogRecord) (k : Key) :
    (undoStep losers s record).get k =
      if record.txn_id ∈ losers ∧ record.type = PUT ∧ record.key = k then none
      else s.get k := by
  unfold undoStep TxnSet.count
  by_cases h1 : record.txn_id ∈ losers <;> by_cases h2 : record.type = PUT <;>
    by_cases h3 : record.key = k <;> simp [h1, h2, h3]
  · intro h; exact absurd h.symm h3

theorem get_foldl_undoStep (losers : TxnSet) (l : List LogRecord) (s : StorageEngine)
    (k : Key) :
    (l.foldl (undoStep losers) s).get k =
      if UndoneKey l losers k then none else s.get k := by
  induction l generalizing s with
  | nil => simp [UndoneKey]
  | cons r t ih =>
    rw [List.foldl_cons, ih, get_undoStep]
    by_cases h1 : UndoneKey t losers k
    · have : UndoneKey (r :: t) losers k := by
        obtain ⟨x, hx, hx2⟩ := h1
        exact ⟨x, List.mem_cons_of_mem _ hx, hx2⟩
      simp [h1, this]
    · by_cases h2 : r.txn_id ∈ losers ∧ r.type = PUT ∧ r.key = k
      · have : UndoneKey (r :: t) losers k := ⟨r, List.mem_cons_self _ _, h2⟩
        simp [h1, h2, this]
      · have : ¬ UndoneKey (r :: t) losers k := by
          rintro ⟨x, hx, hx2⟩
          rcases List.mem_cons.1 hx with h | h
          · exact h2 (h ▸ hx2)
          · exact h1 ⟨x, h, hx2⟩
        simp [h1, h2, this]

/-- After undo, the key of every PUT of a loser is absent; other keys are untouched. -/
theorem get_undo (records : List LogRecord) (losers : TxnSet) (s : StorageEngine) (k : Key) :
    (undo records losers s).get k =
      if UndoneKey records losers k then none else s.get k := by
  unfold undo
  rw [get_foldl_undoStep]
  have : UndoneKey records.reverse losers k ↔ UndoneKey records losers k := by
    unfold UndoneKey
    constructor
    · rintro ⟨r, hr, h⟩; exact ⟨r, List.mem_reverse.1 hr, h⟩
    · rintro ⟨r, hr, h⟩; exact ⟨r, List.mem_reverse.2 hr, h⟩
  simp only [this]

/-- What a key maps to after `recover`. -/
theorem get_recover (records : List LogRecord) (s : StorageEngine) (k : Key) :
    (recover records s).2.get k =
      if UndoneKey records (analysis records).active_txns k then none
      else resolve (lastWrite records k) (s.get k) := by
  unfold recover
  by_cases h0 : records.isEmpty = true
  · have hnil : records = [] := List.isEmpty_iff.1 h0
    subst hnil
    simp [UndoneKey, lastWrite, resolve]
  · simp only [h0, if_false, Bool.false_eq_true]
    by_cases h1 : (analysis records).active_txns.isEmpty = true
    · have hnil : (analysis records).active_txns = [] := List.isEmpty_iff.1 h1
      have : ¬ UndoneKey records (analysis records).active_txns k := by
        rintro ⟨r, _, hr, _⟩
        rw [hnil] at hr
        exact absurd hr (List.not_mem_nil _)
      simp [h1, this, get_redo]
    · simp [h1, get_undo, get_redo]

end RecoveryManager

end KvEngine

/-! ## Recovery: the losers of the analysis phase -/

namespace KvEngine

open LogRecordType

namespace RecoveryManager

/-- Transaction `t` has a BEGIN record that no COMMIT or ROLLBACK record of `t`
follows in the log. -/
def Loser (records : List LogRecord) (t : U64) : Prop :=
  ∃ pre b post, records = pre ++ b :: post ∧ b.type = BEGIN ∧ b.txn_id = t ∧
    ∀ r ∈ post, r.txn_id = t → r.type ≠ COMMIT ∧ r.type ≠ ROLLBACK

theorem analysis_append (l : List LogRecord) (r : LogRecord) :
    analysis (l ++ [r]) = analysisStep (analysis l) r := by
  simp [analysis, List.foldl_append]

theorem loser_append_singleton (l : List LogRecord) (r : LogRecord) (t : U64) :
    Loser (l ++ [r]) t ↔
      (r.type = BEGIN ∧ r.txn_id = t) ∨
      (Loser l t ∧ (r.txn_id = t → r.type ≠ COMMIT ∧ r.type ≠ ROLLBACK)) := by
  constructor
  · rintro ⟨pre, b, post, hsplit, hb, hbt, hpost⟩
    rcases List.eq_nil_or_concat post with hnil | ⟨post1, x, hx⟩
    · subst hnil
      have h := List.append_inj' hsplit rfl
      have hbr : r = b := by simpa using h.2
      subst hbr
      exact Or.inl ⟨hb, hbt⟩
    · rw [List.concat_eq_append] at hx
      subst hx
      have h : l ++ [r] = (pre ++ b :: post1) ++ [x] := by simpa using hsplit
      have h2 := List.append_inj' h rfl
      have hxr : r = x := by simpa using h2.2
      subst hxr
      refine Or.inr ⟨⟨pre, b, post1, h2.1, hb, hbt, ?_⟩, ?_⟩
      · intro y hy
        exact hpost y (List.mem_append_left _ hy)
      · exact hpost r (List.mem_append_right _ (List.mem_singleton_self _))
  · rintro (⟨hb, hbt⟩ | ⟨⟨pre, b, post, hsplit, hb, hbt, hpost⟩, hr⟩)
    · exact ⟨l, r, [], rfl, hb, hbt, by simp⟩
    · refine ⟨pre, b, post ++ [r], by simp [hsplit], hb, hbt, ?_⟩
      intro y hy
      rcases List.mem_append.1 hy with h | h
      · exact hpost y h
      · have : y = r := List.mem_singleton.1 h
        subst this
        exact hr

/-- The `active_txns` set at the end of the analysis holds exactly the losers. -/
theorem mem_active_iff_loser (records : List LogRecord) (t : U64) :
    t ∈ (analysis records).active_txns ↔ Loser records t := by
  induction records using List.reverseRecOn with
  | nil =>
    constructor
    · intro h; simp [analysis] at h
    · rintro ⟨pre, b, post, h, _⟩
      simp at h
  | append_singleton l r ih =>
    rw [analysis_append, loser_append_singleton, ← ih]
    unfold analysisStep
    have hne1 : BEGIN ≠ COMMIT := by decide
    have hne2 : BEGIN ≠ ROLLBACK := by decide
    by_cases h1 : r.type = BEGIN
    · simp only [h1, if_true, TxnSet.mem_txn_insert]
      constructor
      · rintro (h | h)
        · exact Or.inl ⟨trivial, h.symm⟩
        · exact Or.inr ⟨h, fun _ => ⟨hne1, hne2⟩⟩
      · rintro (⟨_, h⟩ | ⟨h, _⟩)
        · exact Or.inl h.symm
        · exact Or.inr h
    · by_cases h2 : r.type = COMMIT
      · have : ¬ COMMIT = BEGIN := by decide
        simp only [h2, this, if_true, if_false, TxnSet.mem_txn_erase, false_and, false_or]
        constructor
        · rintro ⟨h, hne⟩
          exact ⟨h, fun he => absurd he.symm hne⟩
        · rintro ⟨h, hne⟩
          refine ⟨h, fun he => ?_⟩
          exact (hne he.symm).1 rfl
      · by_cases h3 : r.type = ROLLBACK
        · have : ¬ ROLLBACK = BEGIN := by decide
          have h4 : ¬ ROLLBACK = COMMIT := by decide
          simp only [h3, this, h4, if_true, if_false, TxnSet.mem_txn_erase, false_and, false_or]
          constructor
          · rintro ⟨h, hne⟩
            exact ⟨h, fun he => absurd he.symm hne⟩
          · rintro ⟨h, hne⟩
            refine ⟨h, fun he => ?_⟩
            exact (hne he.symm).2 rfl
        · simp only [h1, h2, h3, if_false, false_and, false_or]
          constructor
          · intro h
            exact ⟨h, fun _ => ⟨fun h => h2 h, fun h => h3 h⟩⟩
          · exact fun h => h.1

/-- A transaction with a BEGIN record and neither COMMIT nor ROLLBACK is a loser. -/
theorem loser_of_begin_no_terminal (records : List LogRecord) (t : U64)
    (hb : ∃ b ∈ records, b.type = BEGIN ∧ b.txn_id = t)
    (hn : ∀ r ∈ records, r.txn_id = t → r.type ≠ COMMIT ∧ r.type ≠ ROLLBACK) :
    Loser records t := by
  obtain ⟨b, hmem, hb1, hb2⟩ := hb
  obtain ⟨pre, post, hsplit⟩ := List.append_of_mem hmem
  refine ⟨pre, b, post, hsplit, hb1, hb2, ?_⟩
  intro r hr
  apply hn r
  rw [hsplit]
  exact List.mem_append_right _ (List.mem_cons_of_mem _ hr)

/-- The last PUT or DELETE record on `k` is a PUT of `v`. -/
theorem lastWrite_of_last_put (pre post : List LogRecord) (p : LogRecord) (k : Key)
    (hp : p.type = PUT) (hk : p.key = k)
    (hpost : ∀ r ∈ post, (r.type = PUT ∨ r.type = DELETE) → r.key ≠ k) :
    lastWrite (pre ++ p :: post) k = some (some p.value) := by
  unfold lastWrite
  rw [List.foldl_append, List.foldl_cons]
  have h1 : lastWriteStep k (List.foldl (lastWriteStep k) none pre) p = some (some p.value) := by
    simp [lastWriteStep, hp, hk]
  rw [h1]
  clear h1
  induction post with
  | nil => rfl
  | cons r t ih =>
    rw [List.foldl_cons]
    have hr : lastWriteStep k (some (some p.value)) r = some (some p.value) := by
      unfold lastWriteStep
      have := hpost r (List.mem_cons_self _ _)
      split_ifs with h1 h2 h3 h4
      · exact absurd h2.symm (this (Or.inl h1))
      · rfl
      · exact absurd h4.symm (this (Or.inr h3))
      · rfl
      · rfl
    rw [hr]
    exact ih (fun r hr => hpost r (List.mem_cons_of_mem _ hr))

end RecoveryManager

end KvEngine

/-! ## The write-ahead log (`wal.cpp`) -/

namespace KvEngine

/-- The table `CRC32_TABLE[256]` of `wal.cpp`, entry by entry. -/
def CRC32_TABLE : List Nat :=
  [0x00000000, 0x77073096, 0xee0e612c, 0x990951ba, 0x076dc419, 0x706af48f,
   0xe963a535, 0x9e6495a3, 0x0edb8832, 0x79dcb8a4, 0xe0d5e91e, 0x97d2d988,
   0x09b64c2b, 0x7eb17cbd, 0xe7b82d07, 0x90bf1d91, 0x1db71064, 0x6ab020f2,
   0xf3b97148, 0x84be41de, 0x1adad47d, 0x6ddde4eb, 0xf4d4b551, 0x83d385c7,
   0x136c9856, 0x646ba8c0, 0xfd62f97a, 0x8a65c9ec, 0x14015c4f, 0x63066cd9,
   0xfa0f3d63, 0x8d080df5, 0x3b6e20c8, 0x4c69105e, 0xd56041e4, 0xa2677172,
   0x3c03e4d1, 0x4b04d447, 0xd20d85fd, 0xa50ab56b, 0x35b5a8fa, 0x42b2986c,
   0xdbbbc9d6, 0xacbcf940, 0x32d86ce3, 0x45df5c75, 0xdcd60dcf, 0xabd13d59,
   0x26d930ac, 0x51de003a, 0xc8d75180, 0xbfd06116, 0x21b4f4b5, 0x56b3c423,
   0xcfba9599, 0xb8bda50f, 0x2802b89e, 0x5f058808, 0xc60cd9b2, 0xb10be924,
   0x2f6f7c87, 0x58684c11, 0xc1611dab, 0xb6662d3d, 0x76dc4190, 0x01db7106,
   0x98d220bc, 0xefd5102a, 0x71b18589, 0x06b6b51f, 0x9fbfe4a5, 0xe8b8d433,
   0x7807c9a2, 0x0f00f934, 0x9609a88e, 0xe10e9818, 0x7f6a0dbb, 0x086d3d2d,
   0x91646c97, 0xe6635c01, 0x6b6b51f4, 0x1c6c6162, 0x856530d8, 0xf262004e,
   0x6c0695ed, 0x1b01a57b, 0x8208f4c1, 0xf50fc457, 0x65b0d9c6, 0x12b7e950,
   0x8bbeb8ea, 0xfcb9887c, 0x62dd1ddf, 0x15da2d49, 0x8cd37cf3, 0xfbd44c65,
   0x4db26158, 0x3ab551ce, 0xa3bc0074, 0xd4bb30e2, 0x4adfa541, 0x3dd895d7,
   0xa4d1c46d, 0xd3d6f4fb, 0x4369e96a, 0x346ed9fc, 0xad678846, 0xda60b8d0,
   0x44042d73, 0x33031de5, 0xaa0a4c5f, 0xdd0d7cc9, 0x5005713c, 0x270241aa,
   0xbe0b1010, 0xc90c2086, 0x5768b525, 0x206f85b3, 0xb966d409, 0xce61e49f,
   0x5edef90e, 0x29d9c998, 0xb0d09822, 0xc7d7a8b4, 0x59b33d17, 0x2eb40d81,
   0xb7bd5c3b, 0xc0ba6cad, 0xedb88320, 0x9abfb3b6, 0x03b6e20c, 0x74b1d29a,
   0xead54739, 0x9dd277af, 0x04db2615, 0x73dc1683, 0xe3630b12, 0x94643b84,
   0x0d6d6a3e, 0x7a6a5aa8, 0xe40ecf0b, 0x9309ff9d, 0x0a00ae27, 0x7d079eb1,
   0xf00f9344, 0x8708a3d2, 0x1e01f268, 0x6906c2fe, 0xf762575d, 0x806567cb,
   0x196c3671, 0x6e6b06e7, 0xfed41b76, 0x89d32be0, 0x10da7a5a, 0x67dd4acc,
   0xf9b9df6f, 0x8ebeeff9, 0x17b7be43, 0x60b08ed5, 0xd6d6a3e8, 0xa1d1937e,
   0x38d8c2c4, 0x4fdff252, 0xd1bb67f1, 0xa6bc5767, 0x3fb506dd, 0x48b2364b,
   0xd80d2bda, 0xaf0a1b4c, 0x36034af6, 0x41047a60, 0xdf60efc3, 0xa867df55,
   0x316e8eef, 0x4669be79, 0xcb61b38c, 0xbc66831a, 0x256fd2a0, 0x5268e236,
   0xcc0c7795, 0xbb0b4703, 0x220216b9, 0x5505262f, 0xc5ba3bbe, 0xb2bd0b28,
   0x2bb45a92, 0x5cb36a04, 0xc2d7ffa7, 0xb5d0cf31, 0x2cd99e8b, 0x5bdeae1d,
   0x9b64c2b0, 0xec63f226, 0x756aa39c, 0x026d930a, 0x9c0906a9, 0xeb0e363f,
   0x72076785, 0x05005713, 0x95bf4a82, 0xe2b87a14, 0x7bb12bae, 0x0cb61b38,
   0x92d28e9b, 0xe5d5be0d, 0x7cdcefb7, 0x0bdbdf21, 0x86d3d2d4, 0xf1d4e242,
   0x68ddb3f8, 0x1fda836e, 0x81be16cd, 0xf6b9265b, 0x6fb077e1, 0x18b74777,
   0x88085ae6, 0xff0f6a70, 0x66063bca, 0x11010b5c, 0x8f659eff, 0xf862ae69,
   0x616bffd3, 0x166ccf45, 0xa00ae278, 0xd70dd2ee, 0x4e048354, 0x3903b3c2,
   0xa7672661, 0xd06016f7, 0x4969474d, 0x3e6e77db, 0xaed16a4a, 0xd9d65adc,
   0x40df0b66, 0x37d83bf0, 0xa9bcae53, 0xdebb9ec5, 0x47b2cf7f, 0x30b5ffe9,
   0xbdbdf21c, 0xcabac28a, 0x53b39330, 0x24b4a3a6, 0xbad03605, 0xcdd70693,
   0x54de5729, 0x23d967bf, 0xb3667a2e, 0xc4614ab8, 0x5d681b02, 0x2a6f2b94,
   0xb40bbe37, 0xc30c8ea1, 0x5a05df1b, 0x2d02ef8d]

/-- The function `crc32(data, length)`: the table-driven loop of `wal.cpp`, in `uint32_t`. -/
def crc32 (data : Bytes) : U32 :=
  let crc := data.foldl
    (fun crc b => (CRC32_TABLE.getD ((crc ^^^ b.val) &&& 0xFF) 0 ^^^ (crc >>> 8)) % 2 ^ 32)
    0xFFFFFFFF
  Fin.ofNat (crc ^^^ 0xFFFFFFFF)

/-- The byte `v & 0xFF` pushed by `data.push_back`. -/
def lowByte (v : Nat) : Byte := Fin.ofNat (v &&& 0xFF)

/-- The loop `for (i = 0; i < n; ++i) data.push_back((x >> (i * 8)) & 0xFF)`. -/
def pushLE (n : Nat) (x : Nat) : Bytes :=
  (List.range n).map (fun i => lowByte (x >>> (i * 8)))

/-- The loop `for (i = 0; i < n; ++i) x |= (data[offset++] << (i * 8))` over the
bytes it reads. -/
def readLE (bs : Bytes) : Nat :=
  (List.range bs.length).foldl (fun x i => x ||| ((bs.getD i 0).val <<< (i * 8))) 0

/-- `WAL::calculate_checksum`: CRC of type, txn_id, lsn, key and value. -/
def calculate_checksum (record : LogRecord) : U32 :=
  crc32 ([record.type] ++ pushLE 8 record.txn_id.val ++ pushLE 8 record.lsn.val
    ++ record.key ++ record.value)

/-- `WAL::serialize_record`. The length fields are `static_cast<uint32_t>(size())`. -/
def serialize_record (record : LogRecord) : Bytes :=
  [record.type]
    ++ pushLE 8 record.txn_id.val
    ++ pushLE 8 record.lsn.val
    ++ pushLE 4 (record.key.length % 2 ^ 32)
    ++ record.key
    ++ pushLE 4 (record.value.length % 2 ^ 32)
    ++ record.value
    ++ pushLE 4 record.checksum.val

/-- What a call can end in instead of returning. -/
inductive Fault where
  /-- A `std::runtime_error` was thrown. -/
  | exception
  /-- A read past the end of a buffer (undefined behaviour). -/
  | out_of_bounds
  /-- A `std::mutex` locked again by the thread that holds it: the call never returns. -/
  | deadlock
  /-- The call waits on a condition variable for another thread. -/
  | blocked
deriving DecidableEq

instance {ε α : Type} [DecidableEq ε] [DecidableEq α] : DecidableEq (Except ε α)
  | .ok a, .ok b =>
    if h : a = b then isTrue (h ▸ rfl) else isFalse (fun hab => h (Except.ok.inj hab))
  | .error a, .error b =>
    if h : a = b then isTrue (h ▸ rfl) else isFalse (fun hab => h (Except.error.inj hab))
  | .ok _, .error _ => isFalse (fun h => Except.noConfusion h)
  | .error _, .ok _ => isFalse (fun h => Except.noConfusion h)

/-- The `n` bytes at `offset`, as the unchecked reads `data[offset++]` and
`data.begin() + offset + n` find them; reading past the end is a fault. -/
def readBytes (data : Bytes) (offset n : Nat) : Except Fault Bytes :=
  if offset + n ≤ data.length then .ok ((data.drop offset).take n)
  else .error Fault.out_of_bounds

/-- `WAL::deserialize_record`: the record at `offset` and the offset after it. -/
def deserialize_record (data : Bytes) (offset : Nat) : Except Fault (LogRecord × Nat) :=
  if offset ≥ data.length then .error Fault.exception
  else do
    let ty ← readBytes data offset 1
    let offset := offset + 1
    let txn ← readBytes data offset 8
    let offset := offset + 8
    let lsn ← readBytes data offset 8
    let offset := offset + 8
    let klen ← readBytes data offset 4
    let offset := offset + 4
    let key_len := readLE klen
    let key ← readBytes data offset key_len
    let offset := offset + key_len
    let vlen ← readBytes data offset 4
    let offset := offset + 4
    let value_len := readLE vlen
    let value ← readBytes data offset value_len
    let offset := offset + value_len
    let ck ← readBytes data offset 4
    let offset := offset + 4
    pure ({ type := ty.getD 0 0, txn_id := Fin.ofNat (readLE txn), lsn := Fin.ofNat (readLE lsn),
            key := key, value := value, checksum := Fin.ofNat (readLE ck) }, offset)

/-- The `while (offset < data.size())` loop of `read_all_internal`. Every round
consumes at least one byte, so `data.length` rounds of fuel are never used up. -/
def read_loop (data : Bytes) : Nat → Nat → Except Fault (List LogRecord)
  | 0, _ => .ok []
  | fuel + 1, offset =>
    if offset < data.length then
      match deserialize_record data offset with
      | .error Fault.exception => .ok []
      | .error f => .error f
      | .ok (record, offset1) =>
        if record.checksum ≠ calculate_checksum record then .ok []
        else
          match read_loop data fuel offset1 with
          | .error f => .error f
          | .ok records => .ok (record :: records)
    else .ok []

/-- `static const size_t BUFFER_SIZE = 100`. -/
def BUFFER_SIZE : Nat := 100

/-- The state of a `WAL` object together with its log file. -/
structure WAL where
  /-- The bytes of `wal.log` as `log_stream_` sees them. -/
  file : Bytes
  /-- How many bytes of `file` have been passed on by `log_stream_.flush()`. -/
  flushed : Nat
  current_lsn_ : U64
  is_open_ : Bool
  buffer_ : List LogRecord
  /-- Whether `mutex_` is held. -/
  mutex_held : Bool
deriving DecidableEq

namespace WAL

/-- The constructor `WAL(log_dir)`. -/
def new : WAL :=
  { file := [], flushed := 0, current_lsn_ := 0, is_open_ := false, buffer_ := [],
    mutex_held := false }

/-- `std::lock_guard<std::mutex> lock(mutex_)`: blocks for ever when `mutex_` is held. -/
def lock (w : WAL) : Except Fault WAL :=
  if w.mutex_held then .error Fault.deadlock else .ok { w with mutex_held := true }

/-- The end of the scope of a `lock_guard`. -/
def unlock (w : WAL) : WAL := { w with mutex_held := false }

/-- `WAL::read_all_internal`. -/
def read_all_internal (w : WAL) : Except Fault (List LogRecord) :=
  read_loop w.file w.file.length 0

/-- The loop of `WAL::initialize` that raises `current_lsn_` to the largest LSN read. -/
def max_lsn (cur : U64) (records : List LogRecord) : U64 :=
  records.foldl (fun c record => if record.lsn > c then record.lsn else c) cur

/-- `WAL::initialize`, given the bytes of `wal.log` in the log directory (none
when the file is created). Directory and file creation are taken to succeed. -/
def initialize_wal (w : WAL) (disk : Bytes) : Except Fault (Bool × WAL) := do
  let w ← w.lock
  let w := { w with file := disk, flushed := disk.length }
  if disk.length > 0 then
    let records ← w.read_all_internal
    let w := { w with current_lsn_ := max_lsn w.current_lsn_ records }
    pure (true, { w with is_open_ := true }.unlock)
  else
    pure (true, { w with is_open_ := true }.unlock)

/-- The two assignments of `append` to its record: `record.lsn = ++current_lsn_`
and `record.checksum = calculate_checksum(record)`, `lsn` being the new LSN. -/
def stamp (lsn : U64) (record : LogRecord) : LogRecord :=
  let record := { record with lsn := lsn }
  { record with checksum := calculate_checksum record }

/-- `WAL::flush_internal`. -/
def flush_internal (w : WAL) : WAL :=
  { w with flushed := w.file.length, buffer_ := [] }

/-- `WAL::flush`. -/
def flush (w : WAL) : Except Fault (Bool × WAL) := do
  let w ← w.lock
  if ¬ w.is_open_ then pure (false, w.unlock)
  else pure (true, w.flush_internal.unlock)

/-- `WAL::append`: the LSN returned, the record as stamped through the reference
parameter, and the log afterwards. The automatic flush calls the locking `flush()`
while `mutex_` is still held. -/
def append (w : WAL) (record : LogRecord) : Except Fault (U64 × LogRecord × WAL) := do
  let w ← w.lock
  if ¬ w.is_open_ then pure (0, record, w.unlock)
  else
    let w := { w with current_lsn_ := w.current_lsn_ + 1 }
    let record := stamp w.current_lsn_ record
    let data := serialize_record record
    let w := { w with file := w.file ++ data }
    let w := { w with buffer_ := w.buffer_ ++ [record] }
    if w.buffer_.length ≥ BUFFER_SIZE then
      let (_, w1) ← w.flush
      pure (record.lsn, record, w1.unlock)
    else
      pure (record.lsn, record, w.unlock)

/-- `WAL::get_last_lsn`. -/
def get_last_lsn (w : WAL) : U64 := w.current_lsn_

/-- `WAL::read_from`. -/
def read_from (w : WAL) (start_lsn : U64) : Except Fault (List LogRecord) := do
  let w ← w.lock
  if ¬ w.is_open_ then pure []
  else
    let all ← w.read_all_internal
    pure (all.filter (fun record => record.lsn ≥ start_lsn))

/-- `WAL::truncate`: rewrite the file with the records of LSN at least `lsn`. -/
def truncate (w : WAL) (lsn : U64) : Except Fault (Bool × WAL) := do
  let w ← w.lock
  if ¬ w.is_open_ then pure (false, w.unlock)
  else
    let all_records ← w.read_all_internal
    let kept := all_records.filter (fun record => record.lsn ≥ lsn)
    let file := (kept.map serialize_record).flatten
    pure (true, { w with file := file, flushed := file.length }.unlock)

/-- `WAL::close`. -/
def close (w : WAL) : Except Fault WAL := do
  let w ← w.lock
  if w.is_open_ then pure { w.flush_internal with is_open_ := false }.unlock
  else pure w.unlock

/-- A run of `append` calls, one per record: the LSNs returned with the records
as stamped, and the log afterwards. -/
def appendAll (w : WAL) : List LogRecord → Except Fault (List (U64 × LogRecord) × WAL)
  | [] => .ok ([], w)
  | r :: rs =>
    match w.append r with
    | .error f => .error f
    | .ok (lsn, r1, w1) =>
      match appendAll w1 rs with
      | .error f => .error f
      | .ok (out, w2) => .ok ((lsn, r1) :: out, w2)

/-- The log file a restarted process finds after the process is killed: what
had been flushed. -/
def crash_image (w : WAL) : Bytes := w.file.take w.flushed

end WAL

end KvEngine

/-! ## Framing: decoding undoes encoding -/

namespace KvEngine

theorem lowByte_val (v : Nat) : (lowByte v).val = v % 256 := by
  have h : v &&& 0xFF = v % 2 ^ 8 := Nat.and_pow_two_sub_one_eq_mod v 8
  simp only [lowByte, Fin.ofNat, h]
  norm_num

theorem pushLE_length (n x : Nat) : (pushLE n x).length = n := by
  simp [pushLE]

theorem pushLE_succ (n x : Nat) :
    pushLE (n + 1) x = pushLE n x ++ [lowByte (x >>> (n * 8))] := by
  simp [pushLE, List.range_succ]

theorem readLE_append_singleton (bs : Bytes) (b : Byte) :
    readLE (bs ++ [b]) = readLE bs ||| (b.val <<< (bs.length * 8)) := by
  unfold readLE
  rw [List.length_append, List.length_singleton, List.range_succ, List.foldl_append]
  simp only [List.foldl_cons, List.foldl_nil]
  have h1 : (bs ++ [b]).getD bs.length 0 = b := by simp [List.getD]
  rw [h1]
  congr 1
  apply List.foldl_ext
  intro a i hi
  have hi2 : i < bs.length := List.mem_range.1 hi
  have h2 : (bs ++ [b]).getD i 0 = bs.getD i 0 := by
    simp [List.getD, List.getElem?_append_left hi2]
  rw [h2]

theorem or_shift_eq_mod (x i : Nat) :
    x % 2 ^ i ||| (((x >>> i) % 256) <<< i) = x % 2 ^ (i + 8) := by
  have hlt : x % 2 ^ i < 2 ^ i := Nat.mod_lt _ (Nat.two_pow_pos i)
  rw [Nat.shiftLeft_eq, Nat.shiftRight_eq_div_pow, Nat.or_comm, Nat.mul_comm,
    ← Nat.mul_add_lt_is_or hlt, Nat.pow_add]
  have h256 : (256 : Nat) = 2 ^ 8 := by norm_num
  rw [h256, Nat.mod_mul]
  omega

/-- Reading `n` little-endian bytes back gives the value written, modulo `2^(8n)`. -/
theorem readLE_pushLE (n x : Nat) : readLE (pushLE n x) = x % 2 ^ (n * 8) := by
  induction n with
  | zero => simp [pushLE, readLE, Nat.mod_one]
  | succ n ih =>
    rw [pushLE_succ, readLE_append_singleton, ih, pushLE_length, lowByte_val]
    have : (n + 1) * 8 = n * 8 + 8 := by ring
    rw [this]
    exact or_shift_eq_mod x (n * 8)

theorem readLE_pushLE_of_lt (n x : Nat) (h : x < 2 ^ (n * 8)) : readLE (pushLE n x) = x := by
  rw [readLE_pushLE, Nat.mod_eq_of_lt h]

/-- Reading `n` bytes where the data continues with `b ++ tail`. -/
theorem readBytes_of_drop (data : Bytes) (off n : Nat) (b tail : Bytes)
    (hoff : off ≤ data.length) (h : data.drop off = b ++ tail) (hn : b.length = n) :
    readBytes data off n = .ok b ∧ data.drop (off + n) = tail ∧ off + n ≤ data.length := by
  have hlen : data.length - off = n + tail.length := by
    have := congrArg List.length h
    simpa [hn] using this
  have hle : off + n ≤ data.length := by omega
  refine ⟨?_, ?_, hle⟩
  · unfold readBytes
    rw [if_pos hle, h, ← hn]
    simp
  · rw [← List.drop_drop, h, ← hn]
    simp

end KvEngine

namespace KvEngine

theorem serialize_record_length (r : LogRecord) :
    (serialize_record r).length = 29 + r.key.length + r.value.length := by
  simp only [serialize_record, List.length_append, pushLE_length, List.length_singleton]
  omega

theorem readLE_pushLE_len (n : Nat) (h : n < 2 ^ 32) : readLE (pushLE 4 (n % 2 ^ 32)) = n := by
  rw [Nat.mod_eq_of_lt h]
  exact readLE_pushLE_of_lt 4 n (by simpa using h)

theorem ofNat_readLE_u64 (x : U64) : (Fin.ofNat (readLE (pushLE 8 x.val)) : U64) = x := by
  apply Fin.ext
  have h : x.val < 2 ^ (8 * 8) := x.isLt
  rw [readLE_pushLE_of_lt 8 x.val h]
  simp only [Fin.ofNat]
  exact Nat.mod_eq_of_lt x.isLt

theorem ofNat_readLE_u32 (x : U32) : (Fin.ofNat (readLE (pushLE 4 x.val)) : U32) = x := by
  apply Fin.ext
  have h : x.val < 2 ^ (4 * 8) := x.isLt
  rw [readLE_pushLE_of_lt 4 x.val h]
  simp only [Fin.ofNat]
  exact Nat.mod_eq_of_lt x.isLt

/-- Decoding the frame of `r` found at `pre.length` gives `r` back and moves the
offset to the end of the frame. -/
theorem deserialize_serialize_at (pre rest : Bytes) (r : LogRecord)
    (hk : r.key.length < 2 ^ 32) (hv : r.value.length < 2 ^ 32) :
    deserialize_record (pre ++ serialize_record r ++ rest) pre.length
      = .ok (r, pre.length + (serialize_record r).length) := by
  generalize hdata : pre ++ serialize_record r ++ rest = data
  have h0 : data.drop pre.length = [r.type] ++ (pushLE 8 r.txn_id.val ++ (pushLE 8 r.lsn.val
      ++ (pushLE 4 (r.key.length % 2 ^ 32) ++ (r.key ++ (pushLE 4 (r.value.length % 2 ^ 32)
      ++ (r.value ++ (pushLE 4 r.checksum.val ++ rest))))))) := by
    rw [← hdata, List.append_assoc, List.drop_left]
    simp [serialize_record]
  have hle0 : pre.length ≤ data.length := by
    rw [← hdata]; simp only [List.length_append]; omega
  have hkl := readLE_pushLE_len r.key.length hk
  have hvl := readLE_pushLE_len r.value.length hv
  obtain ⟨e1, d1, l1⟩ := readBytes_of_drop data _ 1 _ _ hle0 h0 rfl
  obtain ⟨e2, d2, l2⟩ := readBytes_of_drop data _ 8 _ _ l1 d1 (pushLE_length _ _)
  obtain ⟨e3, d3, l3⟩ := readBytes_of_drop data _ 8 _ _ l2 d2 (pushLE_length _ _)
  obtain ⟨e4, d4, l4⟩ := readBytes_of_drop data _ 4 _ _ l3 d3 (pushLE_length _ _)
  obtain ⟨e5, d5, l5⟩ := readBytes_of_drop data _
    (readLE (pushLE 4 (r.key.length % 2 ^ 32))) _ _ l4 d4 hkl.symm
  obtain ⟨e6, d6, l6⟩ := readBytes_of_drop data _ 4 _ _ l5 d5 (pushLE_length _ _)
  obtain ⟨e7, d7, l7⟩ := readBytes_of_drop data _
    (readLE (pushLE 4 (r.value.length % 2 ^ 32))) _ _ l6 d6 hvl.symm
  obtain ⟨e8, _, _⟩ := readBytes_of_drop data _ 4 _ _ l7 d7 (pushLE_length _ _)
  have hlt : ¬ pre.length ≥ data.length := by omega
  unfold deserialize_record
  rw [if_neg hlt]
  simp only [bind, Except.bind, e1, e2, e3, e4, e5, e6, e7, e8, pure, Except.pure]
  rw [ofNat_readLE_u64, ofNat_readLE_u64, ofNat_readLE_u32, hkl, hvl, serialize_record_length]
  simp only [List.getD_cons_zero]
  congr 2
  omega

end KvEngine

/-! ## The log built by appends -/

namespace KvEngine

namespace WAL

/-- The records of a run of appends as stamped, starting after LSN `cur`. -/
def stampFrom (cur : U64) : List LogRecord → List LogRecord
  | [] => []
  | r :: rs => stamp (cur + 1) r :: stampFrom (cur + 1) rs

/-- A frame that `read_all_internal` accepts: lengths fit the `uint32_t` length
fields and the stored checksum is the computed one. -/
def ValidRecord (r : LogRecord) : Prop :=
  r.key.length < 2 ^ 32 ∧ r.value.length < 2 ^ 32 ∧ r.checksum = calculate_checksum r

theorem stamp_type (lsn : U64) (r : LogRecord) : (stamp lsn r).type = r.type := rfl
theorem stamp_txn_id (lsn : U64) (r : LogRecord) : (stamp lsn r).txn_id = r.txn_id := rfl
theorem stamp_key (lsn : U64) (r : LogRecord) : (stamp lsn r).key = r.key := rfl
theorem stamp_value (lsn : U64) (r : LogRecord) : (stamp lsn r).value = r.value := rfl
theorem stamp_lsn (lsn : U64) (r : LogRecord) : (stamp lsn r).lsn = lsn := rfl

theorem stamp_checksum (lsn : U64) (r : LogRecord) :
    (stamp lsn r).checksum = calculate_checksum (stamp lsn r) := by
  simp [stamp, calculate_checksum]

theorem validRecord_stamp (lsn : U64) (r : LogRecord)
    (hk : r.key.length < 2 ^ 32) (hv : r.value.length < 2 ^ 32) :
    ValidRecord (stamp lsn r) :=
  ⟨hk, hv, stamp_checksum lsn r⟩

theorem stampFrom_length (cur : U64) (rs : List LogRecord) :
    (stampFrom cur rs).length = rs.length := by
  induction rs generalizing cur with
  | nil => rfl
  | cons r t ih => simp [stampFrom, ih]

theorem mem_stampFrom (cur : U64) (rs : List LogRecord) (x : LogRecord)
    (hx : x ∈ stampFrom cur rs) : ∃ lsn, ∃ r ∈ rs, x = stamp lsn r := by
  induction rs generalizing cur with
  | nil => simp [stampFrom] at hx
  | cons r t ih =>
    rcases List.mem_cons.1 hx with h | h
    · exact ⟨cur + 1, r, List.mem_cons_self _ _, h⟩
    · obtain ⟨lsn, y, hy, hxy⟩ := ih (cur + 1) h
      exact ⟨lsn, y, List.mem_cons_of_mem _ hy, hxy⟩

theorem stampFrom_getElem (cur : U64) (rs : List LogRecord) (i : Nat) (h : i < rs.length) :
    ∃ lsn : U64, lsn.val = (cur.val + (i + 1)) % 2 ^ 64 ∧
      (stampFrom cur rs)[i]?  = some (stamp lsn rs[i]) := by
  induction rs generalizing cur i with
  | nil => simp at h
  | cons r t ih =>
    cases i with
    | zero =>
      refine ⟨cur + 1, ?_, by simp [stampFrom]⟩
      rw [Fin.val_add]
      rfl
    | succ j =>
      have hj : j < t.length := by simpa using h
      obtain ⟨lsn, hl, hg⟩ := ih (cur + 1) j hj
      refine ⟨lsn, ?_, by simpa [stampFrom] using hg⟩
      rw [hl, Fin.val_add]
      have : ((1 : U64) : Nat) = 1 := rfl
      rw [this]
      omega

/-- The read loop returns the records whose frames make up the rest of the file. -/
theorem read_loop_frames (rs : List LogRecord) (pre : Bytes) (fuel : Nat)
    (hv : ∀ r ∈ rs, ValidRecord r)
    (hf : ((rs.map serialize_record).flatten).length ≤ fuel) :
    read_loop (pre ++ (rs.map serialize_record).flatten) fuel pre.length = .ok rs := by
  induction rs generalizing pre fuel with
  | nil =>
    cases fuel with
    | zero => rfl
    | succ f => simp [read_loop]
  | cons r t ih =>
    have hr := hv r (List.mem_cons_self _ _)
    have hlen := serialize_record_length r
    simp only [List.map_cons, List.flatten_cons, List.length_append] at hf
    cases fuel with
    | zero => omega
    | succ f =>
      have hdata : pre ++ (List.map serialize_record (r :: t)).flatten
          = pre ++ serialize_record r ++ (t.map serialize_record).flatten := by
        simp
      rw [hdata]
      unfold read_loop
      have hlt : pre.length < (pre ++ serialize_record r
          ++ (t.map serialize_record).flatten).length := by
        simp only [List.length_append]; omega
      rw [if_pos hlt, deserialize_serialize_at pre _ r hr.1 hr.2.1]
      simp only [ne_eq, hr.2.2, not_true_eq_false, if_false]
      have hih := ih (pre ++ serialize_record r) f
        (fun x hx => hv x (List.mem_cons_of_mem _ hx)) (by omega)
      rw [List.length_append] at hih
      rw [hih]

/-- A call of `append` on an open log whose buffer stays below `BUFFER_SIZE`. -/
theorem append_ok (w : WAL) (r : LogRecord) (hopen : w.is_open_ = true)
    (hm : w.mutex_held = false) (hb : w.buffer_.length + 1 < BUFFER_SIZE) :
    w.append r = .ok (w.current_lsn_ + 1, stamp (w.current_lsn_ + 1) r,
      { w with current_lsn_ := w.current_lsn_ + 1,
               file := w.file ++ serialize_record (stamp (w.current_lsn_ + 1) r),
               buffer_ := w.buffer_ ++ [stamp (w.current_lsn_ + 1) r] }) := by
  obtain ⟨file, flushed, cur, is_open, buffer, held⟩ := w
  simp only at hopen hm hb
  subst hopen hm
  have hb2 : ¬ BUFFER_SIZE ≤ buffer.length + 1 := by omega
  simp [append, lock, unlock, bind, Except.bind, pure, Except.pure, hb2, stamp_lsn]

/-- The call of `append` that fills the buffer calls `flush()` with `mutex_` held and
never returns. -/
theorem append_deadlock (w : WAL) (r : LogRecord) (hopen : w.is_open_ = true)
    (hm : w.mutex_held = false) (hb : w.buffer_.length + 1 ≥ BUFFER_SIZE) :
    w.append r = .error Fault.deadlock := by
  obtain ⟨file, flushed, cur, is_open, buffer, held⟩ := w
  simp only at hopen hm hb
  subst hopen hm
  have hb2 : BUFFER_SIZE ≤ buffer.length + 1 := hb
  simp [append, lock, flush, bind, Except.bind, pure, Except.pure, hb2]

end WAL

end KvEngine

namespace KvEngine

namespace WAL

/-- A run of appends that does not fill the buffer: each call returns the next LSN
with the record stamped, and the frames are added to the file in order. -/
theorem appendAll_ok (rs : List LogRecord) (w : WAL) (hopen : w.is_open_ = true)
    (hm : w.mutex_held = false) (hb : w.buffer_.length + rs.length < BUFFER_SIZE) :
    ∃ w1, appendAll w rs
        = .ok ((stampFrom w.current_lsn_ rs).map (fun r => (r.lsn, r)), w1) ∧
      w1.file = w.file ++ ((stampFrom w.current_lsn_ rs).map serialize_record).flatten ∧
      w1.is_open_ = true ∧ w1.mutex_held = false ∧
      w1.buffer_ = w.buffer_ ++ stampFrom w.current_lsn_ rs ∧
      w1.current_lsn_.val = (w.current_lsn_.val + rs.length) % 2 ^ 64 := by
  induction rs generalizing w with
  | nil =>
    refine ⟨w, rfl, by simp [stampFrom], hopen, hm, by simp [stampFrom], ?_⟩
    simp only [List.length_nil, Nat.add_zero]
    exact (Nat.mod_eq_of_lt w.current_lsn_.isLt).symm
  | cons r t ih =>
    simp only [List.length_cons] at hb
    have h1 := append_ok w r hopen hm (by omega)
    obtain ⟨w2, e2, f2, o2, m2, b2, c2⟩ := ih
      { w with current_lsn_ := w.current_lsn_ + 1,
               file := w.file ++ serialize_record (stamp (w.current_lsn_ + 1) r),
               buffer_ := w.buffer_ ++ [stamp (w.current_lsn_ + 1) r] }
      hopen hm (by simp only [List.length_append, List.length_singleton]; omega)
    refine ⟨w2, ?_, ?_, o2, m2, ?_, ?_⟩
    · simp only [appendAll, h1, e2, stampFrom, List.map_cons, stamp_lsn]
    · simp only [f2, stampFrom, List.map_cons, List.flatten_cons, List.append_assoc]
    · simp only [b2, stampFrom, List.append_assoc, List.singleton_append]
    · rw [c2]
      simp only [Fin.val_add, List.length_cons]
      have : ((1 : U64) : Nat) = 1 := rfl
      rw [this]
      omega

/-- An open log on which nothing holds the mutex reads back the frames of its file. -/
theorem read_from_zero_frames (w : WAL) (rs : List LogRecord) (hopen : w.is_open_ = true)
    (hm : w.mutex_held = false) (hfile : w.file = (rs.map serialize_record).flatten)
    (hv : ∀ r ∈ rs, ValidRecord r) :
    w.read_from 0 = .ok rs := by
  have h := read_loop_frames rs [] w.file.length hv (by rw [hfile])
  simp only [List.nil_append, List.length_nil] at h
  have hfil : rs.filter (fun record => decide (record.lsn ≥ 0)) = rs := by
    apply List.filter_eq_self.2
    intro a _
    simp
  rw [← hfile] at h
  simp only [read_from, lock, hm, hopen, read_all_internal, bind, Except.bind, pure,
    Except.pure, h, hfil, Bool.false_eq_true, if_false, not_true_eq_false]

/-- The fresh log: `WAL(log_dir)` followed by `initialize()` on an empty directory. -/
theorem initialize_wal_empty :
    WAL.new.initialize_wal [] = .ok (true, { WAL.new with is_open_ := true }) := rfl

end WAL

end KvEngine

/-! ## The lock manager (`lock_manager.cpp`) -/

namespace KvEngine

/-- `enum class LockMode`. -/
inductive LockMode where
  | SHARED
  | EXCLUSIVE
deriving DecidableEq

/-- `struct LockRequest`; the constructor leaves `granted` false. -/
structure LockRequest where
  txn_id : U64
  mode : LockMode
  granted : Bool
deriving DecidableEq

/-- The state of `LockManager`: `lock_table_` and `txn_locks_`. -/
structure LockManager where
  lock_table_ : OrdMap Key (List LockRequest)
  txn_locks_ : OrdMap U64 (List Key)

/-- What a blocking call comes to: it returns a value, or it waits in `cv_.wait`
with its request queued. -/
inductive LockResult where
  | returned (b : Bool)
  | waiting
deriving DecidableEq

namespace LockManager

/-- The constructor `LockManager()`. -/
def new : LockManager := ⟨OrdMap.empty, OrdMap.empty⟩

/-- The requests on `key`, none when `lock_table_` has no entry for it. -/
def requests_on (lm : LockManager) (key : Key) : List LockRequest :=
  (lm.lock_table_.find? key).getD []

/-- The counter `shared_count` of `can_grant_lock`: granted SHARED requests. -/
def shared_count (requests : List LockRequest) : Nat :=
  requests.countP (fun r => r.granted && decide (r.mode = LockMode.SHARED))

/-- The loop of `can_grant_lock` over `rest`, `requests` being the whole list of the key. -/
def can_grant_scan (requests : List LockRequest) (mode : LockMode) (txn_id : U64) :
    List LockRequest → Bool
  | [] => true
  | req :: rest =>
    if ¬ req.granted then can_grant_scan requests mode txn_id rest
    else if req.txn_id = txn_id then
      if req.mode = LockMode.EXCLUSIVE then true
      else if mode = LockMode.SHARED then true
      else decide (shared_count requests = 1)
    else if mode = LockMode.EXCLUSIVE ∨ req.mode = LockMode.EXCLUSIVE then false
    else can_grant_scan requests mode txn_id rest

/-- `LockManager::can_grant_lock`. -/
def can_grant_lock (lm : LockManager) (key : Key) (mode : LockMode) (txn_id : U64) : Bool :=
  match lm.lock_table_.find? key with
  | none => true
  | some requests => can_grant_scan requests mode txn_id requests

/-- The loop of `grant_lock`: mark the first ungranted request of `txn_id`, then `break`. -/
def grant_first (txn_id : U64) : List LockRequest → List LockRequest
  | [] => []
  | req :: rest =>
    if req.txn_id = txn_id ∧ ¬ req.granted then { req with granted := true } :: rest
    else req :: grant_first txn_id rest

/-- `LockManager::grant_lock`. -/
def grant_lock (lm : LockManager) (key : Key) (txn_id : U64) : LockManager :=
  { lm with lock_table_ := lm.lock_table_.insert key (grant_first txn_id (lm.requests_on key)) }

/-- `lock_table_[key].push_back(request)`. -/
def push_request (lm : LockManager) (key : Key) (request : LockRequest) : LockManager :=
  { lm with lock_table_ := lm.lock_table_.insert key (lm.requests_on key ++ [request]) }

/-- `txn_locks_[txn_id].push_back(key)`. -/
def record_lock (lm : LockManager) (txn_id : U64) (key : Key) : LockManager :=
  { lm with txn_locks_ :=
      lm.txn_locks_.insert txn_id ((lm.txn_locks_.find? txn_id).getD [] ++ [key]) }

/-- The predicate of `cv_.wait`: some request of `txn_id` on `key` is granted. -/
def wait_predicate (lm : LockManager) (txn_id : U64) (key : Key) : Bool :=
  (lm.requests_on key).any (fun req => decide (req.txn_id = txn_id) && req.granted)

/-- The common body of `lock_shared` and `lock_exclusive`, up to the point where
the call returns or starts to wait. -/
def lock_with_mode (lm : LockManager) (txn_id : U64) (key : Key) (mode : LockMode) :
    LockResult × LockManager :=
  if lm.can_grant_lock key mode txn_id then
    (LockResult.returned true,
      (lm.push_request key ⟨txn_id, mode, true⟩).record_lock txn_id key)
  else
    let lm1 := lm.push_request key ⟨txn_id, mode, false⟩
    if lm1.wait_predicate txn_id key then
      (LockResult.returned true, lm1.record_lock txn_id key)
    else (LockResult.waiting, lm1)

/-- `LockManager::lock_shared`. -/
def lock_shared (lm : LockManager) (txn_id : U64) (key : Key) : LockResult × LockManager :=
  lm.lock_with_mode txn_id key LockMode.SHARED

/-- `LockManager::lock_exclusive`. -/
def lock_exclusive (lm : LockManager) (txn_id : U64) (key : Key) : LockResult × LockManager :=
  lm.lock_with_mode txn_id key LockMode.EXCLUSIVE

/-- The rest of a waiting `lock_shared` / `lock_exclusive` once its predicate holds:
`txn_locks_[txn_id].push_back(key); return true`. -/
def wake (lm : LockManager) (txn_id : U64) (key : Key) : Option LockManager :=
  if lm.wait_predicate txn_id key then some (lm.record_lock txn_id key) else none

/-- `LockManager::try_lock`. -/
def try_lock (lm : LockManager) (txn_id : U64) (key : Key) (mode : LockMode) :
    Bool × LockManager :=
  if ¬ lm.can_grant_lock key mode txn_id then (false, lm)
  else (true, (lm.push_request key ⟨txn_id, mode, true⟩).record_lock txn_id key)

/-- One round of the loop `for (auto& req : requests)` of `unlock`, at position `i`
of the list as it stands. -/
def regrant_step (requests : List LockRequest) (i : Nat) : List LockRequest :=
  match requests[i]? with
  | none => requests
  | some req =>
    if ¬ req.granted ∧ can_grant_scan requests req.mode req.txn_id requests then
      grant_first req.txn_id requests
    else requests

/-- The loop of `unlock` that grants waiting requests, in arrival order. -/
def regrant (requests : List LockRequest) : List LockRequest :=
  (List.range requests.length).foldl regrant_step requests

/-- The part of `unlock` and `unlock_all` that works on `lock_table_`: drop the
requests of `txn_id` on `key`, then erase the key or grant waiters. -/
def release_key (table : OrdMap Key (List LockRequest)) (txn_id : U64) (key : Key) :
    OrdMap Key (List LockRequest) :=
  match table.find? key with
  | none => table
  | some requests =>
    let remaining := requests.filter (fun req => req.txn_id ≠ txn_id)
    if remaining.isEmpty then table.erase key
    else table.insert key (regrant remaining)

/-- `LockManager::unlock`. -/
def unlock (lm : LockManager) (txn_id : U64) (key : Key) : Bool × LockManager :=
  match lm.lock_table_.find? key with
  | none => (false, lm)
  | some _ =>
    let table := release_key lm.lock_table_ txn_id key
    let txn_locks :=
      match lm.txn_locks_.find? txn_id with
      | none => lm.txn_locks_
      | some keys =>
        let keys1 := keys.filter (fun k => k ≠ key)
        if keys1.isEmpty then lm.txn_locks_.erase txn_id
        else lm.txn_locks_.insert txn_id keys1
    (true, ⟨table, txn_locks⟩)

/-- `LockManager::unlock_all`. -/
def unlock_all (lm : LockManager) (txn_id : U64) : Bool × LockManager :=
  match lm.txn_locks_.find? txn_id with
  | none => (true, lm)
  | some keys =>
    let table := keys.foldl (fun table key => release_key table txn_id key) lm.lock_table_
    (true, ⟨table, lm.txn_locks_.erase txn_id⟩)

end LockManager

/-! ## The transaction manager (`transaction_manager.cpp`) -/

/-- `enum class TransactionState`. -/
inductive TransactionState where
  | RUNNING
  | COMMITTED
  | ABORTED
deriving DecidableEq

/-- The fields of `class Transaction`. -/
structure Transaction where
  txn_id_ : U64
  state_ : TransactionState
  write_keys_ : List Key
  start_lsn_ : U64
deriving DecidableEq

/-- The constructor `Transaction(txn_id)`. -/
def Transaction.new (txn_id : U64) : Transaction :=
  { txn_id_ := txn_id, state_ := TransactionState.RUNNING, write_keys_ := [], start_lsn_ := 0 }

/-- The components a `TransactionManager` works on (all non-null) and its own fields.
`active_txns_` holds the transaction objects that its pointers refer to. -/
structure TransactionManager where
  wal_ : WAL
  lock_mgr_ : LockManager
  storage_ : StorageEngine
  next_txn_id_ : U64
  active_txns_ : OrdMap U64 Transaction

namespace TransactionManager

/-- The constructor `TransactionManager(wal, lock_mgr, storage)`. -/
def new (wal : WAL) (lock_mgr : LockManager) (storage : StorageEngine) : TransactionManager :=
  { wal_ := wal, lock_mgr_ := lock_mgr, storage_ := storage, next_txn_id_ := 1,
    active_txns_ := OrdMap.empty }

/-- A write through the caller's `Transaction*` is seen through the pointer kept in
`active_txns_`. -/
def sync (tm : TransactionManager) (txn : Transaction) : TransactionManager :=
  if tm.active_txns_.contains txn.txn_id_ then
    { tm with active_txns_ := tm.active_txns_.insert txn.txn_id_ txn }
  else tm

/-- `TransactionManager::begin`. -/
def begin (tm : TransactionManager) : Except Fault (Transaction × TransactionManager) := do
  let txn_id := tm.next_txn_id_
  let tm := { tm with next_txn_id_ := tm.next_txn_id_ + 1 }
  let txn := Transaction.new txn_id
  let (lsn, _, wal) ← tm.wal_.append (LogRecord.new LogRecordType.BEGIN txn_id [] [])
  let txn := { txn with start_lsn_ := lsn }
  pure (txn, { tm with wal_ := wal, active_txns_ := tm.active_txns_.insert txn_id txn })

/-- `TransactionManager::commit`. -/
def commit (tm : TransactionManager) (txn : Transaction) :
    Except Fault (Bool × Transaction × TransactionManager) := do
  if txn.state_ ≠ TransactionState.RUNNING then pure (false, txn, tm)
  else
    let (_, _, wal) ← tm.wal_.append (LogRecord.new LogRecordType.COMMIT txn.txn_id_ [] [])
    let (_, wal) ← wal.flush
    let (_, lock_mgr) := tm.lock_mgr_.unlock_all txn.txn_id_
    let txn := { txn with state_ := TransactionState.COMMITTED }
    pure (true, txn, { tm with wal_ := wal, lock_mgr_ := lock_mgr,
                               active_txns_ := tm.active_txns_.erase txn.txn_id_ })

/-- `TransactionManager::rollback`. -/
def rollback (tm : TransactionManager) (txn : Transaction) :
    Except Fault (Bool × Transaction × TransactionManager) := do
  if txn.state_ ≠ TransactionState.RUNNING then pure (false, txn, tm)
  else
    let storage := txn.write_keys_.reverse.foldl (fun s key => (s.remove key).2) tm.storage_
    let (_, _, wal) ← tm.wal_.append (LogRecord.new LogRecordType.ROLLBACK txn.txn_id_ [] [])
    let (_, wal) ← wal.flush
    let (_, lock_mgr) := tm.lock_mgr_.unlock_all txn.txn_id_
    let txn := { txn with state_ := TransactionState.ABORTED }
    pure (true, txn, { tm with wal_ := wal, lock_mgr_ := lock_mgr, storage_ := storage,
                               active_txns_ := tm.active_txns_.erase txn.txn_id_ })

/-- `TransactionManager::get_active_transactions`: in ascending id order. -/
def get_active_transactions (tm : TransactionManager) : List Transaction :=
  tm.active_txns_.entries.map Prod.snd

/-- `TransactionManager::put`. A `lock_exclusive` that has to wait does not return
in a run without other threads. -/
def put (tm : TransactionManager) (txn : Transaction) (key : Key) (value : Value) :
    Except Fault (Bool × Transaction × TransactionManager) := do
  if txn.state_ ≠ TransactionState.RUNNING then pure (false, txn, tm)
  else
    match tm.lock_mgr_.lock_exclusive txn.txn_id_ key with
    | (LockResult.waiting, _) => .error Fault.blocked
    | (LockResult.returned false, lock_mgr) => pure (false, txn, { tm with lock_mgr_ := lock_mgr })
    | (LockResult.returned true, lock_mgr) =>
      let (_, _, wal) ← tm.wal_.append (LogRecord.new LogRecordType.PUT txn.txn_id_ key value)
      let (ok, storage) := tm.storage_.put key value
      let tm := { tm with lock_mgr_ := lock_mgr, wal_ := wal, storage_ := storage }
      if ¬ ok then pure (false, txn, tm)
      else
        let txn := { txn with write_keys_ := txn.write_keys_ ++ [key] }
        pure (true, txn, tm.sync txn)

/-- `TransactionManager::remove`. -/
def remove (tm : TransactionManager) (txn : Transaction) (key : Key) :
    Except Fault (Bool × Transaction × TransactionManager) := do
  if txn.state_ ≠ TransactionState.RUNNING then pure (false, txn, tm)
  else
    match tm.lock_mgr_.lock_exclusive txn.txn_id_ key with
    | (LockResult.waiting, _) => .error Fault.blocked
    | (LockResult.returned false, lock_mgr) => pure (false, txn, { tm with lock_mgr_ := lock_mgr })
    | (LockResult.returned true, lock_mgr) =>
      let (_, _, wal) ← tm.wal_.append (LogRecord.new LogRecordType.DELETE txn.txn_id_ key [])
      let (ok, storage) := tm.storage_.remove key
      let tm := { tm with lock_mgr_ := lock_mgr, wal_ := wal, storage_ := storage }
      if ¬ ok then pure (false, txn, tm)
      else
        let txn := { txn with write_keys_ := txn.write_keys_ ++ [key] }
        pure (true, txn, tm.sync txn)

end TransactionManager

/-- The log part of `KvEngine::Impl::open` after a restart: a new `WAL` is
initialized on the log file found, and `recover` runs on `read_from(0)` and on the
store as `StorageEngine::initialize` loaded it. -/
def reopen (wal_file : Bytes) (loaded : StorageEngine) : Except Fault (Bool × StorageEngine) := do
  let (_, wal) ← WAL.new.initialize_wal wal_file
  let records ← wal.read_from 0
  pure (RecoveryManager.recover records loaded)

end KvEngine

/-! ## Claims about recovery -/

namespace KvEngine

open LogRecordType RecoveryManager

/-- The records that `read_from(0)` returns from a fresh log after one `append` per
record of `rs` and a `flush`. -/
def wal_contents_after (rs : List LogRecord) : Except Fault (List LogRecord) := do
  let (_, w) ← WAL.new.initialize_wal []
  let (_, w) ← w.appendAll rs
  let (_, w) ← w.flush
  w.read_from 0

/-- The last PUT or DELETE record on `k` in the log is a PUT of `v` written by
transaction `t`. -/
def LastWriteIsPut (records : List LogRecord) (k : Key) (v : Value) (t : U64) : Prop :=
  ∃ pre p post, records = pre ++ p :: post ∧ p.type = PUT ∧ p.key = k ∧ p.value = v ∧
    p.txn_id = t ∧ ∀ r ∈ post, (r.type = PUT ∨ r.type = DELETE) → r.key ≠ k

/-- Transaction `t` has a COMMIT record in the log. -/
def HasCommit (records : List LogRecord) (t : U64) : Prop :=
  ∃ c ∈ records, c.type = COMMIT ∧ c.txn_id = t

/-- The key `"k"`. -/
def key_k : Key := [107]

/-- Appends of two transactions on `"k"`: transaction 1 puts `"a"` and never ends,
transaction 2 then puts `"b"` and commits. -/
def c1_appends : List LogRecord :=
  [LogRecord.new BEGIN 1 [] [], LogRecord.new PUT 1 key_k [97],
   LogRecord.new BEGIN 2 [] [], LogRecord.new PUT 2 key_k [98],
   LogRecord.new COMMIT 2 [] []]

/-- The log that `c1_appends` leaves. -/
def c1_log : List LogRecord := WAL.stampFrom 0 c1_appends

/-- Appends of one transaction that puts `"k"` and commits. -/
def c1_good_appends : List LogRecord :=
  [LogRecord.new BEGIN 1 [] [], LogRecord.new PUT 1 key_k [118],
   LogRecord.new COMMIT 1 [] []]

/-- The log that `c1_good_appends` leaves. -/
def c1_good_log : List LogRecord := WAL.stampFrom 0 c1_good_appends

set_option maxRecDepth 100000 in
/-- C1, counterexample: in the log left by `c1_appends` the last PUT/DELETE record on
`"k"` is the PUT of `"b"` by transaction 2, which has a COMMIT record, yet after
`recover` on the empty store `"k"` is absent: undo removed it because the loser
transaction 1 had put the same key. -/
theorem c1_committed_put_undone :
    wal_contents_after c1_appends = .ok c1_log ∧
    LastWriteIsPut c1_log key_k [98] 2 ∧ HasCommit c1_log 2 ∧
    (recover c1_log StorageEngine.fresh).2.get key_k = none := by
  refine ⟨by decide, ?_, ?_, by decide⟩
  · exact ⟨(WAL.stampFrom 0 c1_appends).take 3, WAL.stamp 4 (LogRecord.new PUT 2 key_k [98]),
      [WAL.stamp 5 (LogRecord.new COMMIT 2 [] [])], by decide, by decide, by decide,
      by decide, by decide, by decide⟩
  · exact ⟨WAL.stamp 5 (LogRecord.new COMMIT 2 [] []), by decide, by decide, by decide⟩

/-- C1, amended: for every log and every initial store, a key `k` whose last PUT or
DELETE record is a PUT of `v` by a transaction with a COMMIT record maps to `v`
after `recover`, provided no PUT record on `k` belongs to a loser (a transaction
whose BEGIN record is not followed by a COMMIT or ROLLBACK record of its own). -/
theorem recover_committed_put_visible (records : List LogRecord) (s : StorageEngine)
    (k : Key) (v : Value) (t : U64)
    (hlast : LastWriteIsPut records k v t) (_hc : HasCommit records t)
    (hno : ∀ r ∈ records, r.type = PUT → r.key = k → ¬ Loser records r.txn_id) :
    (recover records s).2.get k = some v := by
  obtain ⟨pre, p, post, hsplit, hp, hk, hv, _, hpost⟩ := hlast
  have hund : ¬ UndoneKey records (analysis records).active_txns k := by
    rintro ⟨r, hr, hact, hput, hkey⟩
    exact hno r hr hput hkey ((mem_active_iff_loser records r.txn_id).1 hact)
  rw [get_recover, if_neg hund, hsplit, lastWrite_of_last_put pre post p k hp hk hpost, hv]
  rfl

set_option maxRecDepth 100000 in
/-- C1, witness: the log of one committed transaction that puts `"k"`. -/
theorem recover_committed_put_visible_witness :
    LastWriteIsPut c1_good_log key_k [118] 1 ∧ HasCommit c1_good_log 1 ∧
    (∀ r ∈ c1_good_log, r.type = PUT → r.key = key_k → ¬ Loser c1_good_log r.txn_id) ∧
    (recover c1_good_log StorageEngine.fresh).2.get key_k = some [118] := by
  have h1 : LastWriteIsPut c1_good_log key_k [118] 1 :=
    ⟨[WAL.stamp 1 (LogRecord.new BEGIN 1 [] [])], WAL.stamp 2 (LogRecord.new PUT 1 key_k [118]),
      [WAL.stamp 3 (LogRecord.new COMMIT 1 [] [])], by decide, by decide, by decide,
      by decide, by decide, by decide⟩
  have h2 : HasCommit c1_good_log 1 :=
    ⟨WAL.stamp 3 (LogRecord.new COMMIT 1 [] []), by decide, by decide, by decide⟩
  have h3 : ∀ r ∈ c1_good_log, r.type = PUT → r.key = key_k →
      ¬ Loser c1_good_log r.txn_id := by
    have h : ∀ r ∈ c1_good_log, r.txn_id ∉ (analysis c1_good_log).active_txns := by decide
    intro r hr _ _ hl
    exact h r hr ((mem_active_iff_loser _ _).2 hl)
  exact ⟨h1, h2, h3, recover_committed_put_visible c1_good_log StorageEngine.fresh key_k
    [118] 1 h1 h2 h3⟩

/-- C3: for every log and every initial store, after `recover` the key of every PUT
record of a transaction that has a BEGIN record and neither a COMMIT nor a ROLLBACK
record is absent from the store. -/
theorem recover_uncommitted_put_absent (records : List LogRecord) (s : StorageEngine)
    (p : LogRecord) (hp : p ∈ records) (hput : p.type = PUT)
    (hb : ∃ b ∈ records, b.type = BEGIN ∧ b.txn_id = p.txn_id)
    (hn : ∀ r ∈ records, r.txn_id = p.txn_id → r.type ≠ COMMIT ∧ r.type ≠ ROLLBACK) :
    (recover records s).2.get p.key = none ∧ (recover records s).2.exists_ p.key = false := by
  have hl : Loser records p.txn_id := loser_of_begin_no_terminal records p.txn_id hb hn
  have hund : UndoneKey records (analysis records).active_txns p.key :=
    ⟨p, hp, (mem_active_iff_loser records p.txn_id).2 hl, hput, rfl⟩
  have hget : (recover records s).2.get p.key = none := by
    rw [get_recover, if_pos hund]
  refine ⟨hget, ?_⟩
  have : (recover records s).2.data_.find? p.key = none := hget
  simp [StorageEngine.exists_, OrdMap.contains, this]

/-- The log of the test `test_recovery_undo`: a transaction that puts a key and
never commits, on a store that already holds the key. -/
def c3_log : List LogRecord :=
  WAL.stampFrom 0 [LogRecord.new BEGIN 1 [] [], LogRecord.new PUT 1 key_k [118]]

set_option maxRecDepth 100000 in
/-- C3, witness: the uncommitted PUT of `"k"` is absent after recovery. -/
theorem recover_uncommitted_put_absent_witness :
    WAL.stamp 2 (LogRecord.new PUT 1 key_k [118]) ∈ c3_log ∧
    (∃ b ∈ c3_log, b.type = BEGIN ∧ b.txn_id = 1) ∧
    (∀ r ∈ c3_log, r.txn_id = 1 → r.type ≠ COMMIT ∧ r.type ≠ ROLLBACK) ∧
    (recover c3_log (StorageEngine.fresh.put key_k [111]).2).2.get key_k = none := by
  have h1 : WAL.stamp 2 (LogRecord.new PUT 1 key_k [118]) ∈ c3_log := by decide
  have h2 : ∃ b ∈ c3_log, b.type = BEGIN ∧ b.txn_id = 1 := by decide
  have h3 : ∀ r ∈ c3_log, r.txn_id = 1 → r.type ≠ COMMIT ∧ r.type ≠ ROLLBACK := by decide
  exact ⟨h1, h2, h3, (recover_uncommitted_put_absent c3_log (StorageEngine.fresh.put key_k
    [111]).2 (WAL.stamp 2 (LogRecord.new PUT 1 key_k [118])) h1 rfl h2 h3).1⟩

/-- C5: recovery is idempotent: running `recover` over a log on the store that a
first `recover` over the same log produced leaves that store unchanged. -/
theorem recover_idempotent (records : List LogRecord) (s : StorageEngine) :
    (recover records (recover records s).2).2 = (recover records s).2 := by
  apply StorageEngine.ext_get
  intro k
  rw [get_recover records (recover records s).2 k, get_recover records s k]
  by_cases h : UndoneKey records (analysis records).active_txns k
  · simp only [h, if_true]
  · simp only [h, if_false]
    cases lastWrite records k <;> rfl

end KvEngine

/-! ## Recovery at a crash point of one transaction -/

namespace KvEngine

open LogRecordType RecoveryManager

/-- The store with the PUT records `ps` applied in order. -/
def applyPuts (ps : List LogRecord) (s : StorageEngine) : StorageEngine :=
  ps.foldl (fun s p => (s.put p.key p.value).2) s

/-- The store with the keys `keys` removed. -/
def removeKeys (keys : List Key) (s : StorageEngine) : StorageEngine :=
  keys.foldl (fun s k => (s.remove k).2) s

theorem get_removeKeys (keys : List Key) (s : StorageEngine) (k : Key) :
    (removeKeys keys s).get k = if k ∈ keys then none else s.get k := by
  unfold removeKeys
  induction keys generalizing s with
  | nil => simp
  | cons a t ih =>
    rw [List.foldl_cons, ih, StorageEngine.get_remove]
    by_cases h1 : k ∈ t
    · simp [h1]
    · by_cases h2 : k = a
      · simp [h2]
      · simp [h1, h2]

theorem removeKeys_of_absent (keys : List Key) (s : StorageEngine)
    (h : ∀ k ∈ keys, s.get k = none) : removeKeys keys s = s := by
  apply StorageEngine.ext_get
  intro k
  rw [get_removeKeys]
  by_cases hk : k ∈ keys
  · simp [hk, h k hk]
  · simp [hk]

theorem lastWrite_eq_none (records : List LogRecord) (k : Key)
    (h : ∀ r ∈ records, (r.type = PUT ∨ r.type = DELETE) → r.key ≠ k) :
    lastWrite records k = none := by
  unfold lastWrite
  induction records with
  | nil => rfl
  | cons r t ih =>
    rw [List.foldl_cons]
    have hr : lastWriteStep k none r = none := by
      unfold lastWriteStep
      have := h r (List.mem_cons_self _ _)
      split_ifs with h1 h2 h3 h4
      · exact absurd h2.symm (this (Or.inl h1))
      · rfl
      · exact absurd h4.symm (this (Or.inr h3))
      · rfl
      · rfl
    rw [hr]
    exact ih (fun r hr => h r (List.mem_cons_of_mem _ hr))

theorem redo_puts (ps : List LogRecord) (s : StorageEngine)
    (hps : ∀ p ∈ ps, p.type = PUT) : ps.foldl redoStep s = applyPuts ps s := by
  unfold applyPuts
  induction ps generalizing s with
  | nil => rfl
  | cons p t ih =>
    rw [List.foldl_cons, List.foldl_cons]
    have : redoStep s p = (s.put p.key p.value).2 := by
      simp [redoStep, hps p (List.mem_cons_self _ _)]
    rw [this]
    exact ih _ (fun q hq => hps q (List.mem_cons_of_mem _ hq))

/-- A prefix `BEGIN, PUT, ..., PUT` of a transaction's records: the transaction is
the loser, and the keys undone are the keys of the PUTs. -/
theorem get_recover_open_txn (t : U64) (b : LogRecord) (qs : List LogRecord)
    (s : StorageEngine) (hb : b.type = BEGIN ∧ b.txn_id = t)
    (hqs : ∀ p ∈ qs, p.type = PUT ∧ p.txn_id = t) :
    (recover (b :: qs) s).2 = removeKeys (qs.map (fun p => p.key)) s := by
  have hPB : (PUT : LogRecordType) ≠ BEGIN := by decide
  have hPC : (PUT : LogRecordType) ≠ COMMIT := by decide
  have hPR : (PUT : LogRecordType) ≠ ROLLBACK := by decide
  have hBP : (BEGIN : LogRecordType) ≠ PUT := by decide
  have hBD : (BEGIN : LogRecordType) ≠ DELETE := by decide
  have hPD : (PUT : LogRecordType) ≠ DELETE := by decide
  have hloser : Loser (b :: qs) t := by
    refine ⟨[], b, qs, rfl, hb.1, hb.2, ?_⟩
    intro r hr _
    rw [(hqs r hr).1]
    exact ⟨hPC, hPR⟩
  have hact := (mem_active_iff_loser (b :: qs) t).2 hloser
  apply StorageEngine.ext_get
  intro k
  rw [get_recover, get_removeKeys]
  by_cases hk : k ∈ qs.map (fun p => p.key)
  · obtain ⟨p, hp, hpk⟩ := List.mem_map.1 hk
    have hund : UndoneKey (b :: qs) (analysis (b :: qs)).active_txns k :=
      ⟨p, List.mem_cons_of_mem _ hp, by rw [(hqs p hp).2]; exact hact, (hqs p hp).1, hpk⟩
    simp [hund, hk]
  · have hund : ¬ UndoneKey (b :: qs) (analysis (b :: qs)).active_txns k := by
      rintro ⟨r, hr, _, hput, hkey⟩
      rcases List.mem_cons.1 hr with h | h
      · rw [h, hb.1] at hput
        exact hBP hput
      · exact hk (List.mem_map.2 ⟨r, h, hkey⟩)
    have hlw : lastWrite (b :: qs) k = none := by
      apply lastWrite_eq_none
      intro r hr hty hkey
      rcases List.mem_cons.1 hr with h | h
      · rw [h, hb.1] at hty
        rcases hty with h1 | h1
        · exact hBP h1
        · exact hBD h1
      · exact hk (List.mem_map.2 ⟨r, h, hkey⟩)
    simp [hund, hk, hlw, resolve]

/-- The whole log `BEGIN, PUT, ..., PUT, COMMIT` of a transaction: nothing is undone. -/
theorem recover_closed_txn (t : U64) (b c : LogRecord) (ps : List LogRecord)
    (s : StorageEngine) (hb : b.type = BEGIN ∧ b.txn_id = t)
    (hc : c.type = COMMIT ∧ c.txn_id = t)
    (hps : ∀ p ∈ ps, p.type = PUT ∧ p.txn_id = t) :
    (recover (b :: ps ++ [c]) s).2 = applyPuts ps s := by
  have hPB : (PUT : LogRecordType) ≠ BEGIN := by decide
  have hCB : (COMMIT : LogRecordType) ≠ BEGIN := by decide
  have hBP : (BEGIN : LogRecordType) ≠ PUT := by decide
  have hBD : (BEGIN : LogRecordType) ≠ DELETE := by decide
  have hCP : (COMMIT : LogRecordType) ≠ PUT := by decide
  have hCD : (COMMIT : LogRecordType) ≠ DELETE := by decide
  have hnot : ∀ u, ¬ Loser (b :: ps ++ [c]) u := by
    rintro u ⟨pre, b1, post, hsplit, hb1, hb1t, hpost⟩
    cases pre with
    | nil =>
      simp only [List.nil_append, List.cons_append, List.cons.injEq] at hsplit
      have hcm : c ∈ post := by rw [← hsplit.2]; simp
      have hu : u = t := by rw [← hb1t, ← hsplit.1]; exact hb.2
      exact (hpost c hcm (by rw [hc.2, hu])).1 hc.1
    | cons x pre1 =>
      simp only [List.cons_append, List.cons.injEq] at hsplit
      have hmem : b1 ∈ ps ++ [c] := by rw [hsplit.2]; simp
      rcases List.mem_append.1 hmem with h | h
      · rw [(hps b1 h).1] at hb1
        exact hPB hb1
      · rw [List.mem_singleton.1 h, hc.1] at hb1
        exact hCB hb1
  have hact : (analysis (b :: ps ++ [c])).active_txns = [] := by
    apply List.eq_nil_iff_forall_not_mem.2
    intro u hu
    exact hnot u ((mem_active_iff_loser _ u).1 hu)
  have hredo : redo (b :: ps ++ [c]) s = applyPuts ps s := by
    unfold redo
    rw [List.cons_append, List.foldl_cons, List.foldl_append]
    have h1 : redoStep s b = s := by simp [redoStep, hb.1, hBP, hBD]
    rw [h1, redo_puts ps s (fun p hp => (hps p hp).1)]
    simp [redoStep, hc.1, hCP, hCD]
  rw [List.cons_append] at hact hredo
  unfold recover
  simp [hact, hredo]

/-- The log of one transaction on `"k"`: BEGIN, PUT of `"n"`, COMMIT. -/
def c2_log : List LogRecord :=
  WAL.stampFrom 0 [LogRecord.new BEGIN 1 [] [], LogRecord.new PUT 1 key_k [110],
    LogRecord.new COMMIT 1 [] []]

/-- A store in which `"k"` maps to `"o"` before the transaction begins. -/
def c2_store : StorageEngine := (StorageEngine.fresh.put key_k [111]).2

set_option maxRecDepth 100000 in
/-- C2, counterexample: the transaction overwrites `"k"`, present in the store
before it began; at the crash point after its PUT (the prefix of length 2, without the
COMMIT) recovery yields the empty store, which is neither the pre-transaction store
nor that store with the PUT applied. -/
theorem c2_crash_loses_old_value :
    c2_log = [WAL.stamp 1 (LogRecord.new BEGIN 1 [] []),
      WAL.stamp 2 (LogRecord.new PUT 1 key_k [110]),
      WAL.stamp 3 (LogRecord.new COMMIT 1 [] [])] ∧
    (recover (c2_log.take 2) c2_store).2 = StorageEngine.fresh ∧
    (recover (c2_log.take 2) c2_store).2 ≠ c2_store ∧
    (recover (c2_log.take 2) c2_store).2
      ≠ applyPuts [WAL.stamp 2 (LogRecord.new PUT 1 key_k [110])] c2_store := by
  decide

/-- C2, amended: for a transaction whose records are BEGIN, its PUTs, then COMMIT,
and for every crash point `n` (the prefix of the first `n` records), recovery
applied to the store as it was before the transaction began yields that store with
the keys of the PUTs of the prefix removed when the prefix lacks the COMMIT, which
is exactly the pre-transaction store whenever the keys the transaction puts were
absent from it, and yields that store with all the PUTs applied when the prefix
contains the COMMIT. -/
theorem recover_crash_point (t : U64) (b c : LogRecord) (ps : List LogRecord)
    (s : StorageEngine) (hb : b.type = BEGIN ∧ b.txn_id = t)
    (hc : c.type = COMMIT ∧ c.txn_id = t)
    (hps : ∀ p ∈ ps, p.type = PUT ∧ p.txn_id = t) (n : Nat) :
    (n < (b :: ps ++ [c]).length →
      (recover ((b :: ps ++ [c]).take n) s).2
        = removeKeys ((ps.take (n - 1)).map (fun p => p.key)) s) ∧
    (n < (b :: ps ++ [c]).length → (∀ p ∈ ps, s.get p.key = none) →
      (recover ((b :: ps ++ [c]).take n) s).2 = s) ∧
    ((b :: ps ++ [c]).length ≤ n →
      (recover ((b :: ps ++ [c]).take n) s).2 = applyPuts ps s) := by
  have hfirst : n < (b :: ps ++ [c]).length →
      (recover ((b :: ps ++ [c]).take n) s).2
        = removeKeys ((ps.take (n - 1)).map (fun p => p.key)) s := by
    intro hn
    cases n with
    | zero => rfl
    | succ m =>
      have hm : m ≤ ps.length := by
        simp only [List.length_cons, List.length_append, List.length_singleton,
          List.length_nil] at hn
        omega
      have htake : (b :: ps ++ [c]).take (m + 1) = b :: ps.take m := by
        rw [List.cons_append, List.take_succ_cons, List.take_append_of_le_length hm]
      rw [htake, Nat.add_sub_cancel]
      exact get_recover_open_txn t b (ps.take m) s hb
        (fun p hp => hps p (List.mem_of_mem_take hp))
  refine ⟨hfirst, ?_, ?_⟩
  · intro hn habs
    rw [hfirst hn]
    apply removeKeys_of_absent
    intro k hk
    obtain ⟨p, hp, hpk⟩ := List.mem_map.1 hk
    rw [← hpk]
    exact habs p (List.mem_of_mem_take hp)
  · intro hn
    rw [List.take_of_length_le hn]
    exact recover_closed_txn t b c ps s hb hc hps

set_option maxRecDepth 100000 in
/-- C2, witness: the transaction of `c2_log` on the empty store, at the crash point
after its PUT. -/
theorem recover_crash_point_witness :
    ((WAL.stamp 1 (LogRecord.new BEGIN 1 [] [])).type = BEGIN ∧
      (WAL.stamp 1 (LogRecord.new BEGIN 1 [] [])).txn_id = 1) ∧
    ((WAL.stamp 3 (LogRecord.new COMMIT 1 [] [])).type = COMMIT ∧
      (WAL.stamp 3 (LogRecord.new COMMIT 1 [] [])).txn_id = 1) ∧
    (∀ p ∈ [WAL.stamp 2 (LogRecord.new PUT 1 key_k [110])], p.type = PUT ∧ p.txn_id = 1) ∧
    (recover (c2_log.take 2) StorageEngine.fresh).2 = StorageEngine.fresh ∧
    (recover (c2_log.take 3) StorageEngine.fresh).2
      = (StorageEngine.fresh.put key_k [110]).2 := by
  have hb : (WAL.stamp 1 (LogRecord.new BEGIN 1 [] [])).type = BEGIN ∧
      (WAL.stamp 1 (LogRecord.new BEGIN 1 [] [])).txn_id = 1 := by decide
  have hc : (WAL.stamp 3 (LogRecord.new COMMIT 1 [] [])).type = COMMIT ∧
      (WAL.stamp 3 (LogRecord.new COMMIT 1 [] [])).txn_id = 1 := by decide
  have hps : ∀ p ∈ [WAL.stamp 2 (LogRecord.new PUT 1 key_k [110])],
      p.type = PUT ∧ p.txn_id = 1 := by decide
  have h2 := (recover_crash_point 1 _ _ _ StorageEngine.fresh hb hc hps 2).2.1
    (by decide) (by decide)
  have h3 := (recover_crash_point 1 _ _ _ StorageEngine.fresh hb hc hps 3).2.2 (by decide)
  exact ⟨hb, hc, hps, h2, h3⟩

end KvEngine

/-! ## Rollback followed by a restart -/

namespace KvEngine

open LogRecordType RecoveryManager

/-- A session on an empty data directory: a transaction begins, puts `"k" = "v"`
(a key absent from the store) and is rolled back; then the process is killed. The
result of `rollback`, the store at that time and the log file left behind. -/
def c4_session : Except Fault (Bool × StorageEngine × Bytes) := do
  let (_, wal) ← WAL.new.initialize_wal []
  let tm := TransactionManager.new wal LockManager.new StorageEngine.fresh
  let (t, tm) ← tm.begin
  let (_, t, tm) ← tm.put t key_k [118]
  let (ok, _, tm) ← tm.rollback t
  pure (ok, tm.storage_, tm.wal_.crash_image)

/-- The records of the session: BEGIN, PUT and ROLLBACK of transaction 1. -/
def c4_log : List LogRecord :=
  WAL.stampFrom 0 [LogRecord.new BEGIN 1 [] [], LogRecord.new PUT 1 key_k [118],
    LogRecord.new ROLLBACK 1 [] []]

set_option maxRecDepth 100000 in
/-- C4, the code at the failing input: `rollback` returns true and leaves `"k"` absent,
the log file holds BEGIN, PUT, ROLLBACK; on reopen (no data file, so the store loads
empty) redo replays the PUT, the rolled-back transaction is not among the losers, and
`"k"` maps to `"v"` again. -/
theorem c4_rolled_back_put_restored :
    c4_session = .ok (true, StorageEngine.fresh, (c4_log.map serialize_record).flatten) ∧
    reopen (c4_log.map serialize_record).flatten StorageEngine.fresh
      = .ok (true, (StorageEngine.fresh.put key_k [118]).2) ∧
    ((StorageEngine.fresh.put key_k [118]).2).get key_k = some [118] := by
  decide

end KvEngine

/-! ## Lock exclusion -/

namespace KvEngine

open LockMode

namespace LockManager

/-- The granted requests of a key are all held by one transaction, or all SHARED. -/
def Exclusion (requests : List LockRequest) : Prop :=
  (∀ a ∈ requests, ∀ b ∈ requests, a.granted = true → b.granted = true →
      a.txn_id = b.txn_id) ∨
  (∀ a ∈ requests, a.granted = true → a.mode = SHARED)

instance (requests : List LockRequest) : Decidable (Exclusion requests) := by
  unfold Exclusion; infer_instance

/-- The states of the lock manager reachable from the empty table through its calls;
a call that waits leaves its request queued, and `wake` is its return once the request
is granted. -/
inductive Reachable : LockManager → Prop where
  | new : Reachable LockManager.new
  | lock_shared (lm : LockManager) (t : U64) (k : Key) :
      Reachable lm → Reachable (lm.lock_shared t k).2
  | lock_exclusive (lm : LockManager) (t : U64) (k : Key) :
      Reachable lm → Reachable (lm.lock_exclusive t k).2
  | try_lock (lm : LockManager) (t : U64) (k : Key) (m : LockMode) :
      Reachable lm → Reachable (lm.try_lock t k m).2
  | unlock (lm : LockManager) (t : U64) (k : Key) :
      Reachable lm → Reachable (lm.unlock t k).2
  | unlock_all (lm : LockManager) (t : U64) :
      Reachable lm → Reachable (lm.unlock_all t).2
  | wake (lm lm1 : LockManager) (t : U64) (k : Key) :
      Reachable lm → lm.wake t k = some lm1 → Reachable lm1

end LockManager

open LockManager

/-- Transaction 1 holds EXCLUSIVE on `"k"`. -/
def c6_step1 : LockManager := (LockManager.new.lock_exclusive 1 key_k).2
/-- Transaction 3 asks for SHARED and waits. -/
def c6_step2 : LockManager := (c6_step1.lock_shared 3 key_k).2
/-- Transaction 2 asks for EXCLUSIVE and waits. -/
def c6_step3 : LockManager := (c6_step2.lock_exclusive 2 key_k).2
/-- Transaction 2 asks for SHARED as well (from a second thread) and waits. -/
def c6_step4 : LockManager := (c6_step3.lock_shared 2 key_k).2
/-- Transaction 1 unlocks `"k"`. -/
def c6_step5 : LockManager := (c6_step4.unlock 1 key_k).2

/-- C6, the code at the failing input: after `lock_exclusive(1,"k")`, then the waiting
calls `lock_shared(3,"k")`, `lock_exclusive(2,"k")`, `lock_shared(2,"k")`, the call
`unlock(1,"k")` grants SHARED to transaction 3 and, examining the SHARED request of
transaction 2, marks the EXCLUSIVE request of transaction 2 granted: the reachable
table breaks the exclusion invariant. -/
theorem c6_exclusive_granted_beside_shared :
    Reachable c6_step5 ∧
    (LockManager.new.lock_exclusive 1 key_k).1 = LockResult.returned true ∧
    (c6_step1.lock_shared 3 key_k).1 = LockResult.waiting ∧
    (c6_step2.lock_exclusive 2 key_k).1 = LockResult.waiting ∧
    (c6_step3.lock_shared 2 key_k).1 = LockResult.waiting ∧
    (c6_step4.unlock 1 key_k).1 = true ∧
    c6_step5.requests_on key_k
      = [⟨3, SHARED, true⟩, ⟨2, EXCLUSIVE, true⟩, ⟨2, SHARED, false⟩] ∧
    ¬ Exclusion (c6_step5.requests_on key_k) := by
  refine ⟨?_, by decide, by decide, by decide, by decide, by decide, by decide, by decide⟩
  exact Reachable.unlock _ 1 key_k (Reachable.lock_shared _ 2 key_k
    (Reachable.lock_exclusive _ 2 key_k (Reachable.lock_shared _ 3 key_k
      (Reachable.lock_exclusive _ 1 key_k Reachable.new))))

end KvEngine

/-! ## The grant rules -/

namespace KvEngine

open LockMode

namespace LockManager

/-- The first granted request of a key's list. -/
def first_granted (requests : List LockRequest) : Option LockRequest :=
  requests.find? (fun r => r.granted)

/-- The grant rules as the claim lists them: no requests; SHARED beside SHARED only;
every granted request is the requester's own; the requester holds EXCLUSIVE. -/
def GrantRules (requests : List LockRequest) (t : U64) (m : LockMode) : Prop :=
  requests = [] ∨
  (m = SHARED ∧ ∀ r ∈ requests, r.granted = true → r.mode = SHARED) ∨
  (∀ r ∈ requests, r.granted = true → r.txn_id = t) ∨
  (∃ r ∈ requests, r.granted = true ∧ r.txn_id = t ∧ r.mode = EXCLUSIVE)

/-- The grant rules as `can_grant_lock` applies them: no granted request; SHARED
beside SHARED only; every granted request is the requester's own and the request is
SHARED, or the requester's first granted request is EXCLUSIVE, or exactly one granted
request on the key is SHARED (the upgrade). -/
def GrantRulesAmended (requests : List LockRequest) (t : U64) (m : LockMode) : Prop :=
  (∀ r ∈ requests, r.granted = false) ∨
  (m = SHARED ∧ ∀ r ∈ requests, r.granted = true → r.mode = SHARED) ∨
  ((∀ r ∈ requests, r.granted = true → r.txn_id = t) ∧
    (m = SHARED ∨ (∃ g, first_granted requests = some g ∧ g.mode = EXCLUSIVE) ∨
      shared_count requests = 1))

theorem can_grant_lock_eq_scan (lm : LockManager) (key : Key) (mode : LockMode) (t : U64) :
    lm.can_grant_lock key mode t
      = can_grant_scan (lm.requests_on key) mode t (lm.requests_on key) := by
  unfold can_grant_lock requests_on
  cases lm.lock_table_.find? key with
  | none => rfl
  | some requests => rfl

theorem try_lock_fst (lm : LockManager) (t : U64) (key : Key) (mode : LockMode) :
    (lm.try_lock t key mode).1 = lm.can_grant_lock key mode t := by
  unfold try_lock
  cases lm.can_grant_lock key mode t <;> simp

theorem lock_with_mode_granted_at_once (lm : LockManager) (t : U64) (key : Key)
    (mode : LockMode) (h : lm.can_grant_lock key mode t = true) :
    lm.lock_with_mode t key mode
      = (LockResult.returned true,
          (lm.push_request key ⟨t, mode, true⟩).record_lock t key) := by
  unfold lock_with_mode
  rw [if_pos h]

/-- For an EXCLUSIVE request the loop decides at the first granted request. -/
theorem scan_exclusive (all : List LockRequest) (t : U64) (l : List LockRequest) :
    can_grant_scan all EXCLUSIVE t l =
      match l.find? (fun r => r.granted) with
      | none => true
      | some g =>
        if g.txn_id = t then
          (if g.mode = EXCLUSIVE then true else decide (shared_count all = 1))
        else false := by
  induction l with
  | nil => rfl
  | cons r rest ih =>
    unfold can_grant_scan
    rw [List.find?_cons]
    cases hg : r.granted with
    | false => simpa using ih
    | true => simp

/-- For a SHARED request the loop decides at the first granted request that is the
requester's own or EXCLUSIVE. -/
theorem scan_shared (all : List LockRequest) (t : U64) (l : List LockRequest) :
    can_grant_scan all SHARED t l =
      match l.find? (fun r => r.granted &&
          (decide (r.txn_id = t) || decide (r.mode = EXCLUSIVE))) with
      | none => true
      | some g => decide (g.txn_id = t) := by
  induction l with
  | nil => rfl
  | cons r rest ih =>
    unfold can_grant_scan
    rw [List.find?_cons]
    cases hg : r.granted with
    | false => simpa using ih
    | true =>
      by_cases h1 : r.txn_id = t
      · simp [h1]
      · by_cases h2 : r.mode = EXCLUSIVE
        · simp [h1, h2]
        · simpa [h1, h2] using ih

/-- When exactly one element satisfies `p`, two elements that satisfy it are equal. -/
theorem eq_of_countP_eq_one {α : Type} (p : α → Bool) (l : List α) (h : l.countP p = 1)
    (a b : α) (ha : a ∈ l) (hb : b ∈ l) (hpa : p a = true) (hpb : p b = true) : a = b := by
  rw [List.countP_eq_length_filter] at h
  obtain ⟨x, hx⟩ := List.length_eq_one.1 h
  have h1 : a ∈ l.filter p := List.mem_filter.2 ⟨ha, hpa⟩
  have h2 : b ∈ l.filter p := List.mem_filter.2 ⟨hb, hpb⟩
  rw [hx] at h1 h2
  rw [List.mem_singleton.1 h1, List.mem_singleton.1 h2]

/-- Under the exclusion invariant the loop of `can_grant_lock` grants exactly what the
amended rules admit. -/
theorem scan_iff_rules (requests : List LockRequest) (t : U64) (m : LockMode)
    (hinv : Exclusion requests) :
    can_grant_scan requests m t requests = true ↔ GrantRulesAmended requests t m := by
  cases m with
  | EXCLUSIVE =>
    rw [scan_exclusive]
    unfold GrantRulesAmended first_granted
    cases hf : requests.find? (fun r => r.granted) with
    | none =>
      have hnone := List.find?_eq_none.1 hf
      simp only [true_iff]
      left
      intro r hr
      simpa using hnone r hr
    | some g =>
      have hgg : g.granted = true := List.find?_some hf
      have hgm : g ∈ requests := List.mem_of_find?_eq_some hf
      have hA : ¬ ∀ r ∈ requests, r.granted = false := by
        intro h; rw [h g hgm] at hgg; exact absurd hgg (by decide)
      by_cases hown : g.txn_id = t
      · by_cases hx : g.mode = EXCLUSIVE
        · simp only [hown, hx, if_true, true_iff]
          right; right
          refine ⟨?_, Or.inr (Or.inl ⟨g, rfl, hx⟩)⟩
          rcases hinv with h1 | h2
          · intro r hr hrg
            rw [← hown]
            exact h1 r hr g hgm hrg hgg
          · have := h2 g hgm hgg
            rw [hx] at this
            exact absurd this (by decide)
        · have hs : g.mode = SHARED := by
            cases hm : g.mode with
            | SHARED => rfl
            | EXCLUSIVE => exact absurd hm hx
          simp only [hown, hx, if_true, if_false, decide_eq_true_eq]
          constructor
          · intro hc
            right; right
            refine ⟨?_, Or.inr (Or.inr hc)⟩
            rcases hinv with h1 | h2
            · intro r hr hrg
              rw [← hown]
              exact h1 r hr g hgm hrg hgg
            · intro r hr hrg
              have hpr : (fun r : LockRequest => r.granted && decide (r.mode = SHARED)) r
                  = true := by simp [hrg, h2 r hr hrg]
              have hpg : (fun r : LockRequest => r.granted && decide (r.mode = SHARED)) g
                  = true := by simp [hgg, hs]
              have := eq_of_countP_eq_one _ requests hc r g hr hgm hpr hpg
              rw [this, hown]
          · rintro (h | h | ⟨_, h | ⟨g1, hg1, hg1x⟩ | h⟩)
            · exact absurd h hA
            · exact absurd h.1 (by decide)
            · exact absurd h (by decide)
            · rw [Option.some.inj hg1] at hx
              exact absurd hg1x hx
            · exact h
      · simp only [hown, if_false, Bool.false_eq_true, false_iff]
        rintro (h | h | ⟨h, _⟩)
        · exact hA h
        · exact absurd h.1 (by decide)
        · exact hown (h g hgm hgg)
  | SHARED =>
    rw [scan_shared]
    unfold GrantRulesAmended
    cases hf : requests.find? (fun r => r.granted &&
        (decide (r.txn_id = t) || decide (r.mode = EXCLUSIVE))) with
    | none =>
      have hnone := List.find?_eq_none.1 hf
      simp only [true_iff]
      right; left
      refine ⟨trivial, ?_⟩
      intro r hr hrg
      have := hnone r hr
      simp only [hrg, Bool.true_and, Bool.or_eq_true, decide_eq_true_eq, not_or] at this
      cases hm : r.mode with
      | SHARED => rfl
      | EXCLUSIVE => exact absurd hm this.2
    | some g =>
      have hp := List.find?_some hf
      have hgm : g ∈ requests := List.mem_of_find?_eq_some hf
      simp only [Bool.and_eq_true, Bool.or_eq_true, decide_eq_true_eq] at hp
      obtain ⟨hgg, hor⟩ := hp
      simp only [decide_eq_true_eq]
      constructor
      · intro hown
        rcases hinv with h1 | h2
        · right; right
          refine ⟨?_, Or.inl trivial⟩
          intro r hr hrg
          rw [← hown]
          exact h1 r hr g hgm hrg hgg
        · right; left
          exact ⟨trivial, h2⟩
      · rintro (h | h | ⟨h, _⟩)
        · rw [h g hgm] at hgg
          exact absurd hgg (by decide)
        · rcases hor with h1 | h1
          · exact h1
          · have := h.2 g hgm hgg
            rw [h1] at this
            exact absurd this (by decide)
        · exact h g hgm hgg

end LockManager

end KvEngine

/-! ## Claims about the grant rules -/

namespace KvEngine

open LockMode LockManager

instance (requests : List LockRequest) (t : U64) (m : LockMode) :
    Decidable (GrantRules requests t m) := by
  unfold GrantRules; infer_instance

/-- Transaction 1 has taken SHARED on `"k"` twice. -/
def c7_table : LockManager :=
  ((LockManager.new.lock_shared 1 key_k).2.lock_shared 1 key_k).2

/-- C7, counterexample: transaction 1 is the sole holder of `"k"`, with two granted
SHARED requests; the table satisfies the exclusion invariant and the rule "every
granted request on k belongs to t" admits an EXCLUSIVE request of transaction 1, yet
`try_lock(1,"k",EXCLUSIVE)` returns false, because `shared_count` is 2. -/
theorem c7_upgrade_refused_for_sole_holder :
    c7_table.requests_on key_k = [⟨1, SHARED, true⟩, ⟨1, SHARED, true⟩] ∧
    Exclusion (c7_table.requests_on key_k) ∧
    GrantRules (c7_table.requests_on key_k) 1 EXCLUSIVE ∧
    (c7_table.try_lock 1 key_k EXCLUSIVE).1 = false ∧
    c7_table.can_grant_lock key_k EXCLUSIVE 1 = false := by
  decide

/-- C7, amended: on a lock table whose requests on `k` satisfy the exclusion
invariant, `try_lock(t,k,m)` and the immediate-grant test `can_grant_lock` of
`lock_shared` / `lock_exclusive` succeed if and only if `k` has no granted request,
or `m` is SHARED and all granted requests on `k` are SHARED, or every granted request
on `k` belongs to `t` and `m` is SHARED or the first granted request is EXCLUSIVE or
exactly one granted request on `k` is SHARED; otherwise `try_lock` returns false and
leaves the lock manager as it was. -/
theorem try_lock_iff_grant_rules (lm : LockManager) (k : Key) (t : U64) (m : LockMode)
    (hinv : Exclusion (lm.requests_on k)) :
    ((lm.try_lock t k m).1 = true ↔ GrantRulesAmended (lm.requests_on k) t m) ∧
    (lm.can_grant_lock k m t = true ↔ GrantRulesAmended (lm.requests_on k) t m) ∧
    (GrantRulesAmended (lm.requests_on k) t m →
      lm.lock_with_mode t k m
        = (LockResult.returned true, (lm.push_request k ⟨t, m, true⟩).record_lock t k)) ∧
    (¬ GrantRulesAmended (lm.requests_on k) t m → lm.try_lock t k m = (false, lm)) := by
  have h := scan_iff_rules (lm.requests_on k) t m hinv
  rw [← can_grant_lock_eq_scan] at h
  refine ⟨by rw [try_lock_fst]; exact h, h, ?_, ?_⟩
  · intro hr
    exact lock_with_mode_granted_at_once lm t k m (h.2 hr)
  · intro hr
    have hc : ¬ lm.can_grant_lock k m t = true := fun hc => hr (h.1 hc)
    unfold try_lock
    rw [if_pos hc]

/-- C7, witness: on `c7_table` a further SHARED request of transaction 1 is granted,
an EXCLUSIVE request of transaction 2 is not. -/
theorem try_lock_iff_grant_rules_witness :
    Exclusion (c7_table.requests_on key_k) ∧
    (c7_table.try_lock 1 key_k SHARED).1 = true ∧
    c7_table.try_lock 2 key_k EXCLUSIVE = (false, c7_table) := by
  have hinv : Exclusion (c7_table.requests_on key_k) := by decide
  refine ⟨hinv, ?_, ?_⟩
  · apply (try_lock_iff_grant_rules c7_table key_k 1 SHARED hinv).1.2
    right; left
    exact ⟨rfl, by decide⟩
  · apply (try_lock_iff_grant_rules c7_table key_k 2 EXCLUSIVE hinv).2.2.2
    rintro (h | h | ⟨h, _⟩)
    · exact absurd (h ⟨1, SHARED, true⟩ (by decide)) (by decide)
    · exact absurd h.1 (by decide)
    · exact absurd (h ⟨1, SHARED, true⟩ (by decide) rfl) (by decide)

end KvEngine

/-! ## Claims about the log -/

namespace KvEngine

open LogRecordType

/-- C9: decoding undoes encoding: for every record whose key and value are shorter
than `2^32` bytes and every trailing byte string, `deserialize_record` at offset 0 of
`serialize_record r` followed by the trailing bytes returns `r` (type, txn_id, lsn,
key, value and checksum) and the offset `(serialize_record r).length`. -/
theorem deserialize_serialize (r : LogRecord) (rest : Bytes)
    (hk : r.key.length < 2 ^ 32) (hv : r.value.length < 2 ^ 32) :
    deserialize_record (serialize_record r ++ rest) 0
      = .ok (r, (serialize_record r).length) := by
  have h := deserialize_serialize_at [] rest r hk hv
  simpa using h

/-- C9, witness: a PUT record of transaction 7 with LSN 3, followed by two bytes. -/
theorem deserialize_serialize_witness :
    (([107, 101, 121] : Bytes).length < 2 ^ 32) ∧ (([118] : Bytes).length < 2 ^ 32) ∧
    deserialize_record
      (serialize_record ⟨PUT, 7, 3, [107, 101, 121], [118], 99⟩ ++ [1, 2]) 0
      = .ok (⟨PUT, 7, 3, [107, 101, 121], [118], 99⟩,
          (serialize_record ⟨PUT, 7, 3, [107, 101, 121], [118], 99⟩).length) :=
  ⟨by decide, by decide,
    deserialize_serialize ⟨PUT, 7, 3, [107, 101, 121], [118], 99⟩ [1, 2]
      (by decide) (by decide)⟩

end KvEngine

namespace KvEngine

open LogRecordType

namespace WAL

/-- After a run of appends that does not fill the buffer and a flush, `read_from(0)`
on the fresh log returns the records as stamped. -/
theorem contents_after_appends (rs : List LogRecord) (hn : rs.length < BUFFER_SIZE)
    (hk : ∀ r ∈ rs, r.key.length < 2 ^ 32 ∧ r.value.length < 2 ^ 32) :
    wal_contents_after rs = .ok (stampFrom 0 rs) := by
  obtain ⟨w1, e1, f1, o1, m1, _, _⟩ := appendAll_ok rs { WAL.new with is_open_ := true }
    rfl rfl (by simpa [WAL.new] using hn)
  have hflush : w1.flush = .ok (true, w1.flush_internal.unlock) := by
    simp [flush, lock, m1, o1, bind, Except.bind, pure, Except.pure, flush_internal, unlock]
  have hread : (w1.flush_internal.unlock).read_from 0 = .ok (stampFrom 0 rs) := by
    apply read_from_zero_frames
    · exact o1
    · rfl
    · simpa [flush_internal, unlock, WAL.new] using f1
    · intro x hx
      obtain ⟨lsn, r, hr, hxr⟩ := mem_stampFrom 0 rs x hx
      rw [hxr]
      exact validRecord_stamp lsn r (hk r hr).1 (hk r hr).2
  have e1' : appendAll { WAL.new with is_open_ := true } rs
      = .ok ((stampFrom 0 rs).map (fun r => (r.lsn, r)), w1) := e1
  simp only [wal_contents_after, initialize_wal_empty, e1', hflush, hread, bind,
    Except.bind]

end WAL

/-- C8, amended: on a WAL initialized on an empty log, after appending fewer than
`BUFFER_SIZE` (100) records `r1..rn` whose keys and values are shorter than `2^32`
bytes and flushing, `read_from(0)` returns exactly `n` records in append order, the
`i`-th carrying `ri`'s type, txn_id, key and value unchanged, its lsn equal to `i`,
and a checksum equal to the one recomputed from it. -/
theorem wal_roundtrip (rs : List LogRecord) (hn : rs.length < BUFFER_SIZE)
    (hk : ∀ r ∈ rs, r.key.length < 2 ^ 32 ∧ r.value.length < 2 ^ 32) :
    ∃ recs, wal_contents_after rs = .ok recs ∧ recs.length = rs.length ∧
      ∀ i (hi : i < rs.length), ∃ record, recs[i]? = some record ∧
        record.type = rs[i].type ∧ record.txn_id = rs[i].txn_id ∧
        record.key = rs[i].key ∧ record.value = rs[i].value ∧
        record.lsn.val = i + 1 ∧ record.checksum = calculate_checksum record := by
  refine ⟨WAL.stampFrom 0 rs, WAL.contents_after_appends rs hn hk,
    WAL.stampFrom_length 0 rs, ?_⟩
  intro i hi
  obtain ⟨lsn, hl, hg⟩ := WAL.stampFrom_getElem 0 rs i hi
  refine ⟨WAL.stamp lsn rs[i], hg, rfl, rfl, rfl, rfl, ?_, WAL.stamp_checksum lsn rs[i]⟩
  rw [WAL.stamp_lsn, hl]
  have h0 : ((0 : U64) : Nat) = 0 := rfl
  have h100 : BUFFER_SIZE = 100 := rfl
  rw [h0]
  omega

set_option maxRecDepth 100000 in
/-- C8, witness: the three appends of the test `test_wal_append_and_read`. -/
theorem wal_roundtrip_witness :
    ([LogRecord.new PUT 1 [107, 49] [118, 49], LogRecord.new PUT 1 [107, 50] [118, 50],
      LogRecord.new DELETE 1 [107, 49] []].length < BUFFER_SIZE) ∧
    (∀ r ∈ [LogRecord.new PUT 1 [107, 49] [118, 49], LogRecord.new PUT 1 [107, 50] [118, 50],
      LogRecord.new DELETE 1 [107, 49] []], r.key.length < 2 ^ 32 ∧ r.value.length < 2 ^ 32) ∧
    ∃ recs, wal_contents_after [LogRecord.new PUT 1 [107, 49] [118, 49],
        LogRecord.new PUT 1 [107, 50] [118, 50], LogRecord.new DELETE 1 [107, 49] []]
        = .ok recs ∧ recs.length = 3 :=
  ⟨by decide, by decide,
    (wal_roundtrip [LogRecord.new PUT 1 [107, 49] [118, 49],
      LogRecord.new PUT 1 [107, 50] [118, 50], LogRecord.new DELETE 1 [107, 49] []]
      (by decide) (by decide)).imp (fun _ h => ⟨h.1, h.2.1⟩)⟩

end KvEngine

/-! ## Frames read from their layout, and appends that fill the buffer -/

namespace KvEngine

open LogRecordType

/-- Decoding a frame from the layout of the bytes at `off`: the fields are read as
they lie, the lengths taken from the two length fields. -/
theorem deserialize_of_layout (data : Bytes) (off : Nat) (ty : Byte)
    (t8 l8 k4 key v4 value c4 rest : Bytes) (hoff : off ≤ data.length)
    (hdrop : data.drop off
      = [ty] ++ (t8 ++ (l8 ++ (k4 ++ (key ++ (v4 ++ (value ++ (c4 ++ rest))))))))
    (ht : t8.length = 8) (hl : l8.length = 8) (hk4 : k4.length = 4)
    (hkey : key.length = readLE k4) (hv4 : v4.length = 4)
    (hvalue : value.length = readLE v4) (hc4 : c4.length = 4) :
    deserialize_record data off
      = .ok ({ type := ty, txn_id := Fin.ofNat (readLE t8), lsn := Fin.ofNat (readLE l8),
               key := key, value := value, checksum := Fin.ofNat (readLE c4) },
             off + 1 + 8 + 8 + 4 + readLE k4 + 4 + readLE v4 + 4) := by
  obtain ⟨e1, d1, l1⟩ := readBytes_of_drop data _ 1 _ _ hoff hdrop rfl
  obtain ⟨e2, d2, l2⟩ := readBytes_of_drop data _ 8 _ _ l1 d1 ht
  obtain ⟨e3, d3, l3⟩ := readBytes_of_drop data _ 8 _ _ l2 d2 hl
  obtain ⟨e4, d4, l4⟩ := readBytes_of_drop data _ 4 _ _ l3 d3 hk4
  obtain ⟨e5, d5, l5⟩ := readBytes_of_drop data _ (readLE k4) _ _ l4 d4 hkey
  obtain ⟨e6, d6, l6⟩ := readBytes_of_drop data _ 4 _ _ l5 d5 hv4
  obtain ⟨e7, d7, l7⟩ := readBytes_of_drop data _ (readLE v4) _ _ l6 d6 hvalue
  obtain ⟨e8, _, _⟩ := readBytes_of_drop data _ 4 _ _ l7 d7 hc4
  have hlt : ¬ off ≥ data.length := by omega
  unfold deserialize_record
  rw [if_neg hlt]
  simp only [bind, Except.bind, e1, e2, e3, e4, e5, e6, e7, e8, pure, Except.pure,
    List.getD_cons_zero]

namespace WAL

/-- The fresh open log. -/
def fresh_open : WAL := { WAL.new with is_open_ := true }

theorem appendAll_fills_buffer (rs : List LogRecord) (r : LogRecord) (w : WAL)
    (hopen : w.is_open_ = true) (hm : w.mutex_held = false)
    (hb : w.buffer_.length + rs.length + 1 = BUFFER_SIZE) :
    appendAll w (rs ++ [r]) = .error Fault.deadlock := by
  induction rs generalizing w with
  | nil =>
    have h := append_deadlock w r hopen hm (by simp at hb; omega)
    simp [appendAll, h]
  | cons x t ih =>
    simp only [List.length_cons] at hb
    have h1 := append_ok w x hopen hm (by omega)
    have h2 := ih
      { w with current_lsn_ := w.current_lsn_ + 1,
               file := w.file ++ serialize_record (stamp (w.current_lsn_ + 1) x),
               buffer_ := w.buffer_ ++ [stamp (w.current_lsn_ + 1) x] }
      hopen hm (by simp only [List.length_append, List.length_singleton]; omega)
    have h3 : (x :: t) ++ [r] = x :: (t ++ [r]) := rfl
    rw [h3]
    unfold appendAll
    rw [h1]
    simp only [h2]

end WAL

/-- The record appended a hundred times. -/
def c10_record : LogRecord := LogRecord.new PUT 1 key_k [118]

/-- C10, the code at the failing input: on the fresh open log 99 appends return the
LSNs 1 to 99 and leave `get_last_lsn` at 99; the 100th append fills `buffer_`, calls
`flush()` while it holds `mutex_`, and never returns, so that no LSN 100 is returned
and the run of 100 appends does not complete. -/
theorem c10_hundredth_append_never_returns :
    (∃ w, WAL.appendAll WAL.fresh_open (List.replicate 99 c10_record)
        = .ok ((WAL.stampFrom 0 (List.replicate 99 c10_record)).map (fun r => (r.lsn, r)), w) ∧
      w.get_last_lsn = 99 ∧ w.append c10_record = .error Fault.deadlock) ∧
    WAL.appendAll WAL.fresh_open (List.replicate 100 c10_record) = .error Fault.deadlock ∧
    wal_contents_after (List.replicate 100 c10_record) = .error Fault.deadlock := by
  have h100 : List.replicate 100 c10_record = List.replicate 99 c10_record ++ [c10_record] :=
    List.replicate_succ' 99 c10_record
  have hdead : WAL.appendAll WAL.fresh_open (List.replicate 100 c10_record)
      = .error Fault.deadlock := by
    rw [h100]
    exact WAL.appendAll_fills_buffer _ _ WAL.fresh_open rfl rfl (by simp [WAL.fresh_open, WAL.new, BUFFER_SIZE])
  refine ⟨?_, hdead, ?_⟩
  · obtain ⟨w, e, _, o, m, b, c⟩ := WAL.appendAll_ok (List.replicate 99 c10_record)
      WAL.fresh_open rfl rfl (by simp [WAL.fresh_open, WAL.new, BUFFER_SIZE])
    refine ⟨w, e, ?_, ?_⟩
    · apply Fin.ext
      rw [WAL.get_last_lsn, c]
      simp only [WAL.fresh_open, WAL.new, List.length_replicate]
      rfl
    · apply WAL.append_deadlock w c10_record o m
      rw [b]
      simp [WAL.fresh_open, WAL.new, WAL.stampFrom_length, BUFFER_SIZE]
  · have hd : WAL.appendAll { WAL.new with is_open_ := true } (List.replicate 100 c10_record)
        = .error Fault.deadlock := hdead
    simp only [wal_contents_after, WAL.initialize_wal_empty, hd, bind, Except.bind]

end KvEngine

/-! ## A key that overflows the length field -/

namespace KvEngine
open LogRecordType

/-- A key of `2^32` zero bytes. -/
def c8_long_key : Key := List.replicate (2 ^ 32) 0

/-- A PUT of the long key with an empty value. -/
def c8_record : LogRecord := LogRecord.new PUT 1 c8_long_key []

/-- The record that the frame of `c8_record` decodes to: the length field of the key
wrapped to 0, so key and value are read as empty and the checksum as 0. -/
def c8_decoded : LogRecord :=
  { type := PUT, txn_id := 1, lsn := 1, key := [], value := [], checksum := 0 }

theorem c8_key_split :
    c8_long_key = [0, 0, 0, 0] ++ ([0, 0, 0, 0] ++ List.replicate (2 ^ 32 - 8) 0) := by
  have h : ∀ n : Nat, List.replicate (n + 8) (0 : Byte)
      = [0, 0, 0, 0] ++ ([0, 0, 0, 0] ++ List.replicate n 0) := by
    intro n; rfl
  have h2 : (2 : Nat) ^ 32 = (2 ^ 32 - 8) + 8 := by norm_num
  unfold c8_long_key
  exact (congrArg (fun n => List.replicate n (0 : Byte)) h2).trans (h _)

theorem c8_key_length : c8_long_key.length = 2 ^ 32 :=
  List.length_replicate _ _

/-- A PUT of `key` by transaction 1 as stamped with LSN 1 and checksum `c`. -/
def long_key_stamped (key : Key) (c : U32) : LogRecord :=
  { type := PUT, txn_id := 1, lsn := 1, key := key, value := [], checksum := c }

/-- The frame of a PUT whose key is `2^32` bytes long and starts with eight zero
bytes: the key length field holds 0. -/
theorem long_key_frame_layout (key tail : Bytes) (c : U32) (hlen : key.length = 2 ^ 32)
    (hkey : key = [0, 0, 0, 0] ++ ([0, 0, 0, 0] ++ tail)) :
    serialize_record (long_key_stamped key c)
      = [PUT] ++ (pushLE 8 1 ++ (pushLE 8 1 ++ (pushLE 4 0 ++ ([] ++ ([0, 0, 0, 0]
          ++ ([] ++ ([0, 0, 0, 0] ++ (tail ++ pushLE 4 0 ++ pushLE 4 c.val)))))))) := by
  have h1 : ((1 : U64) : Nat) = 1 := rfl
  unfold serialize_record long_key_stamped
  simp only [hlen, Nat.mod_self, List.length_nil, Nat.zero_mod, h1]
  rw [hkey]
  simp only [List.append_assoc, List.nil_append, List.append_nil]

set_option maxRecDepth 100000 in
theorem c8_decoded_checksum : c8_decoded.checksum ≠ calculate_checksum c8_decoded := by
  decide

/-- The read loop on such a frame stops at once. -/
theorem long_key_read_loop (key tail : Bytes) (c : U32) (hlen : key.length = 2 ^ 32)
    (hkey : key = [0, 0, 0, 0] ++ ([0, 0, 0, 0] ++ tail)) (fuel : Nat) (hf : 1 ≤ fuel) :
    read_loop (serialize_record (long_key_stamped key c)) fuel 0 = .ok [] := by
  have hlay := long_key_frame_layout key tail c hlen hkey
  generalize serialize_record (long_key_stamped key c) = data at hlay
  have hlen : 0 < data.length := by
    rw [hlay]; simp
  have hde := deserialize_of_layout data 0 PUT (pushLE 8 1) (pushLE 8 1) (pushLE 4 0) []
    [0, 0, 0, 0] [] [0, 0, 0, 0] _ (Nat.zero_le _) (by rw [List.drop_zero]; exact hlay)
    (pushLE_length _ _) (pushLE_length _ _) (pushLE_length _ _) (by decide) rfl
    (by decide) rfl
  have hrec : LogRecord.mk PUT (Fin.ofNat (readLE (pushLE 8 1)))
      (Fin.ofNat (readLE (pushLE 8 1))) [] [] (Fin.ofNat (readLE [0, 0, 0, 0]))
      = c8_decoded := by
    decide
  rw [hrec] at hde
  cases fuel with
  | zero => omega
  | succ f =>
    unfold read_loop
    rw [if_pos hlen, hde]
    simp only [ne_eq, c8_decoded_checksum, not_false_eq_true, if_true]

/-- A record with such a key, appended to the fresh log and flushed, is not read back. -/
theorem long_key_contents (key tail : Bytes) (hlen : key.length = 2 ^ 32)
    (hkey : key = [0, 0, 0, 0] ++ ([0, 0, 0, 0] ++ tail)) :
    wal_contents_after [LogRecord.new PUT 1 key []] = .ok [] := by
  have happ := WAL.append_ok { WAL.new with is_open_ := true } (LogRecord.new PUT 1 key [])
    rfl rfl (by simp [WAL.new, BUFFER_SIZE])
  have hstamp : WAL.stamp ((0 : U64) + 1) (LogRecord.new PUT 1 key [])
      = long_key_stamped key (WAL.stamp ((0 : U64) + 1) (LogRecord.new PUT 1 key [])).checksum :=
    rfl
  generalize (WAL.stamp ((0 : U64) + 1) (LogRecord.new PUT 1 key [])).checksum = c at hstamp
  have hloop := long_key_read_loop key tail c hlen hkey
  have hflen : 1 ≤ (serialize_record (long_key_stamped key c)).length := by
    rw [serialize_record_length]; omega
  simp only [wal_contents_after, WAL.initialize_wal_empty, WAL.appendAll, bind, Except.bind]
  rw [happ]
  simp only [WAL.new, hstamp, WAL.flush, WAL.lock, WAL.unlock, WAL.flush_internal,
    WAL.read_from, WAL.read_all_internal, bind, Except.bind, pure, Except.pure,
    List.nil_append, Bool.false_eq_true, if_false, not_true_eq_false]
  rw [hloop _ hflen]
  rfl

/-- C8, counterexample: one record whose key is `2^32` bytes long is appended to the
fresh log and flushed; the key length is written as 0 in the `uint32_t` length
field, and `read_from(0)` returns no record at all instead of the one appended. -/
theorem c8_long_key_not_read_back : wal_contents_after [c8_record] = .ok [] :=
  long_key_contents c8_long_key (List.replicate (2 ^ 32 - 8) 0) c8_key_length c8_key_split

end KvEngine

/-! ## The frame layout and the CRC -/

namespace KvEngine

open LogRecordType

/-- The `n`-byte little-endian encoding of `x`, in the words of the format: byte `i`
is the `i`-th digit of `x` in base 256. -/
def little_endian (n : Nat) (x : Nat) : Bytes :=
  (List.range n).map (fun i => Fin.ofNat (x / 256 ^ i % 256))

theorem pushLE_eq_little_endian (n x : Nat) : pushLE n x = little_endian n x := by
  unfold pushLE little_endian
  apply List.map_congr_left
  intro i _
  apply Fin.ext
  rw [lowByte_val, Nat.shiftRight_eq_div_pow]
  have h : (2 : Nat) ^ (i * 8) = 256 ^ i := by
    rw [Nat.mul_comm, Nat.pow_mul]
  rw [h]
  simp [Fin.ofNat]

/-- One step of the bit-by-bit CRC-32 with the reflected polynomial `0xEDB88320`:
shift right, and XOR the polynomial in when the bit shifted out is 1. -/
def crc32_bit_step (crc : Nat) : Nat :=
  if crc &&& 1 = 1 then (crc >>> 1) ^^^ 0xEDB88320 else crc >>> 1

/-- The result of `k` steps of the bit-by-bit reduction. -/
def crc32_reduce : Nat → Nat → Nat
  | 0, crc => crc
  | k + 1, crc => crc32_reduce k (crc32_bit_step crc)

/-- The bit-by-bit reference CRC-32: initial value `0xFFFFFFFF`, each byte XORed into
the low bits and reduced by eight steps, final XOR with `0xFFFFFFFF`. -/
def crc32_reference (data : Bytes) : U32 :=
  Fin.ofNat ((data.foldl (fun crc b => crc32_reduce 8 (crc ^^^ b.val)) 0xFFFFFFFF)
    ^^^ 0xFFFFFFFF)

theorem crc32_bit_step_eq (x : Nat) :
    crc32_bit_step x = x / 2 ^^^ (if x % 2 = 1 then 0xEDB88320 else 0) := by
  unfold crc32_bit_step
  rw [Nat.and_one_is_mod, Nat.shiftRight_eq_div_pow, Nat.pow_one]
  split_ifs <;> simp

theorem crc32_bit_step_xor (x y : Nat) :
    crc32_bit_step (x ^^^ y) = crc32_bit_step x ^^^ crc32_bit_step y := by
  rw [crc32_bit_step_eq, crc32_bit_step_eq, crc32_bit_step_eq, Nat.xor_div_two,
    Nat.xor_mod_two_eq]
  rcases Nat.mod_two_eq_zero_or_one x with hx | hx <;>
    rcases Nat.mod_two_eq_zero_or_one y with hy | hy
  · have : (x + y) % 2 = 0 := by omega
    simp [hx, hy, this]
  · have : (x + y) % 2 = 1 := by omega
    simp only [hx, hy, this, if_true, Nat.xor_zero, Nat.xor_assoc]
    simp
  · have : (x + y) % 2 = 1 := by omega
    simp only [hx, hy, this, if_true, Nat.xor_zero]
    simp only [Nat.zero_ne_one, if_false, Nat.xor_zero]
    rw [Nat.xor_assoc, Nat.xor_assoc, Nat.xor_comm (y / 2)]
  · have : (x + y) % 2 = 0 := by omega
    simp only [hx, hy, this, if_true, Nat.zero_ne_one, if_false, Nat.xor_zero]
    rw [Nat.xor_assoc, ← Nat.xor_assoc 0xEDB88320, Nat.xor_comm 0xEDB88320 (y / 2),
      Nat.xor_assoc (y / 2), Nat.xor_self, Nat.xor_zero]

theorem crc32_reduce_xor (k x y : Nat) :
    crc32_reduce k (x ^^^ y) = crc32_reduce k x ^^^ crc32_reduce k y := by
  induction k generalizing x y with
  | zero => rfl
  | succ k ih => simp only [crc32_reduce, crc32_bit_step_xor, ih]

theorem crc32_reduce_of_low_zero (k x : Nat) (h : x % 2 ^ k = 0) :
    crc32_reduce k x = x / 2 ^ k := by
  induction k generalizing x with
  | zero => simp [crc32_reduce]
  | succ k ih =>
    have h2 : x % 2 = 0 := by
      have h3 : x % 2 ^ (k + 1) % 2 = x % 2 :=
        Nat.mod_mod_of_dvd x (Dvd.intro_left (2 ^ k) rfl)
      rw [h] at h3
      exact h3.symm
    have hstep : crc32_bit_step x = x / 2 := by
      rw [crc32_bit_step_eq]
      simp [h2]
    have hrest : x / 2 % 2 ^ k = 0 := by
      have hd : 2 ^ (k + 1) ∣ x := Nat.dvd_of_mod_eq_zero h
      obtain ⟨c, hc⟩ := hd
      rw [hc, Nat.pow_succ, Nat.mul_assoc, Nat.mul_comm, Nat.mul_assoc,
        Nat.mul_div_cancel_left _ (by decide : 0 < 2)]
      simp
    simp only [crc32_reduce, hstep, ih _ hrest]
    rw [Nat.div_div_eq_div_mul, Nat.pow_succ, Nat.mul_comm]

theorem mul_add_eq_xor (i a b : Nat) (hb : b < 2 ^ i) :
    2 ^ i * a + b = (2 ^ i * a) ^^^ b := by
  apply Nat.eq_of_testBit_eq
  intro j
  rw [Nat.testBit_xor, Nat.testBit_mul_pow_two_add a hb j, Nat.testBit_mul_pow_two]
  by_cases hj : j < i
  · have : ¬ i ≤ j := by omega
    simp [hj, this]
  · have hle : i ≤ j := by omega
    have hbj : b.testBit j = false :=
      Nat.testBit_lt_two_pow (Nat.lt_of_lt_of_le hb (Nat.pow_le_pow_right (by decide) hle))
    simp [hj, hle, hbj]

theorem xor_div_two_pow (k a b : Nat) : (a ^^^ b) / 2 ^ k = a / 2 ^ k ^^^ b / 2 ^ k := by
  induction k generalizing a b with
  | zero => simp
  | succ k ih =>
    rw [Nat.pow_succ, Nat.mul_comm, ← Nat.div_div_eq_div_mul, ← Nat.div_div_eq_div_mul,
      ← Nat.div_div_eq_div_mul, Nat.xor_div_two, ih]

set_option maxRecDepth 100000 in
/-- Each entry of the table is the eight-step reduction of its index. -/
theorem crc32_table_entries : CRC32_TABLE = (List.range 256).map (crc32_reduce 8) := by
  decide

set_option maxRecDepth 100000 in
theorem crc32_table_lt (i : Nat) : CRC32_TABLE.getD i 0 < 2 ^ 32 := by
  by_cases h : i < 256
  · have : ∀ j : Fin 256, CRC32_TABLE.getD j.val 0 < 2 ^ 32 := by decide
    exact this ⟨i, h⟩
  · have hlen : CRC32_TABLE.length = 256 := by decide
    rw [List.getD_eq_default _ _ (by omega)]
    decide

theorem crc32_table_getD (i : Nat) (h : i < 256) :
    CRC32_TABLE.getD i 0 = crc32_reduce 8 i := by
  rw [crc32_table_entries, List.getD_eq_getElem?_getD, List.getElem?_map,
    List.getElem?_range h]
  rfl

/-- Eight bit steps on a value equal one table lookup on its low byte, XORed with the
value shifted right by a byte. -/
theorem crc32_reduce_eq_table (x : Nat) :
    crc32_reduce 8 x = CRC32_TABLE.getD (x &&& 0xFF) 0 ^^^ (x >>> 8) := by
  have hand : x &&& 0xFF = x % 2 ^ 8 := Nat.and_pow_two_sub_one_eq_mod x 8
  have hlt : x % 2 ^ 8 < 2 ^ 8 := Nat.mod_lt _ (by decide)
  have hsplit : x = (2 ^ 8 * (x / 2 ^ 8)) ^^^ (x % 2 ^ 8) := by
    rw [← mul_add_eq_xor 8 _ _ hlt]
    exact (Nat.div_add_mod x (2 ^ 8)).symm
  have hhi : crc32_reduce 8 (2 ^ 8 * (x / 2 ^ 8)) = x / 2 ^ 8 := by
    rw [crc32_reduce_of_low_zero 8 _ (Nat.mul_mod_right _ _),
      Nat.mul_div_cancel_left _ (by decide : 0 < 2 ^ 8)]
  rw [hand, Nat.shiftRight_eq_div_pow, crc32_table_getD _ hlt]
  conv_lhs => rw [hsplit]
  rw [crc32_reduce_xor, hhi, Nat.xor_comm]

theorem crc32_reduce_lt (x : Nat) (hx : x < 2 ^ 32) : crc32_reduce 8 x < 2 ^ 32 := by
  rw [crc32_reduce_eq_table]
  apply Nat.xor_lt_two_pow (crc32_table_lt _)
  rw [Nat.shiftRight_eq_div_pow]
  exact Nat.lt_of_le_of_lt (Nat.div_le_self _ _) hx

/-- One round of the table-driven loop is the eight-step reduction of `crc ^ byte`. -/
theorem crc32_round (crc : Nat) (b : Byte) (hc : crc < 2 ^ 32) :
    (CRC32_TABLE.getD ((crc ^^^ b.val) &&& 0xFF) 0 ^^^ (crc >>> 8)) % 2 ^ 32
      = crc32_reduce 8 (crc ^^^ b.val) := by
  have hb : b.val < 2 ^ 32 := Nat.lt_of_lt_of_le b.isLt (by decide)
  have hx : crc ^^^ b.val < 2 ^ 32 := Nat.xor_lt_two_pow hc hb
  have hshift : (crc ^^^ b.val) >>> 8 = crc >>> 8 := by
    rw [Nat.shiftRight_eq_div_pow, Nat.shiftRight_eq_div_pow, xor_div_two_pow]
    have : b.val / 2 ^ 8 = 0 := Nat.div_eq_of_lt b.isLt
    rw [this, Nat.xor_zero]
  have h := crc32_reduce_eq_table (crc ^^^ b.val)
  rw [hshift] at h
  rw [← h]
  exact Nat.mod_eq_of_lt (crc32_reduce_lt _ hx)

theorem crc32_fold_eq (data : Bytes) (c : Nat) (hc : c < 2 ^ 32) :
    data.foldl (fun crc b =>
        (CRC32_TABLE.getD ((crc ^^^ b.val) &&& 0xFF) 0 ^^^ (crc >>> 8)) % 2 ^ 32) c
      = data.foldl (fun crc b => crc32_reduce 8 (crc ^^^ b.val)) c := by
  induction data generalizing c with
  | nil => rfl
  | cons b t ih =>
    simp only [List.foldl_cons]
    rw [crc32_round c b hc]
    have hb : b.val < 2 ^ 32 := Nat.lt_of_lt_of_le b.isLt (by decide)
    exact ih _ (crc32_reduce_lt _ (Nat.xor_lt_two_pow hc hb))

/-- C17: the table-driven `crc32` equals the bit-by-bit reference CRC-32 (reflected
polynomial `0xEDB88320`, initial value `0xFFFFFFFF`, final XOR `0xFFFFFFFF`) on every
byte string; the table has 256 entries, each the eight-step reduction of its index;
and the CRC of the ASCII bytes of "123456789" is `0xCBF43926`. -/
theorem crc32_eq_reference :
    (∀ data : Bytes, crc32 data = crc32_reference data) ∧
    CRC32_TABLE = (List.range 256).map (crc32_reduce 8) ∧
    crc32 [49, 50, 51, 52, 53, 54, 55, 56, 57] = 0xCBF43926 := by
  refine ⟨?_, crc32_table_entries, by decide⟩
  intro data
  unfold crc32 crc32_reference
  simp only
  rw [crc32_fold_eq data 0xFFFFFFFF (by decide)]

/-- C16: for every record whose key and value are shorter than `2^32` bytes,
`serialize_record` is the type byte, the 8 little-endian bytes of txn_id, the 8
little-endian bytes of lsn, the 4 little-endian bytes of the key length, the key, the
4 little-endian bytes of the value length, the value, and the 4 little-endian bytes of
the checksum; its length is `29 + |key| + |value|`. -/
theorem serialize_record_layout (r : LogRecord)
    (hk : r.key.length < 2 ^ 32) (hv : r.value.length < 2 ^ 32) :
    serialize_record r
      = [r.type] ++ little_endian 8 r.txn_id.val ++ little_endian 8 r.lsn.val
          ++ little_endian 4 r.key.length ++ r.key
          ++ little_endian 4 r.value.length ++ r.value
          ++ little_endian 4 r.checksum.val ∧
    (serialize_record r).length = 29 + r.key.length + r.value.length := by
  refine ⟨?_, serialize_record_length r⟩
  unfold serialize_record
  rw [Nat.mod_eq_of_lt hk, Nat.mod_eq_of_lt hv]
  simp only [pushLE_eq_little_endian]

/-- C16, witness: a PUT of key "ab" and value "c" by transaction 258 with LSN 3 and
checksum `0x01020304`, byte for byte. -/
theorem serialize_record_layout_witness :
    (([97, 98] : Bytes).length < 2 ^ 32) ∧ (([99] : Bytes).length < 2 ^ 32) ∧
    serialize_record (LogRecord.mk PUT 258 3 [97, 98] [99] 0x01020304)
      = [1, 2, 1, 0, 0, 0, 0, 0, 0, 3, 0, 0, 0, 0, 0, 0, 0, 2, 0, 0, 0, 97, 98,
         1, 0, 0, 0, 99, 4, 3, 2, 1] ∧
    (serialize_record (LogRecord.mk PUT 258 3 [97, 98] [99] 0x01020304)).length = 32 := by
  have h := serialize_record_layout (LogRecord.mk PUT 258 3 [97, 98] [99] 0x01020304)
    (by decide) (by decide)
  exact ⟨by decide, by decide, h.1.trans (by decide), h.2⟩

end KvEngine

/-! ## Reading a log file: frames, invalid tails and torn writes -/

namespace KvEngine

open LogRecordType

/-- The bytes of a log file made of the frames of `rs`, in order. -/
def frames (rs : List LogRecord) : Bytes := (rs.map serialize_record).flatten

theorem frames_nil : frames [] = [] := rfl

theorem frames_cons (r : LogRecord) (rs : List LogRecord) :
    frames (r :: rs) = serialize_record r ++ frames rs := rfl

theorem frames_append (a b : List LogRecord) : frames (a ++ b) = frames a ++ frames b := by
  simp [frames]

theorem frames_length_ge (rs : List LogRecord) : rs.length ≤ (frames rs).length := by
  induction rs with
  | nil => simp [frames]
  | cons r t ih =>
    rw [frames_cons, List.length_append, serialize_record_length, List.length_cons]
    omega

theorem bind_eq_ok {ε α β : Type} (x : Except ε α) (f : α → Except ε β) (v : β) :
    (x >>= f) = .ok v ↔ ∃ a, x = .ok a ∧ f a = .ok v := by
  cases x with
  | error e => simp [bind, Except.bind]
  | ok a => simp [bind, Except.bind]

theorem readBytes_eq_ok (data : Bytes) (off n : Nat) (b : Bytes)
    (h : readBytes data off n = .ok b) :
    off + n ≤ data.length ∧ b = (data.drop off).take n ∧ b.length = n := by
  unfold readBytes at h
  split_ifs at h with hle
  have hb : b = (data.drop off).take n := (Except.ok.inj h).symm
  refine ⟨hle, hb, ?_⟩
  rw [hb, List.length_take, List.length_drop]
  omega

theorem readBytes_eq_error (data : Bytes) (off n : Nat) (e : Fault)
    (h : readBytes data off n = .error e) :
    e = Fault.out_of_bounds ∧ data.length < off + n := by
  unfold readBytes at h
  split_ifs at h with hle
  exact ⟨(Except.error.inj h).symm, by omega⟩

/-- A read that fits in a file reads the same bytes from any longer file. -/
theorem readBytes_extend (data ext : Bytes) (off n : Nat) (b : Bytes)
    (h : readBytes data off n = .ok b) : readBytes (data ++ ext) off n = .ok b := by
  obtain ⟨hle, hb, _⟩ := readBytes_eq_ok data off n b h
  unfold readBytes
  rw [if_pos (by rw [List.length_append]; omega), hb]
  congr 1
  rw [List.drop_append_of_le_length (by omega), List.take_append_of_le_length]
  rw [List.length_drop]
  omega

theorem readLE_lt (bs : Bytes) : readLE bs < 2 ^ (bs.length * 8) := by
  induction bs using List.reverseRecOn with
  | nil => simp [readLE]
  | append_singleton l b ih =>
    rw [readLE_append_singleton, List.length_append, List.length_singleton]
    have h8 : (l.length + 1) * 8 = l.length * 8 + 8 := by ring
    rw [h8]
    apply Nat.or_lt_two_pow
    · exact Nat.lt_of_lt_of_le ih (Nat.pow_le_pow_right (by decide) (by omega))
    · rw [Nat.shiftLeft_eq, Nat.pow_add, Nat.mul_comm]
      exact Nat.mul_lt_mul_of_pos_left b.isLt (Nat.two_pow_pos _)

/-- What a successful `deserialize_record` has read. -/
theorem deserialize_eq_ok (data : Bytes) (off : Nat) (rec : LogRecord) (off1 : Nat)
    (h : deserialize_record data off = .ok (rec, off1)) :
    off < data.length ∧
    ∃ ty txn lsn klen key vlen value ck,
      readBytes data off 1 = .ok ty ∧
      readBytes data (off + 1) 8 = .ok txn ∧
      readBytes data (off + 1 + 8) 8 = .ok lsn ∧
      readBytes data (off + 1 + 8 + 8) 4 = .ok klen ∧
      readBytes data (off + 1 + 8 + 8 + 4) (readLE klen) = .ok key ∧
      readBytes data (off + 1 + 8 + 8 + 4 + readLE klen) 4 = .ok vlen ∧
      readBytes data (off + 1 + 8 + 8 + 4 + readLE klen + 4) (readLE vlen) = .ok value ∧
      readBytes data (off + 1 + 8 + 8 + 4 + readLE klen + 4 + readLE vlen) 4 = .ok ck ∧
      rec = LogRecord.mk (ty.getD 0 0) (Fin.ofNat (readLE txn)) (Fin.ofNat (readLE lsn))
        key value (Fin.ofNat (readLE ck)) ∧
      off1 = off + 1 + 8 + 8 + 4 + readLE klen + 4 + readLE vlen + 4 := by
  unfold deserialize_record at h
  split_ifs at h with hge
  refine ⟨by omega, ?_⟩
  simp only [bind_eq_ok] at h
  obtain ⟨ty, h1, txn, h2, lsn, h3, klen, h4, key, h5, vlen, h6, value, h7, ck, h8, h9⟩ := h
  have h10 := Except.ok.inj h9
  refine ⟨ty, txn, lsn, klen, key, vlen, value, ck, h1, h2, h3, h4, h5, h6, h7, h8, ?_, ?_⟩
  · exact (congrArg Prod.fst h10).symm
  · exact (congrArg Prod.snd h10).symm

/-- A frame that decodes has key and value lengths that fit the length fields, and
ends within the file, at least 29 bytes further. -/
theorem deserialize_bounds (data : Bytes) (off : Nat) (rec : LogRecord) (off1 : Nat)
    (h : deserialize_record data off = .ok (rec, off1)) :
    rec.key.length < 2 ^ 32 ∧ rec.value.length < 2 ^ 32 ∧ off1 ≤ data.length ∧
    off1 = off + 29 + rec.key.length + rec.value.length := by
  obtain ⟨_, ty, txn, lsn, klen, key, vlen, value, ck, _, _, _, h4, h5, h6, h7, h8, hrec,
    hoff⟩ := deserialize_eq_ok data off rec off1 h
  obtain ⟨_, _, l4⟩ := readBytes_eq_ok _ _ _ _ h4
  obtain ⟨_, _, l5⟩ := readBytes_eq_ok _ _ _ _ h5
  obtain ⟨_, _, l6⟩ := readBytes_eq_ok _ _ _ _ h6
  obtain ⟨_, _, l7⟩ := readBytes_eq_ok _ _ _ _ h7
  obtain ⟨hle, _, _⟩ := readBytes_eq_ok _ _ _ _ h8
  have hk := readLE_lt klen
  have hv := readLE_lt vlen
  rw [l4] at hk
  rw [l6] at hv
  subst hrec
  simp only
  rw [l5, l7]
  exact ⟨hk, hv, by omega, by omega⟩

/-- The only faults of `deserialize_record`: the exception thrown when the offset is
at the end, and a read past the end. -/
theorem deserialize_eq_error (data : Bytes) (off : Nat) (e : Fault)
    (h : deserialize_record data off = .error e) :
    (e = Fault.exception ∧ data.length ≤ off) ∨
    (e = Fault.out_of_bounds ∧ off < data.length) := by
  unfold deserialize_record at h
  split_ifs at h with hge
  · exact Or.inl ⟨(Except.error.inj h).symm, hge⟩
  · right
    refine ⟨?_, by omega⟩
    simp only [bind, Except.bind, pure, Except.pure] at h
    repeat' split at h
    all_goals first
      | exact (readBytes_eq_error _ _ _ _ (by assumption)).1.symm ▸
          (Except.error.inj h).symm ▸ rfl
      | exact absurd h (by simp)

/-- A frame that decodes within a file decodes to the same record in any longer file. -/
theorem deserialize_extend (data ext : Bytes) (off : Nat) (rec : LogRecord) (off1 : Nat)
    (h : deserialize_record data off = .ok (rec, off1)) :
    deserialize_record (data ++ ext) off = .ok (rec, off1) := by
  obtain ⟨hlt, ty, txn, lsn, klen, key, vlen, value, ck, h1, h2, h3, h4, h5, h6, h7, h8,
    hrec, hoff⟩ := deserialize_eq_ok data off rec off1 h
  have hge : ¬ off ≥ (data ++ ext).length := by
    rw [List.length_append]; omega
  unfold deserialize_record
  rw [if_neg hge]
  simp only [bind, Except.bind, pure, Except.pure, readBytes_extend data ext _ _ _ h1,
    readBytes_extend data ext _ _ _ h2, readBytes_extend data ext _ _ _ h3,
    readBytes_extend data ext _ _ _ h4, readBytes_extend data ext _ _ _ h5,
    readBytes_extend data ext _ _ _ h6, readBytes_extend data ext _ _ _ h7,
    readBytes_extend data ext _ _ _ h8, hrec, hoff]

/-- A torn write: decoding where only a non-empty proper prefix of a frame is left in
the file reads past the end of the file. -/
theorem deserialize_torn (pre : Bytes) (r : LogRecord) (n : Nat)
    (hk : r.key.length < 2 ^ 32) (hv : r.value.length < 2 ^ 32)
    (h0 : 0 < n) (hn : n < (serialize_record r).length) :
    deserialize_record (pre ++ (serialize_record r).take n) pre.length
      = .error Fault.out_of_bounds := by
  have hlen : (pre ++ (serialize_record r).take n).length = pre.length + n := by
    rw [List.length_append, List.length_take]
    omega
  cases h : deserialize_record (pre ++ (serialize_record r).take n) pre.length with
  | error e =>
    rcases deserialize_eq_error _ _ _ h with ⟨_, hle⟩ | ⟨he, _⟩
    · omega
    · rw [he]
  | ok v =>
    obtain ⟨rec, off1⟩ := v
    have hb := deserialize_bounds _ _ _ _ h
    have hext := deserialize_extend _ ((serialize_record r).drop n) _ _ _ h
    rw [List.append_assoc, List.take_append_drop] at hext
    have hfull := deserialize_serialize_at pre [] r hk hv
    rw [List.append_nil] at hfull
    rw [hfull] at hext
    have h2 := Except.ok.inj hext
    have h3 : pre.length + (serialize_record r).length = off1 := congrArg Prod.snd h2
    omega

/-- The read loop over a file that continues with the frames of valid records: they
are returned, followed by what the loop returns behind them. -/
theorem read_loop_prepend (rs : List LogRecord) (pre tail : Bytes) (fuel : Nat)
    (hv : ∀ r ∈ rs, WAL.ValidRecord r) :
    read_loop (pre ++ frames rs ++ tail) (rs.length + fuel) pre.length =
      match read_loop (pre ++ frames rs ++ tail) fuel (pre.length + (frames rs).length) with
      | .error f => .error f
      | .ok l => .ok (rs ++ l) := by
  induction rs generalizing pre with
  | nil =>
    simp only [frames_nil, List.append_nil, List.length_nil, Nat.zero_add, Nat.add_zero,
      List.nil_append]
    cases read_loop (pre ++ tail) fuel pre.length <;> rfl
  | cons r t ih =>
    have hr := hv r (List.mem_cons_self _ _)
    have hlen := serialize_record_length r
    have hdata : pre ++ frames (r :: t) ++ tail
        = pre ++ serialize_record r ++ (frames t ++ tail) := by
      rw [frames_cons]; simp only [List.append_assoc]
    have hfuel : (r :: t).length + fuel = (t.length + fuel) + 1 := by
      rw [List.length_cons]; omega
    have hlt : pre.length < (pre ++ serialize_record r ++ (frames t ++ tail)).length := by
      simp only [List.length_append]; omega
    have hih := ih (pre ++ serialize_record r) (fun x hx => hv x (List.mem_cons_of_mem _ hx))
    have hd2 : pre ++ serialize_record r ++ frames t ++ tail
        = pre ++ serialize_record r ++ (frames t ++ tail) := by
      simp only [List.append_assoc]
    rw [hd2, List.length_append] at hih
    have hoff : pre.length + (frames (r :: t)).length
        = pre.length + (serialize_record r).length + (frames t).length := by
      rw [frames_cons, List.length_append]; omega
    rw [hdata, hfuel, hoff]
    conv_lhs => unfold read_loop
    rw [if_pos hlt, deserialize_serialize_at pre _ r hr.1 hr.2.1]
    simp only [ne_eq, hr.2.2, not_true_eq_false, if_false]
    rw [hih]
    cases read_loop (pre ++ serialize_record r ++ (frames t ++ tail)) fuel
      (pre.length + (serialize_record r).length + (frames t).length) <;> rfl

/-- Every record that the read loop returns has lengths that fit the length fields
and a checksum equal to the recomputed one. -/
theorem read_loop_valid (data : Bytes) (fuel off : Nat) (rs : List LogRecord)
    (h : read_loop data fuel off = .ok rs) : ∀ r ∈ rs, WAL.ValidRecord r := by
  induction fuel generalizing off rs with
  | zero =>
    simp only [read_loop] at h
    rw [← Except.ok.inj h]
    intro r hr
    exact absurd hr (List.not_mem_nil _)
  | succ f ih =>
    unfold read_loop at h
    split_ifs at h with hlt
    · cases hd : deserialize_record data off with
      | error e =>
        rw [hd] at h
        cases e <;> simp only at h
        all_goals first
          | (rw [← Except.ok.inj h]; intro r hr; exact absurd hr (List.not_mem_nil _))
          | exact absurd h (by simp)
      | ok v =>
        obtain ⟨rec, off1⟩ := v
        rw [hd] at h
        simp only at h
        split_ifs at h with hck
        · rw [← Except.ok.inj h]
          intro r hr
          exact absurd hr (List.not_mem_nil _)
        · cases hrest : read_loop data f off1 with
          | error e => rw [hrest] at h; exact absurd h (by simp)
          | ok l =>
            rw [hrest] at h
            simp only at h
            rw [← Except.ok.inj h]
            intro r hr
            rcases List.mem_cons.1 hr with hr | hr
            · have hb := deserialize_bounds _ _ _ _ hd
              rw [hr]
              exact ⟨hb.1, hb.2.1, by simpa using hck⟩
            · exact ih off1 l hrest r hr
    · rw [← Except.ok.inj h]
      intro r hr
      exact absurd hr (List.not_mem_nil _)

/-- The read loop stops without a record at a complete frame whose stored checksum
differs from the recomputed one. -/
theorem read_loop_bad_crc (pre rest : Bytes) (bad : LogRecord) (fuel : Nat)
    (hk : bad.key.length < 2 ^ 32) (hv : bad.value.length < 2 ^ 32)
    (hck : bad.checksum ≠ calculate_checksum bad) (hf : 1 ≤ fuel) :
    read_loop (pre ++ serialize_record bad ++ rest) fuel pre.length = .ok [] := by
  cases fuel with
  | zero => omega
  | succ f =>
    have hlen := serialize_record_length bad
    have hlt : pre.length < (pre ++ serialize_record bad ++ rest).length := by
      simp only [List.length_append]; omega
    unfold read_loop
    rw [if_pos hlt, deserialize_serialize_at pre rest bad hk hv]
    simp only [ne_eq, hck, not_false_eq_true, if_true]

/-- The read loop reads past the end of the file at a torn frame. -/
theorem read_loop_torn (pre : Bytes) (r : LogRecord) (n fuel : Nat)
    (hk : r.key.length < 2 ^ 32) (hv : r.value.length < 2 ^ 32)
    (h0 : 0 < n) (hn : n < (serialize_record r).length) (hf : 1 ≤ fuel) :
    read_loop (pre ++ (serialize_record r).take n) fuel pre.length
      = .error Fault.out_of_bounds := by
  cases fuel with
  | zero => omega
  | succ f =>
    have hlt : pre.length < (pre ++ (serialize_record r).take n).length := by
      rw [List.length_append, List.length_take]; omega
    unfold read_loop
    rw [if_pos hlt, deserialize_torn pre r n hk hv h0 hn]

namespace WAL

/-- The records of a file that starts with the frames of valid records `rs`: `rs`,
followed by what the loop reads behind them. -/
theorem read_all_frames_tail (w : WAL) (rs : List LogRecord) (tail : Bytes)
    (hfile : w.file = frames rs ++ tail) (hv : ∀ r ∈ rs, ValidRecord r) :
    w.read_all_internal =
      match read_loop w.file (w.file.length - rs.length) (frames rs).length with
      | .error f => .error f
      | .ok l => .ok (rs ++ l) := by
  have hge : rs.length ≤ w.file.length := by
    rw [hfile, List.length_append]
    have := frames_length_ge rs
    omega
  have h := read_loop_prepend rs [] tail (w.file.length - rs.length) hv
  simp only [List.nil_append, List.length_nil, Nat.zero_add] at h
  rw [← hfile, Nat.add_sub_cancel' hge] at h
  exact h

theorem read_from_eq (w : WAL) (s : U64) (hopen : w.is_open_ = true)
    (hm : w.mutex_held = false) :
    w.read_from s =
      match w.read_all_internal with
      | .error f => .error f
      | .ok all => .ok (all.filter (fun record => decide (record.lsn ≥ s))) := by
  obtain ⟨file, flushed, cur, is_open, buffer, held⟩ := w
  simp only at hopen hm
  subst hopen hm
  simp only [read_from, lock, read_all_internal, bind, Except.bind, pure, Except.pure,
    Bool.false_eq_true, if_false, not_true_eq_false]
  cases read_loop file file.length 0 <;> rfl

theorem initialize_wal_eq (disk : Bytes) (h : 0 < disk.length) :
    WAL.new.initialize_wal disk =
      match read_loop disk disk.length 0 with
      | .error f => .error f
      | .ok records =>
        .ok (true, WAL.mk disk disk.length (max_lsn 0 records) true [] false) := by
  simp only [initialize_wal, WAL.new, lock, unlock, read_all_internal, bind, Except.bind,
    pure, Except.pure, Bool.false_eq_true, if_false, gt_iff_lt, h, if_true]
  cases read_loop disk disk.length 0 <;> rfl

/-- Reading a log file that consists of the frames of valid records followed by a torn
frame reads past the end of the file data. -/
theorem read_all_torn (w : WAL) (rs : List LogRecord) (r : LogRecord) (n : Nat)
    (hfile : w.file = frames rs ++ (serialize_record r).take n)
    (hv : ∀ x ∈ rs, ValidRecord x)
    (hk : r.key.length < 2 ^ 32) (hvl : r.value.length < 2 ^ 32)
    (h0 : 0 < n) (hn : n < (serialize_record r).length) :
    w.read_all_internal = .error Fault.out_of_bounds := by
  rw [read_all_frames_tail w rs _ hfile hv]
  have hfuel : 1 ≤ w.file.length - rs.length := by
    rw [hfile, List.length_append, List.length_take]
    have := frames_length_ge rs
    omega
  generalize w.file.length - rs.length = fuel at hfuel
  rw [hfile, read_loop_torn (frames rs) r n fuel hk hvl h0 hn hfuel]

/-- Reading a log file that consists of the frames of valid records followed by a
complete frame with a wrong checksum (and anything behind it) returns the valid
records. -/
theorem read_all_bad_crc (w : WAL) (rs : List LogRecord) (bad : LogRecord) (rest : Bytes)
    (hfile : w.file = frames rs ++ (serialize_record bad ++ rest))
    (hv : ∀ x ∈ rs, ValidRecord x)
    (hk : bad.key.length < 2 ^ 32) (hvl : bad.value.length < 2 ^ 32)
    (hck : bad.checksum ≠ calculate_checksum bad) :
    w.read_all_internal = .ok rs := by
  rw [read_all_frames_tail w rs _ hfile hv]
  have hfuel : 1 ≤ w.file.length - rs.length := by
    rw [hfile, List.length_append, List.length_append, serialize_record_length]
    have := frames_length_ge rs
    omega
  generalize w.file.length - rs.length = fuel at hfuel
  rw [hfile, ← List.append_assoc,
    read_loop_bad_crc (frames rs) rest bad fuel hk hvl hck hfuel]
  simp only [List.append_nil]

end WAL

end KvEngine


/-! ## Claims about reading, torn tails and truncation -/

namespace KvEngine

open LogRecordType

/-- A log file whose only frame is torn: the first 20 bytes of the frame of a PUT. -/
def c12_file : Bytes :=
  (serialize_record (WAL.stamp 1 (LogRecord.new PUT 1 key_k [118]))).take 20

set_option maxRecDepth 100000 in
/-- C12, the code at the failing input: on an open log whose file holds the first 20
bytes of a frame, the longest prefix that decodes into valid records is empty, and
`read_from(0)` does not return the empty list: `deserialize_record` reads `data[20]`
past the end of the 20 bytes of file data. -/
theorem c12_read_from_torn_file :
    c12_file.length = 20 ∧
    deserialize_record c12_file 0 = .error Fault.out_of_bounds ∧
    (WAL.mk c12_file c12_file.length 0 true [] false).read_from 0
      = .error Fault.out_of_bounds := by
  decide

/-- A log file with one complete valid frame (BEGIN of transaction 1, LSN 1) followed by
the first 5 bytes of the frame of a PUT: a torn write. -/
def c13_file : Bytes :=
  frames [WAL.stamp 1 (LogRecord.new BEGIN 1 [] [])]
    ++ (serialize_record (WAL.stamp 2 (LogRecord.new PUT 1 key_k [118]))).take 5

set_option maxRecDepth 100000 in
/-- C13, the code at the failing input: the file is 34 bytes long, the torn frame
starts at offset 29; decoding it reads the eight bytes of txn_id at offsets 30 to 37,
past the end of the file data, in `initialize` and in `read_from` alike, and neither
returns the one complete valid record. -/
theorem c13_torn_tail_read_past_end :
    c13_file.length = 34 ∧
    readBytes c13_file 30 8 = .error Fault.out_of_bounds ∧
    deserialize_record c13_file 29 = .error Fault.out_of_bounds ∧
    WAL.new.initialize_wal c13_file = .error Fault.out_of_bounds ∧
    (WAL.mk c13_file c13_file.length 1 true [] false).read_from 0
      = .error Fault.out_of_bounds := by
  decide

/-- Every torn write does it: a file of valid frames followed by a non-empty proper
prefix of a frame makes `initialize` and `read_from` read past the end. -/
theorem torn_tail_faults (rs : List LogRecord) (r : LogRecord) (n : Nat) (s : U64)
    (hv : ∀ x ∈ rs, WAL.ValidRecord x)
    (hk : r.key.length < 2 ^ 32) (hvl : r.value.length < 2 ^ 32)
    (h0 : 0 < n) (hn : n < (serialize_record r).length) :
    WAL.new.initialize_wal (frames rs ++ (serialize_record r).take n)
      = .error Fault.out_of_bounds ∧
    ∀ w : WAL, w.is_open_ = true → w.mutex_held = false →
      w.file = frames rs ++ (serialize_record r).take n →
      w.read_from s = .error Fault.out_of_bounds := by
  constructor
  · have hpos : 0 < (frames rs ++ (serialize_record r).take n).length := by
      rw [List.length_append, List.length_take]; omega
    have h := WAL.read_all_torn (WAL.mk (frames rs ++ (serialize_record r).take n) 0 0 true
      [] false) rs r n rfl hv hk hvl h0 hn
    rw [WAL.initialize_wal_eq _ hpos]
    simp only [WAL.read_all_internal] at h
    rw [h]
  · intro w hopen hm hfile
    rw [WAL.read_from_eq w s hopen hm, WAL.read_all_torn w rs r n hfile hv hk hvl h0 hn]

/-- A valid first record: a PUT of `"k"` with LSN 1. -/
def c14_first : LogRecord := WAL.stamp 1 (LogRecord.new PUT 1 key_k [118])

/-- A complete frame whose stored checksum (0) is not the recomputed one. -/
def c14_bad : LogRecord := LogRecord.mk PUT 1 2 [108] [119] 0

/-- The log file found at start: the valid frame followed by the corrupt one. -/
def c14_disk : Bytes := frames [c14_first] ++ serialize_record c14_bad

/-- The record appended after `initialize`. -/
def c14_new : LogRecord := LogRecord.new PUT 2 [109] [120]

/-- A session on `c14_disk`: initialize, append `c14_new`, flush, `read_from(0)`; the LSN
returned by the append, the log file afterwards and the records read. -/
def c14_session : Except Fault (U64 × Bytes × List LogRecord) := do
  let (_, w) ← WAL.new.initialize_wal c14_disk
  let (lsn, _, w) ← w.append c14_new
  let (_, w) ← w.flush
  let records ← w.read_from 0
  pure (lsn, w.file, records)

set_option maxRecDepth 100000 in
/-- C14, counterexample: after `initialize` on a log whose tail fails the CRC check the
invalid frame is still in the file; the record appended afterwards (LSN 2) is written
behind it, and after the flush `read_from(0)` returns the first record only, not the
record appended. -/
theorem c14_corrupt_tail_kept :
    c14_bad.checksum ≠ calculate_checksum c14_bad ∧
    c14_session = .ok (2, c14_disk ++ serialize_record (WAL.stamp 2 c14_new), [c14_first]) ∧
    WAL.stamp 2 c14_new ∉ [c14_first] := by
  decide

theorem max_lsn_ge (rs : List LogRecord) (cur : U64) :
    cur ≤ WAL.max_lsn cur rs ∧ ∀ r ∈ rs, r.lsn ≤ WAL.max_lsn cur rs := by
  induction rs generalizing cur with
  | nil => exact ⟨le_refl _, fun r hr => absurd hr (List.not_mem_nil _)⟩
  | cons x t ih =>
    unfold WAL.max_lsn
    rw [List.foldl_cons]
    have h := ih (if x.lsn > cur then x.lsn else cur)
    unfold WAL.max_lsn at h
    have hmax : cur ≤ (if x.lsn > cur then x.lsn else cur) ∧
        x.lsn ≤ (if x.lsn > cur then x.lsn else cur) := by
      split_ifs with hx
      · exact ⟨le_of_lt hx, le_refl _⟩
      · exact ⟨le_refl _, not_lt.1 hx⟩
    refine ⟨le_trans hmax.1 h.1, ?_⟩
    intro r hr
    rcases List.mem_cons.1 hr with hr | hr
    · rw [hr]; exact le_trans hmax.2 h.1
    · exact h.2 r hr

/-- C14, amended: a corrupt tail is not truncated away. After `initialize` on a log
file made of the frames of valid records followed by a complete frame that fails the
CRC check (and anything behind it), the file is unchanged, the last LSN is at least
the LSN of every valid record before the corrupt frame, `read_from(0)` returns exactly
those valid records, and after any run of fewer than `BUFFER_SIZE` appends and a flush
the appended frames lie behind the corrupt frame and `read_from(0)` still returns
exactly the valid records before it. -/
theorem corrupt_tail_stays (rs : List LogRecord) (bad : LogRecord) (rest : Bytes)
    (added : List LogRecord)
    (hv : ∀ x ∈ rs, WAL.ValidRecord x)
    (hk : bad.key.length < 2 ^ 32) (hvl : bad.value.length < 2 ^ 32)
    (hck : bad.checksum ≠ calculate_checksum bad)
    (hn : added.length < BUFFER_SIZE) :
    ∃ w w1 w2 out,
      WAL.new.initialize_wal (frames rs ++ (serialize_record bad ++ rest)) = .ok (true, w) ∧
      w.file = frames rs ++ (serialize_record bad ++ rest) ∧
      (∀ r ∈ rs, r.lsn ≤ w.get_last_lsn) ∧
      w.read_from 0 = .ok rs ∧
      w.appendAll added = .ok (out, w1) ∧
      w1.file = frames rs ++ (serialize_record bad ++ rest)
        ++ frames (WAL.stampFrom w.get_last_lsn added) ∧
      w1.flush = .ok (true, w2) ∧
      w2.file = w1.file ∧
      w2.read_from 0 = .ok rs := by
  have hfil : rs.filter (fun record => decide (record.lsn ≥ (0 : U64))) = rs := by
    apply List.filter_eq_self.2
    intro a _
    simp
  have hpos : 0 < (frames rs ++ (serialize_record bad ++ rest)).length := by
    simp only [List.length_append, serialize_record_length]; omega
  have hread : ∀ w : WAL, ∀ more : Bytes, w.is_open_ = true → w.mutex_held = false →
      w.file = frames rs ++ (serialize_record bad ++ rest) ++ more →
      w.read_from 0 = .ok rs := by
    intro w more ho hm hf
    have hf2 : w.file = frames rs ++ (serialize_record bad ++ (rest ++ more)) := by
      rw [hf]; simp only [List.append_assoc]
    rw [WAL.read_from_eq w 0 ho hm, WAL.read_all_bad_crc w rs bad _ hf2 hv hk hvl hck]
    simp only [hfil]
  have hall := WAL.read_all_bad_crc
    (WAL.mk (frames rs ++ (serialize_record bad ++ rest)) 0 0 true [] false) rs bad rest rfl
    hv hk hvl hck
  simp only [WAL.read_all_internal] at hall
  have hinit := WAL.initialize_wal_eq _ hpos
  rw [hall] at hinit
  simp only at hinit
  obtain ⟨w1, e1, f1, o1, m1, _, _⟩ := WAL.appendAll_ok added
    (WAL.mk (frames rs ++ (serialize_record bad ++ rest))
      (frames rs ++ (serialize_record bad ++ rest)).length (WAL.max_lsn 0 rs) true [] false)
    rfl rfl (by simpa using hn)
  have hflush : w1.flush = .ok (true, w1.flush_internal.unlock) := by
    simp [WAL.flush, WAL.lock, m1, o1, bind, Except.bind, pure, Except.pure,
      WAL.flush_internal, WAL.unlock]
  refine ⟨_, w1, w1.flush_internal.unlock, _, hinit, rfl, ?_, ?_, e1, ?_, hflush, rfl, ?_⟩
  · exact (max_lsn_ge rs 0).2
  · apply hread _ [] rfl rfl
    simp
  · exact f1
  · exact hread w1.flush_internal.unlock (frames (WAL.stampFrom (WAL.max_lsn 0 rs) added))
      o1 rfl f1

set_option maxRecDepth 100000 in
/-- C14, witness: the log `c14_disk` and the append of `c14_new`. -/
theorem corrupt_tail_stays_witness :
    (∀ x ∈ [c14_first], WAL.ValidRecord x) ∧ c14_bad.key.length < 2 ^ 32 ∧
    c14_bad.value.length < 2 ^ 32 ∧ c14_bad.checksum ≠ calculate_checksum c14_bad ∧
    [c14_new].length < BUFFER_SIZE ∧
    ∃ w w1 w2 out,
      WAL.new.initialize_wal (frames [c14_first] ++ (serialize_record c14_bad ++ []))
        = .ok (true, w) ∧
      w.file = frames [c14_first] ++ (serialize_record c14_bad ++ []) ∧
      (∀ r ∈ [c14_first], r.lsn ≤ w.get_last_lsn) ∧
      w.read_from 0 = .ok [c14_first] ∧
      w.appendAll [c14_new] = .ok (out, w1) ∧
      w1.file = frames [c14_first] ++ (serialize_record c14_bad ++ [])
        ++ frames (WAL.stampFrom w.get_last_lsn [c14_new]) ∧
      w1.flush = .ok (true, w2) ∧
      w2.file = w1.file ∧
      w2.read_from 0 = .ok [c14_first] := by
  have hv : ∀ x ∈ [c14_first], WAL.ValidRecord x := by
    intro x hx
    rw [List.mem_singleton.1 hx]
    exact WAL.validRecord_stamp 1 _ (by decide) (by decide)
  have hk : c14_bad.key.length < 2 ^ 32 := by decide
  have hvl : c14_bad.value.length < 2 ^ 32 := by decide
  have hck : c14_bad.checksum ≠ calculate_checksum c14_bad := by decide
  have hn : [c14_new].length < BUFFER_SIZE := by decide
  exact ⟨hv, hk, hvl, hck, hn, corrupt_tail_stays [c14_first] c14_bad [] [c14_new] hv hk hvl
    hck hn⟩

end KvEngine


/-! ## Truncation of the log -/

namespace KvEngine

open LogRecordType

theorem truncate_eq_ok (w w1 : WAL) (n : U64) (h : w.truncate n = .ok (true, w1)) :
    w.is_open_ = true ∧ w.mutex_held = false ∧
    ∃ recs, w.read_all_internal = .ok recs ∧
      w1 = { w with file := frames (recs.filter (fun record => decide (record.lsn ≥ n))),
                    flushed := (frames (recs.filter
                      (fun record => decide (record.lsn ≥ n)))).length } := by
  obtain ⟨file, flushed, cur, is_open, buffer, held⟩ := w
  cases held with
  | true => simp [WAL.truncate, WAL.lock, bind, Except.bind] at h
  | false =>
    cases is_open with
    | false =>
      simp [WAL.truncate, WAL.lock, bind, Except.bind, pure, Except.pure] at h
    | true =>
      refine ⟨rfl, rfl, ?_⟩
      simp only [WAL.truncate, WAL.lock, WAL.unlock, WAL.read_all_internal, bind, Except.bind,
        pure, Except.pure, Bool.false_eq_true, if_false, not_true_eq_false] at h
      cases hr : read_loop file file.length 0 with
      | error e => rw [hr] at h; exact absurd h (by simp)
      | ok recs =>
        rw [hr] at h
        simp only at h
        have h2 := congrArg Prod.snd (Except.ok.inj h)
        simp only at h2
        exact ⟨recs, hr, h2.symm⟩

/-- C15: after `truncate(n)` returns true, `read_from(0)` returns exactly the records
that `read_from(0)` returned before the call and have `lsn >= n`, in the same order and
with the same contents, and `get_last_lsn` is unchanged. -/
theorem truncate_keeps_records_from (w w1 : WAL) (n : U64)
    (h : w.truncate n = .ok (true, w1)) :
    ∃ recs, w.read_from 0 = .ok recs ∧
      w1.read_from 0 = .ok (recs.filter (fun record => decide (record.lsn ≥ n))) ∧
      w1.get_last_lsn = w.get_last_lsn := by
  obtain ⟨ho, hm, recs, hr, hw1⟩ := truncate_eq_ok w w1 n h
  have hfil : recs.filter (fun record => decide (record.lsn ≥ (0 : U64))) = recs := by
    apply List.filter_eq_self.2
    intro a _
    simp
  refine ⟨recs, ?_, ?_, ?_⟩
  · rw [WAL.read_from_eq w 0 ho hm, hr]
    simp only [hfil]
  · apply WAL.read_from_zero_frames
    · rw [hw1]; exact ho
    · rw [hw1]; exact hm
    · rw [hw1]; rfl
    · intro r hr2
      exact read_loop_valid _ _ _ _ hr r (List.mem_of_mem_filter hr2)
  · rw [hw1]; rfl

/-- The log of `test_wal_truncate` in small: three PUT records with LSNs 1, 2, 3. -/
def c15_wal : WAL :=
  WAL.mk (frames (WAL.stampFrom 0 [LogRecord.new PUT 1 [107, 49] [118, 49],
      LogRecord.new PUT 1 [107, 50] [118, 50], LogRecord.new PUT 1 [107, 51] [118, 51]]))
    0 3 true [] false

/-- The log `c15_wal` after `truncate(2)`. -/
def c15_truncated : WAL :=
  WAL.mk (frames (WAL.stampFrom 1 [LogRecord.new PUT 1 [107, 50] [118, 50],
      LogRecord.new PUT 1 [107, 51] [118, 51]]))
    66 3 true [] false

set_option maxRecDepth 100000 in
/-- C15, witness: `truncate(2)` on a log with LSNs 1, 2, 3. -/
theorem truncate_keeps_records_from_witness :
    c15_wal.truncate 2 = .ok (true, c15_truncated) ∧
    ∃ recs, c15_wal.read_from 0 = .ok recs ∧
      c15_truncated.read_from 0 = .ok (recs.filter (fun record => decide (record.lsn ≥ 2))) ∧
      c15_truncated.get_last_lsn = c15_wal.get_last_lsn :=
  ⟨by decide, truncate_keeps_records_from c15_wal c15_truncated 2 (by decide)⟩

end KvEngine


/-! ## Log sequence numbers over the life of a log directory -/

namespace KvEngine

open LogRecordType

/-- A call on the log of one log directory: the five calls of `WAL`, and the
construction `WAL(log_dir)` of a new object on the same directory. -/
inductive WalCall where
  | append (record : LogRecord)
  | flush
  | truncate (lsn : U64)
  | close
  | construct
  | init
deriving DecidableEq

namespace WalCall

/-- One call: the LSN returned when the call is an `append` that does not return 0,
and the log afterwards. A new object starts from the constructor state and finds the
log file of the directory; `initialize` reads the log file of the directory. -/
def step (w : WAL) : WalCall → Except Fault (List U64 × WAL)
  | append record =>
    match w.append record with
    | .error f => .error f
    | .ok (lsn, _, w1) => .ok (if lsn = 0 then [] else [lsn], w1)
  | flush =>
    match w.flush with
    | .error f => .error f
    | .ok (_, w1) => .ok ([], w1)
  | truncate lsn =>
    match w.truncate lsn with
    | .error f => .error f
    | .ok (_, w1) => .ok ([], w1)
  | close =>
    match w.close with
    | .error f => .error f
    | .ok w1 => .ok ([], w1)
  | construct => .ok ([], { WAL.new with file := w.file, flushed := w.flushed })
  | init =>
    match w.initialize_wal w.file with
    | .error f => .error f
    | .ok (_, w1) => .ok ([], w1)

/-- A sequence of calls: the LSNs returned by the appends, in order, and the log
afterwards. -/
def run (w : WAL) : List WalCall → Except Fault (List U64 × WAL)
  | [] => .ok ([], w)
  | c :: cs =>
    match step w c with
    | .error f => .error f
    | .ok (out, w1) =>
      match run w1 cs with
      | .error f => .error f
      | .ok (outs, w2) => .ok (out ++ outs, w2)

/-- The condition on one call in the state it is made in: appended keys and values fit
the length fields and the LSN counter does not wrap; `truncate` is not asked to drop the
record with the last LSN; an object is constructed or initialized on the directory only
while the log is closed. -/
def Guard (w : WAL) : WalCall → Bool
  | append record =>
    decide (record.key.length < 2 ^ 32) && decide (record.value.length < 2 ^ 32)
      && decide (w.current_lsn_.val + 1 < 2 ^ 64)
  | truncate lsn => decide (lsn ≤ w.get_last_lsn)
  | construct => !w.is_open_
  | init => !w.is_open_
  | _ => true

/-- The condition `Guard` on every call of a sequence. -/
def Guarded (w : WAL) : List WalCall → Bool
  | [] => true
  | c :: cs =>
    Guard w c &&
      match step w c with
      | .error _ => true
      | .ok (_, w1) => Guarded w1 cs

end WalCall

/-- The log directory found at the start: a log file, not yet opened by any object. -/
def log_dir (disk : Bytes) : WAL := { WAL.new with file := disk, flushed := disk.length }

/-- The record appended in the sequence `c11_calls`. -/
def c11_record : LogRecord := LogRecord.new PUT 1 key_k [118]

/-- A sequence of calls on a fresh directory: one object appends a record, truncates
with an LSN above the last one and is closed; a second object appends a record. -/
def c11_calls : List WalCall :=
  [.construct, .init, .append c11_record, .flush, .truncate 2, .close,
   .construct, .init, .append c11_record]

set_option maxRecDepth 100000 in
/-- C11, counterexample: on a fresh log directory the first object appends a record
(LSN 1), truncates with LSN 2 and is closed; the log file is then empty, the second
object starts again from last LSN 0, and its append returns LSN 1 a second time. -/
theorem c11_lsn_reused_after_truncate :
    (WalCall.run (log_dir []) c11_calls).map Prod.fst = .ok [1, 1] := by
  decide

theorem max_lsn_le (rs : List LogRecord) (cur top : U64) (hc : cur ≤ top)
    (hle : ∀ r ∈ rs, r.lsn ≤ top) : WAL.max_lsn cur rs ≤ top := by
  induction rs generalizing cur with
  | nil => exact hc
  | cons x t ih =>
    unfold WAL.max_lsn
    rw [List.foldl_cons]
    have h := ih (if x.lsn > cur then x.lsn else cur) (by
      split_ifs
      · exact hle x (List.mem_cons_self _ _)
      · exact hc) (fun r hr => hle r (List.mem_cons_of_mem _ hr))
    exact h

theorem max_lsn_eq (rs : List LogRecord) (cur top : U64) (hc : cur ≤ top)
    (hle : ∀ r ∈ rs, r.lsn ≤ top) (hex : top = 0 ∨ ∃ r ∈ rs, r.lsn = top) :
    WAL.max_lsn cur rs = top := by
  apply le_antisymm (max_lsn_le rs cur top hc hle)
  rcases hex with h0 | ⟨r, hr, hrt⟩
  · rw [h0]; exact Fin.zero_le _
  · rw [← hrt]; exact (max_lsn_ge rs cur).2 r hr

theorem frames_eq_nil (rs : List LogRecord) (h : frames rs = []) : rs = [] := by
  cases rs with
  | nil => rfl
  | cons r t =>
    have := congrArg List.length h
    rw [frames_cons, List.length_append, serialize_record_length] at this
    simp at this

theorem read_all_frames (w : WAL) (rs : List LogRecord) (hfile : w.file = frames rs)
    (hv : ∀ r ∈ rs, WAL.ValidRecord r) : w.read_all_internal = .ok rs := by
  have h := WAL.read_loop_frames rs [] w.file.length hv (by rw [hfile]; rfl)
  simp only [List.nil_append, List.length_nil] at h
  unfold WAL.read_all_internal
  rw [hfile]
  rw [hfile] at h
  exact h

/-- The state of a log directory whose LSNs go up to `top`: the log file consists of
the frames of valid records with LSNs up to `top`, the record with LSN `top` among
them unless `top` is 0, and an open log has `top` as its last LSN. -/
def LsnInv (top : U64) (w : WAL) : Prop :=
  w.mutex_held = false ∧ w.current_lsn_ ≤ top ∧ (w.is_open_ = true → w.current_lsn_ = top) ∧
  ∃ rs, w.file = frames rs ∧ (∀ r ∈ rs, WAL.ValidRecord r) ∧ (∀ r ∈ rs, r.lsn ≤ top) ∧
    (top = 0 ∨ ∃ r ∈ rs, r.lsn = top)

theorem u64_succ_val (x : U64) (h : x.val + 1 < 2 ^ 64) : (x + 1).val = x.val + 1 := by
  rw [Fin.val_add]
  have : ((1 : U64) : Nat) = 1 := rfl
  rw [this]
  exact Nat.mod_eq_of_lt h

theorem append_closed (w : WAL) (r : LogRecord) (hopen : w.is_open_ = false)
    (hm : w.mutex_held = false) : w.append r = .ok (0, r, w) := by
  obtain ⟨file, flushed, cur, is_open, buffer, held⟩ := w
  simp only at hopen hm
  subst hopen hm
  simp [WAL.append, WAL.lock, WAL.unlock, bind, Except.bind, pure, Except.pure]

theorem flush_eq (w : WAL) (hm : w.mutex_held = false) :
    w.flush = .ok (w.is_open_, if w.is_open_ then w.flush_internal else w) := by
  obtain ⟨file, flushed, cur, is_open, buffer, held⟩ := w
  simp only at hm
  subst hm
  cases is_open <;>
    simp [WAL.flush, WAL.lock, WAL.unlock, WAL.flush_internal, bind, Except.bind, pure,
      Except.pure]

theorem close_eq (w : WAL) (hm : w.mutex_held = false) :
    w.close = .ok (if w.is_open_ then { w.flush_internal with is_open_ := false } else w) := by
  obtain ⟨file, flushed, cur, is_open, buffer, held⟩ := w
  simp only at hm
  subst hm
  cases is_open <;>
    simp [WAL.close, WAL.lock, WAL.unlock, WAL.flush_internal, bind, Except.bind, pure,
      Except.pure]

theorem truncate_closed (w : WAL) (n : U64) (hopen : w.is_open_ = false)
    (hm : w.mutex_held = false) : w.truncate n = .ok (false, w) := by
  obtain ⟨file, flushed, cur, is_open, buffer, held⟩ := w
  simp only at hopen hm
  subst hopen hm
  simp [WAL.truncate, WAL.lock, WAL.unlock, bind, Except.bind, pure, Except.pure]

theorem truncate_open (w : WAL) (n : U64) (rs : List LogRecord) (hopen : w.is_open_ = true)
    (hm : w.mutex_held = false) (hr : w.read_all_internal = .ok rs) :
    w.truncate n = .ok (true,
      { w with file := frames (rs.filter (fun record => decide (record.lsn ≥ n))),
               flushed := (frames (rs.filter
                 (fun record => decide (record.lsn ≥ n)))).length }) := by
  obtain ⟨file, flushed, cur, is_open, buffer, held⟩ := w
  simp only at hopen hm
  subst hopen hm
  simp only [WAL.read_all_internal] at hr
  simp only [WAL.truncate, WAL.lock, WAL.unlock, WAL.read_all_internal, bind, Except.bind,
    pure, Except.pure, Bool.false_eq_true, if_false, not_true_eq_false, hr]
  rfl

theorem initialize_closed (w : WAL) (rs : List LogRecord) (hm : w.mutex_held = false)
    (hfile : w.file = frames rs) (hv : ∀ r ∈ rs, WAL.ValidRecord r) :
    w.initialize_wal w.file = .ok (true,
      { w with flushed := w.file.length, current_lsn_ := WAL.max_lsn w.current_lsn_ rs,
               is_open_ := true }) := by
  have hr := read_all_frames w rs hfile hv
  obtain ⟨file, flushed, cur, is_open, buffer, held⟩ := w
  simp only at hm hfile
  subst hm
  simp only [WAL.read_all_internal] at hr
  by_cases hpos : file.length > 0
  · simp only [WAL.initialize_wal, WAL.lock, WAL.unlock, WAL.read_all_internal, bind,
      Except.bind, pure, Except.pure, Bool.false_eq_true, if_false, hpos, if_true, hr]
  · have hnil : rs = [] := by
      apply frames_eq_nil
      rw [← hfile]
      exact List.length_eq_zero.1 (by omega)
    simp only [WAL.initialize_wal, WAL.lock, WAL.unlock, bind, Except.bind, pure, Except.pure,
      Bool.false_eq_true, if_false, hpos, hnil, WAL.max_lsn, List.foldl_nil]

/-- One guarded call keeps the invariant, does not lower `top`, and an LSN it returns
is the new `top`, above the old one. -/
theorem step_lsn_inv (top : U64) (w w1 : WAL) (c : WalCall) (out : List U64)
    (hinv : LsnInv top w) (hg : WalCall.Guard w c = true) (hs : WalCall.step w c = .ok (out, w1)) :
    ∃ top1, LsnInv top1 w1 ∧ top ≤ top1 ∧ (out = [] ∨ (out = [top1] ∧ top < top1)) := by
  obtain ⟨hm, hle, hopen, rs, hfile, hv, hrs, hex⟩ := hinv
  cases c with
  | append record =>
    have hg2 : (decide (record.key.length < 2 ^ 32) && decide (record.value.length < 2 ^ 32)
        && decide (w.current_lsn_.val + 1 < 2 ^ 64)) = true := hg
    rw [Bool.and_eq_true, Bool.and_eq_true] at hg2
    have hk : record.key.length < 2 ^ 32 := of_decide_eq_true hg2.1.1
    have hvl : record.value.length < 2 ^ 32 := of_decide_eq_true hg2.1.2
    have hwrap : w.current_lsn_.val + 1 < 2 ^ 64 := of_decide_eq_true hg2.2
    cases ho : w.is_open_ with
    | false =>
      simp only [WalCall.step, append_closed w record ho hm, if_true] at hs
      obtain ⟨h1, h2⟩ := Prod.mk.inj (Except.ok.inj hs)
      subst h1 h2
      refine ⟨top, ⟨hm, hle, hopen, rs, hfile, hv, hrs, hex⟩, le_refl _, Or.inl rfl⟩
    | true =>
      have hcur := hopen ho
      by_cases hb : w.buffer_.length + 1 < BUFFER_SIZE
      · have hsucc := u64_succ_val w.current_lsn_ hwrap
        have hne : w.current_lsn_ + 1 ≠ 0 := by
          intro h0
          have := congrArg Fin.val h0
          rw [hsucc] at this
          simp at this
        have hlt : top < w.current_lsn_ + 1 := by
          rw [← hcur, Fin.lt_def, hsucc]
          omega
        simp only [WalCall.step, WAL.append_ok w record ho hm hb, hne, if_false] at hs
        obtain ⟨h1, h2⟩ := Prod.mk.inj (Except.ok.inj hs)
        subst h1 h2
        refine ⟨w.current_lsn_ + 1, ⟨hm, le_refl _, fun _ => rfl,
          rs ++ [WAL.stamp (w.current_lsn_ + 1) record], ?_, ?_, ?_, ?_⟩, le_of_lt hlt, ?_⟩
        · simp only [frames_append, frames_cons, frames_nil, List.append_nil, hfile]
        · intro r hr
          rcases List.mem_append.1 hr with hr | hr
          · exact hv r hr
          · rw [List.mem_singleton.1 hr]
            exact WAL.validRecord_stamp _ _ hk hvl
        · intro r hr
          rcases List.mem_append.1 hr with hr | hr
          · exact le_trans (hrs r hr) (le_of_lt hlt)
          · rw [List.mem_singleton.1 hr]
            exact le_refl _
        · exact Or.inr ⟨_, List.mem_append_right _ (List.mem_singleton_self _), rfl⟩
        · exact Or.inr ⟨rfl, hlt⟩
      · have hd := WAL.append_deadlock w record ho hm (by omega)
        simp only [WalCall.step, hd] at hs
        exact absurd hs (by simp)
  | flush =>
    simp only [WalCall.step, flush_eq w hm] at hs
    obtain ⟨h1, h2⟩ := Prod.mk.inj (Except.ok.inj hs)
    subst h1 h2
    refine ⟨top, ?_, le_refl _, Or.inl rfl⟩
    split_ifs
    · exact ⟨hm, hle, hopen, rs, hfile, hv, hrs, hex⟩
    · exact ⟨hm, hle, hopen, rs, hfile, hv, hrs, hex⟩
  | truncate n =>
    have hn : n ≤ w.current_lsn_ := of_decide_eq_true hg
    cases ho : w.is_open_ with
    | false =>
      simp only [WalCall.step, truncate_closed w n ho hm] at hs
      obtain ⟨h1, h2⟩ := Prod.mk.inj (Except.ok.inj hs)
      subst h1 h2
      exact ⟨top, ⟨hm, hle, hopen, rs, hfile, hv, hrs, hex⟩, le_refl _, Or.inl rfl⟩
    | true =>
      have hcur := hopen ho
      simp only [WalCall.step, truncate_open w n rs ho hm (read_all_frames w rs hfile hv)] at hs
      obtain ⟨h1, h2⟩ := Prod.mk.inj (Except.ok.inj hs)
      subst h1 h2
      refine ⟨top, ⟨hm, hle, hopen, rs.filter (fun record => decide (record.lsn ≥ n)), rfl,
        fun r hr => hv r (List.mem_of_mem_filter hr),
        fun r hr => hrs r (List.mem_of_mem_filter hr), ?_⟩, le_refl _, Or.inl rfl⟩
      rcases hex with h0 | ⟨r, hr, hrt⟩
      · exact Or.inl h0
      · refine Or.inr ⟨r, List.mem_filter.2 ⟨hr, ?_⟩, hrt⟩
        rw [hrt, ← hcur]
        exact decide_eq_true hn
  | close =>
    simp only [WalCall.step, close_eq w hm] at hs
    obtain ⟨h1, h2⟩ := Prod.mk.inj (Except.ok.inj hs)
    subst h1 h2
    refine ⟨top, ?_, le_refl _, Or.inl rfl⟩
    split_ifs
    · exact ⟨hm, hle, fun h => absurd h (by simp), rs, hfile, hv, hrs, hex⟩
    · exact ⟨hm, hle, hopen, rs, hfile, hv, hrs, hex⟩
  | construct =>
    simp only [WalCall.step] at hs
    obtain ⟨h1, h2⟩ := Prod.mk.inj (Except.ok.inj hs)
    subst h1 h2
    exact ⟨top, ⟨rfl, Fin.zero_le _, fun h => absurd h (by simp [WAL.new]), rs, hfile, hv,
      hrs, hex⟩, le_refl _, Or.inl rfl⟩
  | init =>
    simp only [WalCall.step, initialize_closed w rs hm hfile hv] at hs
    obtain ⟨h1, h2⟩ := Prod.mk.inj (Except.ok.inj hs)
    subst h1 h2
    have hmax := max_lsn_eq rs w.current_lsn_ top hle hrs hex
    exact ⟨top, ⟨hm, le_of_eq hmax, fun _ => hmax, rs, hfile, hv, hrs, hex⟩, le_refl _, Or.inl rfl⟩

theorem run_lsn_increasing (top : U64) (w w1 : WAL) (calls : List WalCall) (out : List U64)
    (hinv : LsnInv top w) (hg : WalCall.Guarded w calls = true)
    (hrun : WalCall.run w calls = .ok (out, w1)) :
    out.Pairwise (fun a b => a < b) ∧ ∀ l ∈ out, top < l := by
  induction calls generalizing top w out with
  | nil =>
    simp only [WalCall.run] at hrun
    obtain ⟨h1, _⟩ := Prod.mk.inj (Except.ok.inj hrun)
    subst h1
    exact ⟨List.Pairwise.nil, fun l hl => absurd hl (List.not_mem_nil _)⟩
  | cons c cs ih =>
    simp only [WalCall.Guarded, Bool.and_eq_true] at hg
    obtain ⟨hgc, hgs⟩ := hg
    unfold WalCall.run at hrun
    cases hs : WalCall.step w c with
    | error e => rw [hs] at hrun; exact absurd hrun (by simp)
    | ok v =>
      obtain ⟨o, w2⟩ := v
      rw [hs] at hrun hgs
      simp only at hrun hgs
      cases hr : WalCall.run w2 cs with
      | error e => rw [hr] at hrun; exact absurd hrun (by simp)
      | ok v2 =>
        obtain ⟨outs, w3⟩ := v2
        rw [hr] at hrun
        simp only at hrun
        obtain ⟨h1, h2⟩ := Prod.mk.inj (Except.ok.inj hrun)
        subst h1 h2
        obtain ⟨top1, hinv1, htop, ho⟩ := step_lsn_inv top w w2 c o hinv hgc hs
        obtain ⟨hp, hall⟩ := ih top1 w2 outs hinv1 hgs hr
        rcases ho with ho | ⟨ho, hlt⟩
        · rw [ho, List.nil_append]
          exact ⟨hp, fun l hl => lt_of_le_of_lt htop (hall l hl)⟩
        · rw [ho, List.singleton_append]
          refine ⟨List.Pairwise.cons hall hp, ?_⟩
          intro l hl
          rcases List.mem_cons.1 hl with hl | hl
          · rw [hl]; exact hlt
          · exact lt_of_le_of_lt htop (hall l hl)

theorem max_lsn_attained (rs : List LogRecord) (cur : U64) :
    WAL.max_lsn cur rs = cur ∨ ∃ r ∈ rs, r.lsn = WAL.max_lsn cur rs := by
  induction rs generalizing cur with
  | nil => exact Or.inl rfl
  | cons x t ih =>
    unfold WAL.max_lsn
    rw [List.foldl_cons]
    have h := ih (if x.lsn > cur then x.lsn else cur)
    unfold WAL.max_lsn at h
    rcases h with h | ⟨r, hr, hrt⟩
    · rw [h]
      split_ifs
      · exact Or.inr ⟨x, List.mem_cons_self _ _, rfl⟩
      · exact Or.inl rfl
    · exact Or.inr ⟨r, List.mem_cons_of_mem _ hr, hrt⟩

theorem log_dir_inv (rs : List LogRecord) (hv : ∀ r ∈ rs, WAL.ValidRecord r) :
    LsnInv (WAL.max_lsn 0 rs) (log_dir (frames rs)) :=
  ⟨rfl, Fin.zero_le _, fun h => absurd h (by simp [log_dir, WAL.new]), rs, rfl, hv,
    (max_lsn_ge rs 0).2, max_lsn_attained rs 0⟩

/-- C11, amended: on a log directory whose log file holds the frames of valid records,
take any sequence of append, flush, truncate, close and initialize calls and
constructions of new objects in which keys and values are shorter than `2^32` bytes,
the LSN counter stays below `2^64`, no `truncate(n)` has `n` above the last LSN, and
objects are constructed and initialized only while the log is closed. Then `initialize`
sets the last LSN to the largest LSN in the log file (0 for an empty log), and the LSNs
returned by the appends are strictly increasing and above every LSN found in the log
file at the start. -/
theorem lsn_never_reused (rs0 : List LogRecord) (calls : List WalCall) (out : List U64)
    (w1 : WAL) (hv : ∀ r ∈ rs0, WAL.ValidRecord r)
    (hg : WalCall.Guarded (log_dir (frames rs0)) calls = true)
    (hrun : WalCall.run (log_dir (frames rs0)) calls = .ok (out, w1)) :
    (∃ w, (log_dir (frames rs0)).initialize_wal (frames rs0) = .ok (true, w) ∧
      (∀ r ∈ rs0, r.lsn ≤ w.get_last_lsn) ∧
      (w.get_last_lsn = 0 ∨ ∃ r ∈ rs0, r.lsn = w.get_last_lsn)) ∧
    out.Pairwise (fun a b => a < b) ∧
    ∀ l ∈ out, ∀ r ∈ rs0, r.lsn < l := by
  have hinv := log_dir_inv rs0 hv
  obtain ⟨hp, hall⟩ := run_lsn_increasing _ _ w1 calls out hinv hg hrun
  refine ⟨⟨_, initialize_closed (log_dir (frames rs0)) rs0 rfl rfl hv, (max_lsn_ge rs0 0).2,
    max_lsn_attained rs0 0⟩, hp, ?_⟩
  intro l hl r hr
  exact lt_of_le_of_lt ((max_lsn_ge rs0 0).2 r hr) (hall l hl)

/-- The sequence `c11_calls` with `truncate(1)` in the place of `truncate(2)`. -/
def c11_guarded_calls : List WalCall :=
  [.construct, .init, .append c11_record, .flush, .truncate 1, .close,
   .construct, .init, .append c11_record]

/-- The log at the end of `c11_guarded_calls` on a fresh directory. -/
def c11_guarded_end : WAL :=
  WAL.mk (frames (WAL.stampFrom 0 [c11_record, c11_record])) 31 2 true
    [WAL.stamp 2 c11_record] false

set_option maxRecDepth 100000 in
/-- C11, witness: two objects on a fresh directory, the first truncating with its last
LSN; the appends return LSNs 1 and 2. -/
theorem lsn_never_reused_witness :
    (∀ r ∈ ([] : List LogRecord), WAL.ValidRecord r) ∧
    WalCall.Guarded (log_dir (frames [])) c11_guarded_calls = true ∧
    WalCall.run (log_dir (frames [])) c11_guarded_calls = .ok ([1, 2], c11_guarded_end) ∧
    (∃ w, (log_dir (frames [])).initialize_wal (frames []) = .ok (true, w) ∧
      (∀ r ∈ ([] : List LogRecord), r.lsn ≤ w.get_last_lsn) ∧
      (w.get_last_lsn = 0 ∨ ∃ r ∈ ([] : List LogRecord), r.lsn = w.get_last_lsn)) ∧
    [(1 : U64), 2].Pairwise (fun a b => a < b) ∧
    ∀ l ∈ [(1 : U64), 2], ∀ r ∈ ([] : List LogRecord), r.lsn < l :=
  have hv : ∀ r ∈ ([] : List LogRecord), WAL.ValidRecord r :=
    fun r hr => absurd hr (List.not_mem_nil _)
  have hg : WalCall.Guarded (log_dir (frames [])) c11_guarded_calls = true := by decide
  have hrun : WalCall.run (log_dir (frames [])) c11_guarded_calls
      = .ok ([1, 2], c11_guarded_end) := by decide
  ⟨hv, hg, hrun, lsn_never_reused [] c11_guarded_calls [1, 2] c11_guarded_end hv hg hrun⟩

end KvEngine


/-! ## Commit: the log record, the state and the locks -/

namespace KvEngine

open LogRecordType

namespace LockManager

theorem grant_first_txn_ids (t : U64) (l : List LockRequest) :
    (grant_first t l).map (fun req => req.txn_id) = l.map (fun req => req.txn_id) := by
  induction l with
  | nil => rfl
  | cons req rest ih =>
    unfold grant_first
    split_ifs
    · rfl
    · simp only [List.map_cons, ih]

theorem regrant_step_txn_ids (l : List LockRequest) (i : Nat) :
    (regrant_step l i).map (fun req => req.txn_id) = l.map (fun req => req.txn_id) := by
  unfold regrant_step
  cases l[i]? with
  | none => rfl
  | some req =>
    simp only
    split_ifs
    · exact grant_first_txn_ids _ _
    · rfl

theorem regrant_txn_ids (l : List LockRequest) :
    (regrant l).map (fun req => req.txn_id) = l.map (fun req => req.txn_id) := by
  unfold regrant
  generalize List.range l.length = is
  induction is generalizing l with
  | nil => rfl
  | cons i t ih =>
    rw [List.foldl_cons, ih, regrant_step_txn_ids]

/-- The requests on `key` in a lock table. -/
def table_requests (table : OrdMap Key (List LockRequest)) (key : Key) : List LockRequest :=
  (table.find? key).getD []

theorem requests_on_eq (lm : LockManager) (key : Key) :
    lm.requests_on key = table_requests lm.lock_table_ key := rfl

theorem release_key_other (table : OrdMap Key (List LockRequest)) (t : U64) (key k : Key)
    (h : k ≠ key) : (release_key table t key).find? k = table.find? k := by
  unfold release_key
  cases table.find? key with
  | none => rfl
  | some requests =>
    simp only
    split_ifs
    · simp [h]
    · simp [h]

theorem release_key_same (table : OrdMap Key (List LockRequest)) (t : U64) (key : Key) :
    ∀ req ∈ table_requests (release_key table t key) key, req.txn_id ≠ t := by
  intro req hreq
  unfold table_requests release_key at hreq
  cases hf : table.find? key with
  | none =>
    rw [hf] at hreq
    simp only [hf, Option.getD_none] at hreq
    exact absurd hreq (List.not_mem_nil _)
  | some requests =>
    rw [hf] at hreq
    simp only at hreq
    split_ifs at hreq with he
    · simp at hreq
    · simp only [OrdMap.find?_insert, if_true, Option.getD_some] at hreq
      have hmem : req.txn_id ∈ (regrant (requests.filter (fun r => decide (r.txn_id ≠ t)))).map
          (fun r => r.txn_id) := List.mem_map_of_mem _ hreq
      rw [regrant_txn_ids] at hmem
      obtain ⟨r, hr, hrt⟩ := List.mem_map.1 hmem
      have := (List.mem_filter.1 hr).2
      rw [← hrt]
      simpa using this

theorem release_key_erases (table : OrdMap Key (List LockRequest)) (t : U64) (key : Key)
    (hall : ∀ req ∈ table_requests table key, req.txn_id = t) :
    (release_key table t key).find? key = none := by
  unfold release_key
  cases hf : table.find? key with
  | none => simp only [hf]
  | some requests =>
    simp only
    have hnil : requests.filter (fun r => decide (r.txn_id ≠ t)) = [] := by
      apply List.filter_eq_nil_iff.2
      intro r hr
      have := hall r (by simp only [table_requests, hf, Option.getD_some]; exact hr)
      simp [this]
    rw [hnil]
    simp

/-- The loop of `unlock_all` over the keys recorded for the transaction. -/
def release_keys (table : OrdMap Key (List LockRequest)) (t : U64) (keys : List Key) :
    OrdMap Key (List LockRequest) :=
  keys.foldl (fun table key => release_key table t key) table

theorem release_keys_no_requests (keys : List Key) (table : OrdMap Key (List LockRequest))
    (t : U64) (k : Key)
    (hrec : (∃ req ∈ table_requests table k, req.txn_id = t) → k ∈ keys) :
    ∀ req ∈ table_requests (release_keys table t keys) k, req.txn_id ≠ t := by
  induction keys generalizing table with
  | nil =>
    intro req hreq heq
    exact absurd (hrec ⟨req, hreq, heq⟩) (List.not_mem_nil _)
  | cons key rest ih =>
    unfold release_keys
    rw [List.foldl_cons]
    apply ih
    rintro ⟨req, hreq, heq⟩
    by_cases hk : k = key
    · subst hk
      exact absurd heq (release_key_same table t k req hreq)
    · have hsame : table_requests (release_key table t key) k = table_requests table k := by
        unfold table_requests
        rw [release_key_other table t key k hk]
      rw [hsame] at hreq
      rcases List.mem_cons.1 (hrec ⟨req, hreq, heq⟩) with h | h
      · exact absurd h hk
      · exact h

theorem release_keys_none (keys : List Key) (table : OrdMap Key (List LockRequest))
    (t : U64) (k : Key) (h : table.find? k = none) :
    (release_keys table t keys).find? k = none := by
  induction keys generalizing table with
  | nil => exact h
  | cons key rest ih =>
    unfold release_keys
    rw [List.foldl_cons]
    apply ih
    by_cases hk : k = key
    · subst hk
      unfold release_key
      rw [h]
      exact h
    · rw [release_key_other table t key k hk]
      exact h

theorem release_keys_erases (keys : List Key) (table : OrdMap Key (List LockRequest))
    (t : U64) (k : Key) (hk : k ∈ keys)
    (hall : ∀ req ∈ table_requests table k, req.txn_id = t) :
    (release_keys table t keys).find? k = none := by
  induction keys generalizing table with
  | nil => exact absurd hk (List.not_mem_nil _)
  | cons key rest ih =>
    unfold release_keys
    rw [List.foldl_cons]
    by_cases hkk : k = key
    · subst hkk
      exact release_keys_none rest _ t k (release_key_erases table t k hall)
    · apply ih
      · rcases List.mem_cons.1 hk with h | h
        · exact absurd h hkk
        · exact h
      · unfold table_requests
        rw [release_key_other table t key k hkk]
        exact hall

theorem unlock_all_eq (lm : LockManager) (t : U64) :
    (lm.unlock_all t).2.lock_table_
      = release_keys lm.lock_table_ t ((lm.txn_locks_.find? t).getD []) ∧
    (lm.unlock_all t).2.txn_locks_.find? t = none := by
  unfold unlock_all
  cases hf : lm.txn_locks_.find? t with
  | none => exact ⟨rfl, hf⟩
  | some keys => exact ⟨rfl, by simp⟩

/-- A granted request of another transaction on `k`, with no request of `u` before it,
refuses `u` the EXCLUSIVE lock. -/
theorem scan_exclusive_refused (requests rest : List LockRequest) (u t : U64) (hne : u ≠ t)
    (hall : ∀ req ∈ rest, req.txn_id = t) (hg : ∃ req ∈ rest, req.granted = true) :
    can_grant_scan requests LockMode.EXCLUSIVE u rest = false := by
  induction rest with
  | nil =>
    obtain ⟨req, hreq, _⟩ := hg
    exact absurd hreq (List.not_mem_nil _)
  | cons req tl ih =>
    have ht : req.txn_id = t := hall req (List.mem_cons_self _ _)
    unfold can_grant_scan
    by_cases hgr : req.granted = true
    · have hne2 : ¬ req.txn_id = u := by rw [ht]; exact fun h => hne h.symm
      simp [hgr, hne2]
    · have hgf : req.granted = false := by simpa using hgr
      simp only [hgf, Bool.false_eq_true, not_false_eq_true, if_true]
      apply ih (fun r hr => hall r (List.mem_cons_of_mem _ hr))
      obtain ⟨r, hr, hrg⟩ := hg
      rcases List.mem_cons.1 hr with h | h
      · rw [h] at hrg; exact absurd hrg hgr
      · exact ⟨r, h, hrg⟩

end LockManager

namespace TransactionManager

theorem append_locked (w : WAL) (r : LogRecord) (hm : w.mutex_held = true) :
    w.append r = .error Fault.deadlock := by
  simp [WAL.append, WAL.lock, hm, bind, Except.bind]

/-- What a call of `commit` that returns true on an open log has done. -/
theorem commit_eq_ok (tm tm1 : TransactionManager) (txn txn1 : Transaction)
    (hopen : tm.wal_.is_open_ = true) (h : tm.commit txn = .ok (true, txn1, tm1)) :
    txn.state_ = TransactionState.RUNNING ∧
    txn1 = { txn with state_ := TransactionState.COMMITTED } ∧
    tm1 = { tm with
      wal_ := WAL.flush_internal
        { tm.wal_ with
            current_lsn_ := tm.wal_.current_lsn_ + 1,
            file := tm.wal_.file ++ serialize_record
              (WAL.stamp (tm.wal_.current_lsn_ + 1) (LogRecord.new COMMIT txn.txn_id_ [] [])),
            buffer_ := tm.wal_.buffer_ ++
              [WAL.stamp (tm.wal_.current_lsn_ + 1) (LogRecord.new COMMIT txn.txn_id_ [] [])] },
      lock_mgr_ := (tm.lock_mgr_.unlock_all txn.txn_id_).2,
      active_txns_ := tm.active_txns_.erase txn.txn_id_ } := by
  unfold commit at h
  by_cases hs : txn.state_ = TransactionState.RUNNING
  · refine ⟨hs, ?_⟩
    simp only [hs, ne_eq, not_true_eq_false, if_false] at h
    cases hm : tm.wal_.mutex_held with
    | true =>
      rw [append_locked _ _ hm] at h
      exact absurd h (by simp [bind, Except.bind])
    | false =>
      by_cases hb : tm.wal_.buffer_.length + 1 < BUFFER_SIZE
      · rw [WAL.append_ok _ _ hopen hm hb] at h
        simp only [bind, Except.bind] at h
        rw [flush_eq _ (by exact hm)] at h
        simp only [hopen, if_true, pure, Except.pure] at h
        obtain ⟨_, h2⟩ := Prod.mk.inj (Except.ok.inj h)
        obtain ⟨h3, h4⟩ := Prod.mk.inj h2
        refine ⟨h3.symm, ?_⟩
        rw [← h4]
        simp only [hopen]
      · rw [WAL.append_deadlock _ _ hopen hm (by omega)] at h
        exact absurd h (by simp [bind, Except.bind])
  · simp only [ne_eq, hs, not_false_eq_true, if_true, pure, Except.pure] at h
    have := (Prod.mk.inj (Except.ok.inj h)).1
    exact absurd this (by simp)

end TransactionManager

theorem lookupEntry_none_not_mem {K V : Type} [LinearOrder K] (k : K) (l : List (K × V))
    (h : lookupEntry k l = none) : ∀ e ∈ l, e.1 ≠ k := by
  induction l with
  | nil => intro e he; exact absurd he (List.not_mem_nil _)
  | cons x t ih =>
    obtain ⟨k1, v1⟩ := x
    unfold lookupEntry at h
    split_ifs at h with hk
    intro e he
    rcases List.mem_cons.1 he with he | he
    · rw [he]; exact fun h2 => hk h2.symm
    · exact ih h e he

/-- C20: after `commit(t)` returns true on an open log, for a transaction whose lock
requests are all on keys recorded for it in `txn_locks_`: `t` was RUNNING; the frame of
a COMMIT record with the id of `t` and the next LSN is the last thing appended to the
log file, and it is flushed; the state of `t` is COMMITTED; the table of active
transactions has no entry for `t`; `txn_locks_` has no entry for `t` and no request of
`t` is left on any key; and for every key on which all requests were requests of `t`,
one of them granted, `try_lock` EXCLUSIVE by any other transaction failed before the
commit and succeeds after it. -/
theorem commit_releases_locks (tm tm1 : TransactionManager) (txn txn1 : Transaction)
    (hopen : tm.wal_.is_open_ = true)
    (hrec : ∀ k, (∃ req ∈ tm.lock_mgr_.requests_on k, req.txn_id = txn.txn_id_) →
      k ∈ (tm.lock_mgr_.txn_locks_.find? txn.txn_id_).getD [])
    (h : tm.commit txn = .ok (true, txn1, tm1)) :
    txn.state_ = TransactionState.RUNNING ∧
    tm1.wal_.file = tm.wal_.file ++ serialize_record
      (WAL.stamp (tm.wal_.get_last_lsn + 1) (LogRecord.new COMMIT txn.txn_id_ [] [])) ∧
    tm1.wal_.flushed = tm1.wal_.file.length ∧
    tm1.wal_.get_last_lsn = tm.wal_.get_last_lsn + 1 ∧
    txn1.state_ = TransactionState.COMMITTED ∧ txn1.txn_id_ = txn.txn_id_ ∧
    (∀ e ∈ tm1.active_txns_.entries, e.1 ≠ txn.txn_id_) ∧
    tm1.lock_mgr_.txn_locks_.find? txn.txn_id_ = none ∧
    (∀ k, ∀ req ∈ tm1.lock_mgr_.requests_on k, req.txn_id ≠ txn.txn_id_) ∧
    ∀ k u, u ≠ txn.txn_id_ →
      (∃ req ∈ tm.lock_mgr_.requests_on k, req.granted = true) →
      (∀ req ∈ tm.lock_mgr_.requests_on k, req.txn_id = txn.txn_id_) →
      (tm.lock_mgr_.try_lock u k LockMode.EXCLUSIVE).1 = false ∧
      (tm1.lock_mgr_.try_lock u k LockMode.EXCLUSIVE).1 = true := by
  obtain ⟨hs, ht1, htm1⟩ := TransactionManager.commit_eq_ok tm tm1 txn txn1 hopen h
  obtain ⟨htab, hlocks⟩ := LockManager.unlock_all_eq tm.lock_mgr_ txn.txn_id_
  have hlm : tm1.lock_mgr_ = (tm.lock_mgr_.unlock_all txn.txn_id_).2 := by rw [htm1]
  refine ⟨hs, by rw [htm1]; rfl, by rw [htm1]; rfl, by rw [htm1]; rfl, by rw [ht1],
    by rw [ht1], ?_, by rw [hlm]; exact hlocks, ?_, ?_⟩
  · have hnone : tm1.active_txns_.find? txn.txn_id_ = none := by
      rw [htm1]; simp
    exact lookupEntry_none_not_mem _ _ hnone
  · intro k
    rw [hlm, LockManager.requests_on_eq, htab]
    apply LockManager.release_keys_no_requests
    exact hrec k
  · intro k u hu hg hall
    constructor
    · unfold LockManager.try_lock LockManager.can_grant_lock
      cases hf : tm.lock_mgr_.lock_table_.find? k with
      | none =>
        obtain ⟨req, hreq, _⟩ := hg
        simp only [LockManager.requests_on, hf, Option.getD_none] at hreq
        exact absurd hreq (List.not_mem_nil _)
      | some requests =>
        have hreqs : tm.lock_mgr_.requests_on k = requests := by
          simp only [LockManager.requests_on, hf, Option.getD_some]
        rw [hreqs] at hg hall
        simp only [LockManager.scan_exclusive_refused requests requests u txn.txn_id_ hu hall hg]
        rfl
    · have hk : k ∈ (tm.lock_mgr_.txn_locks_.find? txn.txn_id_).getD [] := by
        obtain ⟨req, hreq, _⟩ := hg
        exact hrec k ⟨req, hreq, hall req hreq⟩
      have hnone : tm1.lock_mgr_.lock_table_.find? k = none := by
        rw [hlm, htab]
        exact LockManager.release_keys_erases _ _ _ k hk hall
      unfold LockManager.try_lock LockManager.can_grant_lock
      rw [hnone]
      rfl

/-- The transaction of `test_transaction_concurrency` that writes `key1`. -/
def c20_txn : Transaction := { Transaction.new 1 with start_lsn_ := 1, write_keys_ := [key_k] }

/-- The state of `test_transaction_concurrency` before `commit(txn1)`, in small:
transaction 1 holds the EXCLUSIVE lock on a key it has written, transaction 2 has
begun. -/
def c20_tm : TransactionManager :=
  { wal_ := WAL.mk (frames (WAL.stampFrom 0 [LogRecord.new BEGIN 1 [] [],
        LogRecord.new PUT 1 key_k [118], LogRecord.new BEGIN 2 [] []])) 0 3 true [] false,
    lock_mgr_ := (LockManager.new.try_lock 1 key_k LockMode.EXCLUSIVE).2,
    storage_ := (StorageEngine.fresh.put key_k [118]).2,
    next_txn_id_ := 3,
    active_txns_ := (OrdMap.empty.insert 1 c20_txn).insert 2
      { Transaction.new 2 with start_lsn_ := 3 } }

/-- The state after `commit(txn1)` on `c20_tm`. -/
def c20_tm_after : TransactionManager :=
  { c20_tm with
    wal_ := WAL.flush_internal
      { c20_tm.wal_ with
          current_lsn_ := 4,
          file := c20_tm.wal_.file ++ serialize_record
            (WAL.stamp 4 (LogRecord.new COMMIT 1 [] [])),
          buffer_ := [WAL.stamp 4 (LogRecord.new COMMIT 1 [] [])] },
    lock_mgr_ := (c20_tm.lock_mgr_.unlock_all 1).2,
    active_txns_ := c20_tm.active_txns_.erase 1 }

/-- The transaction `c20_txn` as `commit` leaves it. -/
def c20_txn_after : Transaction := { c20_txn with state_ := TransactionState.COMMITTED }

theorem c20_locks_recorded :
    ∀ k, (∃ req ∈ c20_tm.lock_mgr_.requests_on k, req.txn_id = c20_txn.txn_id_) →
      k ∈ (c20_tm.lock_mgr_.txn_locks_.find? c20_txn.txn_id_).getD [] := by
  intro k hk
  by_cases hkk : k = key_k
  · rw [hkk]; decide
  · obtain ⟨req, hreq, _⟩ := hk
    have : c20_tm.lock_mgr_.requests_on k = [] := by
      simp [c20_tm, LockManager.requests_on, LockManager.try_lock, LockManager.can_grant_lock,
        LockManager.new, LockManager.push_request, LockManager.record_lock, hkk]
    rw [this] at hreq
    exact absurd hreq (List.not_mem_nil _)

/-- C20, witness: the commit of transaction 1 in `c20_tm`. -/
theorem commit_releases_locks_witness :
    c20_tm.wal_.is_open_ = true ∧
    (∀ k, (∃ req ∈ c20_tm.lock_mgr_.requests_on k, req.txn_id = c20_txn.txn_id_) →
      k ∈ (c20_tm.lock_mgr_.txn_locks_.find? c20_txn.txn_id_).getD []) ∧
    c20_tm.commit c20_txn = .ok (true, c20_txn_after, c20_tm_after) ∧
    c20_txn.state_ = TransactionState.RUNNING ∧
    c20_tm_after.wal_.file = c20_tm.wal_.file ++ serialize_record
      (WAL.stamp (c20_tm.wal_.get_last_lsn + 1) (LogRecord.new COMMIT c20_txn.txn_id_ [] [])) ∧
    c20_tm_after.wal_.flushed = c20_tm_after.wal_.file.length ∧
    c20_tm_after.wal_.get_last_lsn = c20_tm.wal_.get_last_lsn + 1 ∧
    c20_txn_after.state_ = TransactionState.COMMITTED ∧
    c20_txn_after.txn_id_ = c20_txn.txn_id_ ∧
    (∀ e ∈ c20_tm_after.active_txns_.entries, e.1 ≠ c20_txn.txn_id_) ∧
    c20_tm_after.lock_mgr_.txn_locks_.find? c20_txn.txn_id_ = none ∧
    (∀ k, ∀ req ∈ c20_tm_after.lock_mgr_.requests_on k, req.txn_id ≠ c20_txn.txn_id_) ∧
    ∀ k u, u ≠ c20_txn.txn_id_ →
      (∃ req ∈ c20_tm.lock_mgr_.requests_on k, req.granted = true) →
      (∀ req ∈ c20_tm.lock_mgr_.requests_on k, req.txn_id = c20_txn.txn_id_) →
      (c20_tm.lock_mgr_.try_lock u k LockMode.EXCLUSIVE).1 = false ∧
      (c20_tm_after.lock_mgr_.try_lock u k LockMode.EXCLUSIVE).1 = true :=
  ⟨rfl, c20_locks_recorded, rfl,
    commit_releases_locks c20_tm c20_tm_after c20_txn c20_txn_after rfl c20_locks_recorded rfl⟩

set_option maxRecDepth 100000 in
/-- The scenario of `test_transaction_concurrency` on `c20_tm`: `try_lock` EXCLUSIVE on
the key by transaction 2 fails before the commit of transaction 1 and succeeds after. -/
theorem c20_try_lock_before_and_after :
    (c20_tm.lock_mgr_.try_lock 2 key_k LockMode.EXCLUSIVE).1 = false ∧
    (c20_tm_after.lock_mgr_.try_lock 2 key_k LockMode.EXCLUSIVE).1 = true := by
  decide

end KvEngine


/-! ## The store file (`storage_engine.cpp`) and the checkpoint (`checkpoint_manager.cpp`) -/

namespace KvEngine

open LogRecordType

namespace StorageEngine

/-- The bytes that `serialize_to_file` writes for one entry: `key_len` and `value_len`
are `static_cast<uint32_t>` of the sizes, written as they lie in memory (little-endian
host), each followed by that many bytes of the key or value. -/
def serialize_entry (pair : Key × Value) : Bytes :=
  let key_len := pair.1.length % 2 ^ 32
  let value_len := pair.2.length % 2 ^ 32
  pushLE 4 key_len ++ pair.1.take key_len ++ pushLE 4 value_len ++ pair.2.take value_len

/-- `StorageEngine::serialize_to_file`: the return value and the bytes of the file
written. The file is taken to open; the 8 KB buffer only groups the writes. -/
def serialize_to_file (s : StorageEngine) : Bool × Bytes :=
  (true, pushLE 8 (s.data_.size % 2 ^ 64) ++ (s.data_.entries.map serialize_entry).flatten)

/-- `StorageEngine::flush`. -/
def flush (s : StorageEngine) : Bool × Bytes := s.serialize_to_file

/-- `ifs.read(p, n)` at `offset`: the bytes read, `none` when fewer than `n` bytes are
left and the stream fails. -/
def stream_read (data : Bytes) (offset n : Nat) : Option Bytes :=
  if offset + n ≤ data.length then some ((data.drop offset).take n) else none

/-- The loop of `deserialize_from_file` over the entries still to be read. -/
def read_entries (data : Bytes) : Nat → Nat → StorageEngine → Bool × StorageEngine
  | 0, _, s => (true, s)
  | n + 1, offset, s =>
    match stream_read data offset 4 with
    | none => (false, s)
    | some kl =>
      let key_len := readLE kl
      match stream_read data (offset + 4) key_len with
      | none => (false, s)
      | some key =>
        match stream_read data (offset + 4 + key_len) 4 with
        | none => (false, s)
        | some vl =>
          let value_len := readLE vl
          match stream_read data (offset + 4 + key_len + 4) value_len with
          | none => (false, s)
          | some value =>
            read_entries data n (offset + 4 + key_len + 4 + value_len)
              ⟨s.data_.insert key value⟩

/-- `StorageEngine::deserialize_from_file` on the bytes of the file. -/
def deserialize_from_file (s : StorageEngine) (data : Bytes) : Bool × StorageEngine :=
  match stream_read data 0 8 with
  | none => (false, s)
  | some count => read_entries data (readLE count) 8 fresh

/-- `StorageEngine::load`: a missing data file leaves the store as it is. -/
def load (s : StorageEngine) : Option Bytes → Bool × StorageEngine
  | none => (true, s)
  | some data => s.deserialize_from_file data

end StorageEngine

/-- The digits of `operator<<(uint64_t)`, most significant first. -/
def decimal_digits : Nat → Nat → Bytes → Bytes
  | 0, _, acc => acc
  | fuel + 1, n, acc =>
    if n / 10 = 0 then Fin.ofNat (48 + n % 10) :: acc
    else decimal_digits fuel (n / 10) (Fin.ofNat (48 + n % 10) :: acc)

/-- The text that `ss << id` writes. -/
def decimal (n : Nat) : Bytes := decimal_digits (n + 1) n []

namespace CheckpointManager

/-- The loop that writes the ids of the active transactions into `ss`, separated by
commas. -/
def active_list : List Transaction → Bytes
  | [] => []
  | [txn] => decimal txn.txn_id_.val
  | txn :: rest => decimal txn.txn_id_.val ++ [44] ++ active_list rest

/-- The loop over `active_txns` that lowers `min_lsn` from `cp_lsn`. -/
def min_lsn_loop (cp_lsn : U64) (active_txns : List Transaction) : U64 :=
  active_txns.foldl
    (fun min_lsn txn =>
      if txn.start_lsn_ < min_lsn ∧ txn.start_lsn_ > 0 then txn.start_lsn_ else min_lsn)
    cp_lsn

/-- `CheckpointManager::create_checkpoint` on the components it points to (all
non-null): the return value, the data file written by the store flush, and the
components afterwards. `LogRecord(CHECKPOINT, 0, ss.str())` passes the list as the
key. -/
def create_checkpoint (tm : TransactionManager) :
    Except Fault (Bool × Bytes × TransactionManager) := do
  let (ok, data_file) := tm.storage_.flush
  if ¬ ok then pure (false, data_file, tm)
  else
    let active_txns := tm.get_active_transactions
    let ss := active_list active_txns
    let record := LogRecord.new CHECKPOINT 0 ss []
    let (cp_lsn, _, wal) ← tm.wal_.append record
    let (_, wal) ← wal.flush
    let min_lsn := min_lsn_loop cp_lsn active_txns
    if min_lsn > 1 then
      let (_, wal) ← wal.truncate min_lsn
      pure (true, data_file, { tm with wal_ := wal })
    else
      pure (true, data_file, { tm with wal_ := wal })

/-- The CHECKPOINT record as `append` stamps it on an open log. -/
def checkpoint_record (tm : TransactionManager) : LogRecord :=
  WAL.stamp (tm.wal_.get_last_lsn + 1)
    (LogRecord.new CHECKPOINT 0 (active_list tm.get_active_transactions) [])

/-- The value of `min_lsn` after the loop, `cp_lsn` being the LSN of the CHECKPOINT
record. -/
def min_lsn (tm : TransactionManager) : U64 :=
  min_lsn_loop (checkpoint_record tm).lsn tm.get_active_transactions

theorem min_lsn_loop_le (cp : U64) (l : List Transaction) : min_lsn_loop cp l ≤ cp := by
  induction l generalizing cp with
  | nil => exact le_refl _
  | cons t rest ih =>
    unfold min_lsn_loop
    rw [List.foldl_cons]
    split_ifs with h
    · exact le_trans (ih t.start_lsn_) (le_of_lt h.1)
    · exact ih cp

theorem min_lsn_loop_attained (cp : U64) (l : List Transaction) :
    min_lsn_loop cp l = cp ∨ ∃ t ∈ l, 0 < t.start_lsn_ ∧ t.start_lsn_ = min_lsn_loop cp l := by
  induction l generalizing cp with
  | nil => exact Or.inl rfl
  | cons x rest ih =>
    unfold min_lsn_loop
    rw [List.foldl_cons]
    split_ifs with h
    · rcases ih x.start_lsn_ with h1 | ⟨t, ht, hp, he⟩
      · exact Or.inr ⟨x, List.mem_cons_self _ _, h.2, h1.symm⟩
      · exact Or.inr ⟨t, List.mem_cons_of_mem _ ht, hp, he⟩
    · rcases ih cp with h1 | ⟨t, ht, hp, he⟩
      · exact Or.inl h1
      · exact Or.inr ⟨t, List.mem_cons_of_mem _ ht, hp, he⟩

theorem min_lsn_loop_pos (cp : U64) (l : List Transaction) (h : 0 < cp) :
    0 < min_lsn_loop cp l := by
  rcases min_lsn_loop_attained cp l with h1 | ⟨t, _, hp, he⟩
  · rw [h1]; exact h
  · rw [← he]; exact hp

/-- The log after the CHECKPOINT record has been appended and flushed. -/
def log_with_checkpoint (tm : TransactionManager) : WAL :=
  WAL.flush_internal
    { tm.wal_ with
        current_lsn_ := tm.wal_.current_lsn_ + 1,
        file := tm.wal_.file ++ serialize_record (checkpoint_record tm),
        buffer_ := tm.wal_.buffer_ ++ [checkpoint_record tm] }

/-- The records of the log after the checkpoint, `rs` being the records before it:
those that `truncate(min_lsn)` keeps, all of them when `min_lsn` is at most 1. -/
def records_after (tm : TransactionManager) (rs : List LogRecord) : List LogRecord :=
  if min_lsn tm > 1 then
    (rs ++ [checkpoint_record tm]).filter (fun record => decide (record.lsn ≥ min_lsn tm))
  else rs ++ [checkpoint_record tm]

/-- The log after the checkpoint, `rs` being the records before it. -/
def log_after (tm : TransactionManager) (rs : List LogRecord) : WAL :=
  if min_lsn tm > 1 then
    WAL.mk (frames (records_after tm rs)) (frames (records_after tm rs)).length
      (log_with_checkpoint tm).current_lsn_ (log_with_checkpoint tm).is_open_
      (log_with_checkpoint tm).buffer_ (log_with_checkpoint tm).mutex_held
  else log_with_checkpoint tm

/-- What a call of `create_checkpoint` that returns true has done to an open log that
holds the frames of valid records. -/
theorem create_checkpoint_eq_ok (tm tm1 : TransactionManager) (data : Bytes)
    (rs : List LogRecord) (hopen : tm.wal_.is_open_ = true)
    (hfile : tm.wal_.file = frames rs) (hv : ∀ r ∈ rs, WAL.ValidRecord r)
    (hkey : (active_list tm.get_active_transactions).length < 2 ^ 32)
    (h : create_checkpoint tm = .ok (true, data, tm1)) :
    tm.wal_.mutex_held = false ∧
    data = tm.storage_.flush.2 ∧
    tm1 = TransactionManager.mk (log_after tm rs) tm.lock_mgr_ tm.storage_ tm.next_txn_id_
      tm.active_txns_ := by
  obtain ⟨⟨file, flushed, cur, is_open, buffer, held⟩, lm, st, nx, act⟩ := tm
  simp only at hopen hfile
  subst hopen
  have hvalid : ∀ r ∈ rs ++ [checkpoint_record ⟨⟨file, flushed, cur, true, buffer, held⟩,
      lm, st, nx, act⟩], WAL.ValidRecord r := by
    intro r hr
    rcases List.mem_append.1 hr with hr | hr
    · exact hv r hr
    · rw [List.mem_singleton.1 hr]
      exact WAL.validRecord_stamp _ _ hkey (by simp [LogRecord.new])
  unfold create_checkpoint at h
  have hflush : st.flush = (true, st.flush.2) := rfl
  rw [hflush] at h
  simp only [Bool.not_eq_true, Bool.true_eq_false, if_false] at h
  cases held with
  | true =>
    rw [TransactionManager.append_locked _ _ rfl] at h
    exact absurd h (by simp [bind, Except.bind])
  | false =>
    by_cases hb : buffer.length + 1 < BUFFER_SIZE
    · rw [WAL.append_ok _ _ rfl rfl hb] at h
      simp only [bind, Except.bind] at h
      rw [flush_eq _ rfl] at h
      simp only [if_true] at h
      have hfile2 : (log_with_checkpoint ⟨⟨file, flushed, cur, true, buffer, false⟩,
          lm, st, nx, act⟩).file = frames (rs ++ [checkpoint_record
            ⟨⟨file, flushed, cur, true, buffer, false⟩, lm, st, nx, act⟩]) := by
        simp only [log_with_checkpoint, WAL.flush_internal, frames_append, frames_cons,
          frames_nil, List.append_nil, hfile]
      have hread := read_all_frames _ _ hfile2 hvalid
      have htr := truncate_open _ (min_lsn ⟨⟨file, flushed, cur, true, buffer, false⟩,
        lm, st, nx, act⟩) _ rfl rfl hread
      by_cases hmin : min_lsn ⟨⟨file, flushed, cur, true, buffer, false⟩, lm, st, nx, act⟩ > 1
      · have hmin2 : min_lsn_loop (cur + 1) (TransactionManager.get_active_transactions
            ⟨⟨file, flushed, cur, true, buffer, false⟩, lm, st, nx, act⟩) > 1 := hmin
        rw [if_pos hmin2] at h
        erw [htr] at h
        simp only [pure, Except.pure] at h
        obtain ⟨_, h2⟩ := Prod.mk.inj (Except.ok.inj h)
        obtain ⟨h3, h4⟩ := Prod.mk.inj h2
        refine ⟨rfl, h3.symm, ?_⟩
        rw [← h4]
        simp only [log_after, records_after, hmin, if_true]
      · have hmin2 : ¬ min_lsn_loop (cur + 1) (TransactionManager.get_active_transactions
            ⟨⟨file, flushed, cur, true, buffer, false⟩, lm, st, nx, act⟩) > 1 := hmin
        rw [if_neg hmin2] at h
        simp only [pure, Except.pure] at h
        obtain ⟨_, h2⟩ := Prod.mk.inj (Except.ok.inj h)
        obtain ⟨h3, h4⟩ := Prod.mk.inj h2
        refine ⟨rfl, h3.symm, ?_⟩
        rw [← h4]
        simp only [log_after, hmin, if_false]
        rfl
    · have hb2 : buffer.length + 1 ≥ BUFFER_SIZE := by omega
      rw [WAL.append_deadlock _ _ rfl rfl hb2] at h
      exact absurd h (by simp [bind, Except.bind])

theorem u64_pos_iff (x : U64) : 0 < x ↔ 1 ≤ x := by
  rw [Fin.lt_def, Fin.le_def]
  have h0 : ((0 : U64) : Nat) = 0 := rfl
  have h1 : ((1 : U64) : Nat) = 1 := rfl
  rw [h0, h1]
  omega

theorem checkpoint_record_lsn_pos (tm : TransactionManager)
    (hwrap : tm.wal_.current_lsn_.val + 1 < 2 ^ 64) : 0 < (checkpoint_record tm).lsn := by
  have h : (checkpoint_record tm).lsn = tm.wal_.current_lsn_ + 1 := rfl
  rw [h, Fin.lt_def, u64_succ_val _ hwrap]
  have h0 : ((0 : U64) : Nat) = 0 := rfl
  rw [h0]
  omega

/-- On a log whose records have LSNs from 1 on, the records after the checkpoint are
those with `lsn >= min_lsn`, whether or not `truncate` is called. -/
theorem records_after_eq (tm : TransactionManager) (rs : List LogRecord)
    (hpos : ∀ r ∈ rs, 0 < r.lsn) (hwrap : tm.wal_.current_lsn_.val + 1 < 2 ^ 64) :
    records_after tm rs = (rs ++ [checkpoint_record tm]).filter
      (fun record => decide (record.lsn ≥ min_lsn tm)) := by
  unfold records_after
  split_ifs with hmin
  · rfl
  · symm
    apply List.filter_eq_self.2
    intro r hr
    have hle : min_lsn tm ≤ 1 := not_lt.1 hmin
    have hr1 : 1 ≤ r.lsn := by
      rcases List.mem_append.1 hr with hr | hr
      · exact (u64_pos_iff _).1 (hpos r hr)
      · rw [List.mem_singleton.1 hr]
        exact (u64_pos_iff _).1 (checkpoint_record_lsn_pos tm hwrap)
    exact decide_eq_true (le_trans hle hr1)

theorem log_after_file (tm : TransactionManager) (rs : List LogRecord)
    (hfile : tm.wal_.file = frames rs) :
    (log_after tm rs).file = frames (records_after tm rs) := by
  unfold log_after records_after
  split_ifs with hmin
  · simp only [records_after, hmin, if_true]
  · simp only [log_with_checkpoint, WAL.flush_internal, frames_append, frames_cons,
      frames_nil, List.append_nil, hfile]

theorem log_after_fields (tm : TransactionManager) (rs : List LogRecord) :
    (log_after tm rs).is_open_ = tm.wal_.is_open_ ∧
    (log_after tm rs).mutex_held = tm.wal_.mutex_held ∧
    (log_after tm rs).current_lsn_ = tm.wal_.current_lsn_ + 1 ∧
    (log_after tm rs).buffer_ = [] ∧
    (log_after tm rs).flushed = (log_after tm rs).file.length := by
  unfold log_after
  split_ifs <;> exact ⟨rfl, rfl, rfl, rfl, rfl⟩

end CheckpointManager

/-- The log records before the checkpoint of `c19_tm`: transaction 1 has committed,
transaction 2 has begun with LSN 3 and written a key. -/
def c19_records : List LogRecord :=
  WAL.stampFrom 0 [LogRecord.new BEGIN 1 [] [], LogRecord.new COMMIT 1 [] [],
    LogRecord.new BEGIN 2 [] [], LogRecord.new PUT 2 key_k [118]]

/-- A transaction manager with one active transaction, of `start_lsn` 3. -/
def c19_tm : TransactionManager :=
  { wal_ := WAL.mk (frames c19_records) (frames c19_records).length 4 true [] false,
    lock_mgr_ := (LockManager.new.try_lock 2 key_k LockMode.EXCLUSIVE).2,
    storage_ := (StorageEngine.fresh.put key_k [118]).2,
    next_txn_id_ := 3,
    active_txns_ := OrdMap.empty.insert 2
      { Transaction.new 2 with start_lsn_ := 3, write_keys_ := [key_k] } }

/-- The components of `c19_tm` after `create_checkpoint`. -/
def c19_tm_after : TransactionManager :=
  TransactionManager.mk (CheckpointManager.log_after c19_tm c19_records) c19_tm.lock_mgr_
    c19_tm.storage_ c19_tm.next_txn_id_ c19_tm.active_txns_

set_option maxRecDepth 100000 in
/-- The log of `c19_tm` after the checkpoint holds the records with LSNs 3, 4 and 5. -/
theorem c19_log_after :
    (c19_tm_after.wal_.read_from 0).map (fun records => records.map (fun r => (r.type, r.lsn)))
      = .ok [(BEGIN, 3), (PUT, 4), (CHECKPOINT, 5)] := by
  decide

end KvEngine


/-! ## Reopening after a checkpoint -/

namespace KvEngine

open LogRecordType

namespace StorageEngine

theorem stream_read_of_drop (data : Bytes) (off n : Nat) (b tail : Bytes)
    (hoff : off ≤ data.length) (h : data.drop off = b ++ tail) (hn : b.length = n) :
    stream_read data off n = some b ∧ data.drop (off + n) = tail ∧ off + n ≤ data.length := by
  have hlen : data.length - off = n + tail.length := by
    have := congrArg List.length h
    simpa [hn] using this
  have hle : off + n ≤ data.length := by omega
  refine ⟨?_, ?_, hle⟩
  · unfold stream_read
    rw [if_pos hle, h, ← hn]
    simp
  · rw [← List.drop_drop, h, ← hn]
    simp

/-- The loop `data_[key] = value` over the entries read. -/
def insert_entries (s : StorageEngine) (es : List (Key × Value)) : StorageEngine :=
  es.foldl (fun s e => ⟨s.data_.insert e.1 e.2⟩) s

theorem serialize_entry_of_lt (e : Key × Value) (hk : e.1.length < 2 ^ 32)
    (hv : e.2.length < 2 ^ 32) :
    serialize_entry e = pushLE 4 e.1.length ++ e.1 ++ pushLE 4 e.2.length ++ e.2 := by
  unfold serialize_entry
  simp only [Nat.mod_eq_of_lt hk, Nat.mod_eq_of_lt hv, List.take_length]

/-- Reading back the entries that `serialize_to_file` wrote. -/
theorem read_entries_serialized (es : List (Key × Value)) (pre rest : Bytes) (s : StorageEngine)
    (hb : ∀ e ∈ es, e.1.length < 2 ^ 32 ∧ e.2.length < 2 ^ 32) :
    read_entries (pre ++ (es.map serialize_entry).flatten ++ rest) es.length pre.length s
      = (true, insert_entries s es) := by
  induction es generalizing pre s with
  | nil => rfl
  | cons e t ih =>
    obtain ⟨hk, hv⟩ := hb e (List.mem_cons_self _ _)
    generalize hdata : pre ++ ((e :: t).map serialize_entry).flatten ++ rest = data
    have hd2 : data = (pre ++ serialize_entry e) ++ (t.map serialize_entry).flatten ++ rest := by
      rw [← hdata]; simp
    have h0 : data.drop pre.length = pushLE 4 e.1.length ++ (e.1 ++ (pushLE 4 e.2.length
        ++ (e.2 ++ ((t.map serialize_entry).flatten ++ rest)))) := by
      rw [hd2, serialize_entry_of_lt e hk hv]
      simp only [List.append_assoc]
      rw [List.drop_left]
    have hle0 : pre.length ≤ data.length := by
      rw [← hdata]; simp only [List.length_append]; omega
    have hkl : readLE (pushLE 4 e.1.length) = e.1.length :=
      readLE_pushLE_of_lt 4 _ (by simpa using hk)
    have hvl : readLE (pushLE 4 e.2.length) = e.2.length :=
      readLE_pushLE_of_lt 4 _ (by simpa using hv)
    obtain ⟨e1, d1, l1⟩ := stream_read_of_drop data _ 4 _ _ hle0 h0 (pushLE_length _ _)
    obtain ⟨e2, d2, l2⟩ := stream_read_of_drop data _ e.1.length _ _ l1 d1 rfl
    obtain ⟨e3, d3, l3⟩ := stream_read_of_drop data _ 4 _ _ l2 d2 (pushLE_length _ _)
    obtain ⟨e4, _, _⟩ := stream_read_of_drop data _ e.2.length _ _ l3 d3 rfl
    have hih := ih (pre ++ serialize_entry e) ⟨s.data_.insert e.1 e.2⟩
      (fun x hx => hb x (List.mem_cons_of_mem _ hx))
    rw [← hd2] at hih
    have hoff : (pre ++ serialize_entry e).length
        = pre.length + 4 + e.1.length + 4 + e.2.length := by
      rw [serialize_entry_of_lt e hk hv]
      simp only [List.length_append, pushLE_length]
      omega
    rw [hoff] at hih
    unfold read_entries
    simp only [List.length_cons, e1, hkl, e2, e3, hvl, e4]
    rw [hih]
    rfl

theorem find_insert_entries (es : List (Key × Value)) (s : StorageEngine) (k : Key)
    (hs : KeysSorted es) :
    (insert_entries s es).data_.find? k =
      match lookupEntry k es with
      | some v => some v
      | none => s.data_.find? k := by
  induction es generalizing s with
  | nil => rfl
  | cons e t ih =>
    obtain ⟨k1, v1⟩ := e
    have hs2 : KeysSorted t := (List.pairwise_cons.1 hs).2
    have hlt : ∀ x ∈ t, k1 < x.1 := (List.pairwise_cons.1 hs).1
    unfold insert_entries
    rw [List.foldl_cons]
    have h := ih ⟨s.data_.insert k1 v1⟩ hs2
    unfold insert_entries at h
    rw [h]
    by_cases hk : k = k1
    · subst hk
      rw [lookupEntry_eq_none_of_lt k t hlt]
      simp [lookupEntry]
    · simp [lookupEntry, hk]

theorem insert_entries_fresh (s : StorageEngine) : insert_entries fresh s.data_.entries = s := by
  apply ext_get
  intro k
  unfold get
  rw [find_insert_entries _ _ _ s.data_.sorted]
  unfold OrdMap.find?
  cases lookupEntry k s.data_.entries <;> rfl

/-- Loading the file that `flush` wrote gives the store back, for keys and values
shorter than `2^32` bytes. -/
theorem load_flush (s s0 : StorageEngine)
    (hb : ∀ e ∈ s.data_.entries, e.1.length < 2 ^ 32 ∧ e.2.length < 2 ^ 32)
    (hn : s.data_.size < 2 ^ 64) :
    s0.load (some s.flush.2) = (true, s) := by
  unfold load flush serialize_to_file
  simp only
  unfold deserialize_from_file
  rw [Nat.mod_eq_of_lt hn]
  have h0 : (pushLE 8 s.data_.size ++ (s.data_.entries.map serialize_entry).flatten).drop 0
      = pushLE 8 s.data_.size ++ (s.data_.entries.map serialize_entry).flatten := rfl
  obtain ⟨e1, _, _⟩ := stream_read_of_drop _ 0 8 _ _ (Nat.zero_le _) h0 (pushLE_length _ _)
  rw [e1]
  simp only
  rw [readLE_pushLE_of_lt 8 _ (by simpa using hn)]
  have h := read_entries_serialized s.data_.entries (pushLE 8 s.data_.size) [] fresh hb
  rw [List.append_nil, pushLE_length] at h
  simp only [OrdMap.size] at h ⊢
  rw [h, insert_entries_fresh]

end StorageEngine

namespace Impl

end Impl

namespace RecoveryManager

end RecoveryManager

/-- The log records before the checkpoint of `c18_quiet_tm`. -/
def c18_records : List LogRecord :=
  WAL.stampFrom 0 [LogRecord.new BEGIN 1 [] [], LogRecord.new PUT 1 key_k [97],
    LogRecord.new COMMIT 1 [] []]

/-- A transaction manager with no active transaction: transaction 1 has committed
`k = "a"`. -/
def c18_quiet_tm : TransactionManager :=
  { wal_ := WAL.mk (frames c18_records) (frames c18_records).length 3 true [] false,
    lock_mgr_ := LockManager.new,
    storage_ := (StorageEngine.fresh.put key_k [97]).2,
    next_txn_id_ := 2,
    active_txns_ := OrdMap.empty }

/-- The records of a transaction that runs after the checkpoint and commits. -/
def c18_post : List LogRecord :=
  [LogRecord.new BEGIN 2 [] [], LogRecord.new PUT 2 [106] [99], LogRecord.new COMMIT 2 [] []]

set_option maxRecDepth 100000 in
/-- The store that the reopen of the witness ends with: `k = "a"` from before the
checkpoint and `j = "c"` from the transaction committed after it. -/
theorem c18_quiet_store :
    RecoveryManager.redo (WAL.stampFrom (c18_quiet_tm.wal_.get_last_lsn + 1) c18_post)
      c18_quiet_tm.storage_
      = ((StorageEngine.fresh.put key_k [97]).2.put [106] [99]).2 := by
  decide

end KvEngine

/-! ## The store file: write buffering, layout and load -/

namespace KvEngine

namespace StorageEngine

/-- `const size_t BUFFER_SIZE = 8192` of `serialize_to_file`. -/
def BUFFER_SIZE : Nat := 8192

/-- The output of `serialize_to_file` under way: the bytes passed to `ofs.write` so
far and the contents of `buffer`. -/
structure FileWriter where
  ofs : Bytes
  buffer : Bytes
deriving DecidableEq

/-- The lambda `write_to_buffer(data, size)`, `data` being the `size` bytes passed. -/
def write_to_buffer (w : FileWriter) (data : Bytes) : FileWriter :=
  let w : FileWriter :=
    if w.buffer.length + data.length > BUFFER_SIZE then ⟨w.ofs ++ w.buffer, []⟩ else w
  if data.length > BUFFER_SIZE then ⟨w.ofs ++ data, w.buffer⟩
  else ⟨w.ofs, w.buffer ++ data⟩

/-- The body of the loop of `serialize_to_file` over the entries. -/
def write_entry (w : FileWriter) (pair : Key × Value) : FileWriter :=
  let key_len := pair.1.length % 2 ^ 32
  let w := write_to_buffer w (pushLE 4 key_len)
  let w := write_to_buffer w (pair.1.take key_len)
  let value_len := pair.2.length % 2 ^ 32
  let w := write_to_buffer w (pushLE 4 value_len)
  write_to_buffer w (pair.2.take value_len)

/-- `StorageEngine::serialize_to_file` with its 8 KB write buffer: the return value
and the bytes of the file written (the file is taken to open). -/
def serialize_to_file_buffered (s : StorageEngine) : Bool × Bytes :=
  let w : FileWriter := ⟨[], []⟩
  let w := write_to_buffer w (pushLE 8 (s.data_.size % 2 ^ 64))
  let w := s.data_.entries.foldl write_entry w
  let w : FileWriter := if ¬ w.buffer.isEmpty then ⟨w.ofs ++ w.buffer, []⟩ else w
  (true, w.ofs)

/-- The layout of the store file in the words of the format: the little-endian u64
entry count, then for each entry the little-endian u32 key length, the key, the
little-endian u32 value length and the value. -/
def file_layout (entries : List (Key × Value)) : Bytes :=
  little_endian 8 entries.length
    ++ (entries.map (fun e =>
          little_endian 4 e.1.length ++ e.1 ++ little_endian 4 e.2.length ++ e.2)).flatten

/-- The bytes that have left `write_to_buffer` or wait in the buffer. -/
def FileWriter.written (w : FileWriter) : Bytes := w.ofs ++ w.buffer

theorem written_write_to_buffer (w : FileWriter) (data : Bytes) :
    (write_to_buffer w data).written = w.written ++ data := by
  unfold write_to_buffer FileWriter.written
  simp only
  split_ifs with h1 h2 h2
  · simp
  · exact absurd (Nat.lt_of_lt_of_le h1 (Nat.le_add_left _ _)) h2
  · simp
  · simp

theorem written_write_entry (w : FileWriter) (pair : Key × Value) :
    (write_entry w pair).written = w.written ++ serialize_entry pair := by
  unfold write_entry serialize_entry
  simp only [written_write_to_buffer, List.append_assoc]

theorem written_foldl_write_entry (es : List (Key × Value)) (w : FileWriter) :
    (es.foldl write_entry w).written = w.written ++ (es.map serialize_entry).flatten := by
  induction es generalizing w with
  | nil => simp
  | cons e t ih =>
    rw [List.foldl_cons, ih, written_write_entry]
    simp

/-- The write buffer does not change what is written: the buffered writer produces the
concatenation of the pieces passed to it. -/
theorem serialize_to_file_buffered_eq (s : StorageEngine) :
    s.serialize_to_file_buffered = s.serialize_to_file := by
  unfold serialize_to_file_buffered serialize_to_file
  simp only
  have h := written_foldl_write_entry s.data_.entries
    (write_to_buffer ⟨[], []⟩ (pushLE 8 (s.data_.size % 2 ^ 64)))
  rw [written_write_to_buffer] at h
  simp only [FileWriter.written, List.nil_append] at h
  rw [← h]
  split_ifs with he
  · have : (List.foldl write_entry (write_to_buffer ⟨[], []⟩
        (pushLE 8 (s.data_.size % 2 ^ 64))) s.data_.entries).buffer = [] :=
      List.isEmpty_iff.1 he
    rw [this, List.append_nil]
  · rfl

theorem serialize_to_file_layout (s : StorageEngine)
    (hb : ∀ e ∈ s.data_.entries, e.1.length < 2 ^ 32 ∧ e.2.length < 2 ^ 32)
    (hn : s.data_.size < 2 ^ 64) :
    s.serialize_to_file = (true, file_layout s.data_.entries) := by
  unfold serialize_to_file file_layout
  rw [Nat.mod_eq_of_lt hn, pushLE_eq_little_endian]
  have hmap : s.data_.entries.map serialize_entry = s.data_.entries.map (fun e =>
      little_endian 4 e.1.length ++ e.1 ++ little_endian 4 e.2.length ++ e.2) := by
    apply List.map_congr_left
    intro e he
    rw [serialize_entry_of_lt e (hb e he).1 (hb e he).2]
    simp only [pushLE_eq_little_endian]
  rw [hmap]
  rfl

end StorageEngine

/-- C26: for every store whose keys and values are shorter than `2^32` bytes (and
whose size fits `size_t`), the file written by `serialize_to_file` through its 8 KB
write buffer is the little-endian u64 entry count followed, for the entries in
strictly ascending key order, by the little-endian u32 key length, the key, the
little-endian u32 value length and the value; `load` on these bytes gives exactly this
store, whatever it held before; and a missing file loads as the empty store. -/
theorem store_file_layout_and_load (s s0 : StorageEngine)
    (hb : ∀ e ∈ s.data_.entries, e.1.length < 2 ^ 32 ∧ e.2.length < 2 ^ 32)
    (hn : s.data_.size < 2 ^ 64) :
    s.serialize_to_file_buffered = (true, StorageEngine.file_layout s.data_.entries) ∧
    s.flush = s.serialize_to_file_buffered ∧
    s.data_.entries.Pairwise (fun a b => a.1 < b.1) ∧
    s0.load (some (StorageEngine.file_layout s.data_.entries)) = (true, s) ∧
    StorageEngine.fresh.load none = (true, StorageEngine.fresh) ∧
    (∀ k, StorageEngine.fresh.get k = none) := by
  have hl := StorageEngine.serialize_to_file_layout s hb hn
  have hload := StorageEngine.load_flush s s0 hb hn
  have hf : s.flush = s.serialize_to_file := rfl
  rw [hf, hl] at hload
  exact ⟨by rw [StorageEngine.serialize_to_file_buffered_eq, hl],
    by rw [StorageEngine.serialize_to_file_buffered_eq]; rfl, s.data_.sorted, hload, rfl,
    fun _ => rfl⟩

/-- A store with the entries `"a" = "x"` and `"bc" = ""`. -/
def c26_store : StorageEngine :=
  ((StorageEngine.fresh.put [98, 99] []).2.put [97] [120]).2

set_option maxRecDepth 100000 in
/-- C26, witness: the file of `c26_store`, byte for byte, and its load into a store
that held something else. -/
theorem store_file_layout_and_load_witness :
    (∀ e ∈ c26_store.data_.entries, e.1.length < 2 ^ 32 ∧ e.2.length < 2 ^ 32) ∧
    c26_store.data_.size < 2 ^ 64 ∧
    StorageEngine.file_layout c26_store.data_.entries
      = [2, 0, 0, 0, 0, 0, 0, 0, 1, 0, 0, 0, 97, 1, 0, 0, 0, 120,
         2, 0, 0, 0, 98, 99, 0, 0, 0, 0] ∧
    c26_store.serialize_to_file_buffered
      = (true, StorageEngine.file_layout c26_store.data_.entries) ∧
    c26_store.flush = c26_store.serialize_to_file_buffered ∧
    c26_store.data_.entries.Pairwise (fun a b => a.1 < b.1) ∧
    (StorageEngine.fresh.put [122] [122]).2.load
      (some (StorageEngine.file_layout c26_store.data_.entries)) = (true, c26_store) ∧
    StorageEngine.fresh.load none = (true, StorageEngine.fresh) ∧
    (∀ k, StorageEngine.fresh.get k = none) :=
  ⟨by decide, by decide, by decide,
    store_file_layout_and_load c26_store (StorageEngine.fresh.put [122] [122]).2
      (by decide) (by decide)⟩

end KvEngine

/-! ## The iterator (`iterator.cpp`) -/

namespace KvEngine

/-- The fields of `MapIterator`. `iter_` is held as the entries of `data_copy_` from
the current position on; the empty list is `end_`. -/
structure MapIterator where
  data_copy_ : OrdMap Key Value
  iter_ : List (Key × Value)
  prefix_ : Key
deriving DecidableEq

namespace MapIterator

/-- The test of `matches_prefix` on a key: `key.size() >= prefix_.size() &&
key.compare(0, prefix_.size(), prefix_) == 0`. -/
def key_matches (p key : Key) : Bool :=
  decide (key.length ≥ p.length) && decide (key.take p.length = p)

/-- `MapIterator::matches_prefix`. -/
def matches_prefix (it : MapIterator) : Bool :=
  match it.iter_ with
  | [] => false
  | e :: _ => if it.prefix_.isEmpty then true else key_matches it.prefix_ e.1

/-- `data_copy_->lower_bound(key)`: the position of the first entry whose key is not
less than `key`. -/
def lower_bound (entries : List (Key × Value)) (key : Key) : List (Key × Value) :=
  entries.dropWhile (fun e => decide (e.1 < key))

/-- The loop `while (iter_ != end_ && !matches_prefix()) ++iter_` of the constructor. -/
def skip_unmatched (p : Key) : List (Key × Value) → List (Key × Value)
  | [] => []
  | e :: rest =>
    if ¬ MapIterator.matches_prefix ⟨OrdMap.empty, e :: rest, p⟩ then skip_unmatched p rest
    else e :: rest

/-- The constructor `MapIterator(data, prefix)`. -/
def new (data : OrdMap Key Value) (p : Key) : MapIterator :=
  if p.isEmpty then ⟨data, data.entries, p⟩
  else ⟨data, skip_unmatched p (lower_bound data.entries p), p⟩

/-- `MapIterator::valid`. -/
def valid (it : MapIterator) : Bool :=
  !it.iter_.isEmpty && MapIterator.matches_prefix it

/-- `MapIterator::next`. -/
def next (it : MapIterator) : MapIterator :=
  match it.iter_ with
  | [] => it
  | _ :: rest => { it with iter_ := rest }

/-- `MapIterator::key`. -/
def key (it : MapIterator) : Key :=
  if it.valid then
    match it.iter_ with
    | [] => []
    | e :: _ => e.1
  else []

/-- `MapIterator::value`. -/
def value (it : MapIterator) : Value :=
  if it.valid then
    match it.iter_ with
    | [] => []
    | e :: _ => e.2
  else []

/-- `MapIterator::seek`: `std::find_if` from the current position. -/
def seek (it : MapIterator) (target : Key) : MapIterator :=
  { it with iter_ := it.iter_.dropWhile (fun e => ¬ decide (e.1 ≥ target)) }

/-- `MapIterator::seek_to_first`: the body is empty. -/
def seek_to_first (it : MapIterator) : MapIterator := it

/-- The loop `while (it->valid()) { visit(it->key(), it->value()); it->next(); }`, for
at most `fuel` rounds: the pairs visited and the iterator afterwards. -/
def iterate : Nat → MapIterator → List (Key × Value) × MapIterator
  | 0, it => ([], it)
  | fuel + 1, it =>
    if it.valid then
      let r := iterate fuel it.next
      ((it.key, it.value) :: r.1, r.2)
    else ([], it)

theorem key_matches_iff (p key : Key) : key_matches p key = true ↔ p <+: key := by
  unfold key_matches
  rw [Bool.and_eq_true, decide_eq_true_eq, decide_eq_true_eq, List.prefix_iff_eq_take]
  constructor
  · rintro ⟨_, h⟩
    exact h.symm
  · intro h
    refine ⟨?_, h.symm⟩
    have := congrArg List.length h
    rw [List.length_take] at this
    omega

theorem matches_prefix_cons (d : OrdMap Key Value) (e : Key × Value) (rest : List (Key × Value))
    (p : Key) :
    MapIterator.matches_prefix ⟨d, e :: rest, p⟩ = decide (p <+: e.1) := by
  unfold matches_prefix
  simp only
  split_ifs with h
  · have hp : p = [] := List.isEmpty_iff.1 h
    rw [hp]
    simp
  · cases hk : key_matches p e.1 with
    | true => exact (decide_eq_true ((key_matches_iff p e.1).1 hk)).symm
    | false =>
      symm
      apply decide_eq_false
      intro hpre
      rw [(key_matches_iff p e.1).2 hpre] at hk
      exact absurd hk (by simp)

theorem prefix_le (p key : Key) (h : p <+: key) : p ≤ key := by
  induction p generalizing key with
  | nil => exact List.nil_le
  | cons a t ih =>
    cases key with
    | nil => simp at h
    | cons b k =>
      obtain ⟨hab, ht⟩ := List.cons_prefix_cons.1 h
      subst hab
      exact List.cons_le_cons a (ih k ht)

theorem cons_le_cons_iff (a b : Byte) (l m : Key) :
    a :: l ≤ b :: m ↔ a < b ∨ (a = b ∧ l ≤ m) := by
  constructor
  · intro h
    rcases lt_or_eq_of_le h with hlt | heq
    · have hlex : List.Lex (fun x y => x < y) (a :: l) (b :: m) := hlt
      cases hlex with
      | cons h1 => exact Or.inr ⟨rfl, le_of_lt h1⟩
      | rel h1 => exact Or.inl h1
    · obtain ⟨h1, h2⟩ := List.cons.inj heq
      exact Or.inr ⟨h1, le_of_eq h2⟩
  · rintro (h | ⟨h1, h2⟩)
    · exact le_of_lt (List.Lex.rel h)
    · subst h1
      exact List.cons_le_cons a h2

theorem not_cons_le_nil (a : Byte) (l : Key) : ¬ (a :: l ≤ []) := by
  intro h
  rcases lt_or_eq_of_le h with hlt | heq
  · have hlex : List.Lex (fun x y => x < y) (a :: l) [] := hlt
    cases hlex
  · exact absurd heq (by simp)

/-- Keys with the prefix `p` lie together in key order: between `p` and a key that
begins with `p` every key begins with `p`. -/
theorem prefix_of_between (p k1 k2 : Key) (h1 : p ≤ k1) (h2 : k1 ≤ k2) (h : p <+: k2) :
    p <+: k1 := by
  induction p generalizing k1 k2 with
  | nil => exact List.nil_prefix
  | cons a t ih =>
    cases k2 with
    | nil => simp at h
    | cons c k2 =>
      obtain ⟨hac, ht⟩ := List.cons_prefix_cons.1 h
      subst hac
      cases k1 with
      | nil => exact absurd h1 (not_cons_le_nil a t)
      | cons b k1 =>
        rcases (cons_le_cons_iff a b t k1).1 h1 with hab | ⟨hab, htk⟩
        · rcases (cons_le_cons_iff b a k1 k2).1 h2 with hba | ⟨hba, _⟩
          · exact absurd hab (lt_asymm hba)
          · rw [hba] at hab
            exact absurd hab (lt_irrefl _)
        · subst hab
          rcases (cons_le_cons_iff a a k1 k2).1 h2 with hba | ⟨_, hk⟩
          · exact absurd hba (lt_irrefl _)
          · exact List.cons_prefix_cons.2 ⟨rfl, ih k1 k2 htk hk ht⟩

/-- The iteration from a position behind which the keys ascend and are not less than
the prefix: the entries visited are those that begin with the prefix, and the iterator
ends invalid. -/
theorem iterate_from (d : OrdMap Key Value) (p : Key) (entries : List (Key × Value))
    (hs : KeysSorted entries) (hp : ∀ e ∈ entries, p ≤ e.1) (fuel : Nat)
    (hf : entries.length ≤ fuel) :
    (iterate fuel ⟨d, entries, p⟩).1 = entries.filter (fun e => decide (p <+: e.1)) ∧
    (iterate fuel ⟨d, entries, p⟩).2.valid = false := by
  induction entries generalizing fuel with
  | nil =>
    cases fuel with
    | zero => exact ⟨rfl, rfl⟩
    | succ f => exact ⟨rfl, rfl⟩
  | cons e t ih =>
    cases fuel with
    | zero => simp at hf
    | succ f =>
      have hm := matches_prefix_cons d e t p
      have hs2 : KeysSorted t := (List.pairwise_cons.1 hs).2
      have hlt : ∀ x ∈ t, e.1 < x.1 := (List.pairwise_cons.1 hs).1
      have hv : MapIterator.valid ⟨d, e :: t, p⟩ = decide (p <+: e.1) := by
        unfold valid
        rw [hm]
        rfl
      unfold iterate
      rw [hv]
      by_cases hpre : p <+: e.1
      · have hih := ih hs2 (fun x hx => hp x (List.mem_cons_of_mem _ hx)) f
          (by simpa using hf)
        have hk : MapIterator.key ⟨d, e :: t, p⟩ = e.1 := by
          unfold key
          rw [hv]
          simp [hpre]
        have hval : MapIterator.value ⟨d, e :: t, p⟩ = e.2 := by
          unfold value
          rw [hv]
          simp [hpre]
        have hn : MapIterator.next ⟨d, e :: t, p⟩ = ⟨d, t, p⟩ := rfl
        simp only [hpre, decide_True, if_true, hk, hval, hn, hih.1, hih.2, List.filter_cons,
          and_true]
      · have hnone : t.filter (fun x => decide (p <+: x.1)) = [] := by
          apply List.filter_eq_nil_iff.2
          intro x hx hd
          exact hpre (prefix_of_between p e.1 x.1 (hp e (List.mem_cons_self _ _))
            (le_of_lt (hlt x hx)) (of_decide_eq_true hd))
        simp only [hpre, decide_False, Bool.false_eq_true, if_false, List.filter_cons, hnone,
          true_and]
        rw [hv]
        exact decide_eq_false hpre

theorem lower_bound_ge (entries : List (Key × Value)) (p : Key) (hs : KeysSorted entries) :
    ∀ e ∈ lower_bound entries p, p ≤ e.1 := by
  induction entries with
  | nil => intro e he; simp [lower_bound] at he
  | cons x t ih =>
    have hs2 : KeysSorted t := (List.pairwise_cons.1 hs).2
    have hlt : ∀ y ∈ t, x.1 < y.1 := (List.pairwise_cons.1 hs).1
    unfold lower_bound
    rw [List.dropWhile_cons]
    split_ifs with h
    · exact ih hs2
    · intro e he
      have hx : p ≤ x.1 := not_lt.1 (by simpa using h)
      rcases List.mem_cons.1 he with he | he
      · rw [he]; exact hx
      · exact le_trans hx (le_of_lt (hlt e he))

theorem filter_lower_bound (entries : List (Key × Value)) (p : Key) :
    (lower_bound entries p).filter (fun e => decide (p <+: e.1))
      = entries.filter (fun e => decide (p <+: e.1)) := by
  induction entries with
  | nil => rfl
  | cons x t ih =>
    unfold lower_bound
    rw [List.dropWhile_cons]
    split_ifs with h
    · have hx : ¬ p <+: x.1 := by
        intro hpre
        exact absurd (of_decide_eq_true h) (not_lt.2 (prefix_le p x.1 hpre))
      rw [List.filter_cons]
      simp only [hx, decide_False, Bool.false_eq_true, if_false]
      exact ih
    · rfl

theorem skip_unmatched_suffix (p : Key) (entries : List (Key × Value)) :
    skip_unmatched p entries <:+ entries := by
  induction entries with
  | nil => exact List.suffix_refl _
  | cons x t ih =>
    unfold skip_unmatched
    split_ifs
    · exact List.suffix_refl _
    · exact List.suffix_cons_iff.2 (Or.inr ih)

theorem filter_skip_unmatched (p : Key) (entries : List (Key × Value)) :
    (skip_unmatched p entries).filter (fun e => decide (p <+: e.1))
      = entries.filter (fun e => decide (p <+: e.1)) := by
  induction entries with
  | nil => rfl
  | cons x t ih =>
    unfold skip_unmatched
    rw [matches_prefix_cons]
    split_ifs with h
    · rfl
    · rw [List.filter_cons]
      have hx : decide (p <+: x.1) = false := by simpa using h
      rw [hx]
      simpa using ih

end MapIterator

/-- C27: for every store content and every prefix `p`, the empty one included, the loop
over `valid`, `key`, `value` and `next` on `scan(p)`, given at least as many rounds as
the store has entries, visits exactly the entries whose key begins with `p`, with their
values, each once in strictly ascending key order, and leaves the iterator invalid. -/
theorem scan_visits_prefix_entries (data : OrdMap Key Value) (p : Key) (fuel : Nat)
    (hf : data.size ≤ fuel) :
    (MapIterator.iterate fuel (MapIterator.new data p)).1
      = data.entries.filter (fun e => decide (p <+: e.1)) ∧
    (MapIterator.iterate fuel (MapIterator.new data p)).1.Pairwise (fun a b => a.1 < b.1) ∧
    (MapIterator.iterate fuel (MapIterator.new data p)).2.valid = false := by
  have hmain : (MapIterator.iterate fuel (MapIterator.new data p)).1
      = data.entries.filter (fun e => decide (p <+: e.1)) ∧
      (MapIterator.iterate fuel (MapIterator.new data p)).2.valid = false := by
    unfold MapIterator.new
    split_ifs with hp
    · have hnil : p = [] := List.isEmpty_iff.1 hp
      exact MapIterator.iterate_from data p data.entries data.sorted
        (fun e _ => by rw [hnil]; exact List.nil_le) fuel hf
    · have hsuf := MapIterator.skip_unmatched_suffix p (MapIterator.lower_bound data.entries p)
      have hsuf2 : MapIterator.lower_bound data.entries p <:+ data.entries :=
        List.dropWhile_suffix _
      have hsorted : KeysSorted
          (MapIterator.skip_unmatched p (MapIterator.lower_bound data.entries p)) :=
        List.Pairwise.sublist (hsuf.trans hsuf2).sublist data.sorted
      have hge : ∀ e ∈ MapIterator.skip_unmatched p (MapIterator.lower_bound data.entries p),
          p ≤ e.1 := fun e he =>
        MapIterator.lower_bound_ge data.entries p data.sorted e (hsuf.subset he)
      have hlen : (MapIterator.skip_unmatched p
          (MapIterator.lower_bound data.entries p)).length ≤ fuel :=
        le_trans (hsuf.trans hsuf2).length_le hf
      have h := MapIterator.iterate_from data p _ hsorted hge fuel hlen
      rw [MapIterator.filter_skip_unmatched, MapIterator.filter_lower_bound] at h
      exact h
  refine ⟨hmain.1, ?_, hmain.2⟩
  rw [hmain.1]
  exact List.Pairwise.sublist (List.filter_sublist _) data.sorted

/-- The store of `test_iterator` in small: `config`, `user:1`, `user:2` and `v`. -/
def c27_data : OrdMap Key Value :=
  (((OrdMap.empty.insert [117, 115, 101, 114, 58, 50] [66]).insert [118] []).insert
    [99, 111, 110, 102, 105, 103] [104]).insert [117, 115, 101, 114, 58, 49] [65]

/-- C27, witness: `scan("user:")` on `c27_data` visits `user:1` and `user:2`. -/
theorem scan_visits_prefix_entries_witness :
    c27_data.size ≤ 4 ∧
    (MapIterator.iterate 4 (MapIterator.new c27_data [117, 115, 101, 114, 58])).1
      = [([117, 115, 101, 114, 58, 49], [65]), ([117, 115, 101, 114, 58, 50], [66])] ∧
    (MapIterator.iterate 4 (MapIterator.new c27_data [117, 115, 101, 114, 58])).1
      = c27_data.entries.filter (fun e => decide ([117, 115, 101, 114, 58] <+: e.1)) ∧
    (MapIterator.iterate 4 (MapIterator.new c27_data [117, 115, 101, 114, 58])).1.Pairwise
      (fun a b => a.1 < b.1) ∧
    (MapIterator.iterate 4 (MapIterator.new c27_data [117, 115, 101, 114, 58])).2.valid
      = false :=
  ⟨by decide, by decide,
    scan_visits_prefix_entries c27_data [117, 115, 101, 114, 58] 4 (by decide)⟩

/-- A store with the keys `a` and `b`. -/
def c28_data : OrdMap Key Value := (OrdMap.empty.insert [97] [120]).insert [98] [121]

/-- C28, the code at the failing input: the scan of `c28_data` starts on `a`; after one
`next()` the iterator is on `b`, and after `seek_to_first()` it is still on `b`; after
the whole scan the iterator is invalid, and after `seek_to_first()` it is still invalid
and a second iteration visits nothing, although the scan has a first entry. -/
theorem c28_seek_to_first_keeps_position :
    (MapIterator.new c28_data []).valid = true ∧
    (MapIterator.new c28_data []).key = [97] ∧
    (MapIterator.new c28_data []).next.seek_to_first.key = [98] ∧
    (MapIterator.iterate 2 (MapIterator.new c28_data [])).1 = [([97], [120]), ([98], [121])] ∧
    (MapIterator.iterate 2 (MapIterator.new c28_data [])).2.seek_to_first.valid = false ∧
    (MapIterator.iterate 2
      (MapIterator.iterate 2 (MapIterator.new c28_data [])).2.seek_to_first).1 = [] := by
  decide

end KvEngine

/-! ## The RESP builder and parser (`resp_builder.cpp`, `resp_parser.cpp`) -/

namespace KvEngine

namespace RespBuilder

/-- The two bytes `"\r\n"`. -/
def CRLF : Bytes := [13, 10]

/-- `RespBuilder::bulk_string`: `"$" + std::to_string(str.length()) + "\r\n" + str + "\r\n"`. -/
def bulk_string (str : Bytes) : Bytes :=
  [36] ++ decimal str.length ++ CRLF ++ str ++ CRLF

/-- `RespBuilder::array`. -/
def array (elements : List Bytes) : Bytes :=
  elements.foldl (fun res elem => res ++ bulk_string elem)
    ([42] ++ decimal elements.length ++ CRLF)

end RespBuilder

/-- What stops a call of the parser from returning a status: a read at an index
outside the `len` bytes of its buffer, an overflow of the `int` loop counter, or an
exception thrown by the standard library. -/
inductive RespFault where
  | out_of_bounds
  | signed_overflow
  | exception
deriving DecidableEq

namespace RespParser

/-- `enum class Status`. -/
inductive Status where
  | OK
  | INCOMPLETE
  | PARSE_ERROR
deriving DecidableEq

/-- `buffer[i]`, the buffer holding the `len` bytes that the call was given. An index
outside them is a read outside the buffer, reported as `out_of_bounds`; what the call
goes on to do then depends on the memory behind the buffer (see `parse_in`). -/
def read_at (buffer : Bytes) (i : Nat) : Except RespFault Byte :=
  match buffer[i]? with
  | some b => .ok b
  | none => .error RespFault.out_of_bounds

/-- The loop of `find_crlf` from `i` on, `bound` being the value of `len - 1`. -/
def find_crlf_loop (buffer : Bytes) (bound : Nat) : Nat → Nat → Except RespFault (Option Nat)
  | 0, _ => .ok none
  | fuel + 1, i =>
    if i < bound then
      match read_at buffer i with
      | .error f => .error f
      | .ok c =>
        if c = 13 then
          match read_at buffer (i + 1) with
          | .error f => .error f
          | .ok d => if d = 10 then .ok (some i) else find_crlf_loop buffer bound fuel (i + 1)
        else find_crlf_loop buffer bound fuel (i + 1)
    else .ok none

/-- `RespParser::find_crlf`: the offset of the first `"\r\n"`, `none` for `nullptr`.
`len - 1` is computed in `size_t`, so it is `2^64 - 1` for `len = 0`. The loop makes
fewer than `len` rounds when `len > 0`, and its first round reads `buffer[0]`. -/
def find_crlf (buffer : Bytes) : Except RespFault (Option Nat) :=
  find_crlf_loop buffer (if buffer.length = 0 then 2 ^ 64 - 1 else buffer.length - 1)
    (buffer.length + 1) 0

/-- `std::isspace` in the "C" locale. -/
def isspace (c : Byte) : Bool :=
  c = 32 || c = 9 || c = 10 || c = 11 || c = 12 || c = 13

/-- `std::isdigit`. -/
def isdigit (c : Byte) : Bool := decide (48 ≤ c.val) && decide (c.val ≤ 57)

/-- The number written by a run of decimal digits. -/
def digits_value (digits : Bytes) : Nat :=
  digits.foldl (fun acc d => acc * 10 + (d.val - 48)) 0

/-- `std::stoll(str)`: white space, an optional sign and decimal digits are read,
what follows is ignored; `none` stands for the exception thrown when there is no digit
or the value does not fit `long long`. -/
def stoll (str : Bytes) : Option Int :=
  let s := str.dropWhile isspace
  let negative := decide (s.head? = some 45)
  let s := if s.head? = some 45 ∨ s.head? = some 43 then s.tail else s
  let digits := s.takeWhile isdigit
  if digits.isEmpty then none
  else
    let v : Int := if negative then - (digits_value digits : Int) else (digits_value digits : Int)
    if v < - 2 ^ 63 ∨ v > 2 ^ 63 - 1 then none else some v

/-- `RespParser::parse_int`: the status, `out_val` and `consumed`. -/
def parse_int (buffer : Bytes) : Except RespFault (Status × Int × Nat) :=
  match find_crlf buffer with
  | .error f => .error f
  | .ok none => .ok (Status.INCOMPLETE, 0, 0)
  | .ok (some line_len) =>
    match stoll (buffer.take line_len) with
    | none => .ok (Status.PARSE_ERROR, 0, 0)
    | some out_val => .ok (Status.OK, out_val, line_len + 2)

/-- `static_cast<size_t>` of an `int64_t`. -/
def to_size_t (v : Int) : Nat := (v % 2 ^ 64).toNat

/-- `std::string::max_size()` (libstdc++, 64 bit): `assign` with a larger count throws
`std::length_error`. -/
def STRING_MAX_SIZE : Nat := 2 ^ 62 - 1

/-- `std::vector<std::string>::max_size()` (libstdc++, 64 bit): `reserve` with a larger
count throws `std::length_error`. -/
def VECTOR_MAX_SIZE : Nat := 2 ^ 58 - 1

/-- `INT_MAX`. -/
def INT_MAX : Nat := 2 ^ 31 - 1

/-- `RespParser::parse_bulk_string`: the status, `out_str` and `consumed`. -/
def parse_bulk_string (buffer : Bytes) : Except RespFault (Status × Bytes × Nat) :=
  if buffer.length < 1 ∨ buffer.head? ≠ some 36 then .ok (Status.PARSE_ERROR, [], 0)
  else
    match parse_int (buffer.drop 1) with
    | .error f => .error f
    | .ok (s, str_len, int_consumed) =>
      if s ≠ Status.OK then .ok (s, [], 0)
      else
        let offset := 1 + int_consumed
        if str_len = -1 then .ok (Status.OK, [], offset)
        else if buffer.length - offset < (to_size_t str_len + 2) % 2 ^ 64 then
          .ok (Status.INCOMPLETE, [], 0)
        else if to_size_t str_len > STRING_MAX_SIZE then .error RespFault.exception
        else
          let out_str := (buffer.drop offset).take (to_size_t str_len)
          match read_at buffer (offset + to_size_t str_len) with
          | .error f => .error f
          | .ok c =>
            if c ≠ 13 then .ok (Status.PARSE_ERROR, out_str, 0)
            else
              match read_at buffer (offset + to_size_t str_len + 1) with
              | .error f => .error f
              | .ok d =>
                if d ≠ 10 then .ok (Status.PARSE_ERROR, out_str, 0)
                else .ok (Status.OK, out_str, offset + to_size_t str_len + 2)

/-- The loop `for (int i = 0; i < array_len; ++i)` of `parse_array` from round `i` on:
the status, `out_command` and `consumed`. Every round that goes on consumes bytes, so
`len + 1` rounds of fuel are never used up. -/
def array_loop (buffer : Bytes) (array_len : Int) :
    Nat → Nat → Nat → List Bytes → Except RespFault (Status × List Bytes × Nat)
  | 0, _, _, out_command => .ok (Status.INCOMPLETE, out_command, 0)
  | fuel + 1, i, offset, out_command =>
    if (i : Int) < array_len then
      if offset ≥ buffer.length then .ok (Status.INCOMPLETE, out_command, 0)
      else if buffer[offset]? ≠ some 36 then .ok (Status.PARSE_ERROR, out_command, 0)
      else
        match parse_bulk_string (buffer.drop offset) with
        | .error f => .error f
        | .ok (s, elem, bulk_consumed) =>
          if s ≠ Status.OK then .ok (s, out_command, 0)
          else if i + 1 > INT_MAX then .error RespFault.signed_overflow
          else array_loop buffer array_len fuel (i + 1) (offset + bulk_consumed)
            (out_command ++ [elem])
    else .ok (Status.OK, out_command, offset)

/-- `RespParser::parse_array`. -/
def parse_array (buffer : Bytes) : Except RespFault (Status × List Bytes × Nat) :=
  if buffer.length < 1 ∨ buffer.head? ≠ some 42 then .ok (Status.PARSE_ERROR, [], 0)
  else
    match parse_int (buffer.drop 1) with
    | .error f => .error f
    | .ok (s, array_len, int_consumed) =>
      if s ≠ Status.OK then .ok (s, [], 0)
      else if array_len < 0 then .ok (Status.PARSE_ERROR, [], 0)
      else if array_len.toNat > VECTOR_MAX_SIZE then .error RespFault.exception
      else array_loop buffer array_len (buffer.length + 1) 0 (1 + int_consumed) []

/-- `RespParser::parse` on the `len` bytes of `buffer`: the status, `out_command` and
`consumed`. -/
def parse (buffer : Bytes) : Except RespFault (Status × List Bytes × Nat) :=
  if buffer.length = 0 then .ok (Status.INCOMPLETE, [], 0)
  else if buffer.head? ≠ some 42 then .ok (Status.PARSE_ERROR, [], 0)
  else parse_array buffer

end RespParser

end KvEngine

namespace KvEngine

open RespBuilder RespParser

/-! ### Decimal text -/

theorem digit_byte (m : Nat) : ((Fin.ofNat (48 + m % 10) : Byte)).val = 48 + m % 10 := by
  have h : m % 10 < 10 := Nat.mod_lt _ (by decide)
  simp only [Fin.ofNat]
  omega

theorem isdigit_digit_byte (m : Nat) : isdigit (Fin.ofNat (48 + m % 10)) = true := by
  have h : m % 10 < 10 := Nat.mod_lt _ (by decide)
  unfold isdigit
  rw [digit_byte]
  simp only [Bool.and_eq_true, decide_eq_true_eq]
  omega

theorem decimal_digits_isdigit (fuel n : Nat) (acc : Bytes)
    (hacc : ∀ d ∈ acc, isdigit d = true) :
    ∀ d ∈ decimal_digits fuel n acc, isdigit d = true := by
  induction fuel generalizing n acc with
  | zero => exact hacc
  | succ f ih =>
    have hcons : ∀ d ∈ (Fin.ofNat (48 + n % 10) : Byte) :: acc, isdigit d = true := by
      intro d hd
      rcases List.mem_cons.1 hd with h | h
      · rw [h]; exact isdigit_digit_byte n
      · exact hacc d h
    unfold decimal_digits
    split_ifs
    · exact hcons
    · exact ih (n / 10) _ hcons

theorem decimal_digits_ne_nil (fuel n : Nat) (acc : Bytes) (hacc : acc ≠ []) :
    decimal_digits fuel n acc ≠ [] := by
  induction fuel generalizing n acc with
  | zero => exact hacc
  | succ f ih =>
    unfold decimal_digits
    split_ifs
    · exact List.cons_ne_nil _ _
    · exact ih (n / 10) _ (List.cons_ne_nil _ _)

theorem decimal_ne_nil (n : Nat) : decimal n ≠ [] := by
  unfold decimal decimal_digits
  split_ifs
  · exact List.cons_ne_nil _ _
  · exact decimal_digits_ne_nil _ _ _ (List.cons_ne_nil _ _)

theorem decimal_isdigit (n : Nat) : ∀ d ∈ decimal n, isdigit d = true :=
  decimal_digits_isdigit (n + 1) n [] (fun _ hd => absurd hd (List.not_mem_nil _))

theorem foldl_digits (l : Bytes) (a : Nat) :
    l.foldl (fun acc d => acc * 10 + (d.val - 48)) a = a * 10 ^ l.length + digits_value l := by
  induction l generalizing a with
  | nil => simp [digits_value]
  | cons d t ih =>
    unfold digits_value
    rw [List.foldl_cons, List.foldl_cons, ih, ih (0 * 10 + (d.val - 48)), List.length_cons]
    ring

theorem digits_value_cons (d : Byte) (t : Bytes) :
    digits_value (d :: t) = (d.val - 48) * 10 ^ t.length + digits_value t := by
  unfold digits_value
  rw [List.foldl_cons, foldl_digits]
  simp [digits_value]

theorem digits_value_decimal_digits (fuel n : Nat) (acc : Bytes) (hf : n < fuel) :
    digits_value (decimal_digits fuel n acc) = n * 10 ^ acc.length + digits_value acc := by
  induction fuel generalizing n acc with
  | zero => omega
  | succ f ih =>
    unfold decimal_digits
    split_ifs with h
    · rw [digits_value_cons, digit_byte]
      have hn : n % 10 = n := by
        have := Nat.div_add_mod n 10
        omega
      rw [hn]
      simp
    · have hlt : n / 10 < f := by
        have := Nat.div_add_mod n 10
        omega
      rw [ih (n / 10) _ hlt, digits_value_cons, digit_byte, List.length_cons]
      have hsplit := Nat.div_add_mod n 10
      have : 48 + n % 10 - 48 = n % 10 := by omega
      rw [this, pow_succ]
      nth_rewrite 3 [← hsplit]
      ring

theorem digits_value_decimal (n : Nat) : digits_value (decimal n) = n := by
  unfold decimal
  rw [digits_value_decimal_digits (n + 1) n [] (Nat.lt_succ_self n)]
  simp [digits_value]

set_option maxRecDepth 100000 in
theorem isdigit_facts : ∀ d : Byte, isdigit d = true →
    isspace d = false ∧ d ≠ 45 ∧ d ≠ 43 ∧ d ≠ 13 := by
  decide

theorem stoll_digits (ds : Bytes) (hne : ds ≠ []) (hd : ∀ d ∈ ds, isdigit d = true)
    (hv : digits_value ds ≤ 2 ^ 63 - 1) : stoll ds = some (digits_value ds : Int) := by
  cases ds with
  | nil => exact absurd rfl hne
  | cons d t =>
    obtain ⟨h1, h2, h3, _⟩ := isdigit_facts d (hd d (List.mem_cons_self _ _))
    have hdrop : (d :: t).dropWhile isspace = d :: t := by
      rw [List.dropWhile_cons, h1]
      rfl
    have htake : (d :: t).takeWhile isdigit = d :: t :=
      List.takeWhile_eq_self_iff.2 hd
    have hhead : (d :: t).head? = some d := rfl
    unfold stoll
    simp only [hdrop, hhead, Option.some.injEq, h2, h3, or_self, if_false, htake,
      List.isEmpty_cons, Bool.false_eq_true, decide_False]
    have hnn : (0 : Int) ≤ (digits_value (d :: t) : Int) := Int.natCast_nonneg _
    have hle : ((digits_value (d :: t) : Nat) : Int) ≤ 2 ^ 63 - 1 := by
      have : (digits_value (d :: t) : Int) ≤ ((2 ^ 63 - 1 : Nat) : Int) := Int.ofNat_le.2 hv
      simpa using this
    have hcond : ¬ ((digits_value (d :: t) : Int) < - 2 ^ 63 ∨
        (digits_value (d :: t) : Int) > 2 ^ 63 - 1) := by
      intro h
      rcases h with h | h
      · have : (- 2 ^ 63 : Int) < 0 := by norm_num
        omega
      · omega
    rw [if_neg hcond]

theorem stoll_decimal (n : Nat) (hn : n ≤ 2 ^ 63 - 1) : stoll (decimal n) = some (n : Int) := by
  have h := stoll_digits (decimal n) (decimal_ne_nil n) (decimal_isdigit n)
    (by rw [digits_value_decimal]; exact hn)
  rw [digits_value_decimal] at h
  exact h

/-! ### Parsing what the builder wrote -/

theorem read_at_append (pre : Bytes) (x : Byte) (tail : Bytes) :
    read_at (pre ++ x :: tail) pre.length = .ok x := by
  unfold read_at
  rw [List.getElem?_append_right (le_refl _)]
  simp

theorem find_crlf_loop_line (ds pre rest : Bytes) (bound fuel : Nat)
    (hds : ∀ d ∈ ds, d ≠ 13) (hb : pre.length + ds.length < bound) (hf : ds.length < fuel) :
    find_crlf_loop (pre ++ ds ++ [13, 10] ++ rest) bound fuel pre.length
      = .ok (some (pre.length + ds.length)) := by
  induction ds generalizing pre fuel with
  | nil =>
    cases fuel with
    | zero => simp at hf
    | succ f =>
      have hlt : pre.length < bound := by simpa using hb
      have h1 : read_at (pre ++ [] ++ [13, 10] ++ rest) pre.length = .ok 13 := by
        have := read_at_append pre 13 (10 :: rest)
        simpa using this
      have h2 : read_at (pre ++ [] ++ [13, 10] ++ rest) (pre.length + 1) = .ok 10 := by
        have := read_at_append (pre ++ [13]) 10 rest
        simpa using this
      unfold find_crlf_loop
      rw [if_pos hlt, h1]
      simp only [if_true, h2, List.length_nil, Nat.add_zero]
  | cons d t ih =>
    cases fuel with
    | zero => simp at hf
    | succ f =>
      have hlt : pre.length < bound := by
        simp only [List.length_cons] at hb
        omega
      have hd : d ≠ 13 := hds d (List.mem_cons_self _ _)
      have h1 : read_at (pre ++ d :: t ++ [13, 10] ++ rest) pre.length = .ok d := by
        have := read_at_append pre d (t ++ [13, 10] ++ rest)
        simpa using this
      have hb2 : (pre ++ [d]).length + t.length < bound := by
        simp only [List.length_append, List.length_cons, List.length_nil] at hb ⊢
        omega
      have hf2 : t.length < f := by
        simp only [List.length_cons] at hf
        omega
      have hih := ih (pre ++ [d]) f (fun x hx => hds x (List.mem_cons_of_mem _ hx)) hb2 hf2
      have hbuf : pre ++ [d] ++ t ++ [13, 10] ++ rest = pre ++ d :: t ++ [13, 10] ++ rest := by
        simp
      rw [hbuf] at hih
      unfold find_crlf_loop
      rw [if_pos hlt, h1]
      simp only [hd, if_false]
      rw [List.length_append, List.length_singleton] at hih
      rw [hih, List.length_cons]
      congr 2
      omega

theorem find_crlf_line (ds rest : Bytes) (hds : ∀ d ∈ ds, d ≠ 13) :
    find_crlf (ds ++ [13, 10] ++ rest) = .ok (some ds.length) := by
  have h := find_crlf_loop_line ds [] rest
    (if (ds ++ [13, 10] ++ rest).length = 0 then 2 ^ 64 - 1
      else (ds ++ [13, 10] ++ rest).length - 1)
    ((ds ++ [13, 10] ++ rest).length + 1) hds
    (by
      have hlen : (ds ++ [13, 10] ++ rest).length = ds.length + 2 + rest.length := by
        simp only [List.length_append, List.length_cons, List.length_nil]
      rw [hlen]
      rw [if_neg (by omega)]
      simp only [List.length_nil]
      omega)
    (by simp only [List.length_append]; omega)
  simp only [List.nil_append, List.length_nil, Nat.zero_add] at h
  unfold find_crlf
  exact h

/-- The line `<n>\r\n` is read back as `n`. -/
theorem parse_int_decimal (n : Nat) (rest : Bytes) (hn : n ≤ 2 ^ 63 - 1) :
    parse_int (decimal n ++ [13, 10] ++ rest)
      = .ok (Status.OK, (n : Int), (decimal n).length + 2) := by
  have hds : ∀ d ∈ decimal n, d ≠ 13 :=
    fun d hd => (isdigit_facts d (decimal_isdigit n d hd)).2.2.2
  unfold parse_int
  rw [find_crlf_line (decimal n) rest hds]
  simp only
  have htake : (decimal n ++ [13, 10] ++ rest).take (decimal n).length = decimal n := by
    rw [List.append_assoc, List.take_left']
    rfl
  rw [htake, stoll_decimal n hn]

theorem to_size_t_natCast (n : Nat) (hn : n < 2 ^ 64) : to_size_t (n : Int) = n := by
  unfold to_size_t
  have h : ((n : Int) % 2 ^ 64) = (n : Int) := by
    apply Int.emod_eq_of_lt (Int.natCast_nonneg _)
    have : (n : Int) < ((2 ^ 64 : Nat) : Int) := Int.ofNat_lt.2 hn
    simpa using this
  rw [h]
  exact Int.toNat_natCast n

theorem bulk_string_length (str : Bytes) :
    (bulk_string str).length = 1 + (decimal str.length).length + 2 + str.length + 2 := by
  simp only [bulk_string, CRLF, List.length_append, List.length_cons, List.length_nil]

/-- A bulk string written by the builder is read back, whatever follows it. -/
theorem parse_bulk_string_built (str rest : Bytes) (hlen : str.length ≤ STRING_MAX_SIZE) :
    parse_bulk_string (bulk_string str ++ rest)
      = .ok (Status.OK, str, (bulk_string str).length) := by
  have hmax : STRING_MAX_SIZE = 2 ^ 62 - 1 := rfl
  have hl63 : str.length ≤ 2 ^ 63 - 1 := by rw [hmax] at hlen; omega
  have hl64 : str.length < 2 ^ 64 := by rw [hmax] at hlen; omega
  generalize hbuf : bulk_string str ++ rest = buffer
  have hb0 : buffer = [36] ++ (decimal str.length ++ [13, 10] ++ (str ++ [13, 10] ++ rest)) := by
    rw [← hbuf]
    simp [bulk_string, CRLF]
  have hblen : buffer.length
      = 1 + (decimal str.length).length + 2 + str.length + 2 + rest.length := by
    rw [hb0]
    simp only [List.length_append, List.length_singleton, List.length_cons, List.length_nil]
    omega
  have hhead : buffer.head? = some 36 := by rw [hb0]; rfl
  have hdrop1 : buffer.drop 1 = decimal str.length ++ [13, 10] ++ (str ++ [13, 10] ++ rest) := by
    rw [hb0]; rfl
  have hint := parse_int_decimal str.length (str ++ [13, 10] ++ rest) hl63
  have hsz := to_size_t_natCast str.length hl64
  have hoff : buffer = ([36] ++ decimal str.length ++ [13, 10]) ++ (str ++ (13 :: 10 :: rest)) := by
    rw [hb0]; simp
  have hofflen : ([36] ++ decimal str.length ++ [13, 10] : Bytes).length
      = 1 + ((decimal str.length).length + 2) := by
    simp only [List.length_append, List.length_singleton, List.length_cons, List.length_nil]
    omega
  have hout : (buffer.drop (1 + ((decimal str.length).length + 2))).take str.length = str := by
    rw [hoff, ← hofflen, List.drop_left, List.take_left']
    rfl
  have hr1 : read_at buffer (1 + ((decimal str.length).length + 2) + str.length) = .ok 13 := by
    have := read_at_append ([36] ++ decimal str.length ++ [13, 10] ++ str) 13 (10 :: rest)
    have hb2 : buffer = [36] ++ decimal str.length ++ [13, 10] ++ str ++ 13 :: 10 :: rest := by
      rw [hb0]; simp
    rw [← hb2] at this
    have hl : ([36] ++ decimal str.length ++ [13, 10] ++ str : Bytes).length
        = 1 + ((decimal str.length).length + 2) + str.length := by
      simp only [List.length_append, List.length_singleton, List.length_cons, List.length_nil]
      omega
    rw [hl] at this
    exact this
  have hr2 : read_at buffer (1 + ((decimal str.length).length + 2) + str.length + 1)
      = .ok 10 := by
    have := read_at_append ([36] ++ decimal str.length ++ [13, 10] ++ str ++ [13]) 10 rest
    have hb2 : buffer = [36] ++ decimal str.length ++ [13, 10] ++ str ++ [13] ++ 10 :: rest := by
      rw [hb0]; simp
    rw [← hb2] at this
    have hl : ([36] ++ decimal str.length ++ [13, 10] ++ str ++ [13] : Bytes).length
        = 1 + ((decimal str.length).length + 2) + str.length + 1 := by
      simp only [List.length_append, List.length_singleton, List.length_cons, List.length_nil]
      omega
    rw [hl] at this
    exact this
  have hne1 : ¬ ((str.length : Int) = -1) := by omega
  have hmod : (str.length + 2) % 2 ^ 64 = str.length + 2 := by
    apply Nat.mod_eq_of_lt
    rw [hmax] at hlen
    omega
  have hnotinc : ¬ (buffer.length - (1 + ((decimal str.length).length + 2))
      < str.length + 2) := by
    rw [hblen]
    omega
  have hnotbig : ¬ (str.length > STRING_MAX_SIZE) := by omega
  unfold parse_bulk_string
  have hcond : ¬ (buffer.length < 1 ∨ buffer.head? ≠ some 36) := by
    rw [hhead, hblen]
    simp
  rw [if_neg hcond, hdrop1, hint]
  simp only [ne_eq, not_true_eq_false, if_false, hne1, hsz, hmod, hnotinc, hnotbig, hout, hr1,
    hr2]
  rw [bulk_string_length]
  congr 3

/-- The elements of an array as the builder lays them out. -/
def array_body (elements : List Bytes) : Bytes :=
  (elements.map RespBuilder.bulk_string).flatten

theorem foldl_bulk_string (es : List Bytes) (init : Bytes) :
    es.foldl (fun res elem => res ++ bulk_string elem) init = init ++ array_body es := by
  induction es generalizing init with
  | nil => simp [array_body]
  | cons e t ih =>
    rw [List.foldl_cons, ih]
    simp [array_body]

theorem array_eq (cmd : List Bytes) :
    array cmd = [42] ++ decimal cmd.length ++ [13, 10] ++ array_body cmd := by
  unfold array
  rw [foldl_bulk_string]
  rfl

theorem array_body_cons (e : Bytes) (t : List Bytes) :
    array_body (e :: t) = bulk_string e ++ array_body t := by
  simp [array_body]

theorem length_le_array_body (es : List Bytes) : es.length ≤ (array_body es).length := by
  induction es with
  | nil => simp
  | cons e t ih =>
    rw [array_body_cons, List.length_append, bulk_string_length, List.length_cons]
    omega

theorem bulk_string_eq_cons (e : Bytes) :
    bulk_string e = 36 :: (decimal e.length ++ [13, 10] ++ e ++ [13, 10]) := by
  simp [bulk_string, CRLF]

/-- One round of the loop of `parse_array` on an element written by the builder. -/
theorem array_loop_step (pre rest e : Bytes) (array_len : Int) (fuel i : Nat)
    (out_command : List Bytes) (hi : (i : Int) < array_len)
    (he : e.length ≤ STRING_MAX_SIZE) :
    array_loop (pre ++ bulk_string e ++ rest) array_len (fuel + 1) i pre.length out_command
      = if i + 1 > INT_MAX then .error RespFault.signed_overflow
        else array_loop (pre ++ bulk_string e ++ rest) array_len fuel (i + 1)
          (pre ++ bulk_string e).length (out_command ++ [e]) := by
  have hlen : ¬ (pre.length ≥ (pre ++ bulk_string e ++ rest).length) := by
    simp only [List.length_append, bulk_string_length]
    omega
  have hget : (pre ++ bulk_string e ++ rest)[pre.length]? = some 36 := by
    rw [List.append_assoc, List.getElem?_append_right (le_refl _), bulk_string_eq_cons]
    simp
  have hdrop : (pre ++ bulk_string e ++ rest).drop pre.length = bulk_string e ++ rest := by
    rw [List.append_assoc, List.drop_left]
  rw [array_loop]
  rw [if_pos hi, if_neg hlen, hget, hdrop, parse_bulk_string_built e rest he]
  simp only [ne_eq, not_true_eq_false, if_false, List.length_append]

/-- The loop of `parse_array` reads back the elements the builder wrote. -/
theorem array_loop_built (es : List Bytes) (pre rest : Bytes) (array_len : Int)
    (fuel i : Nat) (out_command : List Bytes)
    (hlen : array_len = ((i + es.length : Nat) : Int)) (hmax : i + es.length ≤ INT_MAX)
    (hf : es.length < fuel) (hs : ∀ e ∈ es, e.length ≤ STRING_MAX_SIZE) :
    array_loop (pre ++ array_body es ++ rest) array_len fuel i pre.length out_command
      = .ok (Status.OK, out_command ++ es, pre.length + (array_body es).length) := by
  induction es generalizing pre fuel i out_command with
  | nil =>
    cases fuel with
    | zero => simp at hf
    | succ f =>
      have hi : ¬ ((i : Int) < array_len) := by
        rw [hlen]
        simp
      rw [array_loop, if_neg hi]
      simp [array_body]
  | cons e t ih =>
    cases fuel with
    | zero => simp at hf
    | succ f =>
      have hi : (i : Int) < array_len := by
        rw [hlen]
        simp only [List.length_cons]
        omega
      have hbuf : pre ++ array_body (e :: t) ++ rest
          = pre ++ bulk_string e ++ (array_body t ++ rest) := by
        rw [array_body_cons]
        simp
      have hmax2 : ¬ (i + 1 > INT_MAX) := by
        simp only [List.length_cons] at hmax
        omega
      rw [hbuf, array_loop_step pre (array_body t ++ rest) e array_len f i out_command hi
        (hs e (List.mem_cons_self _ _)), if_neg hmax2]
      have hih := ih (pre ++ bulk_string e) f (i + 1) (out_command ++ [e])
        (by rw [hlen]; simp only [List.length_cons]; congr 1; omega)
        (by simp only [List.length_cons] at hmax; omega)
        (by simp only [List.length_cons] at hf; omega)
        (fun x hx => hs x (List.mem_cons_of_mem _ hx))
      have hbuf2 : pre ++ bulk_string e ++ array_body t ++ rest
          = pre ++ bulk_string e ++ (array_body t ++ rest) := by simp
      rw [hbuf2] at hih
      rw [hih, array_body_cons]
      simp only [List.length_append, List.append_assoc, List.singleton_append]
      congr 3
      omega

/-- The loop counter `int i` is incremented past `INT_MAX` when the array has more than
`INT_MAX` elements. -/
theorem array_loop_overflow (es : List Bytes) (pre rest : Bytes) (array_len : Int)
    (fuel i : Nat) (out_command : List Bytes)
    (hlen : array_len = ((i + es.length : Nat) : Int)) (hi0 : i ≤ INT_MAX)
    (hmax : i + es.length > INT_MAX)
    (hf : es.length < fuel) (hs : ∀ e ∈ es, e.length ≤ STRING_MAX_SIZE) :
    array_loop (pre ++ array_body es ++ rest) array_len fuel i pre.length out_command
      = .error RespFault.signed_overflow := by
  induction es generalizing pre fuel i out_command with
  | nil =>
    simp only [List.length_nil, Nat.add_zero] at hmax
    omega
  | cons e t ih =>
    cases fuel with
    | zero => simp at hf
    | succ f =>
      have hi : (i : Int) < array_len := by
        rw [hlen]
        simp only [List.length_cons]
        omega
      have hbuf : pre ++ array_body (e :: t) ++ rest
          = pre ++ bulk_string e ++ (array_body t ++ rest) := by
        rw [array_body_cons]
        simp
      rw [hbuf, array_loop_step pre (array_body t ++ rest) e array_len f i out_command hi
        (hs e (List.mem_cons_self _ _))]
      by_cases hov : i + 1 > INT_MAX
      · rw [if_pos hov]
      · rw [if_neg hov]
        have hih := ih (pre ++ bulk_string e) f (i + 1) (out_command ++ [e])
          (by rw [hlen]; simp only [List.length_cons]; congr 1; omega)
          (by omega)
          (by simp only [List.length_cons] at hmax; omega)
          (by simp only [List.length_cons] at hf; omega)
          (fun x hx => hs x (List.mem_cons_of_mem _ hx))
        have hbuf2 : pre ++ bulk_string e ++ array_body t ++ rest
            = pre ++ bulk_string e ++ (array_body t ++ rest) := by simp
        rw [hbuf2] at hih
        exact hih

/-- What `parse` does up to the loop on an array written by the builder. -/
theorem parse_array_header (cmd : List Bytes) (rest : Bytes)
    (hn : cmd.length ≤ VECTOR_MAX_SIZE) :
    parse (array cmd ++ rest)
      = array_loop (([42] ++ decimal cmd.length ++ [13, 10]) ++ array_body cmd ++ rest)
          (cmd.length : Int) ((array cmd ++ rest).length + 1) 0
          ([42] ++ decimal cmd.length ++ [13, 10] : Bytes).length [] := by
  have hvec : VECTOR_MAX_SIZE = 2 ^ 58 - 1 := rfl
  have hn63 : cmd.length ≤ 2 ^ 63 - 1 := by rw [hvec] at hn; omega
  generalize hbuf : array cmd ++ rest = buffer
  have hb0 : buffer = [42] ++ (decimal cmd.length ++ [13, 10] ++ (array_body cmd ++ rest)) := by
    rw [← hbuf, array_eq]
    simp
  have hb1 : [42] ++ decimal cmd.length ++ [13, 10] ++ array_body cmd ++ rest = buffer := by
    rw [hb0]
    simp
  have hlen0 : ¬ (buffer.length = 0) := by
    rw [hb0]
    simp
  have hhead : buffer.head? = some 42 := by rw [hb0]; rfl
  have hdrop1 : buffer.drop 1 = decimal cmd.length ++ [13, 10] ++ (array_body cmd ++ rest) := by
    rw [hb0]; rfl
  have hint := parse_int_decimal cmd.length (array_body cmd ++ rest) hn63
  have hcond : ¬ (buffer.length < 1 ∨ buffer.head? ≠ some 42) := by
    rw [hhead]
    simp only [ne_eq, not_true_eq_false, or_false, not_lt]
    omega
  have hneg : ¬ ((cmd.length : Int) < 0) := by omega
  have hbig : ¬ ((cmd.length : Int).toNat > VECTOR_MAX_SIZE) := by
    rw [Int.toNat_natCast]
    omega
  have hoff : ([42] ++ decimal cmd.length ++ [13, 10] : Bytes).length
      = 1 + ((decimal cmd.length).length + 2) := by
    simp only [List.length_append, List.length_cons, List.length_nil]
    omega
  unfold parse
  rw [if_neg hlen0, hhead]
  simp only [ne_eq, not_true_eq_false, if_false]
  unfold parse_array
  rw [if_neg hcond, hdrop1, hint]
  simp only [ne_eq, not_true_eq_false, if_false, hneg, hbig]
  rw [hb1, hoff]

theorem array_length_gt (cmd : List Bytes) (rest : Bytes) :
    cmd.length < (array cmd ++ rest).length + 1 := by
  have h := length_le_array_body cmd
  rw [array_eq]
  simp only [List.length_append]
  omega

/-- More than `INT_MAX` elements: the loop counter overflows. -/
theorem parse_array_overflow (cmd : List Bytes) (rest : Bytes)
    (hn : cmd.length ≤ VECTOR_MAX_SIZE) (hmax : cmd.length > INT_MAX)
    (hs : ∀ e ∈ cmd, e.length ≤ STRING_MAX_SIZE) :
    parse (array cmd ++ rest) = .error RespFault.signed_overflow := by
  rw [parse_array_header cmd rest hn]
  exact array_loop_overflow cmd _ rest _ _ 0 [] (by simp) (Nat.zero_le _)
    (by omega) (array_length_gt cmd rest) hs

/-! ### C29: parsing undoes building -/

/-- C29, within the range of the loop counter: for every list `cmd` of at most `INT_MAX`
byte strings (each one a `std::string`, so not longer than `max_size()`) and every
trailing byte string `rest`, `RespParser::parse` on `RespBuilder::array(cmd)` followed by
`rest` returns OK with `out_command` equal to `cmd` and `consumed` equal to the length of
`RespBuilder::array(cmd)`. -/
theorem parse_undoes_array (cmd : List Bytes) (rest : Bytes)
    (hn : cmd.length ≤ INT_MAX) (hs : ∀ e ∈ cmd, e.length ≤ STRING_MAX_SIZE) :
    parse (array cmd ++ rest) = .ok (Status.OK, cmd, (array cmd).length) := by
  have hint : INT_MAX = 2 ^ 31 - 1 := rfl
  have hvec : VECTOR_MAX_SIZE = 2 ^ 58 - 1 := rfl
  have hn2 : cmd.length ≤ VECTOR_MAX_SIZE := by
    rw [hint] at hn
    rw [hvec]
    omega
  rw [parse_array_header cmd rest hn2]
  rw [array_loop_built cmd _ rest _ _ 0 [] (by simp) (by omega) (array_length_gt cmd rest) hs]
  rw [array_eq]
  simp only [List.nil_append, List.length_append]

/-- The command `SET key value`. -/
def c29_set : List Bytes := [[83, 69, 84], [107, 101, 121], [118, 97, 108, 117, 101]]

/-- The encoding of `PING`, as a second command in the same buffer. -/
def c29_rest : Bytes := [42, 49, 13, 10, 36, 52, 13, 10, 80, 73, 78, 71, 13, 10]

theorem parse_undoes_array_witness :
    c29_set.length ≤ INT_MAX ∧ (∀ e ∈ c29_set, e.length ≤ STRING_MAX_SIZE) ∧
    parse (array c29_set ++ c29_rest) = .ok (Status.OK, c29_set, (array c29_set).length) :=
  ⟨by decide, by decide,
    parse_undoes_array c29_set c29_rest (by decide) (by decide)⟩

/-- A command of `2^31` empty strings. -/
def c29_command : List Bytes := List.replicate (2 ^ 31) []

theorem c29_command_length : c29_command.length = 2 ^ 31 := List.length_replicate _ _

/-- C29, the failing input: on the encoding of a command of `2^31` elements the loop
counter `int i` of `parse_array` is incremented at `INT_MAX`, a signed overflow, where
the claim has `parse` return OK. -/
theorem c29_loop_counter_overflows :
    parse (array c29_command ++ []) = .error RespFault.signed_overflow := by
  have hlen := c29_command_length
  apply parse_array_overflow
  · rw [hlen]
    decide
  · rw [hlen]
    decide
  · intro e he
    rw [List.eq_of_mem_replicate he]
    decide

/-! ### C30: proper prefixes of a command -/

/-- The command `SET key value` of the parser's test. -/
def c30_command : List Bytes := [[83, 69, 84], [107, 101, 121], [118, 97, 108, 117, 101]]

theorem array_take_one (cmd : List Bytes) : (array cmd).take 1 = [42] := by
  rw [array_eq]
  rfl

set_option maxRecDepth 100000 in
/-- C30, the failing inputs: the prefix `"*"` of every encoded command, and with it
each prefix of `*3\r\n$3\r\nSET\r\n$3\r\nkey\r\n$5\r\nvalue\r\n` that ends
right after a `$`, makes `find_crlf` run with `len = 0`, where `len - 1` wraps around and
`buffer[0]` is read beyond the prefix; every other proper prefix of that command
returns INCOMPLETE. -/
theorem prefix_after_marker_reads_past_end :
    (∀ cmd : List Bytes, parse ((array cmd).take 1) = .error RespFault.out_of_bounds) ∧
    (array c30_command).length = 33 ∧
    (∀ n, n < 33 →
      (parse ((array c30_command).take n)).map Prod.fst
        = if n = 1 ∨ n = 5 ∨ n = 14 ∨ n = 23 then .error RespFault.out_of_bounds
          else .ok Status.INCOMPLETE) := by
  refine ⟨fun cmd => ?_, by decide, by decide⟩
  rw [array_take_one]
  decide

end KvEngine

/-! ## The engine (`kv_engine.cpp`) -/

namespace KvEngine

/-- `enum class StatusCode`. -/
inductive StatusCode where
  | OK
  | NOT_FOUND
  | IO_ERROR
  | CORRUPTION
  | NOT_SUPPORTED
  | INVALID_ARGUMENT
  | ALREADY_EXISTS
deriving DecidableEq

/-- `struct Statistics`. -/
structure Statistics where
  total_keys : U64
  memory_used : U64
  cache_hit_rate : U64
  total_reads : U64
  total_writes : U64
deriving DecidableEq

/-- The state of `HashIndex`: its map `index_` from keys to offsets. -/
structure HashIndex where
  index_ : OrdMap Key U64

namespace HashIndex

/-- The constructor `HashIndex()`. -/
def new : HashIndex := ⟨OrdMap.empty⟩

/-- `HashIndex::insert`: `index_[key] = offset`. -/
def insert (h : HashIndex) (key : Key) (offset : U64) : HashIndex :=
  ⟨h.index_.insert key offset⟩

/-- `HashIndex::remove`: `return index_.erase(key) > 0`. -/
def remove (h : HashIndex) (key : Key) : Bool × HashIndex :=
  (h.index_.contains key, ⟨h.index_.erase key⟩)

/-- `HashIndex::exists`. -/
def exists_ (h : HashIndex) (key : Key) : Bool :=
  h.index_.contains key

/-- `HashIndex::get_all_keys`: the keys, sorted. -/
def get_all_keys (h : HashIndex) : List Key :=
  h.index_.entries.map Prod.fst

/-- `HashIndex::size`. -/
def size (h : HashIndex) : Nat := h.index_.size

end HashIndex

/-- `StorageEngine::memory_usage`, a `size_t` sum. -/
def StorageEngine.memory_usage (s : StorageEngine) : Nat :=
  s.data_.entries.foldl (fun total pair => (total + (pair.1.length + pair.2.length)) % 2 ^ 64) 0

/-- `StorageEngine::get_all_data`. -/
def StorageEngine.get_all_data (s : StorageEngine) : OrdMap Key Value := s.data_

/-- The state of `KvEngine::Impl`. Its members `storage_`, `wal_` and `lock_mgr_` are
the objects that `txn_mgr_` points to, held here inside `txn_mgr_`; the checkpoint and
recovery managers have no state of their own. -/
structure Impl where
  txn_mgr_ : TransactionManager
  index_ : HashIndex
  stats_ : Statistics
  is_open_ : Bool

namespace Impl

/-- The constructor `Impl(data_dir)`. -/
def new : Impl :=
  { txn_mgr_ := TransactionManager.new WAL.new LockManager.new StorageEngine.fresh,
    index_ := HashIndex.new,
    stats_ := ⟨0, 0, 0, 0, 0⟩,
    is_open_ := false }

/-- The member `storage_`. -/
def storage_ (e : Impl) : StorageEngine := e.txn_mgr_.storage_

/-- `Impl::rebuild_index`. -/
def rebuild_index (e : Impl) : Impl :=
  let index := e.storage_.get_all_data.entries.foldl
    (fun index pair => HashIndex.insert index pair.1 0) HashIndex.new
  { e with index_ := index,
           stats_ := { e.stats_ with total_keys := Fin.ofNat index.size } }

/-- `Impl::open`, given the data file (if any) and the log file found in the data
directory: the return value and the engine afterwards. -/
def open_dir (e : Impl) (data_file : Option Bytes) (wal_file : Bytes) :
    Except Fault (Bool × Impl) := do
  if e.is_open_ then pure (true, e)
  else
    match e.storage_.load data_file with
    | (false, storage) => pure (false, { e with txn_mgr_ := { e.txn_mgr_ with storage_ := storage } })
    | (true, storage) =>
      let (ok, wal) ← e.txn_mgr_.wal_.initialize_wal wal_file
      let e := { e with txn_mgr_ := { e.txn_mgr_ with storage_ := storage, wal_ := wal } }
      if ¬ ok then pure (false, e)
      else
        let records ← wal.read_from 0
        let (ok, storage) := RecoveryManager.recover records storage
        let e := { e with txn_mgr_ := { e.txn_mgr_ with storage_ := storage } }
        if ¬ ok then pure (false, e)
        else pure (true, { e.rebuild_index with is_open_ := true })

/-- `Impl::put`: the return value and the engine afterwards. `begin` returns a new
object, never a null pointer, so the test `if (!txn)` has no branch here. -/
def put (e : Impl) (key : Key) (value : Value) : Except Fault (Bool × Impl) := do
  if ¬ e.is_open_ then pure (false, e)
  else
    let (txn, tm) ← e.txn_mgr_.begin
    let (ok, txn, tm) ← tm.put txn key value
    if ¬ ok then
      let (_, _, tm) ← tm.rollback txn
      pure (false, { e with txn_mgr_ := tm })
    else
      let (ok, txn, tm) ← tm.commit txn
      if ¬ ok then
        let (_, _, tm) ← tm.rollback txn
        pure (false, { e with txn_mgr_ := tm })
      else
        pure (true, { e with txn_mgr_ := tm,
                             index_ := e.index_.insert key 0,
                             stats_ := { e.stats_ with total_writes := e.stats_.total_writes + 1 } })

/-- `Status Impl::get(key, value)`: the status code, `value` afterwards, and the
engine. -/
def get (e : Impl) (key : Key) (value : Value) : StatusCode × Value × Impl :=
  if ¬ e.is_open_ then (StatusCode.IO_ERROR, value, e)
  else
    let e := { e with stats_ := { e.stats_ with total_reads := e.stats_.total_reads + 1 } }
    match e.storage_.get key with
    | some found => (StatusCode.OK, found, e)
    | none => (StatusCode.NOT_FOUND, value, e)

/-- `Impl::remove`: the return value and the engine afterwards. -/
def remove (e : Impl) (key : Key) : Except Fault (Bool × Impl) := do
  if ¬ e.is_open_ then pure (false, e)
  else
    let (txn, tm) ← e.txn_mgr_.begin
    let (ok, txn, tm) ← tm.remove txn key
    if ¬ ok then
      let (_, _, tm) ← tm.rollback txn
      pure (false, { e with txn_mgr_ := tm })
    else
      let (ok, txn, tm) ← tm.commit txn
      if ¬ ok then
        let (_, _, tm) ← tm.rollback txn
        pure (false, { e with txn_mgr_ := tm })
      else
        pure (true, { e with txn_mgr_ := tm, index_ := (e.index_.remove key).2 })

/-- `Impl::exists`. -/
def exists_ (e : Impl) (key : Key) : Bool :=
  if ¬ e.is_open_ then false else e.index_.exists_ key

/-- The loop of `batch_put` over the entries of `batch`: whether every
`txn_mgr_.put` returned true. -/
def batch_loop (tm : TransactionManager) (txn : Transaction) :
    List (Key × Value) → Except Fault (Bool × Transaction × TransactionManager)
  | [] => pure (true, txn, tm)
  | pair :: rest => do
    let (ok, txn, tm) ← tm.put txn pair.1 pair.2
    if ¬ ok then pure (false, txn, tm)
    else batch_loop tm txn rest

/-- `Impl::batch_put`: the return value and the engine afterwards; `index_` and
`stats_` are not written. -/
def batch_put (e : Impl) (batch : OrdMap Key Value) : Except Fault (Bool × Impl) := do
  if ¬ e.is_open_ then pure (false, e)
  else
    let (txn, tm) ← e.txn_mgr_.begin
    let (ok, txn, tm) ← batch_loop tm txn batch.entries
    if ¬ ok then
      let (_, _, tm) ← tm.rollback txn
      pure (false, { e with txn_mgr_ := tm })
    else
      let (ok, _, tm) ← tm.commit txn
      pure (ok, { e with txn_mgr_ := tm })

/-- `Impl::scan`, `none` for `nullptr`. -/
def scan (e : Impl) (p : Key) : Option MapIterator :=
  if ¬ e.is_open_ then none else some (MapIterator.new e.storage_.get_all_data p)

/-- `Impl::get_statistics`. -/
def get_statistics (e : Impl) : Statistics :=
  { e.stats_ with total_keys := Fin.ofNat e.index_.size,
                  memory_used := Fin.ofNat e.storage_.memory_usage }

end Impl

/-- A call of `put` or `remove` on the engine. -/
inductive EngineCall where
  | put (key : Key) (value : Value)
  | remove (key : Key)
deriving DecidableEq

namespace EngineCall

/-- The key that the call works on. -/
def key : EngineCall → Key
  | put k _ => k
  | remove k => k

/-- The call on an engine: the return value and the engine afterwards. -/
def step (e : Impl) : EngineCall → Except Fault (Bool × Impl)
  | put k v => e.put k v
  | remove k => e.remove k

/-- A sequence of calls, whatever each of them returns. -/
def run (e : Impl) : List EngineCall → Except Fault Impl
  | [] => .ok e
  | c :: rest =>
    match step e c with
    | .error f => .error f
    | .ok (_, e1) => run e1 rest

end EngineCall

end KvEngine

namespace KvEngine

namespace TransactionManager

theorem sync_storage (tm : TransactionManager) (txn : Transaction) :
    (tm.sync txn).storage_ = tm.storage_ := by
  unfold sync
  split <;> rfl

theorem sync_wal (tm : TransactionManager) (txn : Transaction) :
    (tm.sync txn).wal_ = tm.wal_ := by
  unfold sync
  split <;> rfl

theorem sync_lock_mgr (tm : TransactionManager) (txn : Transaction) :
    (tm.sync txn).lock_mgr_ = tm.lock_mgr_ := by
  unfold sync
  split <;> rfl

/-- What `begin` leaves of the store and of the new transaction. -/
theorem begin_storage (tm tm1 : TransactionManager) (txn : Transaction)
    (h : tm.begin = .ok (txn, tm1)) :
    tm1.storage_ = tm.storage_ ∧ txn.state_ = TransactionState.RUNNING ∧
    txn.write_keys_ = [] := by
  unfold begin at h
  simp only [bind, Except.bind, pure, Except.pure] at h
  split at h
  · exact absurd h (by simp)
  · obtain ⟨h1, h2⟩ := Prod.mk.inj (Except.ok.inj h)
    subst h1 h2
    exact ⟨rfl, rfl, rfl⟩

/-- What `commit` leaves of the store. -/
theorem commit_storage (tm tm1 : TransactionManager) (txn txn1 : Transaction) (b : Bool)
    (h : tm.commit txn = .ok (b, txn1, tm1)) :
    tm1.storage_ = tm.storage_ ∧ txn1.write_keys_ = txn.write_keys_ := by
  unfold commit at h
  simp only [bind, Except.bind, pure, Except.pure] at h
  split at h
  · obtain ⟨_, h2⟩ := Prod.mk.inj (Except.ok.inj h)
    obtain ⟨h3, h4⟩ := Prod.mk.inj h2
    subst h3 h4
    exact ⟨rfl, rfl⟩
  · split at h
    · exact absurd h (by simp)
    · split at h
      · exact absurd h (by simp)
      · obtain ⟨_, h2⟩ := Prod.mk.inj (Except.ok.inj h)
        obtain ⟨h3, h4⟩ := Prod.mk.inj h2
        subst h3 h4
        exact ⟨rfl, rfl⟩

/-- What `rollback` leaves of the store: the write keys are removed. -/
theorem rollback_storage (tm tm1 : TransactionManager) (txn txn1 : Transaction) (b : Bool)
    (h : tm.rollback txn = .ok (b, txn1, tm1)) :
    ∀ j, j ∉ txn.write_keys_ → tm1.storage_.get j = tm.storage_.get j := by
  intro j hj
  unfold rollback at h
  simp only [bind, Except.bind, pure, Except.pure] at h
  split at h
  · obtain ⟨_, h2⟩ := Prod.mk.inj (Except.ok.inj h)
    obtain ⟨_, h4⟩ := Prod.mk.inj h2
    subst h4
    rfl
  · split at h
    · exact absurd h (by simp)
    · split at h
      · exact absurd h (by simp)
      · obtain ⟨_, h2⟩ := Prod.mk.inj (Except.ok.inj h)
        obtain ⟨_, h4⟩ := Prod.mk.inj h2
        subst h4
        have := get_removeKeys txn.write_keys_.reverse tm.storage_ j
        unfold removeKeys at this
        simp only [List.mem_reverse, hj, if_false] at this
        exact this

/-- What `put` does to the store and to the write keys. -/
theorem put_storage (tm tm1 : TransactionManager) (txn txn1 : Transaction) (k : Key)
    (v : Value) (b : Bool) (h : tm.put txn k v = .ok (b, txn1, tm1)) :
    (b = true → tm1.storage_ = (tm.storage_.put k v).2) ∧
    (∀ j, j ≠ k → tm1.storage_.get j = tm.storage_.get j) ∧
    (∀ j ∈ txn1.write_keys_, j ∈ txn.write_keys_ ∨ j = k) := by
  unfold put at h
  simp only [bind, Except.bind, pure, Except.pure] at h
  split at h
  · obtain ⟨h1, h2⟩ := Prod.mk.inj (Except.ok.inj h)
    obtain ⟨h3, h4⟩ := Prod.mk.inj h2
    subst h1 h3 h4
    exact ⟨fun hb => absurd hb (by simp), fun _ _ => rfl, fun j hj => Or.inl hj⟩
  · split at h
    · exact absurd h (by simp)
    · obtain ⟨h1, h2⟩ := Prod.mk.inj (Except.ok.inj h)
      obtain ⟨h3, h4⟩ := Prod.mk.inj h2
      subst h1 h3 h4
      exact ⟨fun hb => absurd hb (by simp), fun _ _ => rfl, fun j hj => Or.inl hj⟩
    · split at h
      · exact absurd h (by simp)
      · simp only [StorageEngine.put, not_true_eq_false, if_false] at h
        obtain ⟨h1, h2⟩ := Prod.mk.inj (Except.ok.inj h)
        obtain ⟨h3, h4⟩ := Prod.mk.inj h2
        subst h1 h3 h4
        refine ⟨fun _ => ?_, fun j hj => ?_, fun j hj => ?_⟩
        · rw [sync_storage]
          rfl
        · rw [sync_storage]
          simp [StorageEngine.get, hj]
        · simpa using hj

/-- What `remove` does to the store and to the write keys. -/
theorem remove_storage (tm tm1 : TransactionManager) (txn txn1 : Transaction) (k : Key)
    (b : Bool) (h : tm.remove txn k = .ok (b, txn1, tm1)) :
    (b = true → tm1.storage_ = (tm.storage_.remove k).2) ∧
    (∀ j, j ≠ k → tm1.storage_.get j = tm.storage_.get j) ∧
    (∀ j ∈ txn1.write_keys_, j ∈ txn.write_keys_ ∨ j = k) := by
  unfold remove at h
  simp only [bind, Except.bind, pure, Except.pure] at h
  split at h
  · obtain ⟨h1, h2⟩ := Prod.mk.inj (Except.ok.inj h)
    obtain ⟨h3, h4⟩ := Prod.mk.inj h2
    subst h1 h3 h4
    exact ⟨fun hb => absurd hb (by simp), fun _ _ => rfl, fun j hj => Or.inl hj⟩
  · split at h
    · exact absurd h (by simp)
    · obtain ⟨h1, h2⟩ := Prod.mk.inj (Except.ok.inj h)
      obtain ⟨h3, h4⟩ := Prod.mk.inj h2
      subst h1 h3 h4
      exact ⟨fun hb => absurd hb (by simp), fun _ _ => rfl, fun j hj => Or.inl hj⟩
    · split at h
      · exact absurd h (by simp)
      · split at h
        · obtain ⟨h1, h2⟩ := Prod.mk.inj (Except.ok.inj h)
          obtain ⟨h3, h4⟩ := Prod.mk.inj h2
          subst h1 h3 h4
          refine ⟨fun hb => absurd hb (by simp), fun j hj => ?_, fun j hj => Or.inl hj⟩
          simp [hj]
        · obtain ⟨h1, h2⟩ := Prod.mk.inj (Except.ok.inj h)
          obtain ⟨h3, h4⟩ := Prod.mk.inj h2
          subst h1 h3 h4
          refine ⟨fun _ => ?_, fun j hj => ?_, fun j hj => ?_⟩
          · rw [sync_storage]
          · rw [sync_storage]
            simp [hj]
          · simpa using hj

end TransactionManager

namespace Impl

/-- What a call of `put` that returns leaves of the engine. -/
theorem put_effect (e e1 : Impl) (k : Key) (v : Value) (b : Bool)
    (h : e.put k v = .ok (b, e1)) :
    e1.is_open_ = e.is_open_ ∧
    (b = true → e.is_open_ = true ∧ e1.storage_.get k = some v ∧
      e1.index_ = e.index_.insert k 0) ∧
    (∀ j, j ≠ k → e1.storage_.get j = e.storage_.get j ∧
      e1.index_.exists_ j = e.index_.exists_ j) := by
  unfold put at h
  simp only [bind, Except.bind, pure, Except.pure] at h
  split at h
  · obtain ⟨h1, h2⟩ := Prod.mk.inj (Except.ok.inj h)
    subst h1 h2
    exact ⟨rfl, fun hb => absurd hb (by simp), fun _ _ => ⟨rfl, rfl⟩⟩
  · rename_i hopen
    cases hbeg : e.txn_mgr_.begin with
    | error f => rw [hbeg] at h; exact absurd h (by simp)
    | ok r0 =>
      obtain ⟨txn, tm⟩ := r0
      rw [hbeg] at h
      simp only at h
      obtain ⟨hs0, _, hw0⟩ := TransactionManager.begin_storage _ _ _ hbeg
      cases hput : tm.put txn k v with
      | error f => rw [hput] at h; exact absurd h (by simp)
      | ok r1 =>
        obtain ⟨ok1, txn1, tm1⟩ := r1
        rw [hput] at h
        simp only at h
        obtain ⟨hp1, hp2, hp3⟩ := TransactionManager.put_storage _ _ _ _ _ _ _ hput
        cases ok1 with
        | false =>
          simp only [Bool.false_eq_true, not_false_eq_true, if_true] at h
          cases hrb : tm1.rollback txn1 with
          | error f => rw [hrb] at h; exact absurd h (by simp)
          | ok r2 =>
            obtain ⟨ok2, txn2, tm2⟩ := r2
            rw [hrb] at h
            simp only at h
            obtain ⟨h1, h2⟩ := Prod.mk.inj (Except.ok.inj h)
            subst h1 h2
            refine ⟨rfl, fun hb => absurd hb (by simp), fun j hj => ⟨?_, rfl⟩⟩
            have hnot : j ∉ txn1.write_keys_ := by
              intro hmem
              rcases hp3 j hmem with h3 | h3
              · rw [hw0] at h3
                exact absurd h3 (by simp)
              · exact hj h3
            have := TransactionManager.rollback_storage _ _ _ _ _ hrb j hnot
            show tm2.storage_.get j = e.txn_mgr_.storage_.get j
            rw [this, hp2 j hj, hs0]
        | true =>
          simp only [not_true_eq_false, if_false] at h
          cases hcm : tm1.commit txn1 with
          | error f => rw [hcm] at h; exact absurd h (by simp)
          | ok r2 =>
            obtain ⟨ok2, txn2, tm2⟩ := r2
            rw [hcm] at h
            simp only at h
            obtain ⟨hc1, hc2⟩ := TransactionManager.commit_storage _ _ _ _ _ hcm
            cases ok2 with
            | false =>
              simp only [Bool.false_eq_true, not_false_eq_true, if_true] at h
              cases hrb : tm2.rollback txn2 with
              | error f => rw [hrb] at h; exact absurd h (by simp)
              | ok r3 =>
                obtain ⟨ok3, txn3, tm3⟩ := r3
                rw [hrb] at h
                simp only at h
                obtain ⟨h1, h2⟩ := Prod.mk.inj (Except.ok.inj h)
                subst h1 h2
                refine ⟨rfl, fun hb => absurd hb (by simp), fun j hj => ⟨?_, rfl⟩⟩
                have hnot : j ∉ txn2.write_keys_ := by
                  intro hmem
                  rw [hc2] at hmem
                  rcases hp3 j hmem with h3 | h3
                  · rw [hw0] at h3
                    exact absurd h3 (by simp)
                  · exact hj h3
                have := TransactionManager.rollback_storage _ _ _ _ _ hrb j hnot
                show tm3.storage_.get j = e.txn_mgr_.storage_.get j
                rw [this, hc1, hp2 j hj, hs0]
            | true =>
              simp only [not_true_eq_false, if_false] at h
              obtain ⟨h1, h2⟩ := Prod.mk.inj (Except.ok.inj h)
              subst h2
              have hop : e.is_open_ = true := by simpa using hopen
              refine ⟨rfl, fun _ => ⟨hop, ?_, rfl⟩, fun j hj => ⟨?_, ?_⟩⟩
              · show tm2.storage_.get k = some v
                rw [hc1, hp1 rfl, StorageEngine.get_put]
                simp
              · show tm2.storage_.get j = e.txn_mgr_.storage_.get j
                rw [hc1, hp2 j hj, hs0]
              · simp [HashIndex.exists_, HashIndex.insert, OrdMap.contains, hj]

/-- What a call of `remove` that returns leaves of the engine. -/
theorem remove_effect (e e1 : Impl) (k : Key) (b : Bool)
    (h : e.remove k = .ok (b, e1)) :
    e1.is_open_ = e.is_open_ ∧
    (b = true → e.is_open_ = true ∧ e1.storage_.get k = none ∧
      e1.index_ = (e.index_.remove k).2) ∧
    (∀ j, j ≠ k → e1.storage_.get j = e.storage_.get j ∧
      e1.index_.exists_ j = e.index_.exists_ j) := by
  unfold remove at h
  simp only [bind, Except.bind, pure, Except.pure] at h
  split at h
  · obtain ⟨h1, h2⟩ := Prod.mk.inj (Except.ok.inj h)
    subst h1 h2
    exact ⟨rfl, fun hb => absurd hb (by simp), fun _ _ => ⟨rfl, rfl⟩⟩
  · rename_i hopen
    cases hbeg : e.txn_mgr_.begin with
    | error f => rw [hbeg] at h; exact absurd h (by simp)
    | ok r0 =>
      obtain ⟨txn, tm⟩ := r0
      rw [hbeg] at h
      simp only at h
      obtain ⟨hs0, _, hw0⟩ := TransactionManager.begin_storage _ _ _ hbeg
      cases hrem : tm.remove txn k with
      | error f => rw [hrem] at h; exact absurd h (by simp)
      | ok r1 =>
        obtain ⟨ok1, txn1, tm1⟩ := r1
        rw [hrem] at h
        simp only at h
        obtain ⟨hp1, hp2, hp3⟩ := TransactionManager.remove_storage _ _ _ _ _ _ hrem
        cases ok1 with
        | false =>
          simp only [Bool.false_eq_true, not_false_eq_true, if_true] at h
          cases hrb : tm1.rollback txn1 with
          | error f => rw [hrb] at h; exact absurd h (by simp)
          | ok r2 =>
            obtain ⟨ok2, txn2, tm2⟩ := r2
            rw [hrb] at h
            simp only at h
            obtain ⟨h1, h2⟩ := Prod.mk.inj (Except.ok.inj h)
            subst h1 h2
            refine ⟨rfl, fun hb => absurd hb (by simp), fun j hj => ⟨?_, rfl⟩⟩
            have hnot : j ∉ txn1.write_keys_ := by
              intro hmem
              rcases hp3 j hmem with h3 | h3
              · rw [hw0] at h3
                exact absurd h3 (by simp)
              · exact hj h3
            have := TransactionManager.rollback_storage _ _ _ _ _ hrb j hnot
            show tm2.storage_.get j = e.txn_mgr_.storage_.get j
            rw [this, hp2 j hj, hs0]
        | true =>
          simp only [not_true_eq_false, if_false] at h
          cases hcm : tm1.commit txn1 with
          | error f => rw [hcm] at h; exact absurd h (by simp)
          | ok r2 =>
            obtain ⟨ok2, txn2, tm2⟩ := r2
            rw [hcm] at h
            simp only at h
            obtain ⟨hc1, hc2⟩ := TransactionManager.commit_storage _ _ _ _ _ hcm
            cases ok2 with
            | false =>
              simp only [Bool.false_eq_true, not_false_eq_true, if_true] at h
              cases hrb : tm2.rollback txn2 with
              | error f => rw [hrb] at h; exact absurd h (by simp)
              | ok r3 =>
                obtain ⟨ok3, txn3, tm3⟩ := r3
                rw [hrb] at h
                simp only at h
                obtain ⟨h1, h2⟩ := Prod.mk.inj (Except.ok.inj h)
                subst h1 h2
                refine ⟨rfl, fun hb => absurd hb (by simp), fun j hj => ⟨?_, rfl⟩⟩
                have hnot : j ∉ txn2.write_keys_ := by
                  intro hmem
                  rw [hc2] at hmem
                  rcases hp3 j hmem with h3 | h3
                  · rw [hw0] at h3
                    exact absurd h3 (by simp)
                  · exact hj h3
                have := TransactionManager.rollback_storage _ _ _ _ _ hrb j hnot
                show tm3.storage_.get j = e.txn_mgr_.storage_.get j
                rw [this, hc1, hp2 j hj, hs0]
            | true =>
              simp only [not_true_eq_false, if_false] at h
              obtain ⟨h1, h2⟩ := Prod.mk.inj (Except.ok.inj h)
              subst h2
              have hop : e.is_open_ = true := by simpa using hopen
              refine ⟨rfl, fun _ => ⟨hop, ?_, rfl⟩, fun j hj => ⟨?_, ?_⟩⟩
              · show tm2.storage_.get k = none
                rw [hc1, hp1 rfl, StorageEngine.get_remove]
                simp
              · show tm2.storage_.get j = e.txn_mgr_.storage_.get j
                rw [hc1, hp2 j hj, hs0]
              · simp [HashIndex.exists_, HashIndex.remove, OrdMap.contains, hj]

/-- What `get` returns on an open engine. -/
theorem get_of_open (e : Impl) (k : Key) (value : Value) (ho : e.is_open_ = true) :
    (e.get k value).1
      = (match e.storage_.get k with
        | some _ => StatusCode.OK
        | none => StatusCode.NOT_FOUND) ∧
    (e.get k value).2.1 = (e.storage_.get k).getD value := by
  cases hg : e.txn_mgr_.storage_.get k <;> simp [Impl.get, ho, Impl.storage_, hg]

end Impl

namespace EngineCall

/-- Calls on other keys leave what the engine holds for `k`. -/
theorem run_other_keys (calls : List EngineCall) (e e1 : Impl) (k : Key)
    (hk : ∀ c ∈ calls, c.key ≠ k) (h : run e calls = .ok e1) :
    e1.is_open_ = e.is_open_ ∧ e1.storage_.get k = e.storage_.get k ∧
    e1.index_.exists_ k = e.index_.exists_ k := by
  induction calls generalizing e with
  | nil =>
    have := Except.ok.inj h
    subst this
    exact ⟨rfl, rfl, rfl⟩
  | cons c rest ih =>
    have hc : k ≠ c.key := fun hh => hk c (List.mem_cons_self _ _) hh.symm
    unfold run at h
    cases hs : step e c with
    | error f => rw [hs] at h; exact absurd h (by simp)
    | ok r =>
      obtain ⟨b, e2⟩ := r
      rw [hs] at h
      simp only at h
      obtain ⟨i1, i2, i3⟩ := ih e2 (fun x hx => hk x (List.mem_cons_of_mem _ hx)) h
      have hstep : e2.is_open_ = e.is_open_ ∧ e2.storage_.get k = e.storage_.get k ∧
          e2.index_.exists_ k = e.index_.exists_ k := by
        cases c with
        | put k2 v2 =>
          obtain ⟨a1, _, a3⟩ := Impl.put_effect e e2 k2 v2 b hs
          exact ⟨a1, (a3 k hc).1, (a3 k hc).2⟩
        | remove k2 =>
          obtain ⟨a1, _, a3⟩ := Impl.remove_effect e e2 k2 b hs
          exact ⟨a1, (a3 k hc).1, (a3 k hc).2⟩
      exact ⟨i1.trans hstep.1, i2.trans hstep.2.1, i3.trans hstep.2.2⟩

end EngineCall

/-! ### C24: read-your-writes -/

/-- C24: after `put(k, v)` returns true and any calls of `put` and `remove` on other
keys, `get(k)` has status OK with value `v` and `exists(k)` is true; after `remove(k)`
returns true, `get(k)` is NotFound, leaving the caller's `value` as it was, and
`exists(k)` is false. -/
theorem read_your_writes (e e1 e2 : Impl) (k : Key) (v : Value) (others : List EngineCall)
    (hput : e.put k v = .ok (true, e1)) (hothers : ∀ c ∈ others, c.key ≠ k)
    (hrun : EngineCall.run e1 others = .ok e2) :
    (∀ value, (e2.get k value).1 = StatusCode.OK ∧ (e2.get k value).2.1 = v) ∧
    e2.exists_ k = true ∧
    (∀ e3 e4 : Impl, e3.remove k = .ok (true, e4) →
      (∀ value, (e4.get k value).1 = StatusCode.NOT_FOUND ∧ (e4.get k value).2.1 = value) ∧
      e4.exists_ k = false) := by
  obtain ⟨p1, p2, _⟩ := Impl.put_effect e e1 k v true hput
  obtain ⟨hopen, hget, hidx⟩ := p2 rfl
  obtain ⟨r1, r2, r3⟩ := EngineCall.run_other_keys others e1 e2 k hothers hrun
  have hopen2 : e2.is_open_ = true := by rw [r1, p1, hopen]
  have hget2 : e2.storage_.get k = some v := by rw [r2, hget]
  refine ⟨fun value => ?_, ?_, fun e3 e4 hrem => ?_⟩
  · have hg := Impl.get_of_open e2 k value hopen2
    rw [hget2] at hg
    exact hg
  · unfold Impl.exists_
    rw [r3, hidx]
    simp [hopen2, HashIndex.exists_, HashIndex.insert, OrdMap.contains]
  · obtain ⟨q1, q2, _⟩ := Impl.remove_effect e3 e4 k true hrem
    obtain ⟨hopen3, hget4, hidx4⟩ := q2 rfl
    have hopen4 : e4.is_open_ = true := by rw [q1, hopen3]
    refine ⟨fun value => ?_, ?_⟩
    · have hg := Impl.get_of_open e4 k value hopen4
      rw [hget4] at hg
      exact hg
    · unfold Impl.exists_
      rw [hidx4]
      simp [hopen4, HashIndex.exists_, HashIndex.remove, OrdMap.contains]

/-- The engine that a returned call leaves, the engine as constructed when the call
does not return. -/
def Impl.after (r : Except Fault (Bool × Impl)) : Impl :=
  match r with
  | .ok (_, e) => e
  | .error _ => Impl.new

/-- An engine opened on an empty data directory. -/
def c24_engine : Impl := Impl.after (Impl.new.open_dir none [])

/-- The engine after `put("k", "v")`. -/
def c24_after_put : Impl := Impl.after (c24_engine.put key_k [118])

/-- Calls on the other keys `"a"` and `"b"`; the last one returns false. -/
def c24_others : List EngineCall :=
  [EngineCall.put [97] [49], EngineCall.remove [97], EngineCall.remove [98]]

/-- The engine after the calls on other keys. -/
def c24_after_others : Impl :=
  match EngineCall.run c24_after_put c24_others with
  | .ok e => e
  | .error _ => Impl.new

theorem read_your_writes_witness :
    c24_engine.put key_k [118] = .ok (true, c24_after_put) ∧
    (∀ c ∈ c24_others, c.key ≠ key_k) ∧
    EngineCall.run c24_after_put c24_others = .ok c24_after_others ∧
    c24_after_others.remove key_k = .ok (true, Impl.after (c24_after_others.remove key_k)) ∧
    ((∀ value, (c24_after_others.get key_k value).1 = StatusCode.OK ∧
        (c24_after_others.get key_k value).2.1 = [118]) ∧
      c24_after_others.exists_ key_k = true ∧
      (∀ e3 e4 : Impl, e3.remove key_k = .ok (true, e4) →
        (∀ value, (e4.get key_k value).1 = StatusCode.NOT_FOUND ∧
          (e4.get key_k value).2.1 = value) ∧
        e4.exists_ key_k = false)) :=
  ⟨rfl, by decide, rfl, rfl,
    read_your_writes c24_engine c24_after_put c24_after_others key_k [118] c24_others rfl
      (by decide) rfl⟩

/-! ### C25: the key index and the store -/

/-- An engine opened on an empty data directory. -/
def c25_engine : Impl := Impl.after (Impl.new.open_dir none [])

/-- The batch that maps `"a"` to `"1"`. -/
def c25_batch : OrdMap Key Value := OrdMap.empty.insert [97] [49]

/-- The engine after `batch_put` of `c25_batch`. -/
def c25_after_batch : Impl := Impl.after (c25_engine.batch_put c25_batch)

/-- The engine after `put("a", "1")` instead. -/
def c25_after_put : Impl := Impl.after (c25_engine.put [97] [49])

set_option maxRecDepth 100000 in
/-- C25, the failing input: on an engine opened on an empty directory,
`batch_put` of `"a" -> "1"` returns true and the store then holds `"a"`, so `get("a")`
is OK with `"1"`, but `batch_put` has not touched the index: `exists("a")` is false and
`total_keys` is 0. The same write through `put` leaves `exists("a")` true and
`total_keys` 1. -/
theorem c25_batch_put_skips_index :
    c25_engine.is_open_ = true ∧
    (c25_engine.batch_put c25_batch).map Prod.fst = .ok true ∧
    (c25_after_batch.get [97] []).1 = StatusCode.OK ∧
    (c25_after_batch.get [97] []).2.1 = [49] ∧
    c25_after_batch.storage_.size = 1 ∧
    c25_after_batch.exists_ [97] = false ∧
    c25_after_batch.get_statistics.total_keys = 0 ∧
    (c25_engine.put [97] [49]).map Prod.fst = .ok true ∧
    c25_after_put.exists_ [97] = true ∧
    c25_after_put.get_statistics.total_keys = 1 := by
  decide

end KvEngine

/-! ## `unlock_all` -/

namespace KvEngine

open LockMode

namespace LockManager

/-- A request as a release leaves it: the same transaction and mode, and still
granted if it was granted. -/
def Kept (a b : LockRequest) : Prop :=
  a.txn_id = b.txn_id ∧ a.mode = b.mode ∧ (a.granted = true → b.granted = true)

instance (a b : LockRequest) : Decidable (Kept a b) := by
  unfold Kept; infer_instance

theorem kept_refl (l : List LockRequest) : List.Forall₂ Kept l l := by
  induction l with
  | nil => exact List.Forall₂.nil
  | cons a t ih => exact List.Forall₂.cons ⟨rfl, rfl, fun h => h⟩ ih

theorem kept_trans {a b c : List LockRequest} (h1 : List.Forall₂ Kept a b)
    (h2 : List.Forall₂ Kept b c) : List.Forall₂ Kept a c := by
  induction h1 generalizing c with
  | nil =>
    cases h2
    exact List.Forall₂.nil
  | cons hab _ ih =>
    cases h2 with
    | cons hbc htl =>
      exact List.Forall₂.cons
        ⟨hab.1.trans hbc.1, hab.2.1.trans hbc.2.1, fun h => hbc.2.2 (hab.2.2 h)⟩ (ih htl)

theorem kept_filter {a b : List LockRequest} (t : U64) (h : List.Forall₂ Kept a b) :
    List.Forall₂ Kept (a.filter (fun req => req.txn_id ≠ t))
      (b.filter (fun req => req.txn_id ≠ t)) := by
  induction h with
  | nil => exact List.Forall₂.nil
  | @cons x y _ _ hxy _ ih =>
    by_cases hx : x.txn_id = t
    · have hy : y.txn_id = t := by rw [← hxy.1]; exact hx
      simpa [List.filter_cons, hx, hy] using ih
    · have hy : ¬ y.txn_id = t := by rw [← hxy.1]; exact hx
      simpa [List.filter_cons, hx, hy] using List.Forall₂.cons hxy ih

theorem grant_first_kept (u : U64) (l : List LockRequest) :
    List.Forall₂ Kept l (grant_first u l) := by
  induction l with
  | nil => exact List.Forall₂.nil
  | cons req rest ih =>
    unfold grant_first
    split_ifs
    · exact List.Forall₂.cons ⟨rfl, rfl, fun _ => rfl⟩ (kept_refl rest)
    · exact List.Forall₂.cons ⟨rfl, rfl, fun h => h⟩ ih

theorem regrant_step_kept (l : List LockRequest) (i : Nat) :
    List.Forall₂ Kept l (regrant_step l i) := by
  unfold regrant_step
  cases l[i]? with
  | none => exact kept_refl l
  | some req =>
    simp only
    split_ifs
    · exact grant_first_kept _ _
    · exact kept_refl l

theorem regrant_kept (l : List LockRequest) : List.Forall₂ Kept l (regrant l) := by
  unfold regrant
  generalize List.range l.length = is
  induction is generalizing l with
  | nil => exact kept_refl l
  | cons i t ih =>
    rw [List.foldl_cons]
    exact kept_trans (regrant_step_kept l i) (ih _)

/-- One release keeps the requests of the other transactions on every key. -/
theorem release_key_kept (table : OrdMap Key (List LockRequest)) (t : U64) (key k : Key) :
    List.Forall₂ Kept ((table_requests table k).filter (fun req => req.txn_id ≠ t))
      ((table_requests (release_key table t key) k).filter (fun req => req.txn_id ≠ t)) := by
  by_cases hk : k = key
  · subst hk
    unfold table_requests release_key
    cases hf : table.find? k with
    | none =>
      simp only [hf]
      exact kept_refl _
    | some requests =>
      simp only [Option.getD_some]
      split_ifs with he
      · have hnil : requests.filter (fun req => decide (req.txn_id ≠ t)) = [] := by
          simpa using he
        rw [hnil]
        simp
      · simp only [OrdMap.find?_insert, if_true, Option.getD_some]
        have h := kept_filter t (regrant_kept (requests.filter (fun req => req.txn_id ≠ t)))
        rw [List.filter_filter] at h
        simpa using h
  · have hsame : table_requests (release_key table t key) k = table_requests table k := by
      unfold table_requests
      rw [release_key_other table t key k hk]
    rw [hsame]
    exact kept_refl _

theorem release_keys_kept (keys : List Key) (table : OrdMap Key (List LockRequest)) (t : U64)
    (k : Key) :
    List.Forall₂ Kept ((table_requests table k).filter (fun req => req.txn_id ≠ t))
      ((table_requests (release_keys table t keys) k).filter (fun req => req.txn_id ≠ t)) := by
  induction keys generalizing table with
  | nil => exact kept_refl _
  | cons key rest ih =>
    unfold release_keys
    rw [List.foldl_cons]
    exact kept_trans (release_key_kept table t key k) (ih _)

/-- After the releases no granted request of `t` is left, when every granted request
of `t` was on one of the keys released. -/
theorem release_keys_no_granted (keys : List Key) (table : OrdMap Key (List LockRequest))
    (t : U64) (k : Key)
    (hrec : (∃ req ∈ table_requests table k, req.txn_id = t ∧ req.granted = true) → k ∈ keys) :
    ∀ req ∈ table_requests (release_keys table t keys) k, req.txn_id = t →
      req.granted = false := by
  induction keys generalizing table with
  | nil =>
    intro req hreq heq
    cases hg : req.granted with
    | false => rfl
    | true => exact absurd (hrec ⟨req, hreq, heq, hg⟩) (List.not_mem_nil _)
  | cons key rest ih =>
    unfold release_keys
    rw [List.foldl_cons]
    apply ih
    rintro ⟨req, hreq, heq, hg⟩
    by_cases hk : k = key
    · subst hk
      exact absurd heq (release_key_same table t k req hreq)
    · have hsame : table_requests (release_key table t key) k = table_requests table k := by
        unfold table_requests
        rw [release_key_other table t key k hk]
      rw [hsame] at hreq
      rcases List.mem_cons.1 (hrec ⟨req, hreq, heq, hg⟩) with h | h
      · exact absurd h hk
      · exact h

theorem unlock_all_fst (lm : LockManager) (t : U64) : (lm.unlock_all t).1 = true := by
  unfold unlock_all
  cases lm.txn_locks_.find? t <;> rfl

theorem unlock_all_txn_locks (lm : LockManager) (t u : U64) (hu : u ≠ t) :
    (lm.unlock_all t).2.txn_locks_.find? u = lm.txn_locks_.find? u := by
  unfold unlock_all
  cases lm.txn_locks_.find? t with
  | none => rfl
  | some keys => simp [hu]

end LockManager

open LockManager

/-! ### C23 -/

/-- Transaction 1 holds EXCLUSIVE on `"k"`, and the call `lock_exclusive(2, "k")`
waits. -/
def c23_waiter : LockManager :=
  ((LockManager.new.lock_exclusive 1 key_k).2.lock_exclusive 2 key_k).2

/-- After that, transaction 1 has unlocked `"k"`; the call of transaction 2 has not
returned yet. -/
def c23_in_flight : LockManager := (c23_waiter.unlock 1 key_k).2

/-- C23, counterexamples. Transaction 1 alone holds `"k"` while the call
`lock_exclusive(2, "k")` waits: `unlock_all(1)` grants the waiting request, so that
transaction 3 cannot acquire EXCLUSIVE on `"k"`. And once `unlock(1, "k")` has granted
the request of transaction 2, whose call has not returned and so has not recorded the
key in `txn_locks_`, `unlock_all(2)` returns true and leaves the granted request of
transaction 2 in the table. -/
theorem c23_waiter_granted_first :
    (LockManager.new.lock_exclusive 1 key_k).1 = LockResult.returned true ∧
    ((LockManager.new.lock_exclusive 1 key_k).2.lock_exclusive 2 key_k).1
      = LockResult.waiting ∧
    c23_waiter.requests_on key_k = [⟨1, EXCLUSIVE, true⟩, ⟨2, EXCLUSIVE, false⟩] ∧
    (c23_waiter.unlock_all 1).1 = true ∧
    (c23_waiter.unlock_all 1).2.requests_on key_k = [⟨2, EXCLUSIVE, true⟩] ∧
    ((c23_waiter.unlock_all 1).2.try_lock 3 key_k EXCLUSIVE).1 = false ∧
    ((c23_waiter.unlock_all 1).2.lock_exclusive 3 key_k).1 = LockResult.waiting ∧
    (c23_waiter.unlock 1 key_k).1 = true ∧
    c23_in_flight.requests_on key_k = [⟨2, EXCLUSIVE, true⟩] ∧
    c23_in_flight.txn_locks_.find? 2 = none ∧
    (c23_in_flight.unlock_all 2).1 = true ∧
    (c23_in_flight.unlock_all 2).2.requests_on key_k = [⟨2, EXCLUSIVE, true⟩] := by
  decide

/-- C23, for a transaction `t` whose granted requests are all on keys recorded for it
in `txn_locks_`: `unlock_all(t)` returns true; afterwards no granted request of `t` is
in the lock table and `txn_locks_` has no entry for `t`, the entries of the other
transactions being as before; on every key the requests of the other transactions are
the ones there were, in the same order and with the same modes, those granted still
granted; and any other transaction acquires EXCLUSIVE at once, through `try_lock` and
through `lock_exclusive`, on each key that `t` held and on which no other transaction
had a request. -/
theorem unlock_all_releases (lm : LockManager) (t : U64)
    (hrec : ∀ k, (∃ req ∈ lm.requests_on k, req.txn_id = t ∧ req.granted = true) →
      k ∈ (lm.txn_locks_.find? t).getD []) :
    (lm.unlock_all t).1 = true ∧
    (∀ k, ∀ req ∈ (lm.unlock_all t).2.requests_on k, req.txn_id = t → req.granted = false) ∧
    (lm.unlock_all t).2.txn_locks_.find? t = none ∧
    (∀ u, u ≠ t → (lm.unlock_all t).2.txn_locks_.find? u = lm.txn_locks_.find? u) ∧
    (∀ k, List.Forall₂ Kept ((lm.requests_on k).filter (fun req => req.txn_id ≠ t))
      (((lm.unlock_all t).2.requests_on k).filter (fun req => req.txn_id ≠ t))) ∧
    (∀ k u, u ≠ t → (∃ req ∈ lm.requests_on k, req.granted = true) →
      (∀ req ∈ lm.requests_on k, req.txn_id = t) →
      ((lm.unlock_all t).2.try_lock u k EXCLUSIVE).1 = true ∧
      ((lm.unlock_all t).2.lock_exclusive u k).1 = LockResult.returned true) := by
  obtain ⟨htab, hlocks⟩ := unlock_all_eq lm t
  refine ⟨unlock_all_fst lm t, ?_, hlocks, unlock_all_txn_locks lm t, ?_, ?_⟩
  · intro k
    rw [requests_on_eq, htab]
    exact release_keys_no_granted _ _ t k (hrec k)
  · intro k
    rw [requests_on_eq, requests_on_eq, htab]
    exact release_keys_kept _ _ t k
  · intro k u _ hg hall
    have hk : k ∈ (lm.txn_locks_.find? t).getD [] := by
      obtain ⟨req, hreq, hgr⟩ := hg
      exact hrec k ⟨req, hreq, hall req hreq, hgr⟩
    have hnone : (lm.unlock_all t).2.lock_table_.find? k = none := by
      rw [htab]
      exact release_keys_erases _ _ _ k hk hall
    constructor
    · unfold try_lock can_grant_lock
      rw [hnone]
      rfl
    · unfold lock_exclusive lock_with_mode can_grant_lock
      rw [hnone]
      rfl

/-- The state of `test_unlock_all`, in small: transaction 1 holds EXCLUSIVE on `"a"`
and on `"b"`, transaction 2 holds SHARED on `"c"`. -/
def c23_lm : LockManager :=
  (((LockManager.new.lock_exclusive 1 [97]).2.lock_exclusive 1 [98]).2.lock_shared 2 [99]).2

theorem c23_granted_recorded :
    ∀ k, (∃ req ∈ c23_lm.requests_on k, req.txn_id = 1 ∧ req.granted = true) →
      k ∈ (c23_lm.txn_locks_.find? 1).getD [] := by
  intro k hk
  by_cases ha : k = [97]
  · rw [ha]; decide
  · by_cases hb : k = [98]
    · rw [hb]; decide
    · by_cases hc : k = [99]
      · obtain ⟨req, hreq, h1, _⟩ := hk
        rw [hc] at hreq
        have hreqs : c23_lm.requests_on [99] = [⟨2, SHARED, true⟩] := by decide
        rw [hreqs] at hreq
        rw [List.mem_singleton.1 hreq] at h1
        exact absurd h1 (by decide)
      · obtain ⟨req, hreq, _⟩ := hk
        have : c23_lm.requests_on k = [] := by
          simp [c23_lm, requests_on, lock_exclusive, lock_shared, lock_with_mode,
            can_grant_lock, LockManager.new, push_request, record_lock, ha, hb, hc]
        rw [this] at hreq
        exact absurd hreq (List.not_mem_nil _)

set_option maxRecDepth 100000 in
/-- C23, witness: `unlock_all(1)` in `c23_lm`; transaction 2 then acquires EXCLUSIVE
on `"a"`, and its SHARED request on `"c"` is kept. -/
theorem unlock_all_releases_witness :
    (∀ k, (∃ req ∈ c23_lm.requests_on k, req.txn_id = 1 ∧ req.granted = true) →
      k ∈ (c23_lm.txn_locks_.find? 1).getD []) ∧
    (c23_lm.txn_locks_.find? 1).getD [] = [[97], [98]] ∧
    (c23_lm.unlock_all 1).2.requests_on [99] = [⟨2, SHARED, true⟩] ∧
    ((c23_lm.unlock_all 1).1 = true ∧
    (∀ k, ∀ req ∈ (c23_lm.unlock_all 1).2.requests_on k, req.txn_id = 1 →
      req.granted = false) ∧
    (c23_lm.unlock_all 1).2.txn_locks_.find? 1 = none ∧
    (∀ u, u ≠ 1 → (c23_lm.unlock_all 1).2.txn_locks_.find? u = c23_lm.txn_locks_.find? u) ∧
    (∀ k, List.Forall₂ Kept ((c23_lm.requests_on k).filter (fun req => req.txn_id ≠ 1))
      (((c23_lm.unlock_all 1).2.requests_on k).filter (fun req => req.txn_id ≠ 1))) ∧
    (∀ k u, u ≠ 1 → (∃ req ∈ c23_lm.requests_on k, req.granted = true) →
      (∀ req ∈ c23_lm.requests_on k, req.txn_id = 1) →
      ((c23_lm.unlock_all 1).2.try_lock u k EXCLUSIVE).1 = true ∧
      ((c23_lm.unlock_all 1).2.lock_exclusive u k).1 = LockResult.returned true)) :=
  ⟨c23_granted_recorded, by decide, by decide,
    unlock_all_releases c23_lm 1 c23_granted_recorded⟩

end KvEngine

/-! ## One transaction: its log records, and its rollback -/

namespace KvEngine

open LogRecordType

namespace WAL

/-- The log after `append` has stamped `record` with the next LSN and written its
frame, the buffer staying below `BUFFER_SIZE`. -/
def extended (w : WAL) (record : LogRecord) : WAL :=
  { w with current_lsn_ := w.current_lsn_ + 1,
           file := w.file ++ serialize_record (stamp (w.current_lsn_ + 1) record),
           buffer_ := w.buffer_ ++ [stamp (w.current_lsn_ + 1) record] }

/-- What a call of `append` that returns has done on an open log. -/
theorem append_eq_ok (w w1 : WAL) (r r1 : LogRecord) (lsn : U64)
    (hopen : w.is_open_ = true) (h : w.append r = .ok (lsn, r1, w1)) :
    w.mutex_held = false ∧ w.buffer_.length + 1 < BUFFER_SIZE ∧
    lsn = w.current_lsn_ + 1 ∧ r1 = stamp (w.current_lsn_ + 1) r ∧ w1 = w.extended r := by
  cases hm : w.mutex_held with
  | true =>
    rw [TransactionManager.append_locked _ _ hm] at h
    exact absurd h (by simp)
  | false =>
    by_cases hb : w.buffer_.length + 1 < BUFFER_SIZE
    · rw [append_ok _ _ hopen hm hb] at h
      obtain ⟨h1, h2⟩ := Prod.mk.inj (Except.ok.inj h)
      obtain ⟨h3, h4⟩ := Prod.mk.inj h2
      exact ⟨rfl, hb, h1.symm, h3.symm, h4.symm⟩
    · rw [append_deadlock _ _ hopen hm (by omega)] at h
      exact absurd h (by simp)

theorem extended_is_open (w : WAL) (r : LogRecord) : (w.extended r).is_open_ = w.is_open_ := rfl
theorem extended_mutex (w : WAL) (r : LogRecord) : (w.extended r).mutex_held = w.mutex_held :=
  rfl

end WAL

namespace TransactionManager

/-- What a call of `begin` that returns has done on an open log. -/
theorem begin_eq_ok (tm tm1 : TransactionManager) (txn : Transaction)
    (hopen : tm.wal_.is_open_ = true) (h : tm.begin = .ok (txn, tm1)) :
    tm.wal_.mutex_held = false ∧
    txn = { Transaction.new tm.next_txn_id_ with start_lsn_ := tm.wal_.current_lsn_ + 1 } ∧
    tm1 = { tm with
      next_txn_id_ := tm.next_txn_id_ + 1,
      wal_ := tm.wal_.extended (LogRecord.new BEGIN tm.next_txn_id_ [] []),
      active_txns_ := tm.active_txns_.insert tm.next_txn_id_
        { Transaction.new tm.next_txn_id_ with start_lsn_ := tm.wal_.current_lsn_ + 1 } } := by
  unfold begin at h
  simp only [bind, Except.bind, pure, Except.pure] at h
  cases ha : tm.wal_.append (LogRecord.new BEGIN tm.next_txn_id_ [] []) with
  | error f =>
    rw [ha] at h
    exact absurd h (by simp)
  | ok r =>
    obtain ⟨lsn, r1, w1⟩ := r
    rw [ha] at h
    simp only at h
    obtain ⟨hm, _, hl, _, hw⟩ := WAL.append_eq_ok _ _ _ _ _ hopen ha
    obtain ⟨h1, h2⟩ := Prod.mk.inj (Except.ok.inj h)
    subst hl hw
    exact ⟨hm, h1.symm, h2.symm⟩

/-- What a call of `put` that returns true has done on an open log. -/
theorem put_eq_ok (tm tm1 : TransactionManager) (txn txn1 : Transaction) (k : Key)
    (v : Value) (hopen : tm.wal_.is_open_ = true)
    (h : tm.put txn k v = .ok (true, txn1, tm1)) :
    txn.state_ = TransactionState.RUNNING ∧
    txn1 = { txn with write_keys_ := txn.write_keys_ ++ [k] } ∧
    tm1.wal_ = tm.wal_.extended (LogRecord.new PUT txn.txn_id_ k v) ∧
    tm1.storage_ = (tm.storage_.put k v).2 ∧
    tm1.next_txn_id_ = tm.next_txn_id_ := by
  unfold put at h
  simp only [bind, Except.bind, pure, Except.pure] at h
  split at h
  · exact absurd (Prod.mk.inj (Except.ok.inj h)).1 (by simp)
  · rename_i hs
    have hrun : txn.state_ = TransactionState.RUNNING := by simpa using hs
    split at h
    · exact absurd h (by simp)
    · exact absurd (Prod.mk.inj (Except.ok.inj h)).1 (by simp)
    · cases ha : tm.wal_.append (LogRecord.new PUT txn.txn_id_ k v) with
      | error f =>
        rw [ha] at h
        exact absurd h (by simp)
      | ok r =>
        obtain ⟨lsn, r1, w1⟩ := r
        rw [ha] at h
        obtain ⟨_, _, _, _, hw⟩ := WAL.append_eq_ok _ _ _ _ _ hopen ha
        simp only [StorageEngine.put, not_true_eq_false, if_false] at h
        obtain ⟨_, h2⟩ := Prod.mk.inj (Except.ok.inj h)
        obtain ⟨h3, h4⟩ := Prod.mk.inj h2
        subst hw
        refine ⟨hrun, h3.symm, ?_, ?_, ?_⟩
        · rw [← h4, sync_wal]
        · rw [← h4, sync_storage]
          rfl
        · rw [← h4]
          unfold sync
          split <;> rfl

/-- What a call of `remove` that returns true has done on an open log. -/
theorem remove_eq_ok (tm tm1 : TransactionManager) (txn txn1 : Transaction) (k : Key)
    (hopen : tm.wal_.is_open_ = true)
    (h : tm.remove txn k = .ok (true, txn1, tm1)) :
    txn.state_ = TransactionState.RUNNING ∧
    txn1 = { txn with write_keys_ := txn.write_keys_ ++ [k] } ∧
    tm1.wal_ = tm.wal_.extended (LogRecord.new DELETE txn.txn_id_ k []) ∧
    tm1.storage_ = (tm.storage_.remove k).2 ∧
    tm1.next_txn_id_ = tm.next_txn_id_ := by
  unfold remove at h
  simp only [bind, Except.bind, pure, Except.pure] at h
  split at h
  · exact absurd (Prod.mk.inj (Except.ok.inj h)).1 (by simp)
  · rename_i hs
    have hrun : txn.state_ = TransactionState.RUNNING := by simpa using hs
    split at h
    · exact absurd h (by simp)
    · exact absurd (Prod.mk.inj (Except.ok.inj h)).1 (by simp)
    · cases ha : tm.wal_.append (LogRecord.new DELETE txn.txn_id_ k []) with
      | error f =>
        rw [ha] at h
        exact absurd h (by simp)
      | ok r =>
        obtain ⟨lsn, r1, w1⟩ := r
        rw [ha] at h
        obtain ⟨_, _, _, _, hw⟩ := WAL.append_eq_ok _ _ _ _ _ hopen ha
        simp only at h
        split at h
        · exact absurd (Prod.mk.inj (Except.ok.inj h)).1 (by simp)
        · obtain ⟨_, h2⟩ := Prod.mk.inj (Except.ok.inj h)
          obtain ⟨h3, h4⟩ := Prod.mk.inj h2
          subst hw
          refine ⟨hrun, h3.symm, ?_, ?_, ?_⟩
          · rw [← h4, sync_wal]
          · rw [← h4, sync_storage]
          · rw [← h4]
            unfold sync
            split <;> rfl

/-- What a call of `rollback` that returns true has done on an open log. -/
theorem rollback_eq_ok (tm tm1 : TransactionManager) (txn txn1 : Transaction)
    (hopen : tm.wal_.is_open_ = true) (h : tm.rollback txn = .ok (true, txn1, tm1)) :
    txn.state_ = TransactionState.RUNNING ∧
    txn1 = { txn with state_ := TransactionState.ABORTED } ∧
    tm1 = { tm with
      wal_ := WAL.flush_internal (tm.wal_.extended (LogRecord.new ROLLBACK txn.txn_id_ [] [])),
      lock_mgr_ := (tm.lock_mgr_.unlock_all txn.txn_id_).2,
      storage_ := removeKeys txn.write_keys_.reverse tm.storage_,
      active_txns_ := tm.active_txns_.erase txn.txn_id_ } := by
  unfold rollback at h
  by_cases hs : txn.state_ = TransactionState.RUNNING
  · refine ⟨hs, ?_⟩
    simp only [hs, ne_eq, not_true_eq_false, if_false, bind, Except.bind] at h
    cases ha : tm.wal_.append (LogRecord.new ROLLBACK txn.txn_id_ [] []) with
    | error f =>
      rw [ha] at h
      exact absurd h (by simp)
    | ok r =>
      obtain ⟨lsn, r1, w1⟩ := r
      rw [ha] at h
      obtain ⟨hm, _, _, _, hw⟩ := WAL.append_eq_ok _ _ _ _ _ hopen ha
      subst hw
      simp only at h
      rw [flush_eq _ (by exact hm)] at h
      simp only [WAL.extended_is_open, hopen, if_true, pure, Except.pure] at h
      obtain ⟨_, h2⟩ := Prod.mk.inj (Except.ok.inj h)
      obtain ⟨h3, h4⟩ := Prod.mk.inj h2
      exact ⟨h3.symm, h4.symm⟩
  · simp only [ne_eq, hs, not_false_eq_true, if_true, pure, Except.pure] at h
    exact absurd (Prod.mk.inj (Except.ok.inj h)).1 (by simp)

end TransactionManager

/-- A call of `put` or `remove` for a transaction. -/
inductive TxnOp where
  | put (key : Key) (value : Value)
  | remove (key : Key)
deriving DecidableEq

namespace TxnOp

/-- The key of the call. -/
def key : TxnOp → Key
  | put k _ => k
  | remove k => k

/-- The value of the call, empty for `remove`. -/
def value : TxnOp → Value
  | put _ v => v
  | remove _ => []

/-- The record of the call as the claim has it: `PUT(k, v)` or `DELETE(k)` with the id
of the transaction. -/
def expected_record (txn_id : U64) : TxnOp → LogRecord
  | put k v => LogRecord.new PUT txn_id k v
  | remove k => LogRecord.new DELETE txn_id k []

/-- The store after the call. -/
def store (s : StorageEngine) : TxnOp → StorageEngine
  | put k v => (s.put k v).2
  | remove k => (s.remove k).2

end TxnOp

namespace WAL

/-- The log after a run of `append` calls below the automatic flush. -/
def extend_all (w : WAL) (records : List LogRecord) : WAL :=
  records.foldl extended w

theorem extend_all_eq (records : List LogRecord) (w : WAL) :
    (extend_all w records).file = w.file ++ frames (stampFrom w.current_lsn_ records) ∧
    (extend_all w records).is_open_ = w.is_open_ ∧
    (extend_all w records).mutex_held = w.mutex_held := by
  induction records generalizing w with
  | nil => simp [extend_all, stampFrom, frames]
  | cons r t ih =>
    obtain ⟨h1, h2, h3⟩ := ih (w.extended r)
    unfold extend_all at h1 h2 h3 ⊢
    rw [List.foldl_cons, h1, h2, h3]
    refine ⟨?_, rfl, rfl⟩
    simp only [extended, stampFrom, frames_cons, List.append_assoc]

theorem extend_all_append (a b : List LogRecord) (w : WAL) :
    extend_all (extend_all w a) b = extend_all w (a ++ b) := by
  unfold extend_all
  rw [List.foldl_append]

/-- The LSNs stamped by a run of appends go up, as long as the counter does not wrap. -/
theorem stampFrom_lsn_bounds (rs : List LogRecord) (cur : U64)
    (h : cur.val + rs.length < 2 ^ 64) :
    ∀ x ∈ stampFrom cur rs, cur < x.lsn := by
  induction rs generalizing cur with
  | nil => simp [stampFrom]
  | cons r t ih =>
    simp only [List.length_cons] at h
    have h1 : (cur + 1).val = cur.val + 1 := u64_succ_val cur (by omega)
    intro x hx
    rcases List.mem_cons.1 hx with hh | hh
    · rw [hh, stamp_lsn]
      exact Fin.lt_def.2 (by omega)
    · have := ih (cur + 1) (by omega) x hh
      exact Fin.lt_def.2 (by have := Fin.lt_def.1 this; omega)

theorem stampFrom_lsn_increasing (rs : List LogRecord) (cur : U64)
    (h : cur.val + rs.length < 2 ^ 64) :
    List.Pairwise (fun a b : LogRecord => a.lsn < b.lsn) (stampFrom cur rs) := by
  induction rs generalizing cur with
  | nil => exact List.Pairwise.nil
  | cons r t ih =>
    simp only [List.length_cons] at h
    have h1 : (cur + 1).val = cur.val + 1 := u64_succ_val cur (by omega)
    refine List.Pairwise.cons ?_ (ih (cur + 1) (by omega))
    intro x hx
    rw [stamp_lsn]
    exact stampFrom_lsn_bounds t (cur + 1) (by omega) x hx

theorem stampFrom_fields (rs : List LogRecord) (cur : U64) :
    (stampFrom cur rs).map (fun r => (r.type, r.txn_id, r.key, r.value))
      = rs.map (fun r => (r.type, r.txn_id, r.key, r.value)) := by
  induction rs generalizing cur with
  | nil => rfl
  | cons r t ih =>
    simp only [stampFrom, List.map_cons, ih]
    rfl

end WAL

namespace TransactionManager

/-- The call `op` for `txn`. -/
def apply (tm : TransactionManager) (txn : Transaction) :
    TxnOp → Except Fault (Bool × Transaction × TransactionManager)
  | TxnOp.put k v => tm.put txn k v
  | TxnOp.remove k => tm.remove txn k

/-- The calls `ops` for `txn` one after the other, as long as they return true. -/
def apply_all (tm : TransactionManager) (txn : Transaction) :
    List TxnOp → Except Fault (Bool × Transaction × TransactionManager)
  | [] => .ok (true, txn, tm)
  | op :: rest =>
    match tm.apply txn op with
    | .error f => .error f
    | .ok (ok, txn1, tm1) => if ¬ ok then .ok (false, txn1, tm1) else apply_all tm1 txn1 rest

/-- What a call of `put` or `remove` that returns true has done on an open log. -/
theorem apply_eq_ok (tm tm1 : TransactionManager) (txn txn1 : Transaction) (op : TxnOp)
    (hopen : tm.wal_.is_open_ = true) (h : tm.apply txn op = .ok (true, txn1, tm1)) :
    txn.state_ = TransactionState.RUNNING ∧
    txn1 = { txn with write_keys_ := txn.write_keys_ ++ [op.key] } ∧
    tm1.wal_ = tm.wal_.extended (op.expected_record txn.txn_id_) ∧
    tm1.storage_ = op.store tm.storage_ ∧
    tm1.next_txn_id_ = tm.next_txn_id_ := by
  cases op with
  | put k v => exact put_eq_ok tm tm1 txn txn1 k v hopen h
  | remove k => exact remove_eq_ok tm tm1 txn txn1 k hopen h

/-- What calls of `put` and `remove` that all return true have done on an open log. -/
theorem apply_all_eq_ok (ops : List TxnOp) (tm tm1 : TransactionManager)
    (txn txn1 : Transaction) (hopen : tm.wal_.is_open_ = true)
    (h : tm.apply_all txn ops = .ok (true, txn1, tm1)) :
    txn1 = { txn with write_keys_ := txn.write_keys_ ++ ops.map TxnOp.key } ∧
    tm1.wal_ = tm.wal_.extend_all (ops.map (TxnOp.expected_record txn.txn_id_)) ∧
    tm1.storage_ = ops.foldl TxnOp.store tm.storage_ ∧
    tm1.next_txn_id_ = tm.next_txn_id_ := by
  induction ops generalizing tm txn with
  | nil =>
    obtain ⟨_, h2⟩ := Prod.mk.inj (Except.ok.inj h)
    obtain ⟨h3, h4⟩ := Prod.mk.inj h2
    subst h3 h4
    simp [WAL.extend_all]
  | cons op rest ih =>
    unfold apply_all at h
    cases ha : tm.apply txn op with
    | error f =>
      rw [ha] at h
      exact absurd h (by simp)
    | ok r =>
      obtain ⟨ok, txn2, tm2⟩ := r
      rw [ha] at h
      simp only at h
      cases ok with
      | false =>
        simp only [Bool.false_eq_true, not_false_eq_true, if_true] at h
        exact absurd (Prod.mk.inj (Except.ok.inj h)).1 (by simp)
      | true =>
        simp only [not_true_eq_false, if_false] at h
        obtain ⟨_, a2, a3, a4, a5⟩ := apply_eq_ok tm tm2 txn txn2 op hopen ha
        have hopen2 : tm2.wal_.is_open_ = true := by rw [a3]; exact hopen
        obtain ⟨b1, b2, b3, b4⟩ := ih tm2 txn2 hopen2 h
        refine ⟨?_, ?_, ?_, ?_⟩
        · rw [b1, a2]
          simp
        · rw [b2, a3, a2]
          rfl
        · rw [b3, a4]
          rfl
        · rw [b4, a5]

end TransactionManager

theorem get_foldl_store (ops : List TxnOp) (s : StorageEngine) (j : Key)
    (hj : j ∉ ops.map TxnOp.key) : (ops.foldl TxnOp.store s).get j = s.get j := by
  induction ops generalizing s with
  | nil => rfl
  | cons op rest ih =>
    simp only [List.map_cons, List.mem_cons, not_or] at hj
    rw [List.foldl_cons, ih _ hj.2]
    cases op with
    | put k v =>
      have hne : j ≠ k := hj.1
      simp [TxnOp.store, hne]
    | remove k =>
      have hne : j ≠ k := hj.1
      simp [TxnOp.store, hne]

end KvEngine

namespace KvEngine

open LogRecordType

/-- The records of a transaction `txn_id` that runs the calls `ops` and commits, as
the claim has them: BEGIN, one record per call, COMMIT. -/
def session_records (txn_id : U64) (ops : List TxnOp) : List LogRecord :=
  LogRecord.new BEGIN txn_id [] [] :: ops.map (TxnOp.expected_record txn_id)
    ++ [LogRecord.new COMMIT txn_id [] []]

theorem session_records_txn_id (txn_id : U64) (ops : List TxnOp) :
    ∀ r ∈ session_records txn_id ops, r.txn_id = txn_id := by
  intro r hr
  unfold session_records at hr
  simp only [List.cons_append, List.mem_cons, List.mem_append, List.mem_map, List.mem_singleton,
    List.not_mem_nil, or_false] at hr
  rcases hr with h | ⟨op, _, h⟩ | h
  · rw [h]; rfl
  · rw [← h]
    cases op <;> rfl
  · rw [h]; rfl

theorem session_records_sizes (txn_id : U64) (ops : List TxnOp)
    (hsize : ∀ op ∈ ops, op.key.length < 2 ^ 32 ∧ op.value.length < 2 ^ 32) :
    ∀ r ∈ session_records txn_id ops, r.key.length < 2 ^ 32 ∧ r.value.length < 2 ^ 32 := by
  intro r hr
  unfold session_records at hr
  simp only [List.cons_append, List.mem_cons, List.mem_append, List.mem_map, List.mem_singleton,
    List.not_mem_nil, or_false] at hr
  rcases hr with h | ⟨op, hop, h⟩ | h
  · rw [h]
    exact ⟨by simp [LogRecord.new], by simp [LogRecord.new]⟩
  · rw [← h]
    have := hsize op hop
    cases op with
    | put k v => exact this
    | remove k => exact ⟨this.1, by simp [TxnOp.expected_record, LogRecord.new]⟩
  · rw [h]
    exact ⟨by simp [LogRecord.new], by simp [LogRecord.new]⟩

theorem session_records_length (txn_id : U64) (ops : List TxnOp) :
    (session_records txn_id ops).length = ops.length + 2 := by
  simp [session_records]

/-- The log of a session that begins a transaction, runs calls that return true, and
commits. -/
theorem session_wal (tm0 tmb tm tm1 : TransactionManager) (txn0 txn txn1 : Transaction)
    (ops : List TxnOp) (hopen : tm0.wal_.is_open_ = true)
    (hbegin : tm0.begin = .ok (txn0, tmb))
    (hops : tmb.apply_all txn0 ops = .ok (true, txn, tm))
    (hcommit : tm.commit txn = .ok (true, txn1, tm1)) :
    txn1.txn_id_ = tm0.next_txn_id_ ∧
    txn1.start_lsn_ = tm0.wal_.current_lsn_ + 1 ∧
    txn1.state_ = TransactionState.COMMITTED ∧
    tm1.wal_.file = tm0.wal_.file
      ++ frames (WAL.stampFrom tm0.wal_.current_lsn_ (session_records tm0.next_txn_id_ ops)) ∧
    tm1.wal_.flushed = tm1.wal_.file.length ∧
    tm1.wal_.is_open_ = true ∧ tm1.wal_.mutex_held = false := by
  obtain ⟨hm0, ht0, htb⟩ := TransactionManager.begin_eq_ok tm0 tmb txn0 hopen hbegin
  have hopenb : tmb.wal_.is_open_ = true := by rw [htb]; exact hopen
  have hid0 : txn0.txn_id_ = tm0.next_txn_id_ := by rw [ht0]; rfl
  obtain ⟨ht, hw, _, _⟩ := TransactionManager.apply_all_eq_ok ops tmb tm txn0 txn hopenb hops
  have hwb : tmb.wal_ = tm0.wal_.extend_all [LogRecord.new BEGIN tm0.next_txn_id_ [] []] := by
    rw [htb]; rfl
  rw [hwb, WAL.extend_all_append, hid0] at hw
  have hopent : tm.wal_.is_open_ = true := by
    rw [hw, (WAL.extend_all_eq _ _).2.1]; exact hopen
  obtain ⟨_, ht1, htm1⟩ := TransactionManager.commit_eq_ok tm tm1 txn txn1 hopent hcommit
  have hidt : txn.txn_id_ = tm0.next_txn_id_ := by rw [ht, hid0]
  have hw1 : tm1.wal_ = WAL.flush_internal
      (tm0.wal_.extend_all (session_records tm0.next_txn_id_ ops)) := by
    have e1 : tm1.wal_ = WAL.flush_internal
        (tm.wal_.extend_all [LogRecord.new COMMIT txn.txn_id_ [] []]) := by
      rw [htm1]; rfl
    rw [e1, hw, WAL.extend_all_append, hidt]
    rfl
  obtain ⟨f1, f2, f3⟩ := WAL.extend_all_eq (session_records tm0.next_txn_id_ ops) tm0.wal_
  refine ⟨by rw [ht1]; exact hidt, by rw [ht1, ht, ht0], by rw [ht1], ?_, ?_, ?_, ?_⟩
  · rw [hw1]
    exact f1
  · rw [hw1]
    rfl
  · rw [hw1]
    exact f2.trans hopen
  · rw [hw1]
    exact f3.trans hm0

/-! ### C21 -/

/-- C21, on a log without records of the new id: a transaction is begun on an open log
that holds the valid records `rs0`, none of them with the id that `begin` allocates, the
calls `ops` of `put` and `remove` all return true, and `commit` returns true. Then
`read_from(0)` returns `rs0` followed by the records of the transaction; they are the
only records with its id; in order they are a BEGIN, for each call its `PUT(k, v)` or
`DELETE(k)`, and a COMMIT; the LSN of the BEGIN is the `start_lsn` of the transaction;
and their LSNs increase. -/
theorem transaction_records_in_order (tm0 tmb tm tm1 : TransactionManager)
    (txn0 txn txn1 : Transaction) (ops : List TxnOp) (rs0 : List LogRecord)
    (hopen : tm0.wal_.is_open_ = true)
    (hfile : tm0.wal_.file = frames rs0) (hvalid : ∀ r ∈ rs0, WAL.ValidRecord r)
    (hfresh : ∀ r ∈ rs0, r.txn_id ≠ tm0.next_txn_id_)
    (hsize : ∀ op ∈ ops, op.key.length < 2 ^ 32 ∧ op.value.length < 2 ^ 32)
    (hlsn : tm0.wal_.current_lsn_.val + (ops.length + 2) < 2 ^ 64)
    (hbegin : tm0.begin = .ok (txn0, tmb))
    (hops : tmb.apply_all txn0 ops = .ok (true, txn, tm))
    (hcommit : tm.commit txn = .ok (true, txn1, tm1)) :
    txn1.txn_id_ = tm0.next_txn_id_ ∧
    tm1.wal_.read_from 0 = .ok (rs0
      ++ WAL.stampFrom tm0.wal_.current_lsn_ (session_records txn1.txn_id_ ops)) ∧
    (rs0 ++ WAL.stampFrom tm0.wal_.current_lsn_ (session_records txn1.txn_id_ ops)).filter
        (fun r => r.txn_id = txn1.txn_id_)
      = WAL.stampFrom tm0.wal_.current_lsn_ (session_records txn1.txn_id_ ops) ∧
    (WAL.stampFrom tm0.wal_.current_lsn_ (session_records txn1.txn_id_ ops)).map
        (fun r => (r.type, r.txn_id, r.key, r.value))
      = (session_records txn1.txn_id_ ops).map (fun r => (r.type, r.txn_id, r.key, r.value)) ∧
    ((WAL.stampFrom tm0.wal_.current_lsn_ (session_records txn1.txn_id_ ops)).head?).map
        (fun r => r.lsn) = some txn1.start_lsn_ ∧
    List.Pairwise (fun a b : LogRecord => a.lsn < b.lsn)
      (WAL.stampFrom tm0.wal_.current_lsn_ (session_records txn1.txn_id_ ops)) := by
  obtain ⟨hid, hstart, _, hf, _, hop1, hm1⟩ :=
    session_wal tm0 tmb tm tm1 txn0 txn txn1 ops hopen hbegin hops hcommit
  rw [hid]
  have hmine : ∀ x ∈ WAL.stampFrom tm0.wal_.current_lsn_ (session_records tm0.next_txn_id_ ops),
      x.txn_id = tm0.next_txn_id_ ∧ WAL.ValidRecord x := by
    intro x hx
    obtain ⟨lsn, r, hr, hxr⟩ := WAL.mem_stampFrom _ _ x hx
    rw [hxr]
    have hs := session_records_sizes tm0.next_txn_id_ ops hsize r hr
    exact ⟨session_records_txn_id _ _ r hr, WAL.validRecord_stamp lsn r hs.1 hs.2⟩
  refine ⟨rfl, ?_, ?_, WAL.stampFrom_fields _ _, ?_, ?_⟩
  · apply WAL.read_from_zero_frames _ _ hop1 hm1
    · rw [hf, hfile, ← frames_append]
      rfl
    · intro r hr
      rcases List.mem_append.1 hr with h | h
      · exact hvalid r h
      · exact (hmine r h).2
  · rw [List.filter_append]
    have h1 : rs0.filter (fun r => decide (r.txn_id = tm0.next_txn_id_)) = [] := by
      apply List.filter_eq_nil_iff.2
      intro r hr
      simpa using hfresh r hr
    have h2 : (WAL.stampFrom tm0.wal_.current_lsn_
        (session_records tm0.next_txn_id_ ops)).filter
        (fun r => decide (r.txn_id = tm0.next_txn_id_))
        = WAL.stampFrom tm0.wal_.current_lsn_ (session_records tm0.next_txn_id_ ops) := by
      apply List.filter_eq_self.2
      intro r hr
      simpa using (hmine r hr).1
    rw [h1, h2, List.nil_append]
  · rw [hstart]
    rfl
  · apply WAL.stampFrom_lsn_increasing
    rw [session_records_length]
    exact hlsn

/-- The log left by transaction 1, which has put `"k"` and committed. -/
def c21_log : List LogRecord :=
  WAL.stampFrom 0 [LogRecord.new BEGIN 1 [] [], LogRecord.new PUT 1 key_k [97],
    LogRecord.new COMMIT 1 [] []]

/-- The transaction manager after transaction 1. -/
def c21_tm : TransactionManager :=
  { wal_ := WAL.mk (frames c21_log) (frames c21_log).length 3 true [] false,
    lock_mgr_ := LockManager.new,
    storage_ := (StorageEngine.fresh.put key_k [97]).2,
    next_txn_id_ := 2,
    active_txns_ := OrdMap.empty }

/-- The calls of transaction 2: `put("a", "1")`, `put("b", "2")`, `remove("k")`. -/
def c21_ops : List TxnOp := [TxnOp.put [97] [49], TxnOp.put [98] [50], TxnOp.remove key_k]

/-- The state that a call has returned, the arguments when it has not. -/
def TransactionManager.after (r : Except Fault (Bool × Transaction × TransactionManager))
    (txn : Transaction) (tm : TransactionManager) : Transaction × TransactionManager :=
  match r with
  | .ok (_, txn1, tm1) => (txn1, tm1)
  | .error _ => (txn, tm)

/-- Transaction 2 and the manager after `begin`. -/
def c21_begun : Transaction × TransactionManager :=
  match c21_tm.begin with
  | .ok r => r
  | .error _ => (Transaction.new 0, c21_tm)

/-- Transaction 2 and the manager after the calls `c21_ops`. -/
def c21_written : Transaction × TransactionManager :=
  TransactionManager.after (c21_begun.2.apply_all c21_begun.1 c21_ops) c21_begun.1 c21_begun.2

/-- Transaction 2 and the manager after `commit`. -/
def c21_committed : Transaction × TransactionManager :=
  TransactionManager.after (c21_written.2.commit c21_written.1) c21_written.1 c21_written.2

theorem c21_log_valid : ∀ r ∈ c21_log, WAL.ValidRecord r := by
  intro x hx
  obtain ⟨lsn, r, hr, hxr⟩ := WAL.mem_stampFrom 0 _ x hx
  rw [hxr]
  simp only [List.mem_cons, List.mem_singleton, List.not_mem_nil, or_false] at hr
  rcases hr with h | h | h <;> rw [h] <;>
    exact WAL.validRecord_stamp _ _ (by decide) (by decide)

set_option maxRecDepth 100000 in
/-- C21, witness: transaction 2 on the log of transaction 1; its records have the
LSNs 4 to 8. -/
theorem transaction_records_in_order_witness :
    c21_tm.wal_.is_open_ = true ∧ c21_tm.wal_.file = frames c21_log ∧
    (∀ r ∈ c21_log, WAL.ValidRecord r) ∧
    (∀ r ∈ c21_log, r.txn_id ≠ c21_tm.next_txn_id_) ∧
    (∀ op ∈ c21_ops, op.key.length < 2 ^ 32 ∧ op.value.length < 2 ^ 32) ∧
    c21_tm.wal_.current_lsn_.val + (c21_ops.length + 2) < 2 ^ 64 ∧
    c21_tm.begin = .ok c21_begun ∧
    c21_begun.2.apply_all c21_begun.1 c21_ops = .ok (true, c21_written) ∧
    c21_written.2.commit c21_written.1 = .ok (true, c21_committed) ∧
    (WAL.stampFrom c21_tm.wal_.current_lsn_ (session_records 2 c21_ops)).map
        (fun r => (r.type, r.lsn, r.key, r.value))
      = [(BEGIN, 4, [], []), (PUT, 5, [97], [49]), (PUT, 6, [98], [50]),
         (DELETE, 7, key_k, []), (COMMIT, 8, [], [])] ∧
    (c21_committed.1.txn_id_ = c21_tm.next_txn_id_ ∧
    c21_committed.2.wal_.read_from 0 = .ok (c21_log
      ++ WAL.stampFrom c21_tm.wal_.current_lsn_
        (session_records c21_committed.1.txn_id_ c21_ops)) ∧
    (c21_log ++ WAL.stampFrom c21_tm.wal_.current_lsn_
        (session_records c21_committed.1.txn_id_ c21_ops)).filter
        (fun r => r.txn_id = c21_committed.1.txn_id_)
      = WAL.stampFrom c21_tm.wal_.current_lsn_
        (session_records c21_committed.1.txn_id_ c21_ops) ∧
    (WAL.stampFrom c21_tm.wal_.current_lsn_
        (session_records c21_committed.1.txn_id_ c21_ops)).map
        (fun r => (r.type, r.txn_id, r.key, r.value))
      = (session_records c21_committed.1.txn_id_ c21_ops).map
        (fun r => (r.type, r.txn_id, r.key, r.value)) ∧
    ((WAL.stampFrom c21_tm.wal_.current_lsn_
        (session_records c21_committed.1.txn_id_ c21_ops)).head?).map
        (fun r => r.lsn) = some c21_committed.1.start_lsn_ ∧
    List.Pairwise (fun a b : LogRecord => a.lsn < b.lsn)
      (WAL.stampFrom c21_tm.wal_.current_lsn_
        (session_records c21_committed.1.txn_id_ c21_ops))) :=
  ⟨rfl, rfl, c21_log_valid, by decide, by decide, by decide, rfl, rfl, rfl, by decide,
    transaction_records_in_order c21_tm c21_begun.2 c21_written.2 c21_committed.2
      c21_begun.1 c21_written.1 c21_committed.1 c21_ops c21_log rfl rfl c21_log_valid
      (by decide) (by decide) (by decide) rfl rfl rfl⟩

end KvEngine

namespace KvEngine

open LogRecordType

/-! ### C22 -/

/-- C22: `rollback(t)` returns true on an open log, for a transaction whose granted
lock requests are all on keys recorded for it in `txn_locks_`. Then `t` was RUNNING;
every key of its write keys is absent from the store and the other keys are as they
were; `t` is ABORTED and the table of active transactions has no entry for it;
`txn_locks_` has no entry for it and no granted request of it is left; the frame of a
ROLLBACK record with its id and the next LSN is the last thing appended to the log
file, and it is flushed. And when `t` was begun on the store `tm0.storage_` and has
since made only calls of `put`, all returning true, on keys absent from that store,
the store after the rollback is `tm0.storage_`. -/
theorem rollback_removes_written_keys (tm tm1 : TransactionManager) (txn txn1 : Transaction)
    (hopen : tm.wal_.is_open_ = true)
    (hrec : ∀ k, (∃ req ∈ tm.lock_mgr_.requests_on k,
        req.txn_id = txn.txn_id_ ∧ req.granted = true) →
      k ∈ (tm.lock_mgr_.txn_locks_.find? txn.txn_id_).getD [])
    (h : tm.rollback txn = .ok (true, txn1, tm1)) :
    txn.state_ = TransactionState.RUNNING ∧
    (∀ k ∈ txn.write_keys_, tm1.storage_.get k = none) ∧
    (∀ k, k ∉ txn.write_keys_ → tm1.storage_.get k = tm.storage_.get k) ∧
    txn1.state_ = TransactionState.ABORTED ∧ txn1.txn_id_ = txn.txn_id_ ∧
    (∀ e ∈ tm1.active_txns_.entries, e.1 ≠ txn.txn_id_) ∧
    tm1.lock_mgr_.txn_locks_.find? txn.txn_id_ = none ∧
    (∀ k, ∀ req ∈ tm1.lock_mgr_.requests_on k, req.txn_id = txn.txn_id_ →
      req.granted = false) ∧
    tm1.wal_.file = tm.wal_.file ++ serialize_record
      (WAL.stamp (tm.wal_.get_last_lsn + 1) (LogRecord.new ROLLBACK txn.txn_id_ [] [])) ∧
    tm1.wal_.flushed = tm1.wal_.file.length ∧
    (∀ (tm0 tmb : TransactionManager) (txn0 : Transaction) (puts : List (Key × Value)),
      tm0.wal_.is_open_ = true →
      tm0.begin = .ok (txn0, tmb) →
      tmb.apply_all txn0 (puts.map (fun p => TxnOp.put p.1 p.2)) = .ok (true, txn, tm) →
      (∀ p ∈ puts, tm0.storage_.get p.1 = none) →
      tm1.storage_ = tm0.storage_) := by
  obtain ⟨hs, ht1, htm1⟩ := TransactionManager.rollback_eq_ok tm tm1 txn txn1 hopen h
  have hlm : tm1.lock_mgr_ = (tm.lock_mgr_.unlock_all txn.txn_id_).2 := by rw [htm1]
  have hst : tm1.storage_ = removeKeys txn.write_keys_.reverse tm.storage_ := by rw [htm1]
  obtain ⟨htab, u3⟩ := LockManager.unlock_all_eq tm.lock_mgr_ txn.txn_id_
  have u2 : ∀ k, ∀ req ∈ (tm.lock_mgr_.unlock_all txn.txn_id_).2.requests_on k,
      req.txn_id = txn.txn_id_ → req.granted = false := by
    intro k
    rw [LockManager.requests_on_eq, htab]
    exact LockManager.release_keys_no_granted _ _ _ k (hrec k)
  have hget : ∀ k, tm1.storage_.get k
      = if k ∈ txn.write_keys_ then none else tm.storage_.get k := by
    intro k
    rw [hst, get_removeKeys]
    simp only [List.mem_reverse]
  refine ⟨hs, ?_, ?_, by rw [ht1], by rw [ht1], ?_, by rw [hlm]; exact u3,
    by rw [hlm]; exact u2, by rw [htm1]; rfl, by rw [htm1]; rfl, ?_⟩
  · intro k hk
    rw [hget, if_pos hk]
  · intro k hk
    rw [hget, if_neg hk]
  · have hnone : tm1.active_txns_.find? txn.txn_id_ = none := by
      rw [htm1]; simp
    exact lookupEntry_none_not_mem _ _ hnone
  · intro tm0 tmb txn0 puts hopen0 hbegin hputs habsent
    obtain ⟨_, ht0, htb⟩ := TransactionManager.begin_eq_ok tm0 tmb txn0 hopen0 hbegin
    have hopenb : tmb.wal_.is_open_ = true := by rw [htb]; exact hopen0
    obtain ⟨hk, _, hsto, _⟩ :=
      TransactionManager.apply_all_eq_ok _ tmb tm txn0 txn hopenb hputs
    have hkeys : txn.write_keys_ = puts.map Prod.fst := by
      rw [hk, ht0]
      simp [Transaction.new, List.map_map, Function.comp_def, TxnOp.key]
    have hsb : tmb.storage_ = tm0.storage_ := by rw [htb]
    apply StorageEngine.ext_get
    intro k
    rw [hget]
    by_cases hmem : k ∈ txn.write_keys_
    · rw [if_pos hmem]
      rw [hkeys] at hmem
      obtain ⟨p, hp, hpk⟩ := List.mem_map.1 hmem
      rw [← hpk]
      exact (habsent p hp).symm
    · rw [if_neg hmem, hsto, hsb]
      apply get_foldl_store
      rw [hkeys] at hmem
      simpa [List.map_map, Function.comp_def, TxnOp.key] using hmem

theorem lookupEntry_some_mem {K V : Type} [LinearOrder K] (k : K) (v : V) (l : List (K × V))
    (h : lookupEntry k l = some v) : (k, v) ∈ l := by
  induction l with
  | nil => simp [lookupEntry] at h
  | cons e t ih =>
    obtain ⟨k1, v1⟩ := e
    unfold lookupEntry at h
    split_ifs at h with hk
    · rw [hk, Option.some.inj h]
      exact List.mem_cons_self _ _
    · exact List.mem_cons_of_mem _ (ih h)

/-- The granted requests of `t` are on recorded keys when this holds for the entries
of the lock table. -/
theorem LockManager.granted_recorded_of_entries (lm : LockManager) (t : U64)
    (h : ∀ e ∈ lm.lock_table_.entries,
      (∃ req ∈ e.2, req.txn_id = t ∧ req.granted = true) →
      e.1 ∈ (lm.txn_locks_.find? t).getD []) :
    ∀ k, (∃ req ∈ lm.requests_on k, req.txn_id = t ∧ req.granted = true) →
      k ∈ (lm.txn_locks_.find? t).getD [] := by
  intro k hk
  unfold LockManager.requests_on at hk
  cases hf : lm.lock_table_.find? k with
  | none =>
    rw [hf] at hk
    obtain ⟨req, hreq, _⟩ := hk
    exact absurd hreq (List.not_mem_nil _)
  | some requests =>
    rw [hf] at hk
    exact h (k, requests) (lookupEntry_some_mem k requests _ hf) hk

/-- A transaction manager on an open, empty log whose store holds `"k"`. -/
def c22_tm : TransactionManager :=
  { wal_ := WAL.mk [] 0 0 true [] false,
    lock_mgr_ := LockManager.new,
    storage_ := (StorageEngine.fresh.put key_k [111]).2,
    next_txn_id_ := 1,
    active_txns_ := OrdMap.empty }

/-- The calls `put("a", "1")` and `put("b", "2")`. -/
def c22_puts : List (Key × Value) := [([97], [49]), ([98], [50])]

/-- Transaction 1 and the manager after `begin`. -/
def c22_begun : Transaction × TransactionManager :=
  match c22_tm.begin with
  | .ok r => r
  | .error _ => (Transaction.new 0, c22_tm)

/-- Transaction 1 and the manager after the two calls of `put`. -/
def c22_written : Transaction × TransactionManager :=
  match c22_begun.2.apply_all c22_begun.1 (c22_puts.map (fun p => TxnOp.put p.1 p.2)) with
  | .ok (_, r) => r
  | .error _ => c22_begun

/-- Transaction 1 and the manager after `rollback`. -/
def c22_rolled_back : Transaction × TransactionManager :=
  match c22_written.2.rollback c22_written.1 with
  | .ok (_, r) => r
  | .error _ => c22_written

set_option maxRecDepth 100000 in
theorem c22_granted_recorded :
    ∀ k, (∃ req ∈ c22_written.2.lock_mgr_.requests_on k,
        req.txn_id = c22_written.1.txn_id_ ∧ req.granted = true) →
      k ∈ (c22_written.2.lock_mgr_.txn_locks_.find? c22_written.1.txn_id_).getD [] := by
  apply LockManager.granted_recorded_of_entries
  decide

set_option maxRecDepth 100000 in
/-- C22, witness: transaction 1 puts `"a"` and `"b"`, absent from the store, and is
rolled back; the store is again the one that holds `"k"` only. -/
theorem rollback_removes_written_keys_witness :
    c22_written.2.wal_.is_open_ = true ∧
    (∀ k, (∃ req ∈ c22_written.2.lock_mgr_.requests_on k,
        req.txn_id = c22_written.1.txn_id_ ∧ req.granted = true) →
      k ∈ (c22_written.2.lock_mgr_.txn_locks_.find? c22_written.1.txn_id_).getD []) ∧
    c22_written.2.rollback c22_written.1 = .ok (true, c22_rolled_back) ∧
    c22_tm.begin = .ok c22_begun ∧
    c22_begun.2.apply_all c22_begun.1 (c22_puts.map (fun p => TxnOp.put p.1 p.2))
      = .ok (true, c22_written) ∧
    (∀ p ∈ c22_puts, c22_tm.storage_.get p.1 = none) ∧
    c22_written.1.write_keys_ = [[97], [98]] ∧
    c22_written.2.storage_.data_.entries = [([97], [49]), ([98], [50]), (key_k, [111])] ∧
    c22_rolled_back.2.storage_ = c22_tm.storage_ ∧
    (c22_written.1.state_ = TransactionState.RUNNING ∧
    (∀ k ∈ c22_written.1.write_keys_, c22_rolled_back.2.storage_.get k = none) ∧
    (∀ k, k ∉ c22_written.1.write_keys_ →
      c22_rolled_back.2.storage_.get k = c22_written.2.storage_.get k) ∧
    c22_rolled_back.1.state_ = TransactionState.ABORTED ∧
    c22_rolled_back.1.txn_id_ = c22_written.1.txn_id_ ∧
    (∀ e ∈ c22_rolled_back.2.active_txns_.entries, e.1 ≠ c22_written.1.txn_id_) ∧
    c22_rolled_back.2.lock_mgr_.txn_locks_.find? c22_written.1.txn_id_ = none ∧
    (∀ k, ∀ req ∈ c22_rolled_back.2.lock_mgr_.requests_on k,
      req.txn_id = c22_written.1.txn_id_ → req.granted = false) ∧
    c22_rolled_back.2.wal_.file = c22_written.2.wal_.file ++ serialize_record
      (WAL.stamp (c22_written.2.wal_.get_last_lsn + 1)
        (LogRecord.new ROLLBACK c22_written.1.txn_id_ [] [])) ∧
    c22_rolled_back.2.wal_.flushed = c22_rolled_back.2.wal_.file.length ∧
    (∀ (tm0 tmb : TransactionManager) (txn0 : Transaction) (puts : List (Key × Value)),
      tm0.wal_.is_open_ = true →
      tm0.begin = .ok (txn0, tmb) →
      tmb.apply_all txn0 (puts.map (fun p => TxnOp.put p.1 p.2))
        = .ok (true, c22_written.1, c22_written.2) →
      (∀ p ∈ puts, tm0.storage_.get p.1 = none) →
      c22_rolled_back.2.storage_ = tm0.storage_)) :=
  ⟨rfl, c22_granted_recorded, rfl, rfl, rfl, by decide, by decide, by decide, by decide,
    rollback_removes_written_keys c22_written.2 c22_rolled_back.2 c22_written.1
      c22_rolled_back.1 rfl c22_granted_recorded rfl⟩

end KvEngine

/-! ## The analysis and redo phases of `recover` -/

namespace KvEngine

open LogRecordType

namespace RecoveryManager

/-- Transaction `t` has a record of type `ty` in the log. -/
def HasRecord (records : List LogRecord) (ty : LogRecordType) (t : U64) : Prop :=
  ∃ r ∈ records, r.type = ty ∧ r.txn_id = t

instance (records : List LogRecord) (ty : LogRecordType) (t : U64) :
    Decidable (HasRecord records ty t) := by
  unfold HasRecord; infer_instance

theorem hasRecord_append_singleton (l : List LogRecord) (r : LogRecord) (ty : LogRecordType)
    (t : U64) :
    HasRecord (l ++ [r]) ty t ↔ HasRecord l ty t ∨ (r.type = ty ∧ r.txn_id = t) := by
  unfold HasRecord
  constructor
  · rintro ⟨x, hx, h⟩
    rcases List.mem_append.1 hx with h1 | h1
    · exact Or.inl ⟨x, h1, h⟩
    · rw [List.mem_singleton.1 h1] at h
      exact Or.inr h
  · rintro (⟨x, hx, h⟩ | h)
    · exact ⟨x, List.mem_append_left _ hx, h⟩
    · exact ⟨r, List.mem_append_right _ (List.mem_singleton_self _), h⟩

theorem analysisStep_committed (a : Analysis) (r : LogRecord) :
    (analysisStep a r).committed_txns
      = if r.type = COMMIT then a.committed_txns.insert r.txn_id else a.committed_txns := by
  unfold analysisStep
  by_cases h1 : r.type = BEGIN
  · have h2 : ¬ r.type = COMMIT := by rw [h1]; decide
    rw [if_pos h1, if_neg h2]
  · rw [if_neg h1]
    by_cases h2 : r.type = COMMIT
    · rw [if_pos h2, if_pos h2]
    · rw [if_neg h2, if_neg h2]
      split_ifs <;> rfl

theorem analysisStep_aborted (a : Analysis) (r : LogRecord) :
    (analysisStep a r).aborted_txns
      = if r.type = ROLLBACK then a.aborted_txns.insert r.txn_id else a.aborted_txns := by
  unfold analysisStep
  by_cases h1 : r.type = BEGIN
  · have h2 : ¬ r.type = ROLLBACK := by rw [h1]; decide
    rw [if_pos h1, if_neg h2]
  · rw [if_neg h1]
    by_cases h2 : r.type = COMMIT
    · have h3 : ¬ r.type = ROLLBACK := by rw [h2]; decide
      rw [if_pos h2, if_neg h3]
    · rw [if_neg h2]
      split_ifs <;> rfl

/-- The `committed_txns` set at the end of the analysis holds exactly the ids with a
COMMIT record. -/
theorem mem_committed_iff (records : List LogRecord) (t : U64) :
    t ∈ (analysis records).committed_txns ↔ HasRecord records COMMIT t := by
  induction records using List.reverseRecOn with
  | nil => simp [analysis, HasRecord]
  | append_singleton l r ih =>
    rw [analysis_append, hasRecord_append_singleton, ← ih, analysisStep_committed]
    split_ifs with h
    · rw [TxnSet.mem_txn_insert]
      constructor
      · rintro (h1 | h1)
        · exact Or.inr ⟨h, h1.symm⟩
        · exact Or.inl h1
      · rintro (h1 | h1)
        · exact Or.inr h1
        · exact Or.inl h1.2.symm
    · constructor
      · exact Or.inl
      · rintro (h1 | h1)
        · exact h1
        · exact absurd h1.1 h

/-- The `aborted_txns` set at the end of the analysis holds exactly the ids with a
ROLLBACK record. -/
theorem mem_aborted_iff (records : List LogRecord) (t : U64) :
    t ∈ (analysis records).aborted_txns ↔ HasRecord records ROLLBACK t := by
  induction records using List.reverseRecOn with
  | nil => simp [analysis, HasRecord]
  | append_singleton l r ih =>
    rw [analysis_append, hasRecord_append_singleton, ← ih, analysisStep_aborted]
    split_ifs with h
    · rw [TxnSet.mem_txn_insert]
      constructor
      · rintro (h1 | h1)
        · exact Or.inr ⟨h, h1.symm⟩
        · exact Or.inl h1
      · rintro (h1 | h1)
        · exact Or.inr h1
        · exact Or.inl h1.2.symm
    · constructor
      · exact Or.inl
      · rintro (h1 | h1)
        · exact h1
        · exact absurd h1.1 h

/-- No BEGIN record of a transaction comes after a COMMIT or ROLLBACK record of the
same transaction. -/
def EndsOnce (records : List LogRecord) : Prop :=
  records.Pairwise (fun r b =>
    (r.type = COMMIT ∨ r.type = ROLLBACK) → b.txn_id = r.txn_id → b.type ≠ BEGIN)

instance (records : List LogRecord) : Decidable (EndsOnce records) := by
  unfold EndsOnce; infer_instance

/-- Under `EndsOnce`, the losers are the transactions with a BEGIN record and neither a
COMMIT nor a ROLLBACK record. -/
theorem loser_iff_of_endsOnce (records : List LogRecord) (t : U64) (h : EndsOnce records) :
    Loser records t ↔
      HasRecord records BEGIN t ∧ ¬ HasRecord records COMMIT t ∧
        ¬ HasRecord records ROLLBACK t := by
  constructor
  · rintro ⟨pre, b, post, hsplit, hb, hbt, hpost⟩
    have hmem : b ∈ records := by rw [hsplit]; simp
    have hpair : ∀ x ∈ pre, ∀ y ∈ b :: post,
        (x.type = COMMIT ∨ x.type = ROLLBACK) → y.txn_id = x.txn_id → y.type ≠ BEGIN := by
      unfold EndsOnce at h
      rw [hsplit] at h
      exact (List.pairwise_append.1 h).2.2
    have hno : ∀ r ∈ records, r.txn_id = t → r.type ≠ COMMIT ∧ r.type ≠ ROLLBACK := by
      intro r hr hrt
      rw [hsplit] at hr
      rcases List.mem_append.1 hr with h1 | h1
      · by_contra hcon
        have hterm : r.type = COMMIT ∨ r.type = ROLLBACK := by
          by_cases hc : r.type = COMMIT
          · exact Or.inl hc
          · by_cases hr2 : r.type = ROLLBACK
            · exact Or.inr hr2
            · exact absurd ⟨hc, hr2⟩ hcon
        exact hpair r h1 b (List.mem_cons_self _ _) hterm (by rw [hbt, hrt]) hb
      · rcases List.mem_cons.1 h1 with h2 | h2
        · rw [h2, hb]
          exact ⟨by decide, by decide⟩
        · exact hpost r h2 hrt
    refine ⟨⟨b, hmem, hb, hbt⟩, ?_, ?_⟩
    · rintro ⟨r, hr, hty, hrt⟩
      exact (hno r hr hrt).1 hty
    · rintro ⟨r, hr, hty, hrt⟩
      exact (hno r hr hrt).2 hty
  · rintro ⟨hb, hc, hrb⟩
    apply loser_of_begin_no_terminal records t hb
    intro r hr hrt
    exact ⟨fun hty => hc ⟨r, hr, hty, hrt⟩, fun hty => hrb ⟨r, hr, hty, hrt⟩⟩

end RecoveryManager

open RecoveryManager

/-! ### C32 -/

/-- A log in which transaction 1 commits and a transaction with the same id begins
afterwards. -/
def c32_log : List LogRecord :=
  [LogRecord.new BEGIN 1 [] [], LogRecord.new COMMIT 1 [] [], LogRecord.new BEGIN 1 [] []]

/-- A log with a COMMIT and a ROLLBACK record of transaction 1. -/
def c32_log2 : List LogRecord :=
  [LogRecord.new BEGIN 1 [] [], LogRecord.new COMMIT 1 [] [], LogRecord.new ROLLBACK 1 [] []]

/-- C32, counterexample: on `c32_log` the analysis ends with transaction 1 in
`active_txns` although it has a COMMIT record, and `active_txns` and `committed_txns`
share it; on `c32_log2` transaction 1 is in `committed_txns` and in `aborted_txns`. -/
theorem c32_sets_overlap :
    (analysis c32_log).active_txns = [1] ∧ (analysis c32_log).committed_txns = [1] ∧
    HasRecord c32_log COMMIT 1 ∧
    (analysis c32_log2).committed_txns = [1] ∧ (analysis c32_log2).aborted_txns = [1] := by
  decide

/-- C32, amended: for every list of records, `committed_txns` holds exactly the ids with
a COMMIT record, `aborted_txns` exactly the ids with a ROLLBACK record and `active_txns`
exactly the ids with a BEGIN record that no COMMIT or ROLLBACK record of the same id
follows. When no transaction has both a COMMIT and a ROLLBACK record and no BEGIN
record follows a COMMIT or ROLLBACK record of its transaction, `active_txns` holds
exactly the ids with a BEGIN record and neither a COMMIT nor a ROLLBACK record, and
the three sets are pairwise disjoint. -/
theorem analysis_sets (records : List LogRecord)
    (hone : ∀ t, ¬ (HasRecord records COMMIT t ∧ HasRecord records ROLLBACK t))
    (hend : EndsOnce records) :
    (∀ t, t ∈ (analysis records).committed_txns ↔ HasRecord records COMMIT t) ∧
    (∀ t, t ∈ (analysis records).aborted_txns ↔ HasRecord records ROLLBACK t) ∧
    (∀ t, t ∈ (analysis records).active_txns ↔ Loser records t) ∧
    (∀ t, t ∈ (analysis records).active_txns ↔
      HasRecord records BEGIN t ∧ ¬ HasRecord records COMMIT t ∧
        ¬ HasRecord records ROLLBACK t) ∧
    (∀ t, ¬ (t ∈ (analysis records).active_txns ∧ t ∈ (analysis records).committed_txns)) ∧
    (∀ t, ¬ (t ∈ (analysis records).active_txns ∧ t ∈ (analysis records).aborted_txns)) ∧
    (∀ t, ¬ (t ∈ (analysis records).committed_txns ∧ t ∈ (analysis records).aborted_txns)) := by
  have hact : ∀ t, t ∈ (analysis records).active_txns ↔
      HasRecord records BEGIN t ∧ ¬ HasRecord records COMMIT t ∧
        ¬ HasRecord records ROLLBACK t := fun t =>
    (mem_active_iff_loser records t).trans (loser_iff_of_endsOnce records t hend)
  refine ⟨mem_committed_iff records, mem_aborted_iff records, mem_active_iff_loser records,
    hact, ?_, ?_, ?_⟩
  · rintro t ⟨h1, h2⟩
    exact ((hact t).1 h1).2.1 ((mem_committed_iff records t).1 h2)
  · rintro t ⟨h1, h2⟩
    exact ((hact t).1 h1).2.2 ((mem_aborted_iff records t).1 h2)
  · rintro t ⟨h1, h2⟩
    exact hone t ⟨(mem_committed_iff records t).1 h1, (mem_aborted_iff records t).1 h2⟩

/-- A log of three transactions: 1 commits, 2 is rolled back, 3 never ends. -/
def c32_good_log : List LogRecord :=
  [LogRecord.new BEGIN 1 [] [], LogRecord.new BEGIN 2 [] [], LogRecord.new PUT 1 key_k [97],
   LogRecord.new COMMIT 1 [] [], LogRecord.new BEGIN 3 [] [], LogRecord.new ROLLBACK 2 [] []]

set_option maxRecDepth 100000 in
/-- C32, witness: on `c32_good_log` the sets are `{3}`, `{1}` and `{2}`. -/
theorem analysis_sets_witness :
    (∀ t, ¬ (HasRecord c32_good_log COMMIT t ∧ HasRecord c32_good_log ROLLBACK t)) ∧
    EndsOnce c32_good_log ∧
    analysis c32_good_log = ⟨[3], [1], [2]⟩ ∧
    ((∀ t, t ∈ (analysis c32_good_log).committed_txns ↔ HasRecord c32_good_log COMMIT t) ∧
    (∀ t, t ∈ (analysis c32_good_log).aborted_txns ↔ HasRecord c32_good_log ROLLBACK t) ∧
    (∀ t, t ∈ (analysis c32_good_log).active_txns ↔ Loser c32_good_log t) ∧
    (∀ t, t ∈ (analysis c32_good_log).active_txns ↔
      HasRecord c32_good_log BEGIN t ∧ ¬ HasRecord c32_good_log COMMIT t ∧
        ¬ HasRecord c32_good_log ROLLBACK t) ∧
    (∀ t, ¬ (t ∈ (analysis c32_good_log).active_txns ∧
      t ∈ (analysis c32_good_log).committed_txns)) ∧
    (∀ t, ¬ (t ∈ (analysis c32_good_log).active_txns ∧
      t ∈ (analysis c32_good_log).aborted_txns)) ∧
    (∀ t, ¬ (t ∈ (analysis c32_good_log).committed_txns ∧
      t ∈ (analysis c32_good_log).aborted_txns))) := by
  have hone : ∀ t, ¬ (HasRecord c32_good_log COMMIT t ∧ HasRecord c32_good_log ROLLBACK t) := by
    rintro t ⟨⟨c, hc, hct, hcid⟩, ⟨r, hr, hrt, hrid⟩⟩
    have h1 : ∀ x ∈ c32_good_log, x.type = COMMIT → x.txn_id = 1 := by decide
    have h2 : ∀ x ∈ c32_good_log, x.type = ROLLBACK → x.txn_id = 2 := by decide
    have e1 := h1 c hc hct
    have e2 := h2 r hr hrt
    rw [hcid] at e1
    rw [hrid, e1] at e2
    exact absurd e2 (by decide)
  exact ⟨hone, by decide, by decide, analysis_sets c32_good_log hone (by decide)⟩

end KvEngine

namespace KvEngine

open LogRecordType RecoveryManager

/-- The last PUT or DELETE record on `k` is a DELETE. -/
theorem RecoveryManager.lastWrite_of_last_delete (pre post : List LogRecord) (d : LogRecord)
    (k : Key) (hd : d.type = DELETE) (hk : d.key = k)
    (hpost : ∀ r ∈ post, (r.type = PUT ∨ r.type = DELETE) → r.key ≠ k) :
    lastWrite (pre ++ d :: post) k = some none := by
  unfold lastWrite
  rw [List.foldl_append, List.foldl_cons]
  have hne : ¬ DELETE = PUT := by decide
  have h1 : lastWriteStep k (List.foldl (lastWriteStep k) none pre) d = some none := by
    simp [lastWriteStep, hd, hk, hne]
  rw [h1]
  clear h1
  induction post with
  | nil => rfl
  | cons r t ih =>
    rw [List.foldl_cons]
    have hr : lastWriteStep k (some none) r = some none := by
      unfold lastWriteStep
      have := hpost r (List.mem_cons_self _ _)
      split_ifs with h1 h2 h3 h4
      · exact absurd h2.symm (this (Or.inl h1))
      · rfl
      · exact absurd h4.symm (this (Or.inr h3))
      · rfl
      · rfl
    rw [hr]
    exact ih (fun r hr => hpost r (List.mem_cons_of_mem _ hr))

/-! ### C33 -/

/-- C33: for every list of records, every initial store and every key `k`, after
`redo`: if the last PUT or DELETE record on `k` is a PUT, `k` maps to the value of that
record; if it is a DELETE, `k` is absent; and if no PUT or DELETE record names `k`, `k`
maps to what it mapped to before. Transaction ids and COMMIT records play no part. -/
theorem redo_reflects_log (records : List LogRecord) (s : StorageEngine) (k : Key) :
    (∀ pre p post, records = pre ++ p :: post → p.type = PUT → p.key = k →
      (∀ r ∈ post, (r.type = PUT ∨ r.type = DELETE) → r.key ≠ k) →
      (redo records s).get k = some p.value) ∧
    (∀ pre d post, records = pre ++ d :: post → d.type = DELETE → d.key = k →
      (∀ r ∈ post, (r.type = PUT ∨ r.type = DELETE) → r.key ≠ k) →
      (redo records s).get k = none ∧ (redo records s).exists_ k = false) ∧
    ((∀ r ∈ records, (r.type = PUT ∨ r.type = DELETE) → r.key ≠ k) →
      (redo records s).get k = s.get k) := by
  refine ⟨?_, ?_, ?_⟩
  · intro pre p post hsplit hp hk hpost
    rw [get_redo, hsplit, lastWrite_of_last_put pre post p k hp hk hpost]
    rfl
  · intro pre d post hsplit hd hk hpost
    have hget : (redo records s).get k = none := by
      rw [get_redo, hsplit, lastWrite_of_last_delete pre post d k hd hk hpost]
      rfl
    refine ⟨hget, ?_⟩
    have : (redo records s).data_.find? k = none := hget
    simp [StorageEngine.exists_, OrdMap.contains, this]
  · intro hno
    rw [get_redo, lastWrite_eq_none records k hno]
    rfl

/-- A log in which the uncommitted transaction 1 puts `"k"`, transaction 2 deletes
`"a"`, and transaction 1 overwrites `"k"`. -/
def c33_log : List LogRecord :=
  [LogRecord.new BEGIN 1 [] [], LogRecord.new PUT 1 key_k [120],
   LogRecord.new BEGIN 2 [] [], LogRecord.new DELETE 2 [97] [],
   LogRecord.new PUT 1 key_k [121], LogRecord.new COMMIT 2 [] []]

/-- A store that holds `"a"` and `"b"`. -/
def c33_store : StorageEngine := ((StorageEngine.fresh.put [97] [49]).2.put [98] [50]).2

/-- C33, witness: redo of `c33_log` on `c33_store`: `"k"` maps to `"y"`, the value of
its last PUT, `"a"` is absent, `"b"` is as before. -/
theorem redo_reflects_log_witness :
    (redo c33_log c33_store).get key_k = some [121] ∧
    (redo c33_log c33_store).get [97] = none ∧
    (redo c33_log c33_store).get [98] = c33_store.get [98] ∧
    c33_store.get [98] = some [50] := by
  refine ⟨?_, ?_, ?_, by decide⟩
  · exact (redo_reflects_log c33_log c33_store key_k).1 (c33_log.take 4)
      (LogRecord.new PUT 1 key_k [121]) [LogRecord.new COMMIT 2 [] []]
      (by decide) (by decide) (by decide) (by decide)
  · exact ((redo_reflects_log c33_log c33_store [97]).2.1 (c33_log.take 3)
      (LogRecord.new DELETE 2 [97] []) (c33_log.drop 4)
      (by decide) (by decide) (by decide) (by decide)).1
  · exact (redo_reflects_log c33_log c33_store [98]).2.2 (by decide)

end KvEngine

/-! ## The record checksum -/

namespace KvEngine

open LogRecordType

/-- The byte string that the checksum of a record is taken of: the type byte, the 8
little-endian bytes of `txn_id`, the 8 little-endian bytes of `lsn`, the key bytes and
the value bytes. -/
def checksum_input (r : LogRecord) : Bytes :=
  [r.type] ++ little_endian 8 r.txn_id.val ++ little_endian 8 r.lsn.val ++ r.key ++ r.value

theorem calculate_checksum_eq (r : LogRecord) :
    calculate_checksum r = crc32 (checksum_input r) := by
  unfold calculate_checksum checksum_input
  rw [pushLE_eq_little_endian, pushLE_eq_little_endian]

theorem crc32_eq_crc32_reference (data : Bytes) : crc32 data = crc32_reference data := by
  unfold crc32 crc32_reference
  simp only
  rw [crc32_fold_eq data 0xFFFFFFFF (by decide)]

/-- What a call of `read_from` that returns has returned. -/
theorem WAL.read_from_valid (w : WAL) (s : U64) (rs : List LogRecord)
    (h : w.read_from s = .ok rs) : ∀ r ∈ rs, WAL.ValidRecord r := by
  obtain ⟨file, flushed, cur, is_open, buffer, held⟩ := w
  cases held with
  | true => simp [WAL.read_from, WAL.lock, bind, Except.bind] at h
  | false =>
    cases is_open with
    | false =>
      simp only [WAL.read_from, WAL.lock, bind, Except.bind, pure, Except.pure,
        Bool.false_eq_true, if_false, not_false_eq_true, if_true] at h
      rw [← Except.ok.inj h]
      intro r hr
      exact absurd hr (List.not_mem_nil _)
    | true =>
      simp only [WAL.read_from, WAL.lock, WAL.read_all_internal, bind, Except.bind, pure,
        Except.pure, Bool.false_eq_true, if_false, not_true_eq_false] at h
      cases hl : read_loop file file.length 0 with
      | error f =>
        rw [hl] at h
        exact absurd h (by simp)
      | ok all =>
        rw [hl] at h
        simp only at h
        rw [← Except.ok.inj h]
        intro r hr
        exact read_loop_valid file file.length 0 all hl r (List.mem_filter.1 hr).1

/-! ### C36 -/

/-- C36: the record that `append` stamps on an open log carries the fields of the
argument, the LSN that the call returns (the last LSN plus one) and, as checksum, the
CRC-32 of the type byte, the 8 little-endian bytes of `txn_id`, the 8 little-endian
bytes of that LSN, the key and the value; and every record that a call of `read_from`
returns has as checksum the CRC-32 of the same byte string built from its fields. -/
theorem checksum_is_crc_of_fields (w w1 w2 : WAL) (r r1 : LogRecord) (lsn s : U64)
    (rs : List LogRecord) (hopen : w.is_open_ = true)
    (happ : w.append r = .ok (lsn, r1, w1)) (hread : w2.read_from s = .ok rs) :
    lsn = w.get_last_lsn + 1 ∧
    r1.type = r.type ∧ r1.txn_id = r.txn_id ∧ r1.lsn = lsn ∧ r1.key = r.key ∧
    r1.value = r.value ∧
    r1.checksum = crc32 ([r.type] ++ little_endian 8 r.txn_id.val ++ little_endian 8 lsn.val
      ++ r.key ++ r.value) ∧
    r1.checksum = crc32_reference (checksum_input r1) ∧
    (∀ x ∈ rs, x.checksum = crc32 (checksum_input x) ∧
      x.checksum = crc32_reference (checksum_input x)) := by
  obtain ⟨_, _, hl, hr1, _⟩ := WAL.append_eq_ok w w1 r r1 lsn hopen happ
  have hck : r1.checksum = crc32 (checksum_input r1) := by
    rw [hr1, WAL.stamp_checksum, calculate_checksum_eq]
  refine ⟨hl, by rw [hr1]; rfl, by rw [hr1]; rfl, by rw [hr1, hl]; rfl, by rw [hr1]; rfl,
    by rw [hr1]; rfl, ?_, ?_, ?_⟩
  · rw [hck, hr1, hl]
    rfl
  · rw [hck, crc32_eq_crc32_reference]
  · intro x hx
    have hv := (WAL.read_from_valid w2 s rs hread x hx).2.2
    rw [calculate_checksum_eq] at hv
    exact ⟨hv, by rw [hv, crc32_eq_crc32_reference]⟩

/-- An open log on an empty directory. -/
def c36_wal : WAL := { WAL.new with is_open_ := true }

/-- The log after `append` of `PUT(7, "k", "v")` to `c36_wal` and `flush`. -/
def c36_flushed : WAL :=
  WAL.flush_internal (c36_wal.extended (LogRecord.new PUT 7 key_k [118]))

set_option maxRecDepth 100000 in
/-- C36, witness: the record stamped by the first `append` has LSN 1, and `read_from(0)`
returns it after the flush. -/
theorem checksum_is_crc_of_fields_witness :
    c36_wal.is_open_ = true ∧
    c36_wal.append (LogRecord.new PUT 7 key_k [118])
      = .ok (1, WAL.stamp 1 (LogRecord.new PUT 7 key_k [118]),
          c36_wal.extended (LogRecord.new PUT 7 key_k [118])) ∧
    c36_flushed.read_from 0 = .ok [WAL.stamp 1 (LogRecord.new PUT 7 key_k [118])] ∧
    checksum_input (WAL.stamp 1 (LogRecord.new PUT 7 key_k [118]))
      = [1, 7, 0, 0, 0, 0, 0, 0, 0, 1, 0, 0, 0, 0, 0, 0, 0, 107, 118] ∧
    ((1 : U64) = c36_wal.get_last_lsn + 1 ∧
    (WAL.stamp 1 (LogRecord.new PUT 7 key_k [118])).type = PUT ∧
    (WAL.stamp 1 (LogRecord.new PUT 7 key_k [118])).txn_id = 7 ∧
    (WAL.stamp 1 (LogRecord.new PUT 7 key_k [118])).lsn = 1 ∧
    (WAL.stamp 1 (LogRecord.new PUT 7 key_k [118])).key = key_k ∧
    (WAL.stamp 1 (LogRecord.new PUT 7 key_k [118])).value = [118] ∧
    (WAL.stamp 1 (LogRecord.new PUT 7 key_k [118])).checksum
      = crc32 ([PUT] ++ little_endian 8 (7 : U64).val ++ little_endian 8 (1 : U64).val
        ++ key_k ++ [118]) ∧
    (WAL.stamp 1 (LogRecord.new PUT 7 key_k [118])).checksum
      = crc32_reference (checksum_input (WAL.stamp 1 (LogRecord.new PUT 7 key_k [118]))) ∧
    (∀ x ∈ [WAL.stamp 1 (LogRecord.new PUT 7 key_k [118])],
      x.checksum = crc32 (checksum_input x) ∧
      x.checksum = crc32_reference (checksum_input x))) :=
  ⟨rfl, by decide, by decide, by decide,
    checksum_is_crc_of_fields c36_wal (c36_wal.extended (LogRecord.new PUT 7 key_k [118]))
      c36_flushed (LogRecord.new PUT 7 key_k [118])
      (WAL.stamp 1 (LogRecord.new PUT 7 key_k [118])) 1 0
      [WAL.stamp 1 (LogRecord.new PUT 7 key_k [118])] rfl (by decide) (by decide)⟩

/-! ### C39 -/

/-- The checksum sees the key and the value only through their concatenation. -/
theorem calculate_checksum_congr (a b : LogRecord) (hty : a.type = b.type)
    (htxn : a.txn_id = b.txn_id) (hlsn : a.lsn = b.lsn)
    (hkv : a.key ++ a.value = b.key ++ b.value) :
    calculate_checksum a = calculate_checksum b := by
  unfold calculate_checksum
  rw [hty, htxn, hlsn]
  simp only [List.append_assoc]
  rw [hkv]

/-- C39: two records with equal type, `txn_id` and `lsn` and equal concatenation of key
and value have the same checksum. So when the frame of a record `r` with a valid
checksum is changed in its length fields only, so that the same bytes are split into
`key1` and `value1`, the changed frame is the frame of the record with key `key1`,
value `value1` and the checksum of `r`; in a log file it passes the check of
`read_all_internal`, and `read_from(0)` returns that record among the valid records
around it. -/
theorem checksum_ignores_boundary (r : LogRecord) (key1 value1 : Bytes) (w : WAL)
    (pre post : List LogRecord)
    (hsplit : key1 ++ value1 = r.key ++ r.value)
    (hk : key1.length < 2 ^ 32) (hv : value1.length < 2 ^ 32)
    (hck : r.checksum = calculate_checksum r)
    (hopen : w.is_open_ = true) (hm : w.mutex_held = false)
    (hfile : w.file = frames (pre ++ { r with key := key1, value := value1 } :: post))
    (hvalid : ∀ x ∈ pre ++ post, WAL.ValidRecord x) :
    (∀ a b : LogRecord, a.type = b.type → a.txn_id = b.txn_id → a.lsn = b.lsn →
      a.key ++ a.value = b.key ++ b.value → calculate_checksum a = calculate_checksum b) ∧
    ({ r with key := key1, value := value1 } : LogRecord).checksum
      = calculate_checksum { r with key := key1, value := value1 } ∧
    serialize_record { r with key := key1, value := value1 }
      = [r.type] ++ pushLE 8 r.txn_id.val ++ pushLE 8 r.lsn.val
        ++ pushLE 4 key1.length ++ key1 ++ pushLE 4 value1.length ++ value1
        ++ pushLE 4 r.checksum.val ∧
    w.read_all_internal = .ok (pre ++ { r with key := key1, value := value1 } :: post) ∧
    w.read_from 0 = .ok (pre ++ { r with key := key1, value := value1 } :: post) := by
  have hsame : calculate_checksum { r with key := key1, value := value1 }
      = calculate_checksum r := calculate_checksum_congr _ _ rfl rfl rfl hsplit
  have hv1 : WAL.ValidRecord { r with key := key1, value := value1 } :=
    ⟨hk, hv, by rw [hsame]; exact hck⟩
  have hall : ∀ x ∈ pre ++ { r with key := key1, value := value1 } :: post,
      WAL.ValidRecord x := by
    intro x hx
    rcases List.mem_append.1 hx with h | h
    · exact hvalid x (List.mem_append_left _ h)
    · rcases List.mem_cons.1 h with h2 | h2
      · rw [h2]; exact hv1
      · exact hvalid x (List.mem_append_right _ h2)
  refine ⟨calculate_checksum_congr, by rw [hsame]; exact hck, ?_, read_all_frames w _ hfile hall,
    WAL.read_from_zero_frames w _ hopen hm hfile hall⟩
  unfold serialize_record
  simp only
  rw [Nat.mod_eq_of_lt hk, Nat.mod_eq_of_lt hv]

/-- The record `PUT(1, "ab", "")` as stamped with LSN 1. -/
def c39_record : LogRecord := WAL.stamp 1 (LogRecord.new PUT 1 [97, 98] [])

/-- The same record re-read with the boundary moved: key `"a"`, value `"b"`. -/
def c39_moved : LogRecord := { c39_record with key := [97], value := [98] }

/-- An open log whose file is the frame of `c39_record` with the key length changed
from 2 to 1 and the value length from 0 to 1. -/
def c39_wal : WAL :=
  { WAL.new with is_open_ := true, file := frames [c39_moved],
                 flushed := (frames [c39_moved]).length, current_lsn_ := 1 }

set_option maxRecDepth 100000 in
/-- C39, witness: the frame of `PUT(1, "ab", "")` read as `PUT(1, "a", "b")`; the two
frames differ in the length fields only. -/
theorem checksum_ignores_boundary_witness :
    ([97] ++ [98] : Bytes) = c39_record.key ++ c39_record.value ∧
    c39_record.checksum = calculate_checksum c39_record ∧
    c39_wal.is_open_ = true ∧ c39_wal.mutex_held = false ∧
    c39_wal.file = frames ([] ++ c39_moved :: []) ∧
    serialize_record c39_record
      = [1, 1, 0, 0, 0, 0, 0, 0, 0, 1, 0, 0, 0, 0, 0, 0, 0, 2, 0, 0, 0, 97, 98,
         0, 0, 0, 0] ++ pushLE 4 c39_record.checksum.val ∧
    serialize_record c39_moved
      = [1, 1, 0, 0, 0, 0, 0, 0, 0, 1, 0, 0, 0, 0, 0, 0, 0, 1, 0, 0, 0, 97,
         1, 0, 0, 0, 98] ++ pushLE 4 c39_record.checksum.val ∧
    c39_wal.read_from 0 = .ok [c39_moved] ∧
    c39_moved.key = [97] ∧ c39_moved.value = [98] :=
  ⟨rfl, by decide, rfl, rfl, rfl, by decide, by decide,
    (checksum_ignores_boundary c39_record [97] [98] c39_wal [] [] rfl (by decide) (by decide)
      (by decide) rfl rfl rfl (by intro x hx; exact absurd hx (List.not_mem_nil _))).2.2.2.2,
    rfl, rfl⟩

end KvEngine

/-! ## The CHECKPOINT record -/

namespace KvEngine

open LogRecordType

/-- The numbers `ids` in decimal, separated by commas, without a trailing comma. -/
def comma_separated (ids : List Nat) : Bytes :=
  List.intercalate [44] (ids.map decimal)

namespace CheckpointManager

theorem active_list_eq (txns : List Transaction) :
    active_list txns = comma_separated (txns.map (fun txn => txn.txn_id_.val)) := by
  unfold comma_separated
  induction txns with
  | nil => rfl
  | cons t rest ih =>
    cases rest with
    | nil => simp [active_list, List.intercalate]
    | cons u rest2 =>
      have hstep : active_list (t :: u :: rest2)
          = decimal t.txn_id_.val ++ [44] ++ active_list (u :: rest2) := rfl
      rw [hstep, ih]
      simp [List.intercalate, List.intersperse]

/-- The ids of the active transactions are in ascending order when every entry of the
table is keyed by the id of its transaction. -/
theorem active_ids_ascending (tm : TransactionManager)
    (hids : ∀ e ∈ tm.active_txns_.entries, e.2.txn_id_ = e.1) :
    (tm.get_active_transactions.map (fun txn => txn.txn_id_)).Pairwise (fun a b => a < b) := by
  unfold TransactionManager.get_active_transactions
  rw [List.map_map]
  have hmap : tm.active_txns_.entries.map ((fun txn : Transaction => txn.txn_id_) ∘ Prod.snd)
      = tm.active_txns_.entries.map Prod.fst := by
    apply List.map_congr_left
    intro e he
    exact hids e he
  rw [hmap, List.pairwise_map]
  exact tm.active_txns_.sorted

end CheckpointManager

/-! ### C37 -/

/-- A transaction manager on an open, empty log. -/
def c37_start : TransactionManager :=
  TransactionManager.new { WAL.new with is_open_ := true } LockManager.new StorageEngine.fresh

/-- The manager after two calls of `begin`: the transactions 1 and 2 are active. -/
def c37_tm : TransactionManager :=
  match c37_start.begin with
  | .error _ => c37_start
  | .ok (_, tm1) =>
    match tm1.begin with
    | .error _ => tm1
    | .ok (_, tm2) => tm2

/-- The records in the log of `c37_tm`. -/
def c37_records : List LogRecord :=
  WAL.stampFrom 0 [LogRecord.new BEGIN 1 [] [], LogRecord.new BEGIN 2 [] []]

/-- The data file and the manager after `create_checkpoint` on `c37_tm`. -/
def c37_after : Bytes × TransactionManager :=
  match CheckpointManager.create_checkpoint c37_tm with
  | .ok (_, r) => r
  | .error _ => ([], c37_tm)

set_option maxRecDepth 100000 in
/-- C37, counterexample: with the transactions 1 and 2 active, `create_checkpoint`
returns true and the last of the records that `read_from(0)` returns is of type
CHECKPOINT with `txn_id` 0; its key is `"1,2"` and its value is empty. -/
theorem c37_list_in_key_field :
    c37_tm.get_active_transactions.map (fun txn => txn.txn_id_) = [1, 2] ∧
    (CheckpointManager.create_checkpoint c37_tm).map (fun r => r.1) = .ok true ∧
    (c37_after.2.wal_.read_from 0).map
        (fun rs => rs.map (fun r => (r.type, r.txn_id, r.key, r.value)))
      = .ok [(BEGIN, 1, [], []), (BEGIN, 2, [], []), (CHECKPOINT, 0, [49, 44, 50], [])] := by
  decide

/-- C37, amended: after `create_checkpoint` returns true on an open log that holds the
frames of valid records, the last record of the log is the record appended by the
call: its type is CHECKPOINT, its `txn_id` is 0, its LSN is the former last LSN plus
one, its key holds the ids of the active transactions in decimal, separated by commas
without a trailing comma (in ascending order, the table being keyed by these ids; empty
when no transaction is active), and its value is empty. -/
theorem checkpoint_record_fields (tm tm1 : TransactionManager) (data : Bytes)
    (rs : List LogRecord) (hopen : tm.wal_.is_open_ = true)
    (hfile : tm.wal_.file = frames rs) (hv : ∀ r ∈ rs, WAL.ValidRecord r)
    (hpos : ∀ r ∈ rs, 0 < r.lsn) (hwrap : tm.wal_.current_lsn_.val + 1 < 2 ^ 64)
    (hkey : (CheckpointManager.active_list tm.get_active_transactions).length < 2 ^ 32)
    (hids : ∀ e ∈ tm.active_txns_.entries, e.2.txn_id_ = e.1)
    (h : CheckpointManager.create_checkpoint tm = .ok (true, data, tm1)) :
    ∃ kept, tm1.wal_.read_from 0 = .ok (kept ++ [CheckpointManager.checkpoint_record tm]) ∧
      (CheckpointManager.checkpoint_record tm).type = CHECKPOINT ∧
      (CheckpointManager.checkpoint_record tm).txn_id = 0 ∧
      (CheckpointManager.checkpoint_record tm).lsn = tm.wal_.get_last_lsn + 1 ∧
      (CheckpointManager.checkpoint_record tm).key
        = comma_separated (tm.get_active_transactions.map (fun txn => txn.txn_id_.val)) ∧
      (tm.get_active_transactions.map (fun txn => txn.txn_id_)).Pairwise (fun a b => a < b) ∧
      (tm.get_active_transactions = [] → (CheckpointManager.checkpoint_record tm).key = []) ∧
      (CheckpointManager.checkpoint_record tm).value = [] := by
  obtain ⟨hm, _, htm1⟩ := CheckpointManager.create_checkpoint_eq_ok tm tm1 data rs hopen hfile
    hv hkey h
  have hw : tm1.wal_ = CheckpointManager.log_after tm rs := by rw [htm1]
  obtain ⟨f1, f2, _, _, _⟩ := CheckpointManager.log_after_fields tm rs
  have hfile1 := CheckpointManager.log_after_file tm rs hfile
  have hrec := CheckpointManager.records_after_eq tm rs hpos hwrap
  have hcpv : WAL.ValidRecord (CheckpointManager.checkpoint_record tm) :=
    WAL.validRecord_stamp _ _ hkey (by simp [LogRecord.new])
  have hkeep : decide ((CheckpointManager.checkpoint_record tm).lsn
      ≥ CheckpointManager.min_lsn tm) = true :=
    decide_eq_true (CheckpointManager.min_lsn_loop_le _ _)
  have hfilter : CheckpointManager.records_after tm rs
      = rs.filter (fun record => decide (record.lsn ≥ CheckpointManager.min_lsn tm))
        ++ [CheckpointManager.checkpoint_record tm] := by
    rw [hrec, List.filter_append]
    congr 1
    rw [List.filter_cons, hkeep]
    rfl
  refine ⟨rs.filter (fun record => decide (record.lsn ≥ CheckpointManager.min_lsn tm)),
    ?_, rfl, rfl, rfl, CheckpointManager.active_list_eq _,
    CheckpointManager.active_ids_ascending tm hids, ?_, rfl⟩
  · rw [hw, ← hfilter]
    apply WAL.read_from_zero_frames _ _ (by rw [f1]; exact hopen) (by rw [f2]; exact hm) hfile1
    intro r hr
    rw [hfilter] at hr
    rcases List.mem_append.1 hr with h1 | h1
    · exact hv r (List.mem_filter.1 h1).1
    · rw [List.mem_singleton.1 h1]
      exact hcpv
  · intro hnil
    show CheckpointManager.active_list tm.get_active_transactions = []
    rw [hnil]
    rfl

theorem c37_records_valid : ∀ r ∈ c37_records, WAL.ValidRecord r := by
  intro x hx
  obtain ⟨lsn, r, hr, hxr⟩ := WAL.mem_stampFrom 0 _ x hx
  rw [hxr]
  simp only [List.mem_cons, List.mem_singleton, List.not_mem_nil, or_false] at hr
  rcases hr with h | h <;> rw [h] <;>
    exact WAL.validRecord_stamp _ _ (by decide) (by decide)

set_option maxRecDepth 100000 in
/-- C37, witness: the checkpoint on `c37_tm`. -/
theorem checkpoint_record_fields_witness :
    c37_tm.wal_.is_open_ = true ∧ c37_tm.wal_.file = frames c37_records ∧
    (∀ r ∈ c37_records, WAL.ValidRecord r) ∧ (∀ r ∈ c37_records, 0 < r.lsn) ∧
    c37_tm.wal_.current_lsn_.val + 1 < 2 ^ 64 ∧
    (CheckpointManager.active_list c37_tm.get_active_transactions).length < 2 ^ 32 ∧
    (∀ e ∈ c37_tm.active_txns_.entries, e.2.txn_id_ = e.1) ∧
    CheckpointManager.create_checkpoint c37_tm = .ok (true, c37_after) ∧
    (CheckpointManager.checkpoint_record c37_tm).key = [49, 44, 50] ∧
    ∃ kept, c37_after.2.wal_.read_from 0
        = .ok (kept ++ [CheckpointManager.checkpoint_record c37_tm]) ∧
      (CheckpointManager.checkpoint_record c37_tm).type = CHECKPOINT ∧
      (CheckpointManager.checkpoint_record c37_tm).txn_id = 0 ∧
      (CheckpointManager.checkpoint_record c37_tm).lsn = c37_tm.wal_.get_last_lsn + 1 ∧
      (CheckpointManager.checkpoint_record c37_tm).key
        = comma_separated (c37_tm.get_active_transactions.map (fun txn => txn.txn_id_.val)) ∧
      (c37_tm.get_active_transactions.map (fun txn => txn.txn_id_)).Pairwise
        (fun a b => a < b) ∧
      (c37_tm.get_active_transactions = [] →
        (CheckpointManager.checkpoint_record c37_tm).key = []) ∧
      (CheckpointManager.checkpoint_record c37_tm).value = [] :=
  ⟨rfl, by decide, c37_records_valid, by decide, by decide, by decide, by decide, rfl,
    by decide,
    checkpoint_record_fields c37_tm c37_after.2 c37_after.1 c37_records rfl (by decide)
      c37_records_valid (by decide) (by decide) (by decide) (by decide) rfl⟩

end KvEngine

/-! ## The grant loop of `unlock` -/

namespace KvEngine

open LockMode

namespace LockManager

/-- One round of the grant loop as the claim has it: the request at position `i`, if
it is not granted and the rules admit it against the requests granted so far, is
itself marked granted. -/
def grant_by_rules_step (requests : List LockRequest) (i : Nat) : List LockRequest :=
  match requests[i]? with
  | none => requests
  | some req =>
    if ¬ req.granted ∧ can_grant_scan requests req.mode req.txn_id requests then
      requests.set i { req with granted := true }
    else requests

/-- The grant loop as the claim has it: the requests are examined in arrival order. -/
def grant_by_rules (requests : List LockRequest) : List LockRequest :=
  (List.range requests.length).foldl grant_by_rules_step requests

/-- No transaction has two requests that are not granted. -/
def SingleWaiters (requests : List LockRequest) : Prop :=
  requests.Pairwise (fun a b => a.granted = false → b.granted = false → a.txn_id ≠ b.txn_id)

instance (requests : List LockRequest) : Decidable (SingleWaiters requests) := by
  unfold SingleWaiters; infer_instance

/-- With one waiting request per transaction at most, `grant_lock` marks the request
that was examined. -/
theorem grant_first_eq_set (l : List LockRequest) (i : Nat) (req : LockRequest)
    (h : l[i]? = some req) (hng : req.granted = false) (hD : SingleWaiters l) :
    grant_first req.txn_id l = l.set i { req with granted := true } := by
  induction l generalizing i with
  | nil => simp at h
  | cons x rest ih =>
    unfold SingleWaiters at hD
    obtain ⟨hx, hrest⟩ := List.pairwise_cons.1 hD
    cases i with
    | zero =>
      have hxr : x = req := by simpa using h
      subst hxr
      unfold grant_first
      simp [hng]
    | succ j =>
      have hj : rest[j]? = some req := by simpa using h
      have hmem : req ∈ rest := List.mem_iff_getElem?.2 ⟨j, hj⟩
      have hcond : ¬ (x.txn_id = req.txn_id ∧ ¬ x.granted = true) := by
        rintro ⟨h1, h2⟩
        have hxg : x.granted = false := by simpa using h2
        exact hx req hmem hxg hng h1
      unfold grant_first
      rw [if_neg hcond, ih j hj hrest]
      rfl

theorem singleWaiters_set (l : List LockRequest) (i : Nat) (req : LockRequest)
    (h : l[i]? = some req) (hD : SingleWaiters l) :
    SingleWaiters (l.set i { req with granted := true }) := by
  induction l generalizing i with
  | nil => simpa using hD
  | cons x rest ih =>
    unfold SingleWaiters at hD ⊢
    obtain ⟨hx, hrest⟩ := List.pairwise_cons.1 hD
    cases i with
    | zero =>
      rw [List.set_cons_zero]
      refine List.pairwise_cons.2 ⟨?_, hrest⟩
      intro b _ hg
      exact absurd hg (by simp)
    | succ j =>
      have hj : rest[j]? = some req := by simpa using h
      rw [List.set_cons_succ]
      refine List.pairwise_cons.2 ⟨?_, ih j hj hrest⟩
      intro b hb hxg hbg
      rcases List.mem_or_eq_of_mem_set hb with h1 | h1
      · exact hx b h1 hxg hbg
      · rw [h1] at hbg
        exact absurd hbg (by simp)

theorem regrant_step_eq (l : List LockRequest) (i : Nat) (hD : SingleWaiters l) :
    regrant_step l i = grant_by_rules_step l i ∧ SingleWaiters (grant_by_rules_step l i) := by
  unfold regrant_step grant_by_rules_step
  cases h : l[i]? with
  | none => exact ⟨rfl, hD⟩
  | some req =>
    simp only
    split_ifs with hc
    · have hng : req.granted = false := by simpa using hc.1
      exact ⟨grant_first_eq_set l i req h hng hD, singleWaiters_set l i req h hD⟩
    · exact ⟨rfl, hD⟩

theorem foldl_regrant_step_eq (is : List Nat) (l : List LockRequest) (hD : SingleWaiters l) :
    is.foldl regrant_step l = is.foldl grant_by_rules_step l := by
  induction is generalizing l with
  | nil => rfl
  | cons i t ih =>
    obtain ⟨h1, h2⟩ := regrant_step_eq l i hD
    rw [List.foldl_cons, List.foldl_cons, h1]
    exact ih _ h2

/-- With one waiting request per transaction at most, the loop of `unlock` is the grant
loop of the claim. -/
theorem regrant_eq_grant_by_rules (l : List LockRequest) (hD : SingleWaiters l) :
    regrant l = grant_by_rules l := by
  unfold regrant grant_by_rules
  exact foldl_regrant_step_eq _ l hD

end LockManager

open LockManager

/-! ### C34 -/

/-- C34, where no transaction has several waiting requests left: `unlock(t, k)` on a
key with requests returns true and leaves on `k` the requests of the other
transactions, examined in arrival order, each ungranted request that the rules admit
against the requests granted so far marked granted and the others left as they
were. -/
theorem unlock_grants_by_rules (lm : LockManager) (t : U64) (k : Key)
    (requests : List LockRequest) (hfind : lm.lock_table_.find? k = some requests)
    (hD : SingleWaiters (requests.filter (fun req => req.txn_id ≠ t))) :
    (lm.unlock t k).1 = true ∧
    (lm.unlock t k).2.requests_on k
      = grant_by_rules (requests.filter (fun req => req.txn_id ≠ t)) := by
  unfold unlock
  rw [hfind]
  refine ⟨rfl, ?_⟩
  simp only [requests_on, release_key, hfind]
  split_ifs with he
  · have hnil : requests.filter (fun req => decide (req.txn_id ≠ t)) = [] := by
      simpa using he
    rw [hnil]
    simp [grant_by_rules]
  · simp only [OrdMap.find?_insert, if_true, Option.getD_some]
    exact regrant_eq_grant_by_rules _ hD

/-- Transaction 1 holds EXCLUSIVE on `"k"`; `lock_shared(3, "k")` waits. -/
def c34_single : LockManager :=
  ((LockManager.new.lock_exclusive 1 key_k).2.lock_shared 3 key_k).2

set_option maxRecDepth 100000 in
/-- C34, witness: `unlock(1, "k")` grants the waiting SHARED request of transaction 3. -/
theorem unlock_grants_by_rules_witness :
    c34_single.lock_table_.find? key_k = some [⟨1, EXCLUSIVE, true⟩, ⟨3, SHARED, false⟩] ∧
    SingleWaiters (([⟨1, EXCLUSIVE, true⟩, ⟨3, SHARED, false⟩] : List LockRequest).filter
      (fun req => req.txn_id ≠ 1)) ∧
    (c34_single.unlock 1 key_k).2.requests_on key_k = [⟨3, SHARED, true⟩] ∧
    ((c34_single.unlock 1 key_k).1 = true ∧
    (c34_single.unlock 1 key_k).2.requests_on key_k
      = grant_by_rules (([⟨1, EXCLUSIVE, true⟩, ⟨3, SHARED, false⟩] : List LockRequest).filter
        (fun req => req.txn_id ≠ 1))) :=
  ⟨by decide, by decide, by decide,
    unlock_grants_by_rules c34_single 1 key_k [⟨1, EXCLUSIVE, true⟩, ⟨3, SHARED, false⟩]
      (by decide) (by decide)⟩

/-- Transaction 1 holds EXCLUSIVE on `"k"`; then `lock_shared(3, "k")`,
`lock_exclusive(2, "k")` and `lock_shared(2, "k")` wait, in this order. -/
def c34_waiters : LockManager :=
  ((((LockManager.new.lock_exclusive 1 key_k).2.lock_shared 3 key_k).2.lock_exclusive 2
    key_k).2.lock_shared 2 key_k).2

set_option maxRecDepth 100000 in
/-- C34, the failing input: transaction 2 has two waiting requests on `"k"`, EXCLUSIVE
then SHARED, behind a waiting SHARED request of transaction 3. After `unlock(1, "k")`
the grant loop of the claim leaves the EXCLUSIVE request ungranted (the rules do not
admit it beside the SHARED lock of 3) and marks the SHARED request of 2 granted; the
code, examining the SHARED request of 2, marks the EXCLUSIVE request of 2 granted and
leaves the SHARED one ungranted. -/
theorem c34_wrong_request_granted :
    c34_waiters.requests_on key_k
      = [⟨1, EXCLUSIVE, true⟩, ⟨3, SHARED, false⟩, ⟨2, EXCLUSIVE, false⟩, ⟨2, SHARED, false⟩] ∧
    (c34_waiters.unlock 1 key_k).1 = true ∧
    grant_by_rules [⟨3, SHARED, false⟩, ⟨2, EXCLUSIVE, false⟩, ⟨2, SHARED, false⟩]
      = [⟨3, SHARED, true⟩, ⟨2, EXCLUSIVE, false⟩, ⟨2, SHARED, true⟩] ∧
    (c34_waiters.unlock 1 key_k).2.requests_on key_k
      = [⟨3, SHARED, true⟩, ⟨2, EXCLUSIVE, true⟩, ⟨2, SHARED, false⟩] ∧
    can_grant_scan [⟨3, SHARED, true⟩, ⟨2, EXCLUSIVE, false⟩, ⟨2, SHARED, false⟩] EXCLUSIVE 2
      [⟨3, SHARED, true⟩, ⟨2, EXCLUSIVE, false⟩, ⟨2, SHARED, false⟩] = false ∧
    can_grant_scan [⟨3, SHARED, true⟩, ⟨2, EXCLUSIVE, false⟩, ⟨2, SHARED, false⟩] SHARED 2
      [⟨3, SHARED, true⟩, ⟨2, EXCLUSIVE, false⟩, ⟨2, SHARED, false⟩] = true := by
  decide

end KvEngine

/-! ## Write keys and the log; transaction ids after a restart -/

namespace KvEngine

open LogRecordType

namespace LockManager

/-- A lock call returns true or waits; it never returns false. -/
theorem lock_exclusive_not_false (lm lm1 : LockManager) (t : U64) (k : Key) :
    lm.lock_exclusive t k ≠ (LockResult.returned false, lm1) := by
  unfold lock_exclusive lock_with_mode
  intro h
  split at h
  · exact absurd (Prod.mk.inj h).1 (by simp)
  · simp only at h
    split at h
    · exact absurd (Prod.mk.inj h).1 (by simp)
    · exact absurd (Prod.mk.inj h).1 (by simp)

end LockManager

namespace TransactionManager

/-- The table of active transactions after `sync`. -/
theorem sync_active (tm : TransactionManager) (txn : Transaction) :
    (tm.sync txn).active_txns_
      = if tm.active_txns_.contains txn.txn_id_ then tm.active_txns_.insert txn.txn_id_ txn
        else tm.active_txns_ := by
  unfold sync
  split <;> rfl


/-- Calls of `put` and `remove` for one transaction, one after the other, whatever they
return: the return values, and the transaction and the manager afterwards. -/
def apply_each (tm : TransactionManager) (txn : Transaction) :
    List TxnOp → Except Fault (List Bool × Transaction × TransactionManager)
  | [] => .ok ([], txn, tm)
  | op :: rest =>
    match tm.apply txn op with
    | .error f => .error f
    | .ok (b, txn1, tm1) =>
      match apply_each tm1 txn1 rest with
      | .error f => .error f
      | .ok (bs, txn2, tm2) => .ok (b :: bs, txn2, tm2)

/-- What a call of `put` or `remove` by a running transaction that returns has done on
an open log: its record is appended, the key is a write key exactly when the call
returned true, and a call that returned false is a `remove` of a key that the store did
not hold. -/
theorem apply_eq (tm tm1 : TransactionManager) (txn txn1 : Transaction) (op : TxnOp)
    (b : Bool) (hopen : tm.wal_.is_open_ = true)
    (hs : txn.state_ = TransactionState.RUNNING)
    (hact : tm.active_txns_.find? txn.txn_id_ = some txn)
    (h : tm.apply txn op = .ok (b, txn1, tm1)) :
    txn1.txn_id_ = txn.txn_id_ ∧ txn1.state_ = TransactionState.RUNNING ∧
    txn1.write_keys_ = txn.write_keys_ ++ (if b then [op.key] else []) ∧
    tm1.wal_ = tm.wal_.extended (op.expected_record txn.txn_id_) ∧
    tm1.active_txns_.find? txn1.txn_id_ = some txn1 ∧
    (b = false → ∃ k, op = TxnOp.remove k ∧ tm.storage_.get k = none) := by
  have hc : tm.active_txns_.contains txn.txn_id_ = true := by
    simp [OrdMap.contains, hact]
  cases op with
  | put k v =>
    simp only [apply] at h
    unfold put at h
    simp only [bind, Except.bind, pure, Except.pure, hs, ne_eq, not_true_eq_false,
      if_false] at h
    split at h
    · exact absurd h (by simp)
    · rename_i lm1 hl
      exact absurd hl (LockManager.lock_exclusive_not_false _ _ _ _)
    · cases ha : tm.wal_.append (LogRecord.new PUT txn.txn_id_ k v) with
      | error f =>
        rw [ha] at h
        exact absurd h (by simp)
      | ok r =>
        obtain ⟨lsn, r1, w1⟩ := r
        obtain ⟨_, _, _, _, hw⟩ := WAL.append_eq_ok _ _ _ _ _ hopen ha
        rw [ha] at h
        simp only [StorageEngine.put, not_true_eq_false, if_false] at h
        obtain ⟨h1, h2⟩ := Prod.mk.inj (Except.ok.inj h)
        obtain ⟨h3, h4⟩ := Prod.mk.inj h2
        subst h1 h3 h4
        refine ⟨rfl, rfl, by simp [TxnOp.key], ?_, ?_, fun hb => absurd hb (by simp)⟩
        · rw [sync_wal]
          exact hw
        · rw [sync_active]
          simp only [hc, if_true]
          simp
  | remove k =>
    simp only [apply] at h
    unfold remove at h
    simp only [bind, Except.bind, pure, Except.pure, hs, ne_eq, not_true_eq_false,
      if_false] at h
    split at h
    · exact absurd h (by simp)
    · rename_i lm1 hl
      exact absurd hl (LockManager.lock_exclusive_not_false _ _ _ _)
    · cases ha : tm.wal_.append (LogRecord.new DELETE txn.txn_id_ k []) with
      | error f =>
        rw [ha] at h
        exact absurd h (by simp)
      | ok r =>
        obtain ⟨lsn, r1, w1⟩ := r
        obtain ⟨_, _, _, _, hw⟩ := WAL.append_eq_ok _ _ _ _ _ hopen ha
        rw [ha] at h
        simp only at h
        split at h
        · rename_i hno
          obtain ⟨h1, h2⟩ := Prod.mk.inj (Except.ok.inj h)
          obtain ⟨h3, h4⟩ := Prod.mk.inj h2
          subst h1 h3 h4
          refine ⟨rfl, hs, by simp, hw, hact, fun _ => ⟨k, rfl, ?_⟩⟩
          have hcn : tm.storage_.data_.contains k = false := by
            simpa [StorageEngine.remove] using hno
          unfold OrdMap.contains at hcn
          unfold StorageEngine.get
          cases hf : tm.storage_.data_.find? k with
          | none => rfl
          | some x =>
            rw [hf] at hcn
            exact absurd hcn (by simp)
        · obtain ⟨h1, h2⟩ := Prod.mk.inj (Except.ok.inj h)
          obtain ⟨h3, h4⟩ := Prod.mk.inj h2
          subst h1 h3 h4
          refine ⟨rfl, rfl, by simp [TxnOp.key], ?_, ?_, fun hb => absurd hb (by simp)⟩
          · rw [sync_wal]
            exact hw
          · rw [sync_active]
            simp only [hc, if_true]
            simp

/-- The keys of the calls that returned true. -/
def written_keys (ops : List TxnOp) (bs : List Bool) : List Key :=
  ((ops.zip bs).filter (fun p => p.2)).map (fun p => p.1.key)

/-- What calls of `put` and `remove` by a running transaction have done on an open
log. -/
theorem apply_each_eq (ops : List TxnOp) (tm tm1 : TransactionManager)
    (txn txn1 : Transaction) (bs : List Bool) (hopen : tm.wal_.is_open_ = true)
    (hs : txn.state_ = TransactionState.RUNNING)
    (hact : tm.active_txns_.find? txn.txn_id_ = some txn)
    (h : tm.apply_each txn ops = .ok (bs, txn1, tm1)) :
    txn1.txn_id_ = txn.txn_id_ ∧ txn1.state_ = TransactionState.RUNNING ∧
    txn1.write_keys_ = txn.write_keys_ ++ written_keys ops bs ∧
    tm1.wal_ = tm.wal_.extend_all (ops.map (TxnOp.expected_record txn.txn_id_)) ∧
    tm1.active_txns_.find? txn1.txn_id_ = some txn1 ∧
    bs.length = ops.length ∧
    (∀ p ∈ ops.zip bs, p.2 = false → ∃ k, p.1 = TxnOp.remove k) := by
  induction ops generalizing tm txn bs with
  | nil =>
    obtain ⟨h1, h2⟩ := Prod.mk.inj (Except.ok.inj h)
    obtain ⟨h3, h4⟩ := Prod.mk.inj h2
    subst h1 h3 h4
    exact ⟨rfl, hs, by simp [written_keys], rfl, hact, rfl, by simp⟩
  | cons op rest ih =>
    unfold apply_each at h
    cases ha : tm.apply txn op with
    | error f =>
      rw [ha] at h
      exact absurd h (by simp)
    | ok r =>
      obtain ⟨b, txn2, tm2⟩ := r
      rw [ha] at h
      simp only at h
      obtain ⟨a1, a2, a3, a4, a5, a6⟩ := apply_eq tm tm2 txn txn2 op b hopen hs hact ha
      cases hr : tm2.apply_each txn2 rest with
      | error f =>
        rw [hr] at h
        exact absurd h (by simp)
      | ok r2 =>
        obtain ⟨bs2, txn3, tm3⟩ := r2
        rw [hr] at h
        simp only at h
        obtain ⟨h1, h2⟩ := Prod.mk.inj (Except.ok.inj h)
        obtain ⟨h3, h4⟩ := Prod.mk.inj h2
        subst h1 h3 h4
        have hopen2 : tm2.wal_.is_open_ = true := by
          rw [a4, WAL.extended_is_open]
          exact hopen
        obtain ⟨i1, i2, i3, i4, i5, i6, i7⟩ := ih tm2 txn2 bs2 hopen2 a2 a5 hr
        refine ⟨i1.trans a1, i2, ?_, ?_, i5, by simp [i6], ?_⟩
        · rw [i3, a3, List.append_assoc]
          congr 1
          cases b <;> simp [written_keys]
        · rw [i4, a4, a1]
          rfl
        · intro p hp hf
          simp only [List.zip_cons_cons, List.mem_cons] at hp
          rcases hp with hp | hp
          · subst hp
            obtain ⟨k, hk, _⟩ := a6 hf
            exact ⟨k, hk⟩
          · exact i7 p hp hf

end TransactionManager

/-- The keys of the PUT and DELETE records of transaction `t`, in log order. -/
def logged_keys (records : List LogRecord) (t : U64) : List Key :=
  (records.filter (fun r => decide (r.txn_id = t ∧ (r.type = PUT ∨ r.type = DELETE)))).map
    (fun r => r.key)

theorem logged_keys_append (a b : List LogRecord) (t : U64) :
    logged_keys (a ++ b) t = logged_keys a t ++ logged_keys b t := by
  simp [logged_keys]

theorem logged_keys_fresh (rs : List LogRecord) (t : U64) (h : ∀ r ∈ rs, r.txn_id ≠ t) :
    logged_keys rs t = [] := by
  unfold logged_keys
  have : rs.filter (fun r => decide (r.txn_id = t ∧ (r.type = PUT ∨ r.type = DELETE))) = [] := by
    apply List.filter_eq_nil_iff.2
    intro r hr
    simp [h r hr]
  rw [this]
  rfl

theorem logged_keys_stampFrom (rs : List LogRecord) (cur t : U64) :
    logged_keys (WAL.stampFrom cur rs) t = logged_keys rs t := by
  induction rs generalizing cur with
  | nil => rfl
  | cons r rest ih =>
    have h1 : WAL.stampFrom cur (r :: rest) = [WAL.stamp (cur + 1) r] ++ WAL.stampFrom (cur + 1) rest :=
      rfl
    have h2 : r :: rest = [r] ++ rest := rfl
    rw [h1, h2, logged_keys_append, logged_keys_append, ih]
    simp only [logged_keys, List.filter_cons, List.filter_nil, WAL.stamp_type, WAL.stamp_txn_id]
    split <;> simp [WAL.stamp_key]

theorem logged_keys_ops (ops : List TxnOp) (t : U64) :
    logged_keys (ops.map (TxnOp.expected_record t)) t = ops.map TxnOp.key := by
  induction ops with
  | nil => rfl
  | cons op rest ih =>
    have h2 : (op :: rest).map (TxnOp.expected_record t)
        = [TxnOp.expected_record t op] ++ rest.map (TxnOp.expected_record t) := rfl
    rw [h2, logged_keys_append, ih]
    cases op with
    | put k v =>
      simp [logged_keys, TxnOp.expected_record, LogRecord.new, TxnOp.key]
    | remove k =>
      simp [logged_keys, TxnOp.expected_record, LogRecord.new, TxnOp.key]

/-! ### C35 -/

theorem written_keys_all_true (ops : List TxnOp) (bs : List Bool) (hl : bs.length = ops.length)
    (h : ∀ b ∈ bs, b = true) :
    TransactionManager.written_keys ops bs = ops.map TxnOp.key := by
  induction ops generalizing bs with
  | nil => simp [TransactionManager.written_keys]
  | cons op rest ih =>
    cases bs with
    | nil => simp at hl
    | cons b bs2 =>
      have hb : b = true := h b (List.mem_cons_self _ _)
      have hr := ih bs2 (by simpa using hl) (fun x hx => h x (List.mem_cons_of_mem _ hx))
      subst hb
      unfold TransactionManager.written_keys at hr ⊢
      simp [hr]

/-- C35, amended, for one transaction: a transaction is begun on an open log that holds the
records `rs0`, none of them with the id that `begin` allocates, and then makes the calls
`ops` of `put` and `remove`, which return `bs`. Then the transaction is RUNNING, the
table of active transactions holds it, the keys of the PUT and DELETE records with its
id in the log are the keys of the calls in order, and its write keys are the keys of the
calls that returned true. So the write keys are the keys of these records when every
call returned true; a call that returned false is a `remove`, whose DELETE record is in
the log and whose key is not a write key. -/
theorem write_keys_mirror_log (tm0 tmb tm : TransactionManager) (txn0 txn : Transaction)
    (ops : List TxnOp) (bs : List Bool) (rs0 : List LogRecord)
    (hopen : tm0.wal_.is_open_ = true) (hfile : tm0.wal_.file = frames rs0)
    (hfresh : ∀ r ∈ rs0, r.txn_id ≠ tm0.next_txn_id_)
    (hbegin : tm0.begin = .ok (txn0, tmb))
    (hops : tmb.apply_each txn0 ops = .ok (bs, txn, tm)) :
    txn.state_ = TransactionState.RUNNING ∧
    tm.active_txns_.find? txn.txn_id_ = some txn ∧
    ∃ rs, tm.wal_.file = frames rs ∧ logged_keys rs txn.txn_id_ = ops.map TxnOp.key ∧
      txn.write_keys_ = TransactionManager.written_keys ops bs ∧
      ((∀ b ∈ bs, b = true) → txn.write_keys_ = logged_keys rs txn.txn_id_) ∧
      (∀ p ∈ ops.zip bs, p.2 = false → ∃ k, p.1 = TxnOp.remove k) := by
  obtain ⟨_, ht0, htb⟩ := TransactionManager.begin_eq_ok tm0 tmb txn0 hopen hbegin
  have hopenb : tmb.wal_.is_open_ = true := by rw [htb]; exact hopen
  have hid0 : txn0.txn_id_ = tm0.next_txn_id_ := by rw [ht0]; rfl
  have hs0 : txn0.state_ = TransactionState.RUNNING := by rw [ht0]; rfl
  have hw0 : txn0.write_keys_ = [] := by rw [ht0]; rfl
  have hact0 : tmb.active_txns_.find? txn0.txn_id_ = some txn0 := by
    rw [htb, ht0]
    simp [Transaction.new]
  obtain ⟨i1, i2, i3, i4, i5, i6, i7⟩ :=
    TransactionManager.apply_each_eq ops tmb tm txn0 txn bs hopenb hs0 hact0 hops
  have hwb : tmb.wal_ = tm0.wal_.extend_all [LogRecord.new BEGIN tm0.next_txn_id_ [] []] := by
    rw [htb]; rfl
  rw [hwb, WAL.extend_all_append, hid0] at i4
  have hidt : txn.txn_id_ = tm0.next_txn_id_ := by rw [i1, hid0]
  obtain ⟨f1, _, _⟩ := WAL.extend_all_eq
    ([LogRecord.new BEGIN tm0.next_txn_id_ [] []]
      ++ ops.map (TxnOp.expected_record tm0.next_txn_id_)) tm0.wal_
  have hlog : logged_keys (rs0 ++ WAL.stampFrom tm0.wal_.current_lsn_
      ([LogRecord.new BEGIN tm0.next_txn_id_ [] []]
        ++ ops.map (TxnOp.expected_record tm0.next_txn_id_))) txn.txn_id_
      = ops.map TxnOp.key := by
    rw [hidt, logged_keys_append, logged_keys_fresh rs0 _ hfresh, logged_keys_stampFrom,
      logged_keys_append, logged_keys_ops]
    simp [logged_keys, LogRecord.new]
    decide
  have hwk : txn.write_keys_ = TransactionManager.written_keys ops bs := by
    rw [i3, hw0, List.nil_append]
  refine ⟨i2, i5, rs0 ++ WAL.stampFrom tm0.wal_.current_lsn_
    ([LogRecord.new BEGIN tm0.next_txn_id_ [] []]
      ++ ops.map (TxnOp.expected_record tm0.next_txn_id_)), ?_, hlog, hwk, ?_, i7⟩
  · rw [i4, f1, hfile, frames_append]
  · intro hall
    rw [hlog, hwk, written_keys_all_true ops bs i6 hall]

end KvEngine

namespace KvEngine

open LogRecordType

/-- A transaction manager on an open, empty log and a store that holds `"k"`. -/
def c35_tm : TransactionManager :=
  { wal_ := WAL.mk [] 0 0 true [] false,
    lock_mgr_ := LockManager.new,
    storage_ := (StorageEngine.fresh.put key_k [111]).2,
    next_txn_id_ := 1,
    active_txns_ := OrdMap.empty }

/-- Transaction 1 and the manager after `begin`. -/
def c35_begun : Transaction × TransactionManager :=
  match c35_tm.begin with
  | .ok r => r
  | .error _ => (Transaction.new 0, c35_tm)

/-- The calls `put("a", "1")`, `remove("b")` and `remove("k")`; the store holds `"k"`
and does not hold `"b"`. -/
def c35_ops : List TxnOp := [TxnOp.put [97] [49], TxnOp.remove [98], TxnOp.remove key_k]

/-- Transaction 1 and the manager after the calls `c35_ops`. -/
def c35_written : Transaction × TransactionManager :=
  match c35_begun.2.apply_each c35_begun.1 c35_ops with
  | .ok (_, r) => r
  | .error _ => c35_begun

/-- Transaction 1 and the manager after `remove("b")` on the begun transaction, `"b"`
being absent from the store. -/
def c35_removed_absent : Transaction × TransactionManager :=
  TransactionManager.after (c35_begun.2.remove c35_begun.1 [98]) c35_begun.1 c35_begun.2

set_option maxRecDepth 100000 in
/-- C35, witness: transaction 1 puts `"a"`, removes `"b"`, which the store does not
hold, and removes `"k"`, which it holds: the calls return true, false, true, the log
holds records for `"a"`, `"b"`, `"k"`, and the write keys are `"a"`, `"k"`. -/
theorem write_keys_mirror_log_witness :
    c35_tm.wal_.is_open_ = true ∧ c35_tm.wal_.file = frames [] ∧
    (∀ r ∈ ([] : List LogRecord), r.txn_id ≠ c35_tm.next_txn_id_) ∧
    c35_tm.begin = .ok c35_begun ∧
    c35_begun.2.apply_each c35_begun.1 c35_ops = .ok ([true, false, true], c35_written) ∧
    c35_written.1.write_keys_ = [[97], key_k] ∧
    c35_ops.map TxnOp.key = [[97], [98], key_k] ∧
    (c35_written.1.state_ = TransactionState.RUNNING ∧
    c35_written.2.active_txns_.find? c35_written.1.txn_id_ = some c35_written.1 ∧
    ∃ rs, c35_written.2.wal_.file = frames rs ∧
      logged_keys rs c35_written.1.txn_id_ = c35_ops.map TxnOp.key ∧
      c35_written.1.write_keys_ = TransactionManager.written_keys c35_ops [true, false, true] ∧
      ((∀ b ∈ [true, false, true], b = true) →
        c35_written.1.write_keys_ = logged_keys rs c35_written.1.txn_id_) ∧
      (∀ p ∈ c35_ops.zip [true, false, true], p.2 = false → ∃ k, p.1 = TxnOp.remove k)) :=
  ⟨rfl, rfl, by simp, rfl, rfl, by decide, by decide,
    write_keys_mirror_log c35_tm c35_begun.2 c35_written.2 c35_begun.1 c35_written.1 c35_ops
      [true, false, true] [] rfl rfl (by simp) rfl rfl⟩

set_option maxRecDepth 100000 in
/-- C35, counterexample: transaction 1 is begun and calls `remove("b")`, `"b"` being
absent from the store. The call returns false after it has appended its DELETE record:
the transaction is RUNNING and in the table of active transactions, the log holds the
records BEGIN and DELETE of `"b"` with id 1, and the write keys are empty, not `"b"`. -/
theorem c35_remove_absent_key_logged_not_recorded :
    c35_tm.begin = .ok c35_begun ∧
    c35_begun.2.storage_.get [98] = none ∧
    c35_begun.2.remove c35_begun.1 [98] = .ok (false, c35_removed_absent) ∧
    c35_removed_absent.1.state_ = TransactionState.RUNNING ∧
    c35_removed_absent.2.active_txns_.find? 1 = some c35_removed_absent.1 ∧
    (c35_removed_absent.2.wal_.read_all_internal.map
        (fun rs => rs.map (fun r => (r.type, r.txn_id, r.key))))
      = .ok [(BEGIN, 1, []), (DELETE, 1, [98])] ∧
    (c35_removed_absent.2.wal_.read_all_internal.map (fun rs => logged_keys rs 1))
      = .ok [[98]] ∧
    c35_removed_absent.1.write_keys_ = [] := by
  refine ⟨rfl, rfl, rfl, rfl, rfl, ?_, ?_, rfl⟩ <;> decide

/-! ### C38 -/

/-- An engine opened on an empty data directory. -/
def c38_engine : Impl := Impl.after (Impl.new.open_dir none [])

/-- Transaction 1 of the first run, begun on the engine's transaction manager, and the
manager after its `put("k", "v")`; the transaction is never committed. -/
def c38_in_flight : Transaction × TransactionManager :=
  match c38_engine.txn_mgr_.begin with
  | .error _ => (Transaction.new 0, c38_engine.txn_mgr_)
  | .ok (txn, tm) => TransactionManager.after (tm.put txn key_k [118]) txn tm

/-- The engine of the first run after `put("a", "1")`, which runs as transaction 2 and
commits while transaction 1 is in flight. -/
def c38_first_run : Impl :=
  Impl.after (Impl.put { c38_engine with txn_mgr_ := c38_in_flight.2 } [97] [49])

/-- The log file that the second run finds after the first run is killed. -/
def c38_first_log : Bytes := c38_first_run.txn_mgr_.wal_.crash_image

/-- The engine of the second run, opened on the log of the first. -/
def c38_second_open : Impl := Impl.after (Impl.new.open_dir none c38_first_log)

/-- The engine of the second run after `put("b", "2")`. -/
def c38_second_run : Impl := Impl.after (c38_second_open.put [98] [50])

/-- The log file that the third run finds after the second run is killed. -/
def c38_second_log : Bytes := c38_second_run.txn_mgr_.wal_.crash_image

/-- The engine of the third run, opened on the log of the second. -/
def c38_third_open : Impl := Impl.after (Impl.new.open_dir none c38_second_log)

set_option maxRecDepth 100000 in
/-- C38, the failing input: in the first run transaction 1 puts `"k"` and never commits,
transaction 2 commits `"a"`, and the process is killed. The second run recovers: `"k"`
is absent. Its transaction manager starts at id 1 again, so its `put("b", "2")` writes
BEGIN, PUT and COMMIT records with id 1, an id already in the log. After the next kill
the third run finds a COMMIT record for id 1, redoes the PUT of `"k"` of the first run
and undoes nothing: `get("k")` is OK with `"v"`. -/
theorem c38_reused_id_revives_uncommitted_put :
    c38_in_flight.1.txn_id_ = 1 ∧
    c38_in_flight.1.state_ = TransactionState.RUNNING ∧
    (((WAL.new.initialize_wal c38_first_log).bind (fun p => p.2.read_from 0)).map
        (fun rs => rs.map (fun r => (r.type, r.txn_id, r.key, r.value))))
      = .ok [(BEGIN, 1, [], []), (PUT, 1, key_k, [118]), (BEGIN, 2, [], []),
             (PUT, 2, [97], [49]), (COMMIT, 2, [], [])] ∧
    Impl.new.open_dir none c38_first_log = .ok (true, c38_second_open) ∧
    (c38_second_open.get key_k []).1 = StatusCode.NOT_FOUND ∧
    c38_second_open.txn_mgr_.next_txn_id_ = 1 ∧
    c38_second_open.put [98] [50] = .ok (true, c38_second_run) ∧
    (((WAL.new.initialize_wal c38_second_log).bind (fun p => p.2.read_from 0)).map
        (fun rs => rs.map (fun r => (r.type, r.txn_id, r.key, r.value))))
      = .ok [(BEGIN, 1, [], []), (PUT, 1, key_k, [118]), (BEGIN, 2, [], []),
             (PUT, 2, [97], [49]), (COMMIT, 2, [], []), (BEGIN, 1, [], []),
             (PUT, 1, [98], [50]), (COMMIT, 1, [], [])] ∧
    Impl.new.open_dir none c38_second_log = .ok (true, c38_third_open) ∧
    (c38_third_open.get key_k []).1 = StatusCode.OK ∧
    (c38_third_open.get key_k []).2.1 = [118] := by
  refine ⟨rfl, rfl, ?_, rfl, ?_, rfl, rfl, ?_, rfl, ?_, ?_⟩ <;> decide

end KvEngine

/-! ## The parser on arbitrary bytes -/

namespace KvEngine

namespace RespParser

/-- An index that `read_at` has read lies inside the bytes given. -/
theorem read_at_ok_lt (buffer : Bytes) (i : Nat) (c : Byte) (h : read_at buffer i = .ok c) :
    i < buffer.length := by
  unfold read_at at h
  cases hb : buffer[i]? with
  | none =>
    rw [hb] at h
    exact absurd h (by simp)
  | some b =>
    exact (List.getElem?_eq_some_iff.1 hb).1

/-- The line end that the loop of `find_crlf` returns lies inside the bytes read. -/
theorem find_crlf_loop_some (buffer : Bytes) (bound fuel i n : Nat)
    (h : find_crlf_loop buffer bound fuel i = .ok (some n)) : n + 2 ≤ buffer.length := by
  induction fuel generalizing i with
  | zero => exact absurd h (by simp [find_crlf_loop])
  | succ fuel ih =>
    unfold find_crlf_loop at h
    split at h
    · cases hc : read_at buffer i with
      | error f =>
        rw [hc] at h
        exact absurd h (by simp)
      | ok c =>
        rw [hc] at h
        simp only at h
        split at h
        · cases hd : read_at buffer (i + 1) with
          | error f =>
            rw [hd] at h
            exact absurd h (by simp)
          | ok d =>
            rw [hd] at h
            simp only at h
            split at h
            · have hn : i = n := Option.some.inj (Except.ok.inj h)
              have := read_at_ok_lt buffer (i + 1) d hd
              omega
            · exact ih (i + 1) h
        · exact ih (i + 1) h
    · exact absurd h (by simp)

/-- When `parse_int` returns OK without a read outside the buffer, the line and its
`"\r\n"` lie inside the buffer. -/
theorem parse_int_ok_le (buffer : Bytes) (v : Int) (n : Nat)
    (h : parse_int buffer = .ok (Status.OK, v, n)) : n ≤ buffer.length := by
  unfold parse_int at h
  cases hf : find_crlf buffer with
  | error f =>
    rw [hf] at h
    exact absurd h (by simp)
  | ok r =>
    rw [hf] at h
    cases r with
    | none => exact absurd (Prod.mk.inj (Except.ok.inj h)).1 (by simp)
    | some line_len =>
      simp only at h
      cases hs : stoll (List.take line_len buffer) with
      | none =>
        rw [hs] at h
        exact absurd (Prod.mk.inj (Except.ok.inj h)).1 (by simp)
      | some out_val =>
        rw [hs] at h
        have hn : line_len + 2 = n := (Prod.mk.inj (Prod.mk.inj (Except.ok.inj h)).2).2
        have := find_crlf_loop_some buffer _ _ _ _ hf
        omega

/-! ### The memory behind the buffer -/

/-- `RespParser::find_crlf(buffer, len)`, `memory` being the bytes at the address
`buffer` and behind it: the `len` bytes passed and what follows them in the address
space. With `len = 0` the bound `len - 1` is `2^64 - 1` and the loop goes on through
the memory behind the buffer until it finds `"\r\n"` or leaves the mapped memory. -/
def find_crlf_in (memory : Bytes) (len : Nat) : Except RespFault (Option Nat) :=
  find_crlf_loop memory (if len = 0 then 2 ^ 64 - 1 else len - 1) (memory.length + 1) 0

/-- `RespParser::parse_int(buffer, len, ...)` on `memory`: the status, `out_val` and
`consumed`. -/
def parse_int_in (memory : Bytes) (len : Nat) : Except RespFault (Status × Int × Nat) :=
  match find_crlf_in memory len with
  | .error f => .error f
  | .ok none => .ok (Status.INCOMPLETE, 0, 0)
  | .ok (some line_len) =>
    match stoll (memory.take line_len) with
    | none => .ok (Status.PARSE_ERROR, 0, 0)
    | some out_val => .ok (Status.OK, out_val, line_len + 2)

/-- `RespParser::parse_bulk_string(buffer, len, ...)` on `memory`: the status, `out_str`
and `consumed`. `len - offset` is computed in `size_t` and wraps around when the line of
the length ended behind the `len` bytes. -/
def parse_bulk_string_in (memory : Bytes) (len : Nat) :
    Except RespFault (Status × Bytes × Nat) :=
  if len < 1 then .ok (Status.PARSE_ERROR, [], 0)
  else
    match read_at memory 0 with
    | .error f => .error f
    | .ok marker =>
      if marker ≠ 36 then .ok (Status.PARSE_ERROR, [], 0)
      else
        match parse_int_in (memory.drop 1) (len - 1) with
        | .error f => .error f
        | .ok (s, str_len, int_consumed) =>
          if s ≠ Status.OK then .ok (s, [], 0)
          else
            let offset := 1 + int_consumed
            if str_len = -1 then .ok (Status.OK, [], offset)
            else if to_size_t ((len : Int) - (offset : Int)) < (to_size_t str_len + 2) % 2 ^ 64 then
              .ok (Status.INCOMPLETE, [], 0)
            else if to_size_t str_len > STRING_MAX_SIZE then .error RespFault.exception
            else if offset + to_size_t str_len > memory.length then
              .error RespFault.out_of_bounds
            else
              let out_str := (memory.drop offset).take (to_size_t str_len)
              match read_at memory (offset + to_size_t str_len) with
              | .error f => .error f
              | .ok c =>
                if c ≠ 13 then .ok (Status.PARSE_ERROR, out_str, 0)
                else
                  match read_at memory (offset + to_size_t str_len + 1) with
                  | .error f => .error f
                  | .ok d =>
                    if d ≠ 10 then .ok (Status.PARSE_ERROR, out_str, 0)
                    else .ok (Status.OK, out_str, offset + to_size_t str_len + 2)

/-- The loop `for (int i = 0; i < array_len; ++i)` of `parse_array` on `memory`, from
round `i` on. A round that goes on has `offset < len` and raises `offset`, so `len + 1`
rounds of fuel are never used up. -/
def array_loop_in (memory : Bytes) (len : Nat) (array_len : Int) :
    Nat → Nat → Nat → List Bytes → Except RespFault (Status × List Bytes × Nat)
  | 0, _, _, out_command => .ok (Status.INCOMPLETE, out_command, 0)
  | fuel + 1, i, offset, out_command =>
    if (i : Int) < array_len then
      if offset ≥ len then .ok (Status.INCOMPLETE, out_command, 0)
      else
        match read_at memory offset with
        | .error f => .error f
        | .ok marker =>
          if marker ≠ 36 then .ok (Status.PARSE_ERROR, out_command, 0)
          else
            match parse_bulk_string_in (memory.drop offset) (len - offset) with
            | .error f => .error f
            | .ok (s, elem, bulk_consumed) =>
              if s ≠ Status.OK then .ok (s, out_command, 0)
              else if i + 1 > INT_MAX then .error RespFault.signed_overflow
              else array_loop_in memory len array_len fuel (i + 1) (offset + bulk_consumed)
                (out_command ++ [elem])
    else .ok (Status.OK, out_command, offset)

/-- `RespParser::parse_array(buffer, len, ...)` on `memory`. -/
def parse_array_in (memory : Bytes) (len : Nat) :
    Except RespFault (Status × List Bytes × Nat) :=
  if len < 1 then .ok (Status.PARSE_ERROR, [], 0)
  else
    match read_at memory 0 with
    | .error f => .error f
    | .ok marker =>
      if marker ≠ 42 then .ok (Status.PARSE_ERROR, [], 0)
      else
        match parse_int_in (memory.drop 1) (len - 1) with
        | .error f => .error f
        | .ok (s, array_len, int_consumed) =>
          if s ≠ Status.OK then .ok (s, [], 0)
          else if array_len < 0 then .ok (Status.PARSE_ERROR, [], 0)
          else if array_len.toNat > VECTOR_MAX_SIZE then .error RespFault.exception
          else array_loop_in memory len array_len (len + 1) 0 (1 + int_consumed) []

/-- `RespParser::parse(buffer, len, out_command, consumed)` on `memory`, the bytes at
the address `buffer` and behind it: the status, `out_command` and `consumed`. -/
def parse_in (memory : Bytes) (len : Nat) : Except RespFault (Status × List Bytes × Nat) :=
  if len = 0 then .ok (Status.INCOMPLETE, [], 0)
  else
    match read_at memory 0 with
    | .error f => .error f
    | .ok marker =>
      if marker ≠ 42 then .ok (Status.PARSE_ERROR, [], 0)
      else parse_array_in memory len

/-! ### A call that reads inside its buffer only

Where the parser on the buffer alone returns, the parser on the memory returns the
same, whatever lies behind the buffer. -/

/-- A read inside the buffer does not depend on what lies behind it. -/
theorem read_at_behind (buffer behind : Bytes) (i : Nat) (c : Byte)
    (h : read_at buffer i = .ok c) : read_at (buffer ++ behind) i = .ok c := by
  have hi := read_at_ok_lt buffer i c h
  unfold read_at at h ⊢
  rw [List.getElem?_append_left hi]
  exact h

theorem find_crlf_loop_behind (buffer behind : Bytes) (bound : Nat)
    (r : Option Nat) (fuel fuel1 i : Nat) (hf : fuel ≤ fuel1) (hb : bound < i + fuel)
    (h : find_crlf_loop buffer bound fuel i = .ok r) :
    find_crlf_loop (buffer ++ behind) bound fuel1 i = .ok r := by
  induction fuel generalizing fuel1 i with
  | zero =>
    have hr : r = none := by
      unfold find_crlf_loop at h
      exact (Except.ok.inj h).symm
    subst hr
    cases fuel1 with
    | zero => rfl
    | succ f =>
      unfold find_crlf_loop
      rw [if_neg (by omega)]
  | succ fuel ih =>
    cases fuel1 with
    | zero => omega
    | succ f =>
      unfold find_crlf_loop at h ⊢
      split at h
      · rename_i hlt
        rw [if_pos hlt]
        cases hc : read_at buffer i with
        | error e =>
          rw [hc] at h
          exact absurd h (by simp)
        | ok c =>
          rw [hc] at h
          rw [read_at_behind buffer behind i c hc]
          simp only at h ⊢
          split at h
          · rename_i h13
            rw [if_pos h13]
            cases hd : read_at buffer (i + 1) with
            | error e =>
              rw [hd] at h
              exact absurd h (by simp)
            | ok d =>
              rw [hd] at h
              rw [read_at_behind buffer behind (i + 1) d hd]
              simp only at h ⊢
              split at h
              · rename_i h10
                rw [if_pos h10]
                exact h
              · rename_i h10
                rw [if_neg h10]
                exact ih f (i + 1) (by omega) (by omega) h
          · rename_i h13
            rw [if_neg h13]
            exact ih f (i + 1) (by omega) (by omega) h
      · rename_i hlt
        rw [if_neg hlt]
        exact h

theorem find_crlf_behind (buffer behind : Bytes) (r : Option Nat)
    (h : find_crlf buffer = .ok r) :
    find_crlf_in (buffer ++ behind) buffer.length = .ok r := by
  unfold find_crlf at h
  unfold find_crlf_in
  by_cases h0 : buffer.length = 0
  · have hnil : buffer = [] := List.length_eq_zero.1 h0
    subst hnil
    have he : find_crlf_loop ([] : Bytes) (if ([] : Bytes).length = 0 then 2 ^ 64 - 1
        else ([] : Bytes).length - 1) (([] : Bytes).length + 1) 0
          = .error RespFault.out_of_bounds := by
      decide
    rw [he] at h
    exact absurd h (by simp)
  · rw [if_neg h0] at h ⊢
    exact find_crlf_loop_behind buffer behind _ r _ _ 0
      (by rw [List.length_append]; omega) (by omega) h

theorem parse_int_behind (buffer behind : Bytes) (r : Status × Int × Nat)
    (h : parse_int buffer = .ok r) :
    parse_int_in (buffer ++ behind) buffer.length = .ok r := by
  unfold parse_int at h
  unfold parse_int_in
  cases hf : find_crlf buffer with
  | error e =>
    rw [hf] at h
    exact absurd h (by simp)
  | ok o =>
    rw [hf] at h
    rw [find_crlf_behind buffer behind o hf]
    cases o with
    | none => exact h
    | some line_len =>
      have hle := find_crlf_loop_some buffer _ _ _ _ hf
      simp only at h ⊢
      rw [List.take_append_of_le_length (by omega)]
      exact h

theorem to_size_t_sub (len offset : Nat) (hlen : len < 2 ^ 64) (ho : offset ≤ len) :
    to_size_t ((len : Int) - (offset : Int)) = len - offset := by
  unfold to_size_t
  have h1 : ((len : Int) - (offset : Int)) = ((len - offset : Nat) : Int) := by omega
  rw [h1]
  have h2 : (((len - offset : Nat) : Int) % 2 ^ 64) = ((len - offset : Nat) : Int) := by
    apply Int.emod_eq_of_lt
    · omega
    · have : len - offset < 2 ^ 64 := by omega
      exact_mod_cast this
  rw [h2]
  simp

theorem parse_bulk_string_behind (buffer behind : Bytes) (r : Status × Bytes × Nat)
    (hlen : buffer.length < 2 ^ 64) (h : parse_bulk_string buffer = .ok r) :
    parse_bulk_string_in (buffer ++ behind) buffer.length = .ok r := by
  cases buffer with
  | nil => exact h
  | cons b t =>
    unfold parse_bulk_string at h
    unfold parse_bulk_string_in
    have hr0 : read_at ((b :: t) ++ behind) 0 = .ok b := by simp [read_at]
    rw [if_neg (by simp), hr0]
    simp only [List.length_cons, List.head?_cons, ne_eq, Option.some.injEq, List.drop_succ_cons,
      List.drop_zero, List.cons_append, Nat.add_sub_cancel] at h ⊢
    by_cases hb : b = 36
    · rw [if_neg (by simp [hb])] at h
      rw [if_neg (by simp [hb])]
      cases hp : parse_int t with
      | error e =>
        rw [hp] at h
        exact absurd h (by simp)
      | ok x =>
        obtain ⟨st, str_len, int_consumed⟩ := x
        rw [hp] at h
        rw [parse_int_behind t behind _ hp]
        simp only at h ⊢
        by_cases hs : st = Status.OK
        · subst hs
          have hic := parse_int_ok_le t str_len int_consumed hp
          simp only [not_true_eq_false, if_false] at h ⊢
          by_cases hm : str_len = -1
          · rw [if_pos hm] at h
            rw [if_pos hm]
            exact h
          · rw [if_neg hm] at h
            rw [if_neg hm]
            rw [to_size_t_sub (t.length + 1) (1 + int_consumed) (by simpa using hlen) (by omega)]
            split at h
            · rename_i hg
              rw [if_pos hg]
              exact h
            · rename_i hg
              rw [if_neg hg]
              split at h
              · rename_i hx
                rw [if_pos hx]
                exact h
              · rename_i hx
                rw [if_neg hx]
                have hx2 : to_size_t str_len ≤ STRING_MAX_SIZE := by omega
                have hmod : (to_size_t str_len + 2) % 2 ^ 64 = to_size_t str_len + 2 := by
                  apply Nat.mod_eq_of_lt
                  unfold STRING_MAX_SIZE at hx2
                  omega
                rw [hmod] at hg
                have hfit : 1 + int_consumed + to_size_t str_len + 2 ≤ t.length + 1 := by omega
                rw [if_neg (by simp only [List.length_cons, List.length_append]; omega)]
                cases hc : read_at (b :: t) (1 + int_consumed + to_size_t str_len) with
                | error e =>
                  rw [hc] at h
                  exact absurd h (by simp)
                | ok c =>
                  rw [hc] at h
                  have hc2 := read_at_behind (b :: t) behind _ c hc
                  simp only [List.cons_append] at hc2
                  rw [hc2]
                  have htake : List.take (to_size_t str_len)
                      (List.drop (1 + int_consumed) (b :: (t ++ behind)))
                      = List.take (to_size_t str_len) (List.drop (1 + int_consumed) (b :: t)) := by
                    rw [← List.cons_append, List.drop_append_of_le_length
                      (by simp only [List.length_cons]; omega)]
                    rw [List.take_append_of_le_length
                      (by simp only [List.length_drop, List.length_cons]; omega)]
                  rw [htake]
                  simp only at h ⊢
                  split at h
                  · rename_i h13
                    rw [if_pos h13]
                    exact h
                  · rename_i h13
                    rw [if_neg h13]
                    cases hd : read_at (b :: t) (1 + int_consumed + to_size_t str_len + 1) with
                    | error e =>
                      rw [hd] at h
                      exact absurd h (by simp)
                    | ok d =>
                      rw [hd] at h
                      have hd2 := read_at_behind (b :: t) behind _ d hd
                      simp only [List.cons_append] at hd2
                      rw [hd2]
                      exact h
        · rw [if_pos hs] at h
          rw [if_pos hs]
          exact h
    · rw [if_pos (by simp [hb])] at h
      rw [if_pos (by simp [hb])]
      exact h

theorem array_loop_behind (buffer behind : Bytes) (array_len : Int) (fuel i offset : Nat)
    (out_command : List Bytes) (r : Status × List Bytes × Nat) (hlen : buffer.length < 2 ^ 64)
    (h : array_loop buffer array_len fuel i offset out_command = .ok r) :
    array_loop_in (buffer ++ behind) buffer.length array_len fuel i offset out_command
      = .ok r := by
  induction fuel generalizing i offset out_command with
  | zero => exact h
  | succ fuel ih =>
    unfold array_loop at h
    unfold array_loop_in
    split at h
    · rename_i hi
      rw [if_pos hi]
      split at h
      · rename_i ho
        rw [if_pos ho]
        exact h
      · rename_i ho
        rw [if_neg ho]
        have holt : offset < buffer.length := by omega
        have hget : buffer[offset]? = some (buffer[offset]) := List.getElem?_eq_getElem holt
        have hread : read_at (buffer ++ behind) offset = .ok (buffer[offset]) := by
          apply read_at_behind
          unfold read_at
          rw [hget]
        rw [hread]
        simp only
        rw [hget] at h
        by_cases hm : buffer[offset] = 36
        · rw [if_neg (by simp [hm])] at h
          rw [if_neg (by simp [hm])]
          rw [List.drop_append_of_le_length (by omega)]
          have hl : buffer.length - offset = (buffer.drop offset).length := by
            rw [List.length_drop]
          rw [hl]
          cases hp : parse_bulk_string (buffer.drop offset) with
          | error e =>
            rw [hp] at h
            exact absurd h (by simp)
          | ok x =>
            obtain ⟨st, elem, bulk_consumed⟩ := x
            rw [hp] at h
            rw [parse_bulk_string_behind (buffer.drop offset) behind _
              (by rw [List.length_drop]; omega) hp]
            simp only at h ⊢
            split at h
            · rename_i hs
              rw [if_pos hs]
              exact h
            · rename_i hs
              rw [if_neg hs]
              split at h
              · rename_i hov
                rw [if_pos hov]
                exact h
              · rename_i hov
                rw [if_neg hov]
                exact ih (i + 1) (offset + bulk_consumed) (out_command ++ [elem]) h
        · rw [if_pos (by simp [hm])] at h
          rw [if_pos (by simp [hm])]
          exact h
    · rename_i hi
      rw [if_neg hi]
      exact h

theorem parse_array_behind (buffer behind : Bytes) (r : Status × List Bytes × Nat)
    (hlen : buffer.length < 2 ^ 64) (h : parse_array buffer = .ok r) :
    parse_array_in (buffer ++ behind) buffer.length = .ok r := by
  cases buffer with
  | nil => exact h
  | cons b t =>
    unfold parse_array at h
    unfold parse_array_in
    have hr0 : read_at ((b :: t) ++ behind) 0 = .ok b := by simp [read_at]
    rw [if_neg (by simp), hr0]
    simp only [List.length_cons, List.head?_cons, ne_eq, Option.some.injEq, List.drop_succ_cons,
      List.drop_zero, List.cons_append, Nat.add_sub_cancel] at h ⊢
    by_cases hb : b = 42
    · rw [if_neg (by simp [hb])] at h
      rw [if_neg (by simp [hb])]
      cases hp : parse_int t with
      | error e =>
        rw [hp] at h
        exact absurd h (by simp)
      | ok x =>
        obtain ⟨st, array_len, int_consumed⟩ := x
        rw [hp] at h
        rw [parse_int_behind t behind _ hp]
        simp only at h ⊢
        split at h
        · rename_i hs
          rw [if_pos hs]
          exact h
        · rename_i hs
          rw [if_neg hs]
          split at h
          · rename_i hn
            rw [if_pos hn]
            exact h
          · rename_i hn
            rw [if_neg hn]
            split at h
            · rename_i hv
              rw [if_pos hv]
              exact h
            · rename_i hv
              rw [if_neg hv]
              have := array_loop_behind (b :: t) behind array_len (t.length + 1 + 1) 0
                (1 + int_consumed) [] r hlen h
              simpa using this
    · rw [if_pos (by simp [hb])] at h
      rw [if_pos (by simp [hb])]
      exact h

/-- Where `parse` on the buffer alone returns, that is, where the call reads inside
its buffer only and nothing is thrown, `parse` on the memory returns the same status,
command and `consumed`, whatever lies behind the buffer. -/
theorem parse_behind (buffer behind : Bytes) (r : Status × List Bytes × Nat)
    (hlen : buffer.length < 2 ^ 64) (h : parse buffer = .ok r) :
    parse_in (buffer ++ behind) buffer.length = .ok r := by
  cases buffer with
  | nil => exact h
  | cons b t =>
    unfold parse at h
    unfold parse_in
    have hr0 : read_at ((b :: t) ++ behind) 0 = .ok b := by simp [read_at]
    rw [if_neg (by simp), hr0]
    rw [if_neg (by simp)] at h
    simp only [List.head?_cons, ne_eq, Option.some.injEq] at h ⊢
    by_cases hb : b = 42
    · rw [if_neg (by simp [hb])] at h
      rw [if_neg (by simp [hb])]
      exact parse_array_behind (b :: t) behind r hlen h
    · rw [if_pos (by simp [hb])] at h
      rw [if_pos (by simp [hb])]
      exact h

end RespParser

open RespParser

/-! ### C40 -/

/-- The bytes of `*1\r\n$-2\r\n`. -/
def c40_minus_two : Bytes := [42, 49, 13, 10, 36, 45, 50, 13, 10]

/-- The bytes of `*1\r\n$-3\r\n`. -/
def c40_minus_three : Bytes := [42, 49, 13, 10, 36, 45, 51, 13, 10]

/-- The bytes of `*1\r\n$`. -/
def c40_after_marker : Bytes := [42, 49, 13, 10, 36]

/-- The bytes of `*999999999999999999\r\n`. -/
def c40_huge_count : Bytes :=
  [42, 57, 57, 57, 57, 57, 57, 57, 57, 57, 57, 57, 57, 57, 57, 57, 57, 57, 57, 13, 10]

set_option maxRecDepth 100000 in
/-- C40, the failing inputs: on `*1\r\n$-2\r\n` the length test passes, because
`static_cast<size_t>(-2) + 2` wraps to 0, and `assign` is called with the count
`2^64 - 2` and throws; on `*` and on `*1\r\n$` the line search runs with `len = 0` and
reads past the buffer; on `*999999999999999999\r\n` the call of `reserve` throws. The
length `-3` is not rejected either: the answer is INCOMPLETE. -/
theorem c40_parse_raises :
    parse c40_minus_two = .error RespFault.exception ∧
    parse [42] = .error RespFault.out_of_bounds ∧
    parse c40_after_marker = .error RespFault.out_of_bounds ∧
    parse c40_huge_count = .error RespFault.exception ∧
    parse c40_minus_three = .ok (Status.INCOMPLETE, [], 0) := by
  refine ⟨?_, ?_, ?_, ?_, ?_⟩ <;> decide

/-- Memory that holds the five bytes `*1\r\n$` and behind them `3\r\nabc\r\n`. -/
def c40_memory : Bytes := c40_after_marker ++ [51, 13, 10, 97, 98, 99, 13, 10]

/-- Memory that holds the byte `*` and behind it `1\r\n$3\r\nabc\r\n`. -/
def c40_memory_star : Bytes := [42] ++ [49, 13, 10, 36, 51, 13, 10, 97, 98, 99, 13, 10]

set_option maxRecDepth 100000 in
/-- C40, what the call returns after it has read outside its buffer: `parse` is given the
five bytes `*1\r\n$` (`len = 5`) in memory that goes on with `3\r\nabc\r\n`. The line
search for the bulk length runs with `len = 0`, reads the `3` and the `"\r\n"` behind the
buffer, `len - offset` wraps around in the length test, and `parse` returns OK with the
command `abc` and `consumed = 13`, more than `len`. Given the one byte `*` in memory that
goes on with `1\r\n$3\r\nabc\r\n`, it reads the count behind the buffer and returns
INCOMPLETE. With nothing readable behind the buffer these reads leave the mapped
memory, and `*1\r\n$-2\r\n` makes `assign` throw whatever lies behind. -/
theorem c40_consumed_exceeds_len :
    c40_memory.take 5 = c40_after_marker ∧
    parse_in c40_memory 5 = .ok (Status.OK, [[97, 98, 99]], 13) ∧
    c40_memory_star.take 1 = [42] ∧
    parse_in c40_memory_star 1 = .ok (Status.INCOMPLETE, [], 0) ∧
    parse_in c40_after_marker 5 = .error RespFault.out_of_bounds ∧
    parse_in [42] 1 = .error RespFault.out_of_bounds ∧
    parse_in c40_minus_two 9 = .error RespFault.exception ∧
    parse_in (c40_minus_two ++ [51, 13, 10, 97, 98, 99, 13, 10]) 9
      = .error RespFault.exception := by
  refine ⟨?_, ?_, ?_, ?_, ?_, ?_, ?_, ?_⟩ <;> decide

end KvEngine

/-! ## The command dispatcher (`command_dispatcher.cpp`, `resp_builder.cpp`) -/

namespace KvEngine

namespace RespBuilder

/-- `RespBuilder::simple_string`: `"+" + str + "\r\n"`. -/
def simple_string (str : Bytes) : Bytes := [43] ++ str ++ CRLF

/-- `RespBuilder::error`: `"-" + msg + "\r\n"`. -/
def error (msg : Bytes) : Bytes := [45] ++ msg ++ CRLF

/-- `std::to_string(int64_t)`. -/
def to_string (val : Int) : Bytes :=
  if val < 0 then [45] ++ decimal val.natAbs else decimal val.natAbs

/-- `RespBuilder::integer`: `":" + std::to_string(val) + "\r\n"`. -/
def integer (val : Int) : Bytes := [58] ++ to_string val ++ CRLF

/-- `RespBuilder::null_bulk_string`: `"$-1\r\n"`. -/
def null_bulk_string : Bytes := [36, 45, 49, 13, 10]

/-- `RespBuilder::null_array`: `"*-1\r\n"`. -/
def null_array : Bytes := [42, 45, 49, 13, 10]

end RespBuilder

/-- What stops `dispatch` from returning a reply: a call into the engine that does not
return, the null pointer that `scan` returns on a closed engine being dereferenced, or
an overflow of the `int` counter of `handle_del`. -/
inductive DispatchFault where
  | engine (f : Fault)
  | null_pointer
  | signed_overflow
deriving DecidableEq

namespace CommandDispatcher

/-- `::toupper` in the "C" locale. -/
def toupper (c : Byte) : Byte :=
  if 97 ≤ c.val ∧ c.val ≤ 122 then Fin.ofNat (c.val - 32) else c

/-- The text `PING`. -/
def PING : Bytes := [80, 73, 78, 71]

/-- The text `SET`. -/
def SET : Bytes := [83, 69, 84]

/-- The text `GET`. -/
def GET : Bytes := [71, 69, 84]

/-- The text `DEL`. -/
def DEL : Bytes := [68, 69, 76]

/-- The text `KEYS`. -/
def KEYS : Bytes := [75, 69, 89, 83]

/-- The text `ERR wrong number of arguments for '` + `name` + `' command`. -/
def wrong_arguments (name : Bytes) : Bytes :=
  [69, 82, 82, 32, 119, 114, 111, 110, 103, 32, 110, 117, 109, 98, 101, 114, 32, 111, 102, 32,
    97, 114, 103, 117, 109, 101, 110, 116, 115, 32, 102, 111, 114, 32, 39] ++ name
    ++ [39, 32, 99, 111, 109, 109, 97, 110, 100]

/-- `CommandDispatcher::handle_ping`. -/
def handle_ping (command : List Bytes) : Bytes :=
  if command.length > 2 then RespBuilder.error (wrong_arguments [112, 105, 110, 103])
  else if command.length = 2 then RespBuilder.bulk_string (command.getD 1 [])
  else RespBuilder.simple_string [80, 79, 78, 71]

/-- `CommandDispatcher::handle_set`: the reply and the engine afterwards. The messages
are `OK` and `ERR failed to set key`. -/
def handle_set (engine_ : Impl) (command : List Bytes) : Except DispatchFault (Bytes × Impl) :=
  if command.length ≠ 3 then .ok (RespBuilder.error (wrong_arguments [115, 101, 116]), engine_)
  else
    match engine_.put (command.getD 1 []) (command.getD 2 []) with
    | .error f => .error (DispatchFault.engine f)
    | .ok (true, e) => .ok (RespBuilder.simple_string [79, 75], e)
    | .ok (false, e) =>
      .ok (RespBuilder.error
        [69, 82, 82, 32, 102, 97, 105, 108, 101, 100, 32, 116, 111, 32, 115, 101, 116, 32, 107,
          101, 121], e)

/-- `CommandDispatcher::handle_get`: the reply and the engine afterwards. The only
status besides OK and NotFound that `Impl::get` returns is `IOError("Engine not open")`,
whose `to_string()` is its message. -/
def handle_get (engine_ : Impl) (command : List Bytes) : Bytes × Impl :=
  if command.length ≠ 2 then (RespBuilder.error (wrong_arguments [103, 101, 116]), engine_)
  else
    match engine_.get (command.getD 1 []) [] with
    | (StatusCode.OK, value, e) => (RespBuilder.bulk_string value, e)
    | (StatusCode.NOT_FOUND, _, e) => (RespBuilder.null_bulk_string, e)
    | (_, _, e) =>
      (RespBuilder.error ([69, 82, 82, 32]
        ++ [69, 110, 103, 105, 110, 101, 32, 110, 111, 116, 32, 111, 112, 101, 110]), e)

/-- The loop of `handle_del` over the keys still to remove: `count` and the engine
afterwards. -/
def del_loop (engine_ : Impl) (count : Nat) : List Bytes → Except DispatchFault (Nat × Impl)
  | [] => .ok (count, engine_)
  | key :: rest =>
    match engine_.remove key with
    | .error f => .error (DispatchFault.engine f)
    | .ok (true, e) =>
      if count + 1 > RespParser.INT_MAX then .error DispatchFault.signed_overflow
      else del_loop e (count + 1) rest
    | .ok (false, e) => del_loop e count rest

/-- `CommandDispatcher::handle_del`: the reply and the engine afterwards. -/
def handle_del (engine_ : Impl) (command : List Bytes) : Except DispatchFault (Bytes × Impl) :=
  if command.length < 2 then .ok (RespBuilder.error (wrong_arguments [100, 101, 108]), engine_)
  else
    match del_loop engine_ 0 (command.drop 1) with
    | .error f => .error f
    | .ok (count, e) => .ok (RespBuilder.integer count, e)

/-- `CommandDispatcher::handle_keys`: the pattern `*` scans everything, otherwise a
final `*` is dropped and the rest is the prefix. -/
def handle_keys (engine_ : Impl) (command : List Bytes) : Except DispatchFault Bytes :=
  if command.length ≠ 2 then .ok (RespBuilder.error (wrong_arguments [107, 101, 121, 115]))
  else
    let pattern := command.getD 1 []
    let p := if pattern = [42] then []
      else if pattern.getLast? = some 42 then pattern.dropLast else pattern
    match engine_.scan p with
    | none => .error DispatchFault.null_pointer
    | some iter =>
      .ok (RespBuilder.array ((MapIterator.iterate iter.iter_.length iter).1.map Prod.fst))

/-- `CommandDispatcher::handle_unknown`: `ERR unknown command '` + `cmd_name` + `'`. -/
def handle_unknown (cmd_name : Bytes) : Bytes :=
  RespBuilder.error
    ([69, 82, 82, 32, 117, 110, 107, 110, 111, 119, 110, 32, 99, 111, 109, 109, 97, 110, 100,
      32, 39] ++ cmd_name ++ [39])

/-- `CommandDispatcher::dispatch` on the engine that `engine_` points to: the reply and
the engine afterwards. The message for an empty command is `ERR empty command`. -/
def dispatch (engine_ : Impl) (command : List Bytes) : Except DispatchFault (Bytes × Impl) :=
  match command with
  | [] =>
    .ok (RespBuilder.error
      [69, 82, 82, 32, 101, 109, 112, 116, 121, 32, 99, 111, 109, 109, 97, 110, 100], engine_)
  | name :: _ =>
    let cmd_name := name.map toupper
    if cmd_name = PING then .ok (handle_ping command, engine_)
    else if cmd_name = SET then handle_set engine_ command
    else if cmd_name = GET then .ok (handle_get engine_ command)
    else if cmd_name = DEL then handle_del engine_ command
    else if cmd_name = KEYS then
      match handle_keys engine_ command with
      | .error f => .error f
      | .ok reply => .ok (reply, engine_)
    else .ok (handle_unknown cmd_name, engine_)

end CommandDispatcher

end KvEngine

/-! ## Calls on an engine at rest -/

namespace KvEngine

open LogRecordType

namespace WAL

/-- A call of `append` on an open log whose buffer stays below `BUFFER_SIZE`, in terms
of `extended`. -/
theorem append_extended (w : WAL) (r : LogRecord) (hopen : w.is_open_ = true)
    (hm : w.mutex_held = false) (hb : w.buffer_.length + 1 < BUFFER_SIZE) :
    w.append r = .ok (w.current_lsn_ + 1, stamp (w.current_lsn_ + 1) r, w.extended r) :=
  append_ok w r hopen hm hb

theorem extended_buffer_length (w : WAL) (r : LogRecord) :
    (w.extended r).buffer_.length = w.buffer_.length + 1 := by
  simp [extended]

end WAL

namespace LockManager

/-- The first lock call on a lock manager without entries is granted at once. -/
theorem lock_exclusive_new (t : U64) (k : Key) :
    LockManager.new.lock_exclusive t k
      = (LockResult.returned true,
          ⟨OrdMap.empty.insert k [⟨t, LockMode.EXCLUSIVE, true⟩], OrdMap.empty.insert t [k]⟩) :=
  rfl

/-- Releasing the only lock leaves a lock manager without entries. -/
theorem unlock_all_only_lock (t : U64) (k : Key) :
    (LockManager.mk (OrdMap.empty.insert k [⟨t, LockMode.EXCLUSIVE, true⟩])
        (OrdMap.empty.insert t [k])).unlock_all t = (true, LockManager.new) := by
  have h1 : (OrdMap.empty.insert t [k] : OrdMap U64 (List Key)).find? t = some [k] := by simp
  have h2 : ((OrdMap.empty.insert k [⟨t, LockMode.EXCLUSIVE, true⟩] :
      OrdMap Key (List LockRequest)).find? k) = some [⟨t, LockMode.EXCLUSIVE, true⟩] := by simp
  unfold unlock_all
  simp only [h1, List.foldl_cons, List.foldl_nil]
  unfold release_key
  simp only [h2]
  have h3 : ([⟨t, LockMode.EXCLUSIVE, true⟩] : List LockRequest).filter
      (fun req => decide (req.txn_id ≠ t)) = [] := by simp
  simp only [h3, List.isEmpty_nil, if_true]
  have e1 : ((OrdMap.empty.insert k [⟨t, LockMode.EXCLUSIVE, true⟩] :
      OrdMap Key (List LockRequest)).erase k) = OrdMap.empty := by
    apply OrdMap.ext_find
    intro j
    simp
  have e2 : ((OrdMap.empty.insert t [k] : OrdMap U64 (List Key)).erase t) = OrdMap.empty := by
    apply OrdMap.ext_find
    intro j
    simp
  rw [e1, e2]
  rfl

end LockManager

namespace TransactionManager

/-- A call of `begin` on an open log with room in its buffer. -/
theorem begin_ok (tm : TransactionManager) (hopen : tm.wal_.is_open_ = true)
    (hm : tm.wal_.mutex_held = false) (hb : tm.wal_.buffer_.length + 1 < BUFFER_SIZE) :
    tm.begin = .ok
      ({ Transaction.new tm.next_txn_id_ with start_lsn_ := tm.wal_.current_lsn_ + 1 },
        { tm with
          next_txn_id_ := tm.next_txn_id_ + 1,
          wal_ := tm.wal_.extended (LogRecord.new BEGIN tm.next_txn_id_ [] []),
          active_txns_ := tm.active_txns_.insert tm.next_txn_id_
            { Transaction.new tm.next_txn_id_ with start_lsn_ := tm.wal_.current_lsn_ + 1 } }) := by
  unfold begin
  simp only [bind, Except.bind, pure, Except.pure]
  rw [WAL.append_extended _ _ hopen hm hb]

/-- A call of `put` by a running transaction that gets its lock at once, on an open log
with room in its buffer. -/
theorem put_ok (tm : TransactionManager) (txn : Transaction) (k : Key) (v : Value)
    (lm1 : LockManager) (hs : txn.state_ = TransactionState.RUNNING)
    (hl : tm.lock_mgr_.lock_exclusive txn.txn_id_ k = (LockResult.returned true, lm1))
    (hopen : tm.wal_.is_open_ = true) (hm : tm.wal_.mutex_held = false)
    (hb : tm.wal_.buffer_.length + 1 < BUFFER_SIZE) :
    tm.put txn k v = .ok (true, { txn with write_keys_ := txn.write_keys_ ++ [k] },
      ({ tm with lock_mgr_ := lm1, wal_ := tm.wal_.extended (LogRecord.new PUT txn.txn_id_ k v),
                 storage_ := (tm.storage_.put k v).2 } : TransactionManager).sync
        { txn with write_keys_ := txn.write_keys_ ++ [k] }) := by
  unfold put
  simp only [hs, ne_eq, not_true_eq_false, if_false, hl, bind, Except.bind, pure, Except.pure]
  rw [WAL.append_extended _ _ hopen hm hb]
  rfl

/-- A call of `remove` by a running transaction that gets its lock at once, on an open
log with room in its buffer: the return value tells whether the store held the key. -/
theorem remove_ok (tm : TransactionManager) (txn : Transaction) (k : Key)
    (lm1 : LockManager) (hs : txn.state_ = TransactionState.RUNNING)
    (hl : tm.lock_mgr_.lock_exclusive txn.txn_id_ k = (LockResult.returned true, lm1))
    (hopen : tm.wal_.is_open_ = true) (hm : tm.wal_.mutex_held = false)
    (hb : tm.wal_.buffer_.length + 1 < BUFFER_SIZE) :
    tm.remove txn k =
      if tm.storage_.exists_ k then
        .ok (true, { txn with write_keys_ := txn.write_keys_ ++ [k] },
          ({ tm with lock_mgr_ := lm1,
                     wal_ := tm.wal_.extended (LogRecord.new DELETE txn.txn_id_ k []),
                     storage_ := (tm.storage_.remove k).2 } : TransactionManager).sync
            { txn with write_keys_ := txn.write_keys_ ++ [k] })
      else
        .ok (false, txn,
          { tm with lock_mgr_ := lm1,
                    wal_ := tm.wal_.extended (LogRecord.new DELETE txn.txn_id_ k []),
                    storage_ := (tm.storage_.remove k).2 }) := by
  unfold remove
  simp only [hs, ne_eq, not_true_eq_false, if_false, hl, bind, Except.bind, pure, Except.pure]
  rw [WAL.append_extended _ _ hopen hm hb]
  simp only [StorageEngine.remove, StorageEngine.exists_]
  cases tm.storage_.data_.contains k <;> rfl

/-- A call of `commit` by a running transaction on an open log with room in its
buffer. -/
theorem commit_ok (tm : TransactionManager) (txn : Transaction)
    (hs : txn.state_ = TransactionState.RUNNING)
    (hopen : tm.wal_.is_open_ = true) (hm : tm.wal_.mutex_held = false)
    (hb : tm.wal_.buffer_.length + 1 < BUFFER_SIZE) :
    tm.commit txn = .ok (true, { txn with state_ := TransactionState.COMMITTED },
      { tm with
        wal_ := WAL.flush_internal (tm.wal_.extended (LogRecord.new COMMIT txn.txn_id_ [] [])),
        lock_mgr_ := (tm.lock_mgr_.unlock_all txn.txn_id_).2,
        active_txns_ := tm.active_txns_.erase txn.txn_id_ }) := by
  unfold commit
  simp only [hs, ne_eq, not_true_eq_false, if_false, bind, Except.bind, pure, Except.pure]
  rw [WAL.append_extended _ _ hopen hm hb]
  simp only
  rw [flush_eq _ (by rw [WAL.extended_mutex]; exact hm)]
  simp only [WAL.extended_is_open, hopen, if_true]

/-- A call of `rollback` by a running transaction on an open log with room in its
buffer. -/
theorem rollback_ok (tm : TransactionManager) (txn : Transaction)
    (hs : txn.state_ = TransactionState.RUNNING)
    (hopen : tm.wal_.is_open_ = true) (hm : tm.wal_.mutex_held = false)
    (hb : tm.wal_.buffer_.length + 1 < BUFFER_SIZE) :
    tm.rollback txn = .ok (true, { txn with state_ := TransactionState.ABORTED },
      { tm with
        wal_ := WAL.flush_internal (tm.wal_.extended (LogRecord.new ROLLBACK txn.txn_id_ [] [])),
        lock_mgr_ := (tm.lock_mgr_.unlock_all txn.txn_id_).2,
        storage_ := txn.write_keys_.reverse.foldl (fun s key => (s.remove key).2) tm.storage_,
        active_txns_ := tm.active_txns_.erase txn.txn_id_ }) := by
  unfold rollback
  simp only [hs, ne_eq, not_true_eq_false, if_false, bind, Except.bind, pure, Except.pure]
  rw [WAL.append_extended _ _ hopen hm hb]
  simp only
  rw [flush_eq _ (by rw [WAL.extended_mutex]; exact hm)]
  simp only [WAL.extended_is_open, hopen, if_true]

end TransactionManager

end KvEngine

namespace KvEngine

open LogRecordType

namespace Impl

/-- An open engine at rest: its log is open with room for the records of one call, and
no lock is held or waited for. -/
def Idle (e : Impl) : Prop :=
  e.is_open_ = true ∧ e.txn_mgr_.wal_.is_open_ = true ∧ e.txn_mgr_.wal_.mutex_held = false ∧
  e.txn_mgr_.wal_.buffer_.length + 3 < KvEngine.BUFFER_SIZE ∧
  e.txn_mgr_.lock_mgr_.lock_table_.entries = [] ∧
  e.txn_mgr_.lock_mgr_.txn_locks_.entries = []

instance (e : Impl) : Decidable (Idle e) := by
  unfold Idle
  infer_instance

theorem Idle.lock_mgr {e : Impl} (h : Idle e) : e.txn_mgr_.lock_mgr_ = LockManager.new := by
  obtain ⟨_, _, _, _, h1, h2⟩ := h
  obtain ⟨tm, index, stats, is_open⟩ := e
  obtain ⟨wal, ⟨lt, tl⟩, storage, next, active⟩ := tm
  simp only at h1 h2
  have e1 : lt = OrdMap.empty := OrdMap.eq_of_entries_eq h1
  have e2 : tl = OrdMap.empty := OrdMap.eq_of_entries_eq h2
  rw [e1, e2]
  rfl

/-- On an engine at rest `put` returns true, the store then maps the key to the value,
and the engine is at rest again. -/
theorem put_idle (e : Impl) (k : Key) (v : Value) (h : Idle e) :
    ∃ e1, e.put k v = .ok (true, e1) ∧ Idle e1 ∧
      e1.storage_ = (e.storage_.put k v).2 := by
  have hlm := h.lock_mgr
  obtain ⟨ho, hw, hm, hb, _, _⟩ := h
  have hbeg := TransactionManager.begin_ok e.txn_mgr_ hw hm (by omega)
  have hput := TransactionManager.put_ok
    { e.txn_mgr_ with
      next_txn_id_ := e.txn_mgr_.next_txn_id_ + 1,
      wal_ := e.txn_mgr_.wal_.extended (LogRecord.new BEGIN e.txn_mgr_.next_txn_id_ [] []),
      active_txns_ := e.txn_mgr_.active_txns_.insert e.txn_mgr_.next_txn_id_
        { Transaction.new e.txn_mgr_.next_txn_id_ with
          start_lsn_ := e.txn_mgr_.wal_.current_lsn_ + 1 } }
    { Transaction.new e.txn_mgr_.next_txn_id_ with
      start_lsn_ := e.txn_mgr_.wal_.current_lsn_ + 1 } k v _ rfl
    (by rw [hlm]; exact LockManager.lock_exclusive_new _ _) hw hm
    (by rw [WAL.extended_buffer_length]; omega)
  have hcom := TransactionManager.commit_ok
    (({ e.txn_mgr_ with
      next_txn_id_ := e.txn_mgr_.next_txn_id_ + 1,
      lock_mgr_ := ⟨OrdMap.empty.insert k [⟨e.txn_mgr_.next_txn_id_, LockMode.EXCLUSIVE, true⟩],
        OrdMap.empty.insert e.txn_mgr_.next_txn_id_ [k]⟩,
      wal_ := (e.txn_mgr_.wal_.extended
          (LogRecord.new BEGIN e.txn_mgr_.next_txn_id_ [] [])).extended
        (LogRecord.new PUT e.txn_mgr_.next_txn_id_ k v),
      storage_ := (e.txn_mgr_.storage_.put k v).2,
      active_txns_ := e.txn_mgr_.active_txns_.insert e.txn_mgr_.next_txn_id_
        { Transaction.new e.txn_mgr_.next_txn_id_ with
          start_lsn_ := e.txn_mgr_.wal_.current_lsn_ + 1 } } : TransactionManager).sync
      { Transaction.new e.txn_mgr_.next_txn_id_ with
          start_lsn_ := e.txn_mgr_.wal_.current_lsn_ + 1, write_keys_ := [] ++ [k] })
    { Transaction.new e.txn_mgr_.next_txn_id_ with
          start_lsn_ := e.txn_mgr_.wal_.current_lsn_ + 1, write_keys_ := [] ++ [k] } rfl
    (by rw [TransactionManager.sync_wal]; exact hw)
    (by rw [TransactionManager.sync_wal]; exact hm)
    (by
      rw [TransactionManager.sync_wal]
      simp only [WAL.extended_buffer_length]
      omega)
  unfold put
  simp only [ho, not_true_eq_false, if_false, bind, Except.bind, pure, Except.pure, hbeg]
  erw [hput]
  simp only [not_true_eq_false, if_false]
  erw [hcom]
  simp only [not_true_eq_false, if_false]
  refine ⟨_, rfl, ?_, ?_⟩
  · unfold Idle
    simp only [TransactionManager.sync_lock_mgr, TransactionManager.sync_wal]
    erw [LockManager.unlock_all_only_lock]
    refine ⟨?_, ?_, ?_, ?_, ?_, ?_⟩
    · trivial
    · exact hw
    · exact hm
    · simp [WAL.flush_internal, KvEngine.BUFFER_SIZE]
    · rfl
    · rfl
  · simp only [Impl.storage_, TransactionManager.sync_storage]

/-- On an engine at rest `remove` returns whether the store held the key, the store
then does not hold it, and the engine is at rest again. -/
theorem remove_idle (e : Impl) (k : Key) (h : Idle e) :
    ∃ e1, e.remove k = .ok (e.storage_.exists_ k, e1) ∧ Idle e1 ∧
      e1.storage_ = (e.storage_.remove k).2 := by
  have hlm := h.lock_mgr
  obtain ⟨ho, hw, hm, hb, _, _⟩ := h
  have hbeg := TransactionManager.begin_ok e.txn_mgr_ hw hm (by omega)
  have hrem := TransactionManager.remove_ok
    { e.txn_mgr_ with
      next_txn_id_ := e.txn_mgr_.next_txn_id_ + 1,
      wal_ := e.txn_mgr_.wal_.extended (LogRecord.new BEGIN e.txn_mgr_.next_txn_id_ [] []),
      active_txns_ := e.txn_mgr_.active_txns_.insert e.txn_mgr_.next_txn_id_
        { Transaction.new e.txn_mgr_.next_txn_id_ with
          start_lsn_ := e.txn_mgr_.wal_.current_lsn_ + 1 } }
    { Transaction.new e.txn_mgr_.next_txn_id_ with
      start_lsn_ := e.txn_mgr_.wal_.current_lsn_ + 1 } k _ rfl
    (by rw [hlm]; exact LockManager.lock_exclusive_new _ _) hw hm
    (by rw [WAL.extended_buffer_length]; omega)
  unfold remove
  simp only [ho, not_true_eq_false, if_false, bind, Except.bind, pure, Except.pure, hbeg]
  erw [hrem]
  cases hex : e.txn_mgr_.storage_.exists_ k with
  | true =>
    have hcom := TransactionManager.commit_ok
      (({ e.txn_mgr_ with
        next_txn_id_ := e.txn_mgr_.next_txn_id_ + 1,
        lock_mgr_ := ⟨OrdMap.empty.insert k
            [⟨e.txn_mgr_.next_txn_id_, LockMode.EXCLUSIVE, true⟩],
          OrdMap.empty.insert e.txn_mgr_.next_txn_id_ [k]⟩,
        wal_ := (e.txn_mgr_.wal_.extended
            (LogRecord.new BEGIN e.txn_mgr_.next_txn_id_ [] [])).extended
          (LogRecord.new DELETE e.txn_mgr_.next_txn_id_ k []),
        storage_ := (e.txn_mgr_.storage_.remove k).2,
        active_txns_ := e.txn_mgr_.active_txns_.insert e.txn_mgr_.next_txn_id_
          { Transaction.new e.txn_mgr_.next_txn_id_ with
            start_lsn_ := e.txn_mgr_.wal_.current_lsn_ + 1 } } : TransactionManager).sync
        { Transaction.new e.txn_mgr_.next_txn_id_ with
            start_lsn_ := e.txn_mgr_.wal_.current_lsn_ + 1, write_keys_ := [] ++ [k] })
      { Transaction.new e.txn_mgr_.next_txn_id_ with
            start_lsn_ := e.txn_mgr_.wal_.current_lsn_ + 1, write_keys_ := [] ++ [k] } rfl
      (by rw [TransactionManager.sync_wal]; exact hw)
      (by rw [TransactionManager.sync_wal]; exact hm)
      (by
        rw [TransactionManager.sync_wal]
        simp only [WAL.extended_buffer_length]
        omega)
    simp only [Impl.storage_, hex, if_true, not_true_eq_false, if_false]
    erw [hcom]
    simp only [not_true_eq_false, if_false]
    refine ⟨_, rfl, ?_, ?_⟩
    · unfold Idle
      simp only [TransactionManager.sync_lock_mgr, TransactionManager.sync_wal]
      erw [LockManager.unlock_all_only_lock]
      refine ⟨?_, ?_, ?_, ?_, ?_, ?_⟩
      · trivial
      · exact hw
      · exact hm
      · simp [WAL.flush_internal, KvEngine.BUFFER_SIZE]
      · rfl
      · rfl
    · simp only [TransactionManager.sync_storage]
  | false =>
    have hrol := TransactionManager.rollback_ok
      ({ e.txn_mgr_ with
        next_txn_id_ := e.txn_mgr_.next_txn_id_ + 1,
        lock_mgr_ := ⟨OrdMap.empty.insert k
            [⟨e.txn_mgr_.next_txn_id_, LockMode.EXCLUSIVE, true⟩],
          OrdMap.empty.insert e.txn_mgr_.next_txn_id_ [k]⟩,
        wal_ := (e.txn_mgr_.wal_.extended
            (LogRecord.new BEGIN e.txn_mgr_.next_txn_id_ [] [])).extended
          (LogRecord.new DELETE e.txn_mgr_.next_txn_id_ k []),
        storage_ := (e.txn_mgr_.storage_.remove k).2,
        active_txns_ := e.txn_mgr_.active_txns_.insert e.txn_mgr_.next_txn_id_
          { Transaction.new e.txn_mgr_.next_txn_id_ with
            start_lsn_ := e.txn_mgr_.wal_.current_lsn_ + 1 } } : TransactionManager)
      { Transaction.new e.txn_mgr_.next_txn_id_ with
            start_lsn_ := e.txn_mgr_.wal_.current_lsn_ + 1 } rfl hw hm
      (by
        simp only [WAL.extended_buffer_length]
        omega)
    simp only [Impl.storage_, hex, Bool.false_eq_true, if_false, not_false_eq_true, if_true]
    erw [hrol]
    refine ⟨_, rfl, ?_, ?_⟩
    · unfold Idle
      erw [LockManager.unlock_all_only_lock]
      refine ⟨?_, ?_, ?_, ?_, ?_, ?_⟩
      · rfl
      · exact hw
      · exact hm
      · simp [WAL.flush_internal, KvEngine.BUFFER_SIZE]
      · rfl
      · rfl
    · rfl

end Impl

end KvEngine

namespace KvEngine

namespace WAL

/-- The log that `initialize` leaves on a newly constructed `WAL` is open, with its
mutex free and nothing buffered. -/
theorem initialize_wal_new (disk : Bytes) (b : Bool) (w : WAL)
    (h : WAL.new.initialize_wal disk = .ok (b, w)) :
    w.is_open_ = true ∧ w.mutex_held = false ∧ w.buffer_ = [] := by
  unfold initialize_wal at h
  simp only [WAL.new, lock, Bool.false_eq_true, if_false, bind, Except.bind, pure,
    Except.pure] at h
  split at h
  · split at h
    · exact absurd h (by simp)
    · obtain ⟨_, h2⟩ := Prod.mk.inj (Except.ok.inj h)
      subst h2
      exact ⟨rfl, rfl, rfl⟩
  · obtain ⟨_, h2⟩ := Prod.mk.inj (Except.ok.inj h)
    subst h2
    exact ⟨rfl, rfl, rfl⟩

end WAL

namespace Impl

/-- An engine that `open` has opened on a data directory is at rest. -/
theorem open_dir_idle (data_file : Option Bytes) (wal_file : Bytes) (e : Impl)
    (h : Impl.new.open_dir data_file wal_file = .ok (true, e)) : Idle e := by
  unfold open_dir at h
  simp only [Impl.new, Bool.false_eq_true, if_false, bind, Except.bind, pure,
    Except.pure] at h
  split at h
  · exact absurd (Prod.mk.inj (Except.ok.inj h)).1 (by simp)
  · cases hi : (TransactionManager.new WAL.new LockManager.new StorageEngine.fresh).wal_.initialize_wal
        wal_file with
    | error f =>
      rw [hi] at h
      exact absurd h (by simp)
    | ok r =>
      obtain ⟨ok, wal⟩ := r
      rw [hi] at h
      simp only at h
      obtain ⟨hw1, hw2, hw3⟩ := WAL.initialize_wal_new wal_file ok wal hi
      split at h
      · exact absurd (Prod.mk.inj (Except.ok.inj h)).1 (by simp)
      · cases hr : wal.read_from 0 with
        | error f =>
          rw [hr] at h
          exact absurd h (by simp)
        | ok records =>
          rw [hr] at h
          simp only at h
          split at h
          · exact absurd (Prod.mk.inj (Except.ok.inj h)).1 (by simp)
          · obtain ⟨_, h2⟩ := Prod.mk.inj (Except.ok.inj h)
            subst h2
            refine ⟨rfl, hw1, hw2, ?_, rfl, rfl⟩
            show wal.buffer_.length + 3 < KvEngine.BUFFER_SIZE
            rw [hw3]
            decide

end Impl

end KvEngine

namespace KvEngine

open CommandDispatcher

namespace Impl

/-- What `get` returns on an open engine whose store holds the key, and the engine
afterwards. -/
theorem get_found (e : Impl) (k : Key) (v value : Value) (ho : e.is_open_ = true)
    (hg : e.storage_.get k = some v) :
    e.get k value = (StatusCode.OK, v,
      { e with stats_ := { e.stats_ with total_reads := e.stats_.total_reads + 1 } }) := by
  unfold Impl.storage_ at hg
  simp [Impl.get, ho, Impl.storage_, hg]

/-- What `get` returns on an open engine whose store does not hold the key, and the
engine afterwards. -/
theorem get_absent (e : Impl) (k : Key) (value : Value) (ho : e.is_open_ = true)
    (hg : e.storage_.get k = none) :
    e.get k value = (StatusCode.NOT_FOUND, value,
      { e with stats_ := { e.stats_ with total_reads := e.stats_.total_reads + 1 } }) := by
  unfold Impl.storage_ at hg
  simp [Impl.get, ho, Impl.storage_, hg]

end Impl

/-! ### C31 -/

/-- C31: on an open engine at rest, for all byte strings `k` and `v`, `dispatch` of
`[SET, k, v]` replies `+OK\r\n`; `[GET, k]` then replies `$`, the decimal length of `v`,
`\r\n`, `v`, `\r\n`; `[DEL, k]` then replies `:1\r\n`; and `[GET, k]` then, like `[GET, j]`
on every open engine whose store does not hold `j`, replies `$-1\r\n`. The engine is
at rest again afterwards. -/
theorem dispatch_set_get_del (e : Impl) (k v : Bytes) (h : e.Idle) :
    ∃ e1 e2 e3 e4,
      dispatch e [SET, k, v] = .ok ([43, 79, 75, 13, 10], e1) ∧
      dispatch e1 [GET, k]
        = .ok ([36] ++ decimal v.length ++ [13, 10] ++ v ++ [13, 10], e2) ∧
      dispatch e2 [DEL, k] = .ok ([58, 49, 13, 10], e3) ∧
      dispatch e3 [GET, k] = .ok ([36, 45, 49, 13, 10], e4) ∧ e4.Idle ∧
      ∀ (e5 : Impl) (j : Bytes), e5.is_open_ = true → e5.storage_.get j = none →
        (dispatch e5 [GET, j]).map Prod.fst = .ok [36, 45, 49, 13, 10] := by
  have hset : ∀ (x : Impl) (c : List Bytes), dispatch x (SET :: c) = handle_set x (SET :: c) := by
    intro x c
    rfl
  have hget : ∀ (x : Impl) (c : List Bytes),
      dispatch x (GET :: c) = .ok (handle_get x (GET :: c)) := by
    intro x c
    rfl
  have hdel : ∀ (x : Impl) (c : List Bytes), dispatch x (DEL :: c) = handle_del x (DEL :: c) := by
    intro x c
    rfl
  obtain ⟨e1, hput, hidle1, hst1⟩ := Impl.put_idle e k v h
  have hg1 : e1.storage_.get k = some v := by
    rw [hst1, StorageEngine.get_put, if_pos rfl]
  obtain ⟨e2, he2⟩ : ∃ e2 : Impl, e2 =
      { e1 with stats_ := { e1.stats_ with total_reads := e1.stats_.total_reads + 1 } } :=
    ⟨_, rfl⟩
  have hget1 := Impl.get_found e1 k v [] hidle1.1 hg1
  rw [← he2] at hget1
  have hidle2 : e2.Idle := by
    rw [he2]
    exact hidle1
  have hst2 : e2.storage_ = e1.storage_ := by
    rw [he2]
    rfl
  obtain ⟨e3, hrem, hidle3, hst3⟩ := Impl.remove_idle e2 k hidle2
  have hex : e2.storage_.exists_ k = true := by
    rw [hst2]
    have hf : e1.storage_.data_.find? k = some v := hg1
    simp [StorageEngine.exists_, OrdMap.contains, hf]
  rw [hex] at hrem
  have hg3 : e3.storage_.get k = none := by
    rw [hst3, StorageEngine.get_remove, if_pos rfl]
  refine ⟨e1, e2, e3,
    { e3 with stats_ := { e3.stats_ with total_reads := e3.stats_.total_reads + 1 } },
    ?_, ?_, ?_, ?_, hidle3, ?_⟩
  · rw [hset]
    simp only [handle_set, List.length_cons, List.length_nil, ne_eq, not_true_eq_false,
      if_false, List.getD_cons_succ, List.getD_cons_zero]
    rw [hput]
    rfl
  · rw [hget]
    simp only [handle_get, List.length_cons, List.length_nil, ne_eq, not_true_eq_false,
      if_false, List.getD_cons_succ, List.getD_cons_zero]
    rw [hget1]
    rfl
  · rw [hdel]
    simp only [handle_del, List.length_cons, List.length_nil, List.drop_succ_cons,
      List.drop_zero, del_loop]
    rw [hrem]
    rfl
  · rw [hget]
    simp only [handle_get, List.length_cons, List.length_nil, ne_eq, not_true_eq_false,
      if_false, List.getD_cons_succ, List.getD_cons_zero]
    rw [Impl.get_absent e3 k [] hidle3.1 hg3]
    rfl
  · intro e5 j ho hj
    rw [hget]
    simp only [handle_get, List.length_cons, List.length_nil, ne_eq, not_true_eq_false,
      if_false, List.getD_cons_succ, List.getD_cons_zero]
    rw [Impl.get_absent e5 j [] ho hj]
    rfl

/-- An engine opened on an empty data directory. -/
def c31_engine : Impl := Impl.after (Impl.new.open_dir none [])

set_option maxRecDepth 100000 in
/-- C31, witness: `SET foo bar`, `GET foo`, `DEL foo`, `GET foo` on an engine opened on
an empty data directory; the reply to the first `GET` is `$3\r\nbar\r\n`. -/
theorem dispatch_set_get_del_witness :
    c31_engine.Idle ∧
    [36] ++ decimal ([98, 97, 114] : Bytes).length ++ [13, 10] ++ [98, 97, 114] ++ [13, 10]
      = ([36, 51, 13, 10, 98, 97, 114, 13, 10] : Bytes) ∧
    ∃ e1 e2 e3 e4,
      dispatch c31_engine [SET, [102, 111, 111], [98, 97, 114]]
        = .ok ([43, 79, 75, 13, 10], e1) ∧
      dispatch e1 [GET, [102, 111, 111]]
        = .ok ([36] ++ decimal ([98, 97, 114] : Bytes).length ++ [13, 10] ++ [98, 97, 114]
            ++ [13, 10], e2) ∧
      dispatch e2 [DEL, [102, 111, 111]] = .ok ([58, 49, 13, 10], e3) ∧
      dispatch e3 [GET, [102, 111, 111]] = .ok ([36, 45, 49, 13, 10], e4) ∧ e4.Idle ∧
      ∀ (e5 : Impl) (j : Bytes), e5.is_open_ = true → e5.storage_.get j = none →
        (dispatch e5 [GET, j]).map Prod.fst = .ok [36, 45, 49, 13, 10] :=
  ⟨Impl.open_dir_idle none [] c31_engine rfl, by decide,
    dispatch_set_get_del c31_engine [102, 111, 111] [98, 97, 114]
      (Impl.open_dir_idle none [] c31_engine rfl)⟩

end KvEngine

/-! ## The records of a transaction after a restart -/

namespace KvEngine

open LogRecordType

/-- The engine of a first run on an empty data directory after `put("k", "v")`, which
runs and commits as transaction 1. -/
def c21_first_run : Impl :=
  Impl.after ((Impl.after (Impl.new.open_dir none [])).put key_k [118])

/-- The log file that the next run finds after the first run is killed. -/
def c21_restart_log : Bytes := c21_first_run.txn_mgr_.wal_.crash_image

/-- The engine of the second run, opened on the log of the first. -/
def c21_reopened : Impl := Impl.after (Impl.new.open_dir none c21_restart_log)

/-- The first transaction of the second run and the manager after `begin`. -/
def c21_restart_begun : Transaction × TransactionManager :=
  match c21_reopened.txn_mgr_.begin with
  | .ok r => r
  | .error _ => (Transaction.new 0, c21_reopened.txn_mgr_)

/-- That transaction and the manager after `put("a", "1")`. -/
def c21_restart_written : Transaction × TransactionManager :=
  TransactionManager.after
    (c21_restart_begun.2.apply_all c21_restart_begun.1 [TxnOp.put [97] [49]])
    c21_restart_begun.1 c21_restart_begun.2

/-- That transaction and the manager after `commit`. -/
def c21_restart_committed : Transaction × TransactionManager :=
  TransactionManager.after (c21_restart_written.2.commit c21_restart_written.1)
    c21_restart_written.1 c21_restart_written.2

set_option maxRecDepth 100000 in
/-- C21, the failing input: a first run commits `put("k", "v")` as transaction 1 and is
killed; the second run opens the engine on its log, and its transaction manager, which
starts at id 1 again, begins a transaction, puts `"a"` and commits, every call returning
true. The transaction has id 1 and `start_lsn` 4, and the records with id 1 in the log
are six: the BEGIN, PUT of `"k"` and COMMIT of the first run with the LSNs 1 to 3, then
its own BEGIN, PUT of `"a"` and COMMIT with the LSNs 4 to 6. They are not one BEGIN with
the LSN `start_lsn`, one record per call and one COMMIT. -/
theorem c21_reused_id_mixes_records :
    Impl.new.open_dir none c21_restart_log = .ok (true, c21_reopened) ∧
    c21_reopened.txn_mgr_.begin = .ok c21_restart_begun ∧
    c21_restart_begun.2.apply_all c21_restart_begun.1 [TxnOp.put [97] [49]]
      = .ok (true, c21_restart_written) ∧
    c21_restart_written.2.commit c21_restart_written.1 = .ok (true, c21_restart_committed) ∧
    c21_restart_committed.1.txn_id_ = 1 ∧
    c21_restart_committed.1.start_lsn_ = 4 ∧
    (c21_restart_committed.2.wal_.read_from 0).map
        (fun rs => (rs.filter (fun r => decide (r.txn_id = c21_restart_committed.1.txn_id_))).map
          (fun r => (r.type, r.lsn, r.key, r.value)))
      = .ok [(BEGIN, 1, [], []), (PUT, 2, key_k, [118]), (COMMIT, 3, [], []),
             (BEGIN, 4, [], []), (PUT, 5, [97], [49]), (COMMIT, 6, [], [])] := by
  refine ⟨rfl, rfl, rfl, rfl, rfl, rfl, ?_⟩
  decide

end KvEngine
